import Mathlib

/-! # Bible chapter/verse parser: embedding of the Go sources

Strings are lists of Unicode code points (`Str`), Go `int` is `Int` with 64-bit
wrap-around where arithmetic can overflow, a nil-able `*int` is `Option Int`,
a Go `map` is an association list with distinct keys, and a `(value, error)`
result is an `Except`.  A run-time panic is an explicit outcome.
-/

namespace BibleParser

/-- Text: a Go string holding valid UTF-8, as its sequence of code points. -/
abbrev Str := List Char

/-! ## book.go -/

/-- The `Book` struct of book.go.  `ChapterStructure` is the Go `map[int]int`
(chapter number to verse count), kept as an association list whose keys are
distinct. -/
structure Book where
  Number : Int
  Name : Str
  SingularName : Str
  Abbreviations : List Str
  ChapterStructure : List (Int × Int)
deriving DecidableEq

/-- `NewBook` of book.go. -/
def NewBook (number : Int) (name singular : Str) (abbr : List Str)
    (chapterStructure : List (Int × Int)) : Book :=
  { Number := number, Name := name, SingularName := singular,
    Abbreviations := abbr, ChapterStructure := chapterStructure }

/-- `Book.ChaptersInBook`: `len(b.ChapterStructure)`. -/
def Book.ChaptersInBook (b : Book) : Int := b.ChapterStructure.length

/-- The errors the package builds with `fmt.Errorf`, one constructor per message
format (the formatted arguments are left out). -/
inductive ParseError where
  | unableToParse
  | rangeTooComplex
  | chapterDoesNotExist
  | verseDoesNotExist
  | invalidFragment
  | endBeforeBeginning
  | invalidBookNumber
  | invalidBookName
deriving DecidableEq

/-- `Book.VersesInChapter`: the verse count, or the chapter-does-not-exist error. -/
def Book.VersesInChapter (b : Book) (chapter : Int) : Except ParseError Int :=
  match b.ChapterStructure.lookup chapter with
  | some v => .ok v
  | none => .error .chapterDoesNotExist

/-- The value of `v, _ := b.VersesInChapter(chapter)`: on error Go hands back 0. -/
def Book.versesOrZero (b : Book) (chapter : Int) : Int :=
  match b.VersesInChapter chapter with
  | .ok v => v
  | .error _ => 0

/-! ## reference.go -/

/-- The `BibleReference` struct; the `*Book` pointer is the book it points to. -/
structure BibleReference where
  Book : Book
  Chapter : Int
  Verse : Int
  Fragment : Str
deriving DecidableEq

/-- The bounds test of `NewBibleReference` (its `if verse > 0` block): the error
it returns, if any. -/
def checkChapterVerse (book : Book) (chapter verse : Int) : Option ParseError :=
  if verse > 0 then
    match book.ChapterStructure.lookup chapter with
    | none => some .chapterDoesNotExist
    | some vmax => if verse > vmax then some .verseDoesNotExist else none
  else none

/-- The fragment test of `NewBibleReference`:
`fragment != "" && fragment != "a" && fragment != "b" && fragment != "c"`. -/
def badFragment (fragment : Str) : Bool :=
  fragment != [] && fragment != ['a'] && fragment != ['b'] && fragment != ['c']

/-- `NewBibleReference` of reference.go. -/
def NewBibleReference (book : Book) (chapter verse : Int) (fragment : Str) :
    Except ParseError BibleReference :=
  match checkChapterVerse book chapter verse with
  | some e => .error e
  | none =>
    if badFragment fragment then .error .invalidFragment
    else .ok { Book := book, Chapter := chapter, Verse := verse, Fragment := fragment }

/-- Go `int` arithmetic on a 64-bit platform: the two's-complement value a
mathematical result wraps to. -/
def wrapInt (x : Int) : Int := (x + 2 ^ 63) % 2 ^ 64 - 2 ^ 63

/-- `BibleReference.IntegerNotation`:
`(1000000 * r.Book.Number) + (1000 * r.Chapter) + r.Verse` in Go `int`. -/
def BibleReference.IntegerNotation (r : BibleReference) : Int :=
  wrapInt (wrapInt (wrapInt (1000000 * r.Book.Number) + wrapInt (1000 * r.Chapter)) + r.Verse)

/-! ## Go library functions the sources call (strings, strconv, fmt, unicode) -/

/-- `unicode.IsSpace`: the Unicode White_Space code points. -/
def isSpace (c : Char) : Bool :=
  let n := c.toNat
  (9 ≤ n && n ≤ 13) || n == 0x20 || n == 0x85 || n == 0xA0 || n == 0x1680 ||
  (0x2000 ≤ n && n ≤ 0x200A) || n == 0x2028 || n == 0x2029 || n == 0x202F ||
  n == 0x205F || n == 0x3000

/-- Drop the longest suffix whose characters all satisfy `f` (`strings.TrimRightFunc`). -/
def TrimRightFunc (s : Str) (f : Char → Bool) : Str :=
  (s.reverse.dropWhile f).reverse

/-- `strings.TrimSpace`. -/
def TrimSpace (s : Str) : Str :=
  TrimRightFunc (s.dropWhile isSpace) isSpace

/-- `unicode.ToLower` on one code point.  ASCII capitals, and the two
non-ASCII code points whose lower case is an ASCII letter (U+0130, U+212A), are
mapped exactly; any other code point is left as it is, which is exact for
unicased ones and, for the remaining cased ones, keeps them outside ASCII and
outside white space, the only distinctions the callers make. -/
def toLowerRune (c : Char) : Char :=
  if 'A' ≤ c ∧ c ≤ 'Z' then Char.ofNat (c.toNat + 32)
  else if c.toNat = 0x130 then 'i'
  else if c.toNat = 0x212A then 'k'
  else c

/-- `strings.ToLower`. -/
def ToLower (s : Str) : Str := s.map toLowerRune

/-- `strings.HasSuffix`. -/
def HasSuffix (s suffix : Str) : Bool := suffix.isSuffixOf s

/-- `strings.TrimSuffix`. -/
def TrimSuffix (s suffix : Str) : Str :=
  if HasSuffix s suffix then s.take (s.length - suffix.length) else s

/-- `len(s)` of a Go string: its length in UTF-8 bytes. -/
def byteLen (s : Str) : Nat := (s.map Char.utf8Size).sum

/-- `strings.ReplaceAll(s, old, new)` for a non-empty `old`, scanning left to
right; `skip` counts the characters of a replaced occurrence still to be
passed over. -/
def replaceAllAux (old new : Str) : Nat → Str → Str
  | _, [] => []
  | skip + 1, _ :: s => replaceAllAux old new skip s
  | 0, c :: s =>
    if old.isPrefixOf (c :: s) then new ++ replaceAllAux old new (old.length - 1) s
    else c :: replaceAllAux old new 0 s

/-- `strings.ReplaceAll`.  With an empty `old` Go inserts `new` before every
code point and at the end. -/
def ReplaceAll (s old new : Str) : Str :=
  if old = [] then new ++ (s.map fun c => c :: new).flatten
  else replaceAllAux old new 0 s

/-- `strings.Split(s, sep)` for a non-empty `sep`; the result is never empty. -/
def splitAux (sep : Str) : Nat → Str → List Str
  | _, [] => [[]]
  | skip + 1, _ :: s => splitAux sep skip s
  | 0, c :: s =>
    if sep.isPrefixOf (c :: s) then [] :: splitAux sep (sep.length - 1) s
    else
      match splitAux sep 0 s with
      | [] => [[c]]
      | piece :: pieces => (c :: piece) :: pieces

/-- `strings.Split`.  With an empty `sep` Go splits after every code point. -/
def Split (s sep : Str) : List Str :=
  if sep = [] then s.map fun c => [c]
  else splitAux sep 0 s

/-- `strings.Fields`: the maximal runs of non-space characters.  `cur` is the
run being read. -/
def fieldsAux : Str → Str → List Str
  | cur, [] => if cur = [] then [] else [cur]
  | cur, c :: s =>
    if isSpace c then (if cur = [] then fieldsAux [] s else cur :: fieldsAux [] s)
    else fieldsAux (cur ++ [c]) s

/-- `strings.Fields`. -/
def Fields (s : Str) : List Str := fieldsAux [] s

/-- `strings.Join`. -/
def Join (parts : List Str) (sep : Str) : Str := sep.intercalate parts

/-- ASCII digit test. -/
def isDigit (c : Char) : Bool := decide ('0' ≤ c) && decide (c ≤ '9')

/-- Reading one more decimal digit `c` after the value `acc`; `none` once a
character is no digit. -/
def digitStep (acc : Option Nat) (c : Char) : Option Nat :=
  acc.bind fun a => if isDigit c then some (a * 10 + (c.toNat - 48)) else none

/-- The value of a run of ASCII digits, `none` when some character is no digit. -/
def digitsValue (s : Str) : Option Nat := s.foldl digitStep (some 0)

/-- The value of `n, _ := strconv.Atoi(s)` on a 64-bit platform: 0 on a syntax
error, the nearest bound of `int` on a range error. -/
def Atoi (s : Str) : Int :=
  let neg := s.head? = some '-'
  let ds := if s.head? = some '-' ∨ s.head? = some '+' then s.tail else s
  if ds = [] then 0
  else
    match digitsValue ds with
    | none => 0
    | some n =>
      if neg then (if n > 2 ^ 63 then -(2 ^ 63) else -(n : Int))
      else (if n ≥ 2 ^ 63 then 2 ^ 63 - 1 else (n : Int))

/-- The decimal digits of `n`, most significant first, pushed in front of `acc`. -/
def fmtNatAux : Nat → Nat → Str → Str
  | 0, _, acc => acc
  | fuel + 1, n, acc =>
    let acc1 := Char.ofNat (48 + n % 10) :: acc
    if n / 10 = 0 then acc1 else fmtNatAux fuel (n / 10) acc1

/-- Decimal rendering of a natural number. -/
def fmtNat (n : Nat) : Str := fmtNatAux (n + 1) n []

/-- The rendering `fmt.Sprintf("%d", i)`. -/
def fmtInt (i : Int) : Str :=
  if i < 0 then '-' :: fmtNat (-i).toNat else fmtNat i.toNat

/-! ## Regular expressions (Go `regexp`, leftmost-first matching)

Only the operators the eight substitution patterns and the clause grammar use:
repetition applies to single character classes, options to any expression.
`Rx.run` lists every way to match at the current position in the order a
backtracking search tries them (greedy first), so the first entry is the match
Go reports. -/

/-- The capture groups set so far, the latest binding first. -/
abbrev Caps := List (Nat × Str)

/-- The text of group `i`; an unmatched group reads as the empty string. -/
def Caps.get (caps : Caps) (i : Nat) : Str := (caps.lookup i).getD []

/-- Regular expression syntax trees. -/
inductive Rx where
  | eps
  | chr (p : Char → Bool)
  | seq (a b : Rx)
  | alt (a b : Rx)
  | opt (a : Rx)
  | star (p : Char → Bool)
  | plus (p : Char → Bool)
  | cap (i : Nat) (a : Rx)
  | bot
  | eot

/-- What is left of `s` after a greedy `[p]*`: the longest run first, then each
shorter one. -/
def starRests (p : Char → Bool) : Str → List Str
  | [] => [[]]
  | c :: s => if p c then starRests p s ++ [c :: s] else [c :: s]

/-- What is left of `s` after a greedy `[p]+`. -/
def plusRests (p : Char → Bool) : Str → List Str
  | [] => []
  | c :: s => if p c then starRests p s else []

/-- All matches of an expression at the head of `s`, best first: the rest of the
text after the match and the capture groups.  `full` is the length of the whole
text, which tells `^` whether `s` is its beginning. -/
def Rx.run (full : Nat) : Rx → Str → Caps → List (Str × Caps)
  | .eps, s, caps => [(s, caps)]
  | .chr p, s, caps =>
    match s with
    | c :: rest => if p c then [(rest, caps)] else []
    | [] => []
  | .seq a b, s, caps => (a.run full s caps).flatMap fun r => b.run full r.1 r.2
  | .alt a b, s, caps => a.run full s caps ++ b.run full s caps
  | .opt a, s, caps => a.run full s caps ++ [(s, caps)]
  | .star p, s, caps => (starRests p s).map fun rest => (rest, caps)
  | .plus p, s, caps => (plusRests p s).map fun rest => (rest, caps)
  | .cap i a, s, caps =>
    (a.run full s caps).map fun r => (r.1, (i, s.take (s.length - r.1.length)) :: r.2)
  | .bot, s, caps => if s.length = full then [(s, caps)] else []
  | .eot, s, caps => if s = [] then [(s, caps)] else []

/-- The match Go reports at the head of `s`, if the expression matches there. -/
def Rx.matchAt (rx : Rx) (full : Nat) (s : Str) : Option (Str × Caps) :=
  (rx.run full s []).head?

/-- A literal string, character by character; `eq` says which characters a
character of the pattern stands for. -/
def Rx.lit (eq : Char → Char → Bool) : Str → Rx
  | [] => .eps
  | c :: s => .seq (.chr (eq c)) (Rx.lit eq s)

/-- Characters allowed in a `$name` of a replacement template. -/
def isNameChar (c : Char) : Bool :=
  isDigit c || (decide ('a' ≤ c) && decide (c ≤ 'z')) ||
  (decide ('A' ≤ c) && decide (c ≤ 'Z')) || c == '_'

/-- The group a template name stands for: a purely numeric name (no leading
zero unless it is `0`) is that group's index; any other name would be a named
group, and the substitution patterns have none. -/
def templateIndex (name : Str) : Option Nat :=
  if name.all isDigit && !(name.head? == some '0' && name.length > 1) then
    (digitsValue name)
  else none

/-- `Regexp.Expand` for templates in the `$name` form: the name after `$` is as
long as possible, `$$` is a dollar sign, and a `$` followed by no name is kept
as text.  `skip` counts the characters of a name still to be passed over. -/
def expandAux (caps : Caps) : Nat → Str → Str
  | _, [] => []
  | skip + 1, _ :: t => expandAux caps skip t
  | 0, c :: t =>
    if c = '$' then
      if t.head? = some '$' then '$' :: expandAux caps 1 t
      else
        let name := t.takeWhile isNameChar
        if name = [] then '$' :: expandAux caps 0 t
        else
          (match templateIndex name with
            | some i => caps.get i
            | none => []) ++ expandAux caps name.length t
    else c :: expandAux caps 0 t

/-- The replacement text for one match. -/
def expand (template : Str) (caps : Caps) : Str := expandAux caps 0 template

/-- `Regexp.ReplaceAllString` for an expression that never matches the empty
string: scan left to right, replace each leftmost match and resume after it.
`skip` counts the characters of the last match still to be passed over. -/
def replaceRxAux (rx : Rx) (template : Str) (full : Nat) : Nat → Str → Str
  | _, [] => []
  | skip + 1, _ :: s => replaceRxAux rx template full skip s
  | 0, c :: s =>
    match rx.matchAt full (c :: s) with
    | none => c :: replaceRxAux rx template full 0 s
    | some (rest, caps) =>
      if s.length + 1 - rest.length = 0 then c :: replaceRxAux rx template full 0 s
      else expand template ((0, (c :: s).take (s.length + 1 - rest.length)) :: caps) ++
        replaceRxAux rx template full (s.length - rest.length) s

/-- `regexp.MustCompile(re).ReplaceAllString(s, rep)`. -/
def ReplaceAllString (rx : Rx) (s template : Str) : Str :=
  replaceRxAux rx template s.length 0 s

/-! ## stringutil.go -/

/-- The class `[a-z0-9 ]`. -/
def isStdChar (c : Char) : Bool :=
  (decide ('a' ≤ c) && decide (c ≤ 'z')) || isDigit c || c == ' '

/-- `StandardiseString`: trim, lower-case, delete what is outside `[a-z0-9 ]`. -/
def StandardiseString (s : Str) : Str :=
  (ToLower (TrimSpace s)).filter isStdChar

/-- `SplitOnSeparators`.  Indexing `separators[0]` panics on an empty list:
`none`. -/
def SplitOnSeparators (separators : List Str) (text : Str) : Option (List Str) :=
  match separators with
  | [] => none
  | first :: others =>
    let normalised := others.foldl (fun acc sep => ReplaceAll acc sep first)
      (ReplaceAll text first first)
    some (Split normalised first)

/-! ## parser.go: the substitution patterns

Under `(?i)` Go closes a class or literal under simple case folding before it
negates it: besides the other case of an ASCII letter, `k` also stands for
U+212A and `s` for U+017F. -/

/-- The class `(?i)[A-Za-z]`, which is also `(?i)[a-z]` and `(?i)[a-zA-Z]`. -/
def isFoldLetter (c : Char) : Bool :=
  (decide ('a' ≤ c) && decide (c ≤ 'z')) || (decide ('A' ≤ c) && decide (c ≤ 'Z')) ||
  c.toNat == 0x17F || c.toNat == 0x212A

/-- The class `(?i)[^a-z]`. -/
def isNotFoldLetter (c : Char) : Bool := !isFoldLetter c

/-- The class `(?i)[d-z]`. -/
def isFoldDtoZ (c : Char) : Bool :=
  (decide ('d' ≤ c) && decide (c ≤ 'z')) || (decide ('D' ≤ c) && decide (c ≤ 'Z')) ||
  c.toNat == 0x17F || c.toNat == 0x212A

/-- A lower-case ASCII letter `l` of a pattern read under `(?i)`. -/
def foldEq (l c : Char) : Bool :=
  c == l || c.toNat + 32 == l.toNat || (l == 's' && c.toNat == 0x17F) ||
  (l == 'k' && c.toNat == 0x212A)

/-- A literal of a pattern read without `(?i)`. -/
def exactEq (l c : Char) : Bool := c == l

/-- Pattern 1: `(?i)([A-Za-z])([0-9])`. -/
def rxLetterDigit : Rx :=
  .seq (.cap 1 (.chr isFoldLetter)) (.cap 2 (.chr isDigit))

/-- Pattern 2: `(?i)([0-9])([d-z])`. -/
def rxDigitLetter : Rx :=
  .seq (.cap 1 (.chr isDigit)) (.cap 2 (.chr isFoldDtoZ))

/-- Pattern 3: `(?i)(—|–)`. -/
def rxDash : Rx :=
  .cap 1 (.alt (.chr fun c => c.toNat == 0x2014) (.chr fun c => c.toNat == 0x2013))

/-- Pattern 4: `(?i)[^a-z]to[^a-z]`. -/
def rxTo : Rx :=
  .seq (.chr isNotFoldLetter) (.seq (Rx.lit foldEq ['t', 'o']) (.chr isNotFoldLetter))

/-- Pattern 5: `(?i)([^a-z])chapter([^a-z])`. -/
def rxChapter : Rx :=
  .seq (.cap 1 (.chr isNotFoldLetter))
    (.seq (Rx.lit foldEq ['c', 'h', 'a', 'p', 't', 'e', 'r']) (.cap 2 (.chr isNotFoldLetter)))

/-- Pattern 6: `(?i)([^a-z])c([^a-z])`. -/
def rxC : Rx :=
  .seq (.cap 1 (.chr isNotFoldLetter)) (.seq (Rx.lit foldEq ['c']) (.cap 2 (.chr isNotFoldLetter)))

/-- Pattern 7: `(?i)([^a-z])verses?([^a-z])`. -/
def rxVerse : Rx :=
  .seq (.cap 1 (.chr isNotFoldLetter))
    (.seq (Rx.lit foldEq ['v', 'e', 'r', 's', 'e'])
      (.seq (.opt (.chr (foldEq 's'))) (.cap 2 (.chr isNotFoldLetter))))

/-- Pattern 8: `(?i)(^|;\ *|\-)([\d])([a-zA-Z])`. -/
def rxBoundaryDigit : Rx :=
  .seq (.cap 1 (.alt .bot (.alt (.seq (.chr fun c => c == ';') (.star fun c => c == ' '))
      (.chr fun c => c == '-'))))
    (.seq (.cap 2 (.chr isDigit)) (.cap 3 (.chr isFoldLetter)))

/-- The `substitutions` table of `Parse`: each pattern with its replacement
template, in order. -/
def substitutions : List (Rx × Str) :=
  [ (rxLetterDigit, "$1 $2".toList),
    (rxDigitLetter, "$1 $2".toList),
    (rxDash, "-".toList),
    (rxTo, "-".toList),
    (rxChapter, "$1ch$2".toList),
    (rxC, "$1ch$2".toList),
    (rxVerse, "$1 v $2".toList),
    (rxBoundaryDigit, "$1 $2 $3".toList) ]

/-- The substitution loop of `Parse`. -/
def normalise (versesString : Str) : Str :=
  substitutions.foldl (fun acc sub => ReplaceAllString sub.1 acc sub.2) versesString

/-! ## passage.go -/

/-- The `BiblePassage` struct. -/
structure BiblePassage where
  From : BibleReference
  To : BibleReference
deriving DecidableEq

/-- `NewBiblePassage`. -/
def NewBiblePassage (fromRef toRef : BibleReference) : BiblePassage :=
  { From := fromRef, To := toRef }

/-! ## parser.go: the clause grammar -/

/-- The class `\s` of Go regular expressions: `[\t\n\f\r ]`. -/
def isReSpace (c : Char) : Bool :=
  c == '\t' || c == '\n' || c.toNat == 12 || c == '\r' || c == ' '

/-- The class `[^0-9]`. -/
def isNotDigit (c : Char) : Bool := !isDigit c

/-- The class `[abc]`. -/
def isAbc (c : Char) : Bool := c == 'a' || c == 'b' || c == 'c'

/-- The class `[\. \:v]`. -/
def isSepChar (c : Char) : Bool := c == '.' || c == ' ' || c == ':' || c == 'v'

/-- The body of the `book` group: `(?:[0-9]+\s+)?[^0-9]+`. -/
def rxBookBody : Rx :=
  .seq (.opt (.seq (.plus isDigit) (.plus isReSpace))) (.plus isNotDigit)

/-- The body of the `chapter_or_verse` group: `[0-9]+[abc]?`. -/
def rxChapterOrVerse : Rx := .seq (.plus isDigit) (.opt (.chr isAbc))

/-- The body of the `verse` group: `[0-9]+[abc]?(?:end)?`. -/
def rxVerseBody : Rx :=
  .seq (.plus isDigit) (.seq (.opt (.chr isAbc)) (.opt (Rx.lit exactEq ['e', 'n', 'd'])))

/-- The separator and verse: `\s*[\. \:v]+\s*(?P<verse>...)`, the verse being group 3. -/
def rxSepVerse : Rx :=
  .seq (.star isReSpace) (.seq (.plus isSepChar) (.seq (.star isReSpace) (.cap 3 rxVerseBody)))

/-- The numbers of a clause: `(?P<chapter_or_verse>...)?(?:...(?P<verse>...))?`, the
first being group 2. -/
def rxNumbers : Rx := .seq (.opt (.cap 2 rxChapterOrVerse)) (.opt rxSepVerse)

/-- The pattern of `parseReference`, groups 1, 2, 3 being `book`,
`chapter_or_verse`, `verse`:
`^\s*(?P<book>(?:[0-9]+\s+)?[^0-9]+)?(?:(?P<chapter_or_verse>[0-9]+[abc]?)?`
`(?:\s*[\. \:v]+\s*(?P<verse>[0-9]+[abc]?(?:end)?))?)?\s*$`. -/
def rxReference : Rx :=
  .seq .bot (.seq (.star isReSpace)
    (.seq (.opt (.cap 1 rxBookBody)) (.seq (.opt rxNumbers) (.seq (.star isReSpace) .eot))))

/-- The `matches` map of `parseReference`, one field per key. -/
structure Matches where
  book : Str
  chapter_or_verse : Str
  verse : Str
deriving DecidableEq

/-- `regexp.MustCompile("[A-Za-z]+").MatchString(s)`: some ASCII letter occurs. -/
def hasLetter (s : Str) : Bool :=
  s.any fun c => (decide ('a' ≤ c) && decide (c ≤ 'z')) || (decide ('A' ≤ c) && decide (c ≤ 'Z'))

/-- The marker `parseReference` appends to a verse introduced by `v` or `verse`. -/
def explicitMarker : Str := "__explicitverse".toList

/-- The reclassification both verse-word branches of `parseReference` make once
the word is cut off the book: with no verse field, the number read becomes the
marked verse and the chapter becomes `1`. -/
def markExplicitVerse (m : Matches) (trimmed : Str) : Matches :=
  if m.verse = [] then
    { book := trimmed, chapter_or_verse := ['1'], verse := m.chapter_or_verse ++ explicitMarker }
  else { m with book := trimmed }

/-- The `start`/`end` keyword step of `parseReference`. -/
def keywordStep (m : Matches) : Matches :=
  if (m.book = "start".toList ∨ m.book = "end".toList) ∧ m.chapter_or_verse = [] ∧ m.verse = []
  then { book := [], chapter_or_verse := m.book, verse := [] }
  else m

/-- The step of `parseReference` that cuts a trailing ` ch` off the book. -/
def chStep (m : Matches) : Matches :=
  if byteLen m.book ≥ 3 ∧ HasSuffix m.book " ch".toList then
    let trimmed := TrimSpace (m.book.take (m.book.length - 3))
    if hasLetter trimmed then { m with book := trimmed } else m
  else m

/-- The step of `parseReference` that cuts a trailing ` v` off the book. -/
def vStep (m : Matches) : Matches :=
  if HasSuffix m.book " v".toList then
    let trimmed := TrimSpace (m.book.take (m.book.length - 2))
    if hasLetter trimmed then markExplicitVerse m trimmed else m
  else m

/-- The step of `parseReference` that cuts a trailing ` verse` or ` verses` off
the book. -/
def verseWordStep (m : Matches) : Matches :=
  if HasSuffix m.book " verse".toList ∨ HasSuffix m.book " verses".toList then
    let parts := Fields m.book
    if parts.length > 0 then
      let trimmed := Join parts.dropLast " ".toList
      if hasLetter trimmed then markExplicitVerse m trimmed else m
    else m
  else m

/-- `parseReference`. -/
def parseReference (reference : Str) : Except ParseError Matches :=
  let reference := ToLower reference
  match rxReference.matchAt reference.length reference with
  | none => .error .unableToParse
  | some (_, caps) =>
    let m : Matches :=
      { book := TrimSpace (caps.get 1), chapter_or_verse := TrimSpace (caps.get 2),
        verse := TrimSpace (caps.get 3) }
    let m := chStep (keywordStep m)
    .ok (if byteLen m.book ≥ 2 then verseWordStep (vStep m) else m)

/-! ## parser.go: the parser -/

/-- The `BiblePassageParser` struct; both maps are association lists. -/
structure BiblePassageParser where
  separators : List Str
  books : List (Int × Book)
  bookAbbr : List (Str × Int)

/-- `defaultSeparators`. -/
def defaultSeparators : List Str := ["&".toList, ",".toList, ";".toList, "and".toList]

/-- One entry of `data.BibleStructure`; the `data` package is outside the
sources, its fields are those `NewBiblePassageParser` reads. -/
structure BookData where
  Name : Str
  SingularName : Str
  Abbreviations : List Str
  ChapterStructure : List (Int × Int)

/-- Go map assignment `m[k] = v` on an association list. -/
def mapSet {κ ν : Type} [BEq κ] (m : List (κ × ν)) (k : κ) (v : ν) : List (κ × ν) :=
  (k, v) :: m.filter fun e => !(e.1 == k)

/-- `NewBiblePassageParser`, with the table `data.BibleStructure` as its
argument, visited in list order (Go leaves the order of a map range open). -/
def NewBiblePassageParser (bibleStructure : List (Int × BookData)) : BiblePassageParser :=
  bibleStructure.foldl
    (fun p entry =>
      let b := NewBook entry.1 entry.2.Name entry.2.SingularName entry.2.Abbreviations
        entry.2.ChapterStructure
      { separators := p.separators,
        books := mapSet p.books entry.1 b,
        bookAbbr := b.Abbreviations.foldl (fun m a => mapSet m (StandardiseString a) entry.1)
          (mapSet p.bookAbbr (StandardiseString b.Name) entry.1) })
    { separators := defaultSeparators, books := [], bookAbbr := [] }

/-- `BiblePassageParser.getBookNumber`. -/
def BiblePassageParser.getBookNumber (p : BiblePassageParser) (bookAbbreviation : Str) :
    Except ParseError Int :=
  match p.bookAbbr.lookup (StandardiseString bookAbbreviation) with
  | some v => .ok v
  | none => .error .invalidBookName

/-- `BiblePassageParser.getBookFromAbbreviation`. -/
def BiblePassageParser.getBookFromAbbreviation (p : BiblePassageParser) (bookAbbreviation : Str) :
    Except ParseError Book :=
  match p.getBookNumber bookAbbreviation with
  | .error e => .error e
  | .ok bn =>
    match p.books.lookup bn with
    | some b => .ok b
    | none => .error .invalidBookNumber

/-- The fragment-letter test of parser.go: one of `a b c A B C`. -/
def isFragLetter (c : Char) : Bool :=
  c == 'a' || c == 'b' || c == 'c' || c == 'A' || c == 'B' || c == 'C'

/-- `parseNumFragment`. -/
def parseNumFragment (s : Str) : Int × Str :=
  match s.getLast? with
  | none => (0, [])
  | some last =>
    let frag := if isFragLetter last then ToLower [last] else []
    let s := if isFragLetter last then s.dropLast else s
    if s = [] then (0, frag) else (Atoi s, frag)

/-- The variables `parseStartReference` fills while it classifies the numbers
of a clause. -/
structure StartVars where
  chapter : Option Int
  verse : Option Int
  fragment : Str
  lastVerse : Option Int

/-- `if frag != "" { fragment = frag }`. -/
def StartVars.setFragment (v : StartVars) (frag : Str) : StartVars :=
  if frag ≠ [] then { v with fragment := frag } else v

/-- The `if matches["chapter_or_verse"] != ""` block of `parseStartReference`. -/
def classifyChapterOrVerse (startBookObject : Book) (explicitVerse : Bool)
    (cov verse : Str) (v : StartVars) : StartVars :=
  if cov = [] then v
  else if startBookObject.ChaptersInBook = 1 ∧ explicitVerse = true then
    if cov = "end".toList then { v with chapter := some (-1), lastVerse := none }
    else
      let cf := parseNumFragment cov
      let vMax := startBookObject.versesOrZero 1
      if cf.1 > 0 ∧ cf.1 ≤ vMax then
        { ({ v with verse := some cf.1 } : StartVars).setFragment cf.2 with lastVerse := none }
      else
        { ({ v with chapter := some cf.1 } : StartVars).setFragment cf.2 with lastVerse := none }
  else if v.lastVerse = none ∨ verse ≠ [] then
    if cov = "end".toList then { v with chapter := some (-1), lastVerse := none }
    else
      let cf := parseNumFragment cov
      { ({ v with chapter := some cf.1 } : StartVars).setFragment cf.2 with lastVerse := none }
  else
    let vf := parseNumFragment cov
    ({ v with verse := some vf.1 } : StartVars).setFragment vf.2

/-- The `if matches["verse"] != ""` block of `parseStartReference`. -/
def classifyVerse (startBookObject : Book) (verse : Str) (v : StartVars) : StartVars :=
  if verse = [] then v
  else if v.chapter = none ∧ startBookObject.ChaptersInBook = 1 then
    let vf := parseNumFragment verse
    ({ v with verse := some vf.1 } : StartVars).setFragment vf.2
  else if v.chapter = none then { v with chapter := some (Atoi verse) }
  else
    let vf := parseNumFragment verse
    ({ v with verse := some vf.1 } : StartVars).setFragment vf.2

/-- What `parseStartReference` returns besides the error. -/
structure StartResult where
  fromRef : BibleReference
  startVerse : Option Int
  lastBook : Str
  lastChapter : Option Int
  lastVerse : Option Int
  lastFragment : Str

/-- `BiblePassageParser.parseStartReference`. -/
def BiblePassageParser.parseStartReference (p : BiblePassageParser) (textReference lastBook : Str)
    (lastChapter lastVerse : Option Int) : Except ParseError StartResult :=
  match parseReference textReference with
  | .error e => .error e
  | .ok m =>
    let book := if m.book ≠ [] then m.book else lastBook
    let lastChapter := if m.book ≠ [] then none else lastChapter
    let lastVerse := if m.book ≠ [] then none else lastVerse
    match p.getBookFromAbbreviation book with
    | .error e => .error e
    | .ok startBookObject =>
      let explicitVerse := HasSuffix m.verse explicitMarker
      let verseText := if explicitVerse then TrimSuffix m.verse explicitMarker
        else m.verse
      let v0 : StartVars := { chapter := none, verse := none, fragment := [], lastVerse := lastVerse }
      let v1 := classifyChapterOrVerse startBookObject explicitVerse m.chapter_or_verse
        verseText v0
      let v2 := classifyVerse startBookObject verseText v1
      let chapter := if v2.chapter = none then lastChapter else v2.chapter
      let ch : Int := match chapter with
        | some c => if c > 0 then c else 1
        | none => 1
      let vs : Int := match v2.verse with
        | some x => if x > 0 then x else 1
        | none => 1
      match NewBibleReference startBookObject ch vs v2.fragment with
      | .error e => .error e
      | .ok fromRef =>
        .ok { fromRef := fromRef, startVerse := v2.verse, lastBook := startBookObject.Name,
              lastChapter := chapter, lastVerse := v2.verse, lastFragment := v2.fragment }

/-- A Go call that either returns or panics. -/
inductive Outcome (α : Type) where
  | ret (a : α)
  | panic
deriving DecidableEq

/-- The variables the end half of a clause fills in `Parse`. -/
structure EndVars where
  endChapter : Option Int
  endVerse : Option Int
  endFragment : Str

/-- The fragment a numeric token sets in the end half: its last character when
that is a fragment letter, else the value `cur` held before. -/
def trailingFragment (s cur : Str) : Str :=
  match s.getLast? with
  | some last => if isFragLetter last then ToLower [last] else cur
  | none => cur

/-- The number of a token of the end half: `strconv.Atoi` after
`strings.TrimRightFunc` cut the fragment letters off. -/
def endNumber (s : Str) : Int := Atoi (TrimRightFunc s isFragLetter)

/-- The `if matches["chapter_or_verse"] != ""` block of the end half of `Parse`.
`none` is the nil dereference `*lastChapter` of the `end` keyword. -/
def endChapterOrVerse (endBookObject : Book) (startVerse lastChapter : Option Int)
    (m : Matches) : Option EndVars :=
  if m.chapter_or_verse = [] then
    some { endChapter := none, endVerse := none, endFragment := [] }
  else if startVerse ≠ none ∧ m.verse = [] then
    if m.chapter_or_verse = "end".toList then
      match lastChapter with
      | none => none
      | some lc =>
        some { endChapter := none, endVerse := some (endBookObject.versesOrZero lc),
               endFragment := [] }
    else
      some { endChapter := none, endVerse := some (endNumber m.chapter_or_verse),
             endFragment := trailingFragment m.chapter_or_verse [] }
  else if m.chapter_or_verse = "end".toList then
    some { endChapter := some endBookObject.ChaptersInBook, endVerse := none, endFragment := [] }
  else
    some { endChapter := some (endNumber m.chapter_or_verse), endVerse := none,
           endFragment := [] }

/-- The `if matches["verse"] != ""` block of the end half of `Parse`. -/
def endVerseField (m : Matches) (v : EndVars) : EndVars :=
  if m.verse = [] then v
  else
    { v with endFragment := trailingFragment m.verse v.endFragment,
             endVerse := some (endNumber m.verse) }

/-- The variables `Parse` carries from one clause to the next. -/
structure LoopState where
  passages : List BiblePassage
  lastBook : Str
  lastChapter : Option Int
  lastVerse : Option Int

/-- How one turn of the clause loop of `Parse` ends. -/
inductive SectionResult where
  | next (st : LoopState)
  | fail (e : ParseError)
  | panic

/-- The end of a turn of the loop: the ordering test and the `append`. -/
def finishSection (st : LoopState) (fromReference toReference : BibleReference)
    (lastBook : Str) (lastChapter lastVerse : Option Int) : SectionResult :=
  if fromReference.IntegerNotation > toReference.IntegerNotation then .fail .endBeforeBeginning
  else
    .next { passages := st.passages ++ [NewBiblePassage fromReference toReference],
            lastBook := lastBook, lastChapter := lastChapter, lastVerse := lastVerse }

/-- The `len(splitSection) == 1` branch of `Parse`: a clause without end half. -/
def BiblePassageParser.singleReference (p : BiblePassageParser) (st : LoopState)
    (r : StartResult) : SectionResult :=
  match p.getBookFromAbbreviation r.lastBook with
  | .error e => .fail e
  | .ok endBookObject =>
    if r.startVerse ≠ none then
      finishSection st r.fromRef r.fromRef r.lastBook r.lastChapter r.lastVerse
    else
      let endChapterForReference := match r.lastChapter with
        | some c => c
        | none => endBookObject.ChaptersInBook
      let endVerse := match r.lastVerse with
        | some v => v
        | none => endBookObject.versesOrZero endChapterForReference
      match NewBibleReference endBookObject endChapterForReference endVerse r.lastFragment with
      | .error e => .fail e
      | .ok tr => finishSection st r.fromRef tr r.lastBook r.lastChapter r.lastVerse

/-- The `else` branch of `Parse`: a clause with an end half `endText`. -/
def BiblePassageParser.rangeReference (p : BiblePassageParser) (st : LoopState)
    (r : StartResult) (endText : Str) : SectionResult :=
  match parseReference endText with
  | .error e => .fail e
  | .ok m =>
    match p.getBookFromAbbreviation (if m.book ≠ [] then m.book else r.lastBook) with
    | .error e => .fail e
    | .ok endBookObject =>
      match endChapterOrVerse endBookObject r.startVerse r.lastChapter m with
      | none => .panic
      | some v1 =>
        let v := endVerseField m v1
        let endChapterForReference := match v.endChapter with
          | some c => c
          | none =>
            match r.lastChapter with
            | some c => c
            | none => endBookObject.ChaptersInBook
        let lastChapter := if v.endChapter ≠ none then v.endChapter else r.lastChapter
        let verse := match v.endVerse with
          | some x => x
          | none => endBookObject.versesOrZero endChapterForReference
        match NewBibleReference endBookObject endChapterForReference verse v.endFragment with
        | .error e => .fail e
        | .ok tr => finishSection st r.fromRef tr endBookObject.Name lastChapter v.endVerse

/-- The body of the clause loop of `Parse` for a trimmed, non-empty `section`. -/
def BiblePassageParser.parseSection (p : BiblePassageParser) (st : LoopState)
    («section» : Str) : SectionResult :=
  match Split «section» "-".toList with
  | [] => .panic
  | [start] =>
    (match p.parseStartReference start st.lastBook st.lastChapter st.lastVerse with
      | .error e => .fail e
      | .ok r => p.singleReference st r)
  | [start, endText] =>
    (match p.parseStartReference start st.lastBook st.lastChapter st.lastVerse with
      | .error e => .fail e
      | .ok r => p.rangeReference st r endText)
  | _ :: _ :: _ :: _ => .fail .rangeTooComplex

/-- What `Parse` returns: the slice (`none` is the nil slice) and the error
(`none` is the nil error). -/
abbrev ParseReturn := Option (List BiblePassage) × Option ParseError

/-- The clause loop of `Parse` and the return after it. -/
def BiblePassageParser.parseSections (p : BiblePassageParser) :
    List Str → LoopState → Outcome ParseReturn
  | [], st => .ret (some st.passages, none)
  | «section» :: rest, st =>
    if TrimSpace «section» = [] then p.parseSections rest st
    else
      match p.parseSection st (TrimSpace «section») with
      | .next st1 => p.parseSections rest st1
      | .fail e => .ret (none, some e)
      | .panic => .panic

/-- `BiblePassageParser.Parse`. -/
def BiblePassageParser.Parse (p : BiblePassageParser) (versesString : Str) :
    Outcome ParseReturn :=
  if TrimSpace versesString = [] then .ret (none, some .unableToParse)
  else
    match SplitOnSeparators p.separators (normalise versesString) with
    | none => .panic
    | some sections =>
      p.parseSections sections
        { passages := [], lastBook := [], lastChapter := none, lastVerse := none }

/-! ### The loop body up to its ordering test

The two branches of the loop body of `Parse` once more, read up to the test
`fromReference.IntegerNotation() > toReference.IntegerNotation()`, and the loop
over the clauses before a given one. -/

/-- The `len(splitSection) == 1` branch of `Parse` up to the ordering test: the
reference `toReference` holds there, `none` when the branch returns an error
before. -/
def BiblePassageParser.singleEnd (p : BiblePassageParser) (r : StartResult) :
    Option BibleReference :=
  match p.getBookFromAbbreviation r.lastBook with
  | .error _ => none
  | .ok endBookObject =>
    if r.startVerse ≠ none then some r.fromRef
    else
      let endChapterForReference := match r.lastChapter with
        | some c => c
        | none => endBookObject.ChaptersInBook
      let endVerse := match r.lastVerse with
        | some v => v
        | none => endBookObject.versesOrZero endChapterForReference
      (NewBibleReference endBookObject endChapterForReference endVerse r.lastFragment).toOption

/-- The `else` branch of `Parse` up to the ordering test: the reference
`toReference` holds there for the end half `endText`, `none` when the branch
returns an error or panics before. -/
def BiblePassageParser.rangeEnd (p : BiblePassageParser) (r : StartResult) (endText : Str) :
    Option BibleReference :=
  match parseReference endText with
  | .error _ => none
  | .ok m =>
    match p.getBookFromAbbreviation (if m.book ≠ [] then m.book else r.lastBook) with
    | .error _ => none
    | .ok endBookObject =>
      match endChapterOrVerse endBookObject r.startVerse r.lastChapter m with
      | none => none
      | some v1 =>
        let v := endVerseField m v1
        let endChapterForReference := match v.endChapter with
          | some c => c
          | none =>
            match r.lastChapter with
            | some c => c
            | none => endBookObject.ChaptersInBook
        let verse := match v.endVerse with
          | some x => x
          | none => endBookObject.versesOrZero endChapterForReference
        (NewBibleReference endBookObject endChapterForReference verse v.endFragment).toOption

/-- The pair `fromReference`, `toReference` the body of the clause loop of
`Parse` holds at its ordering test, for a trimmed, non-empty `section` read in
the state `st`: the start and the end the clause resolves to.  `none` when the
body returns an error or panics before the test. -/
def BiblePassageParser.sectionReferences (p : BiblePassageParser) (st : LoopState)
    («section» : Str) : Option (BibleReference × BibleReference) :=
  match Split «section» "-".toList with
  | [start] =>
    (match p.parseStartReference start st.lastBook st.lastChapter st.lastVerse with
      | .error _ => none
      | .ok r => (p.singleEnd r).map fun t => (r.fromRef, t))
  | [start, endText] =>
    (match p.parseStartReference start st.lastBook st.lastChapter st.lastVerse with
      | .error _ => none
      | .ok r => (p.rangeEnd r endText).map fun t => (r.fromRef, t))
  | _ => none

/-- The state the clause loop of `Parse`, begun in `st`, stands in after the
sections `secs` when each of them is blank or resolves; `none` when one of them
fails or panics. -/
def BiblePassageParser.stateAfter (p : BiblePassageParser) :
    List Str → LoopState → Option LoopState
  | [], st => some st
  | sec :: rest, st =>
    if TrimSpace sec = [] then p.stateAfter rest st
    else
      match p.parseSection st (TrimSpace sec) with
      | .next st1 => p.stateAfter rest st1
      | .fail _ => none
      | .panic => none

/-! ## passage.go: rendering -/

/-- `BiblePassage.String`.  Two `*Book` pointers of one parser are equal exactly
when they are the same book. -/
def BiblePassage.String (p : BiblePassage) : Str :=
  let fromRef := p.From
  let toRef := p.To
  if toRef.Book = fromRef.Book ∧ fromRef.Chapter = 1 ∧ fromRef.Verse = 1 ∧
      toRef.Book.ChaptersInBook = toRef.Chapter ∧
      toRef.Book.versesOrZero toRef.Chapter = toRef.Verse then
    fromRef.Book.Name
  else
    let trailer := " ".toList ++ fmtInt fromRef.Chapter
    if toRef.Book = fromRef.Book ∧ toRef.Chapter = fromRef.Chapter ∧
        (fromRef.Verse = 0 ∨
          (fromRef.Verse = 1 ∧ toRef.Book.versesOrZero toRef.Chapter = toRef.Verse)) then
      fromRef.Book.SingularName ++ trailer
    else
      let trailer := trailer ++ ":".toList ++ fmtInt fromRef.Verse ++ fromRef.Fragment
      if toRef.Book = fromRef.Book ∧ toRef.Chapter = fromRef.Chapter ∧
          toRef.Verse = fromRef.Verse then
        fromRef.Book.SingularName ++ trailer
      else if fromRef.Chapter = toRef.Chapter then
        fromRef.Book.SingularName ++ trailer ++ "-".toList ++ fmtInt toRef.Verse ++ toRef.Fragment
      else
        let toString := fmtInt toRef.Chapter ++ ":".toList ++ fmtInt toRef.Verse ++ toRef.Fragment
        if fromRef.Book ≠ toRef.Book then
          fromRef.Book.Name ++ trailer ++ " - ".toList ++ toRef.Book.Name ++ " ".toList ++ toString
        else if fromRef.Verse = 1 ∧ toRef.Book.versesOrZero toRef.Chapter = toRef.Verse then
          fromRef.Book.Name ++ " ".toList ++ fmtInt fromRef.Chapter ++ "-".toList ++
            fmtInt toRef.Chapter
        else fromRef.Book.SingularName ++ trailer ++ "-".toList ++ toString

/-- `BibleReference.String`. -/
def BibleReference.String (r : BibleReference) : Str :=
  if r.Verse = 0 then r.Book.Name ++ " ".toList ++ fmtInt r.Chapter
  else r.Book.Name ++ " ".toList ++ fmtInt r.Chapter ++ ":".toList ++ fmtInt r.Verse ++ r.Fragment

/-! ## A concrete table

A few entries of the kind `data.BibleStructure` holds, for evaluating the
parser on concrete texts. -/

/-- Chapters numbered from 1 with the given verse counts. -/
def numberChapters (counts : List Int) : List (Int × Int) :=
  (List.range counts.length).zipWith (fun i v => ((i : Int) + 1, v)) counts

/-- A table with Genesis, Exodus, Obadiah, John, Acts and Jude. -/
def sampleStructure : List (Int × BookData) :=
  [ (1, { Name := "Genesis".toList, SingularName := "Genesis".toList,
          Abbreviations := ["Gen".toList],
          ChapterStructure := numberChapters
            [31, 25, 24, 26, 32, 22, 24, 22, 29, 32, 32, 20, 18, 24, 21, 16, 27, 33, 38, 18,
             34, 24, 20, 67, 34, 35, 46, 22, 35, 43, 55, 32, 20, 31, 29, 43, 36, 30, 23, 23,
             57, 38, 34, 34, 28, 34, 31, 22, 33, 26] }),
    (2, { Name := "Exodus".toList, SingularName := "Exodus".toList,
          Abbreviations := ["Exod".toList],
          ChapterStructure := numberChapters
            [22, 25, 22, 31, 23, 30, 25, 32, 35, 29, 10, 51, 22, 31, 27, 36, 16, 27, 25, 26,
             36, 31, 33, 18, 40, 37, 21, 43, 46, 38, 18, 35, 23, 35, 35, 38, 29, 31, 43, 38] }),
    (31, { Name := "Obadiah".toList, SingularName := "Obadiah".toList,
           Abbreviations := ["Obad".toList],
           ChapterStructure := numberChapters [21] }),
    (43, { Name := "John".toList, SingularName := "John".toList,
           Abbreviations := ["Jn".toList],
           ChapterStructure := numberChapters
             [51, 25, 36, 54, 47, 71, 53, 59, 41, 42, 57, 50, 38, 31, 27, 33, 26, 40, 42, 31,
              25] }),
    (44, { Name := "Acts".toList, SingularName := "Acts".toList,
           Abbreviations := ["Ac".toList],
           ChapterStructure := numberChapters
             [26, 47, 26, 37, 42, 15, 60, 40, 43, 48, 30, 25, 52, 28, 41, 40, 34, 28, 41, 38,
              40, 30, 35, 27, 27, 32, 44, 31] }),
    (65, { Name := "Jude".toList, SingularName := "Jude".toList,
           Abbreviations := [],
           ChapterStructure := numberChapters [25] }) ]

/-- The parser built from `sampleStructure`. -/
def sampleParser : BiblePassageParser := NewBiblePassageParser sampleStructure

/-- The book of `sampleParser` with the given number (an empty book if none). -/
def sampleBook (number : Int) : Book :=
  (sampleParser.books.lookup number).getD (NewBook 0 [] [] [] [])

/-- A reference as a plain record, without validation. -/
def mkRef (book : Book) (chapter verse : Int) (fragment : Str) : BibleReference :=
  { Book := book, Chapter := chapter, Verse := verse, Fragment := fragment }

/-! ## Vocabulary of the proofs

Predicates on texts, the first match of a regular expression, and the token
lists of canonical texts.  None of these is code of the repository; the
theorems below are stated with them. -/

/-- A fragment tag: empty or one of `a`, `b`, `c`. -/
def IsFrag (f : Str) : Prop := f = [] ∨ f = ['a'] ∨ f = ['b'] ∨ f = ['c']

/-- A run of decimal digits that reads as `n`. -/
def IsNumeral (ds : Str) (n : Nat) : Prop :=
  ds ≠ [] ∧ (∀ c ∈ ds, isDigit c = true) ∧ digitsValue ds = some n

/-- The best match of an expression at the head of `s`, given the groups so far. -/
def Rx.first (rx : Rx) (full : Nat) (s : Str) (caps : Caps) : Option (Str × Caps) :=
  (rx.run full s caps).head?

/-- The head of `s`, if any, fails the class `p`. -/
def HeadNot (p : Char → Bool) (s : Str) : Prop := ∀ c, s.head? = some c → p c = false

/-- Every character of `s` is in the class `p`. -/
def AllP (p : Char → Bool) (s : Str) : Prop := ∀ c ∈ s, p c = true

/-- A numeric token of the grammar: digits and an optional fragment letter. -/
def IsToken (t : Str) : Prop :=
  ∃ ds f : Str, t = ds ++ f ∧ ds ≠ [] ∧ AllP isDigit ds ∧ IsFrag f

/-- The groups after group `i` matched `t`; an empty `t` stands for a group
that took no part in the match. -/
def capsWith (i : Nat) (t : Str) (caps : Caps) : Caps :=
  if t = [] then caps else (i, t) :: caps

/-- A text that opens with no book: digits followed by neither a digit nor
white space, or nothing at all. -/
def NoBook (s : Str) : Prop :=
  s = [] ∨ ∃ ds rest, s = ds ++ rest ∧ ds ≠ [] ∧ AllP isDigit ds ∧ HeadNot isDigit rest ∧
    HeadNot isReSpace rest

/-- A separator the grammar reads greedily: white space `w1`, then separator
characters `w2` that do not open with white space. -/
def IsSeparator (w1 w2 : Str) : Prop :=
  AllP isReSpace w1 ∧ w2 ≠ [] ∧ AllP isSepChar w2 ∧ HeadNot isReSpace w2

/-- The numeric part of a clause: nothing, one token, or two tokens around a
separator; `t1` and `t2` are the tokens (empty when absent). -/
def IsNumbers (nums t1 t2 : Str) : Prop :=
  (nums = [] ∧ t1 = [] ∧ t2 = []) ∨
  (IsToken t1 ∧ t2 = [] ∧ nums = t1) ∨
  (IsToken t1 ∧ IsToken t2 ∧ ∃ w1 w2, IsSeparator w1 w2 ∧ nums = t1 ++ (w1 ++ (w2 ++ t2)))

/-- ASCII letter test. -/
def isAsciiLetter (c : Char) : Bool :=
  (decide ('a' ≤ c) && decide (c ≤ 'z')) || (decide ('A' ≤ c) && decide (c ≤ 'Z'))

/-- The words the normaliser and the clause grammar give a meaning of their own. -/
def grammarWords : List Str :=
  ["start".toList, "end".toList, "to".toList, "chapter".toList, "ch".toList, "c".toList,
   "verse".toList, "verses".toList, "v".toList]

/-- `sub` occurs somewhere in `s`. -/
def hasInfix (sub s : Str) : Bool := s.tails.any fun t => sub.isPrefixOf t

/-- The words the normaliser rewrites when they stand between non-letters. -/
def normWords : List Str :=
  ["to".toList, "chapter".toList, "c".toList, "verse".toList, "verses".toList]

/-- A word the normaliser leaves alone: ASCII letters only, at least one,
without the separator word `and` inside, and none of the words it rewrites. -/
def safeWord (n : Str) : Bool :=
  !n.isEmpty && n.all isAsciiLetter && !hasInfix "and".toList n &&
    !normWords.contains (ToLower n)

/-- A plain book name: ASCII letters only, at least one, without the separator
word `and` inside, and not itself a word of the grammar. -/
def plainName (n : Str) : Bool :=
  !n.isEmpty && n.all isAsciiLetter && !hasInfix "and".toList n &&
    !grammarWords.contains (ToLower n)

/-- The book part of a clause as the grammar reads it: `bk` is what the book
group takes and `rest` follows.  The book is a run of non-digits, or a number,
white space and a run of non-digits, or empty when the clause opens with a
number that no white space follows. -/
def IsBookPart (bk rest : Str) : Prop :=
  (bk ≠ [] ∧ AllP isNotDigit bk ∧ HeadNot isReSpace bk ∧ HeadNot isNotDigit rest) ∨
  (bk = [] ∧ NoBook rest ∧ HeadNot isReSpace rest) ∨
  (∃ ds ws body, bk = ds ++ (ws ++ body) ∧ ds ≠ [] ∧ AllP isDigit ds ∧ ws ≠ [] ∧
    AllP isReSpace ws ∧ body ≠ [] ∧ AllP isNotDigit body ∧ HeadNot isReSpace body ∧
    HeadNot isNotDigit rest)

/-- What `parseReference` needs of the lower-case text `L` of a book to
read it as the book before numbers: the grammar takes it with the white space
after it as the book group, trimming gives it back, and it closes with no
word the post-processing cuts off. -/
def ReadsAsBook (L : Str) : Prop :=
  (∀ sp rest, AllP isReSpace sp → HeadNot isNotDigit rest → IsBookPart (L ++ sp) rest) ∧
  (∀ sp, AllP isReSpace sp → TrimSpace (L ++ sp) = L) ∧
  L ≠ "start".toList ∧ L ≠ "end".toList ∧
  HasSuffix L " ch".toList = false ∧ HasSuffix L " v".toList = false ∧
  HasSuffix L " verse".toList = false ∧ HasSuffix L " verses".toList = false

/-- No substitution pattern matches at the head of `t`. -/
def Safe (full : Nat) (t : Str) : Prop :=
  ∀ sub ∈ substitutions, sub.1.matchAt full t = none

/-- No substitution pattern matches anywhere in `s`. -/
def AllSafe (full : Nat) (s : Str) : Prop :=
  ∀ t, t ≠ [] → t <:+ s → Safe full t

/-- What is left of `s` after the literal `w`, each character of `w` standing
for the characters `eq` allows. -/
def litRest (eq : Char → Char → Bool) : Str → Str → Option Str
  | [], s => some s
  | _ :: _, [] => none
  | c :: w, x :: s => if eq c x then litRest eq w s else none

/-- The text `r` opens with a run of ASCII letters that is no word of the
normaliser, or that ends the text, and then with no letter. -/
def KeywordFree (r : Str) : Prop :=
  ∃ run rest, r = run ++ rest ∧ AllP isAsciiLetter run ∧ HeadNot isFoldLetter rest ∧
    ((ToLower run ≠ "to".toList ∧ ToLower run ≠ "chapter".toList ∧ ToLower run ≠ "c".toList ∧
      ToLower run ≠ "verse".toList ∧ ToLower run ≠ "verses".toList) ∨ rest = [])

/-- The text `r` opens with a run of ASCII letters that is none of the words
`ws`, or that ends the text, and then with no letter. -/
def WordFree (ws : List Str) (r : Str) : Prop :=
  ∃ run rest, r = run ++ rest ∧ AllP isAsciiLetter run ∧ HeadNot isFoldLetter rest ∧
    ((∀ w ∈ ws, ToLower run ≠ w) ∨ rest = [])

/-- A fragment tag may stand before `rest` without being read as the word `c`:
it is not `c`, or nothing follows it. -/
def FragSafe (f rest : Str) : Prop := f ≠ ['c'] ∨ rest = []

/-- The separator word `and` occurs nowhere in `s`. -/
def NoAnd (s : Str) : Prop := ∀ t, t <:+ s → "and".toList.isPrefixOf t = false

/-- None of the separator characters `&`, `,`, `;` occurs in `s`. -/
def NoSepChar (s : Str) : Prop := '&' ∉ s ∧ ',' ∉ s ∧ ';' ∉ s

/-- The pieces a rendered passage is made of. -/
inductive Tok where
  | name (n : Str)
  | num (ds : Str)
  | frag (c : Char)
  | sp
  | colon
  | hyphen
  | punct (c : Char)

/-- The text of one token. -/
def Tok.text : Tok → Str
  | .name n => n
  | .num ds => ds
  | .frag c => [c]
  | .sp => [' ']
  | .colon => [':']
  | .hyphen => ['-']
  | .punct c => [c]

/-- The text of a token list. -/
def render : List Tok → Str
  | [] => []
  | t :: ts => t.text ++ render ts

/-- What may follow a semicolon: after any blanks, no single digit and a
fragment letter. -/
def semiOk : List Tok → Prop
  | .sp :: r => semiOk r
  | .num ds :: r => 2 ≤ ds.length ∨ ∀ c r1, r ≠ .frag c :: r1
  | _ => True

/-- What may follow a token in a text the normaliser leaves alone. -/
def Follows : Tok → List Tok → Prop
  | .name n, rest => safeWord n = true ∧ (rest = [] ∨ ∃ r, rest = .sp :: r)
  | .num ds, rest => ds ≠ [] ∧ AllP isDigit ds ∧
      (rest = [] ∨ (∃ r, rest = .sp :: r) ∨ (∃ r, rest = .colon :: r) ∨
        (∃ r, rest = .hyphen :: r) ∨ (∃ c r, rest = .frag c :: r) ∨
        ∃ c r, rest = .punct c :: r)
  | .frag c, rest => isFragLetter c = true ∧
      (rest = [] ∨ ((c ≠ 'c' ∧ c ≠ 'C') ∧
        ((∃ r, rest = .sp :: r) ∨ (∃ r, rest = .hyphen :: r) ∨ ∃ x r, rest = .punct x :: r)))
  | .sp, rest => rest = [] ∨ (∃ r, rest = .hyphen :: r) ∨ (∃ ds r, rest = .num ds :: r) ∨
      (∃ n r, rest = .name n :: r) ∨ (∃ r, rest = .sp :: r) ∨ ∃ c r, rest = .punct c :: r
  | .colon, rest => (∃ ds r, rest = .num ds :: r) ∨ ∃ r, rest = .sp :: r
  | .hyphen, rest => (∃ r, rest = .sp :: r) ∨
      (∃ ds r, rest = .num ds :: r ∧ (2 ≤ ds.length ∨ ∀ c r1, r ≠ .frag c :: r1)) ∨
      ∃ n r, rest = .name n :: r
  | .punct c, rest => (c = '.' ∨ c = ',' ∨ c = '&' ∨ c = ';') ∧ (c = ';' → semiOk rest)

/-- Every token is followed by what may follow it. -/
def WellFormed : List Tok → Prop
  | [] => True
  | t :: rest => Follows t rest ∧ WellFormed rest

/-- A token list without separator characters: every punctuation token is a
point. -/
def NoSepTok (ts : List Tok) : Prop := ∀ c, Tok.punct c ∈ ts → c = '.'

/-- The state `Parse` starts its clause loop in. -/
def initialState : LoopState :=
  { passages := [], lastBook := [], lastChapter := none, lastVerse := none }

/-- What `Parse` returns when the only clause ends as `r`. -/
def returnOf : SectionResult → Outcome ParseReturn
  | .next st => .ret (some st.passages, none)
  | .fail e => .ret (none, some e)
  | .panic => .panic

/-- Words joined by single blanks. -/
def joinWords : List Str → Str
  | [] => []
  | [w] => w
  | w :: v :: ws => w ++ ' ' :: joinWords (v :: ws)

/-- The words of a text: what stands between its blanks. -/
def splitWords : Str → List Str
  | [] => [[]]
  | c :: cs =>
    if c = ' ' then [] :: splitWords cs
    else
      match splitWords cs with
      | [] => [[c]]
      | w :: ws => (c :: w) :: ws

/-- A word of decimal digits. -/
def isNumberWord (w : Str) : Bool := !w.isEmpty && w.all isDigit

/-- A book name of plain words separated by single blanks, the first of which
may be a number when a word follows it (`John`, `1 Kings`, `Song of Songs`). -/
def bookName (n : Str) : Bool :=
  match splitWords n with
  | [] => false
  | [w] => plainName w
  | w :: ws => (plainName w || isNumberWord w) && ws.all plainName

/-- The tokens of words separated by single blanks. -/
def wordToks : List Str → List Tok
  | [] => []
  | [w] => [.name w]
  | w :: v :: ws => .name w :: .sp :: wordToks (v :: ws)

/-- The token list of a book name: plain words, optionally after a number. -/
def NameToks (nts : List Tok) : Prop :=
  ∃ w ws, (∀ x ∈ w :: ws, plainName x = true) ∧
    (nts = wordToks (w :: ws) ∨
      ∃ ds, ds ≠ [] ∧ AllP isDigit ds ∧ nts = .num ds :: .sp :: wordToks (w :: ws))

/-- What follows the last blank of a text. -/
def lastWord (s : Str) : Str := (s.reverse.takeWhile fun c => c != ' ').reverse

/-- Lower-case words: not empty, of the letters `a` to `z`, and none a word
of the grammar. -/
def IsLowWords (us : List Str) : Prop :=
  ∀ u ∈ us, u ≠ [] ∧ (∀ c ∈ u, 97 ≤ c.toNat ∧ c.toNat ≤ 122) ∧ u ∉ grammarWords

/-- The lower-case text of a book name: lower-case words joined by blanks,
optionally after a number and a blank. -/
def LowerName (L : Str) : Prop :=
  ∃ pre u us, IsLowWords (u :: us) ∧ L = pre ++ joinWords (u :: us) ∧
    (pre = [] ∨ ∃ ds, ds ≠ [] ∧ AllP isDigit ds ∧ pre = ds ++ [' '])

/-- A number as a token. -/
def tokNum (x : Int) : Tok := .num (fmtInt x)

/-- A fragment tag as tokens: none for the empty tag. -/
def tokFrag : Str → List Tok
  | [c] => [.frag c]
  | _ => []

/-- A fragment tag as it may be written: empty, or one of `a b c A B C`. -/
def IsFragText (F : Str) : Prop := F = [] ∨ ∃ c, F = [c] ∧ isFragLetter c = true

/-- What may follow a verse with the fragment tag `F`: nothing, a blank, a
hyphen or a punctuation mark, and nothing at all after the tag `c` or `C`. -/
def TailOkText (F : Str) (rest : List Tok) : Prop :=
  (rest = [] ∨ (∃ r, rest = .sp :: r) ∨ (∃ r, rest = .hyphen :: r) ∨
    ∃ c r, rest = .punct c :: r) ∧ ((F = ['c'] ∨ F = ['C']) → rest = [])

/-- What may follow a verse with the fragment tag `f`: nothing, a blank or a
hyphen, and nothing at all after the tag `c`. -/
def TailOk (f : Str) (rest : List Tok) : Prop :=
  (rest = [] ∨ (∃ r, rest = .sp :: r) ∨ ∃ r, rest = .hyphen :: r) ∧ (f = ['c'] → rest = [])

/-- A book whose two names are book names of plain words, each looked up as
the book itself. -/
def RegisteredBook (p : BiblePassageParser) (B : Book) : Prop :=
  bookName B.Name = true ∧ bookName B.SingularName = true ∧
    p.getBookFromAbbreviation B.Name = .ok B ∧
    p.getBookFromAbbreviation B.SingularName = .ok B

/-- A reference of a registered book with chapter and verse at least 1 and in
the range of a Go `int`, which `NewBibleReference` accepts. -/
def ValidRef (p : BiblePassageParser) (r : BibleReference) : Prop :=
  RegisteredBook p r.Book ∧ 1 ≤ r.Chapter ∧ r.Chapter < 2 ^ 63 ∧ 1 ≤ r.Verse ∧
    r.Verse < 2 ^ 63 ∧ NewBibleReference r.Book r.Chapter r.Verse r.Fragment = .ok r

/-- The fragment tags the rendered text keeps and the parser reads back: none
when the passage runs from a verse 1 to the last verse of a chapter of the same
book (the text then names whole chapters); one tag for both ends of a single
verse; otherwise the start's tag is not `c`, and an end verse inside the
start's chapter carries a tag only when it has two digits or more. -/
def FragmentsKept (P : BiblePassage) : Prop :=
  if P.To.Book = P.From.Book ∧ P.From.Verse = 1 ∧
      P.To.Book.versesOrZero P.To.Chapter = P.To.Verse then
    P.From.Fragment = [] ∧ P.To.Fragment = []
  else if P.To.Chapter = P.From.Chapter ∧ P.To.Verse = P.From.Verse then
    P.To.Fragment = P.From.Fragment
  else
    P.From.Fragment ≠ ['c'] ∧
      (P.From.Chapter = P.To.Chapter → P.To.Fragment = [] ∨ 10 ≤ P.To.Verse)

/-- A book as the data model describes it: a 1-based number, chapters
`1..ChaptersInBook` (at least one) each with at least one verse, and ordering
keys that fit a Go `int`. -/
def Book.Regular (B : Book) : Prop :=
  1 ≤ B.Number ∧ 1 ≤ B.ChaptersInBook ∧
    ∀ c : Int, 1 ≤ c → c ≤ B.ChaptersInBook →
      ∃ v, B.ChapterStructure.lookup c = some v ∧ 1 ≤ v ∧
        1000000 * B.Number + 1000 * c + v < 2 ^ 63

/-- The lexicographic order on (book number, chapter, verse). -/
def lexLess (r1 r2 : BibleReference) : Prop :=
  r1.Book.Number < r2.Book.Number ∨
    (r1.Book.Number = r2.Book.Number ∧
      (r1.Chapter < r2.Chapter ∨ (r1.Chapter = r2.Chapter ∧ r1.Verse < r2.Verse)))

/-- A blank between every character of class `p` and a character of class `q`
right after it. -/
def spaceBetween (p q : Char → Bool) : Str → Str
  | [] => []
  | [c] => [c]
  | c :: d :: s =>
    if p c && q d then c :: ' ' :: spaceBetween p q (d :: s) else c :: spaceBetween p q (d :: s)

/-- A token list of names, numbers, blanks and colons, the names being runs
of ASCII letters and the numbers runs of digits. -/
def Plain : List Tok → Prop
  | [] => True
  | .name m :: r => (m ≠ [] ∧ AllP isAsciiLetter m) ∧ Plain r
  | .num d :: r => (d ≠ [] ∧ AllP isDigit d) ∧ Plain r
  | .sp :: r => Plain r
  | .colon :: r => Plain r
  | _ => False

/-- What pattern 1 makes of a plain token list: a blank between a name and a
number right after it. -/
def gap1 : List Tok → List Tok
  | [] => []
  | .name m :: rest =>
    match rest with
    | .num _ :: _ => .name m :: .sp :: gap1 rest
    | _ => .name m :: gap1 rest
  | t :: rest => t :: gap1 rest

/-- What pattern 2 makes of a plain token list: a blank between a number and
a name right after it that opens with one of the letters `d` to `z`. -/
def gap2 : List Tok → List Tok
  | [] => []
  | .num d :: rest =>
    match rest with
    | .name (x :: _) :: _ =>
      if isFoldDtoZ x then .num d :: .sp :: gap2 rest else .num d :: gap2 rest
    | _ => .num d :: gap2 rest
  | t :: rest => t :: gap2 rest

/-- No name stands right after a name, so that every name is a whole run of
letters of the text. -/
def Apart : List Tok → Prop
  | [] => True
  | t :: r => (∀ m m1 r1, t = .name m → r ≠ .name m1 :: r1) ∧ Apart r

/-- The substitutions after the first two. -/
def lateRules (s : Str) : Str :=
  (substitutions.drop 2).foldl (fun acc sub => ReplaceAllString sub.1 acc sub.2) s

/-- A run of decimal digits. -/
def Digits (ds : Str) : Prop := ds ≠ [] ∧ AllP isDigit ds

/-- The verse markers `v` and `vv`. -/
def IsMark (w : Str) : Prop := w = "v".toList ∨ w = "vv".toList

/-- The texts after the name that the spellings of a chapter `C` and a verse
`V` are normalised to. -/
def verseForms (C V : Str) : List (List Tok) :=
  [[.sp, .num C, .colon, .num V],
   [.sp, .num C, .sp, .name "v".toList, .sp, .num V],
   [.sp, .num C, .colon, .sp, .name "v".toList, .sp, .num V],
   [.sp, .num C, .sp, .name "vv".toList, .sp, .num V],
   [.sp, .name "ch".toList, .sp, .num C, .sp, .name "v".toList, .sp, .num V],
   [.sp, .name "ch".toList, .sp, .num C, .sp, .name "vv".toList, .sp, .num V],
   [.sp, .num C, .sp, .sp, .name "v".toList, .sp, .sp, .num V],
   [.sp, .num C, .punct '.', .num V],
   [.sp, .num C, .sp, .num V]]

/-- The fifteen spellings of chapter `C` and verse `V` after the name `n`. -/
def verseSpellings (n C V : Str) : List Str :=
  [n ++ " ".toList ++ C ++ ":".toList ++ V,
   n ++ " ".toList ++ C ++ "v".toList ++ V,
   n ++ " ".toList ++ C ++ ": v".toList ++ V,
   n ++ " ".toList ++ C ++ " v".toList ++ V,
   n ++ " ".toList ++ C ++ "vv".toList ++ V,
   n ++ " ".toList ++ C ++ " vv".toList ++ V,
   n ++ " c".toList ++ C ++ "v".toList ++ V,
   n ++ " ch".toList ++ C ++ "v".toList ++ V,
   n ++ " ch".toList ++ C ++ "vv".toList ++ V,
   n ++ " ch".toList ++ C ++ " v".toList ++ V,
   n ++ " chapter".toList ++ C ++ "verse".toList ++ V,
   n ++ " chapter".toList ++ C ++ " verse".toList ++ V,
   n ++ " chapter ".toList ++ C ++ " verse ".toList ++ V,
   n ++ " ".toList ++ C ++ ".".toList ++ V,
   n ++ " ".toList ++ C ++ " ".toList ++ V]

/-- The rendering of a passage from `f` to `t` within one book as the
specification lists it, the first matching case first; `versesOrZero` is the
verse count Go reads for a chapter (0 when the chapter is absent) and
`ChaptersInBook` the number `N` of the last chapter. -/
def sameBookShape (f t : BibleReference) : Str :=
  if f.Chapter = 1 ∧ f.Verse = 1 ∧ t.Chapter = f.Book.ChaptersInBook ∧
      t.Verse = f.Book.versesOrZero f.Book.ChaptersInBook then
    f.Book.Name
  else if t.Chapter = f.Chapter ∧
      (f.Verse = 0 ∨ (f.Verse = 1 ∧ t.Verse = f.Book.versesOrZero f.Chapter)) then
    f.Book.SingularName ++ " ".toList ++ fmtInt f.Chapter
  else if t.Chapter = f.Chapter ∧ t.Verse = f.Verse then
    f.Book.SingularName ++ " ".toList ++ fmtInt f.Chapter ++ ":".toList ++ fmtInt f.Verse ++
      f.Fragment
  else if t.Chapter = f.Chapter then
    f.Book.SingularName ++ " ".toList ++ fmtInt f.Chapter ++ ":".toList ++ fmtInt f.Verse ++
      f.Fragment ++ "-".toList ++ fmtInt t.Verse ++ t.Fragment
  else if f.Verse = 1 ∧ t.Verse = f.Book.versesOrZero t.Chapter then
    f.Book.Name ++ " ".toList ++ fmtInt f.Chapter ++ "-".toList ++ fmtInt t.Chapter
  else
    f.Book.SingularName ++ " ".toList ++ fmtInt f.Chapter ++ ":".toList ++ fmtInt f.Verse ++
      f.Fragment ++ "-".toList ++ fmtInt t.Chapter ++ ":".toList ++ fmtInt t.Verse ++ t.Fragment

/-- The rendering of a passage across two books as the specification gives
it. -/
def crossBookShape (f t : BibleReference) : Str :=
  f.Book.Name ++ " ".toList ++ fmtInt f.Chapter ++ ":".toList ++ fmtInt f.Verse ++ f.Fragment ++
    " - ".toList ++ t.Book.Name ++ " ".toList ++ fmtInt t.Chapter ++ ":".toList ++
    fmtInt t.Verse ++ t.Fragment

/-- No character class of the expression tells a character from its image
under `m`. -/
def Rx.Respects (m : Char → Char) : Rx → Prop
  | .eps => True
  | .chr p => ∀ c, p (m c) = p c
  | .seq a b => a.Respects m ∧ b.Respects m
  | .alt a b => a.Respects m ∧ b.Respects m
  | .opt a => a.Respects m
  | .star p => ∀ c, p (m c) = p c
  | .plus p => ∀ c, p (m c) = p c
  | .cap _ a => a.Respects m
  | .bot => True
  | .eot => True

/-- The capture groups with every text mapped. -/
def mapCaps (m : Char → Char) (caps : Caps) : Caps := caps.map fun e => (e.1, e.2.map m)

/-- An en dash (U+2013) or em dash (U+2014) becomes the ASCII hyphen; any
other character stays. -/
def dashToHyphen (c : Char) : Char :=
  if c.toNat = 0x2013 ∨ c.toNat = 0x2014 then '-' else c

/-- The text with every en dash and em dash replaced by the ASCII hyphen. -/
def asciiDashes (s : Str) : Str := s.map dashToHyphen

/-- A comma becomes an ampersand; any other character stays. -/
def commaToAmp (c : Char) : Char := if c = ',' then '&' else c

/-- The class `[A-Za-z0-9 ]`. -/
def isKeptChar (c : Char) : Bool := isAsciiLetter c || isDigit c || c == ' '

/-- The text `s` is a respelling of the text `a`: the case of ASCII letters of
`a` may be changed, and characters that `ok` admits may be inserted
anywhere. -/
inductive Respelling (ok : Char → Bool) : Str → Str → Prop where
  | nil : Respelling ok [] []
  | keep (c : Char) {a s : Str} : Respelling ok a s → Respelling ok (c :: a) (c :: s)
  | recase (x y : Char) {a s : Str} : isAsciiLetter x = true → isAsciiLetter y = true →
      toLowerRune x = toLowerRune y → Respelling ok a s → Respelling ok (x :: a) (y :: s)
  | insert (c : Char) {a s : Str} : ok c = true → Respelling ok a s → Respelling ok a (c :: s)

/-- A character outside `[A-Za-z0-9 ]`. -/
def isOutside (c : Char) : Bool := !isKeptChar c

/-- A character outside `[A-Za-z0-9 ]` whose lower case is no ASCII letter:
any but U+0130 and U+212A. -/
def isDropped (c : Char) : Bool := !isKeptChar c && c.toNat != 0x130 && c.toNat != 0x212A

/-- No blank stands among the white space at either end of the text. -/
def NoOuterBlank (a : Str) : Prop :=
  ' ' ∉ a.takeWhile isSpace ∧ ' ' ∉ a.reverse.takeWhile isSpace

/-- The lower-case text without what is outside `[a-z0-9 ]`. -/
def stdText (s : Str) : Str := (ToLower s).filter isStdChar

/-- The sample table with 1 Chronicles added. -/
def numberedStructure : List (Int × BookData) :=
  sampleStructure ++
    [ (13, { Name := "1 Chronicles".toList, SingularName := "1 Chronicles".toList,
             Abbreviations := ["1 Chr".toList, "1 Chron".toList],
             ChapterStructure := numberChapters
               [54, 55, 24, 43, 26, 81, 40, 40, 44, 14, 47, 40, 14, 17, 29, 43, 27, 17, 19, 8,
                30, 19, 32, 31, 31, 32, 34, 21, 30] }) ]

/-- The parser built from `numberedStructure`. -/
def numberedParser : BiblePassageParser := NewBiblePassageParser numberedStructure

/-- The book of `numberedParser` with the given number (an empty book if none). -/
def numberedBook (number : Int) : Book :=
  (numberedParser.books.lookup number).getD (NewBook 0 [] [] [] [])

/-! # Theorems -/

/-! ## Reference construction -/

theorem badFragment_eq_false_iff (fragment : Str) :
    badFragment fragment = false ↔
      (fragment = [] ∨ fragment = ['a'] ∨ fragment = ['b'] ∨ fragment = ['c']) := by
  unfold badFragment
  by_cases h0 : fragment = []
  · simp [h0]
  by_cases h1 : fragment = ['a']
  · simp [h1]
  by_cases h2 : fragment = ['b']
  · simp [h2]
  by_cases h3 : fragment = ['c']
  · simp [h3]
  simp [h0, h1, h2, h3]

theorem checkChapterVerse_eq_none_iff (book : Book) (chapter verse : Int) :
    checkChapterVerse book chapter verse = none ↔
      (verse ≤ 0 ∨ ∃ vmax, book.ChapterStructure.lookup chapter = some vmax ∧ verse ≤ vmax) := by
  unfold checkChapterVerse
  by_cases hv : verse > 0
  · rw [if_pos hv]
    cases hl : book.ChapterStructure.lookup chapter with
    | none => simp; omega
    | some vmax =>
      by_cases hm : verse > vmax
      · simp [hm]; omega
      · simp [hm]; right; omega
  · rw [if_neg hv]
    simp; left; omega

theorem NewBibleReference_ok_iff (book : Book) (chapter verse : Int) (fragment : Str)
    (r : BibleReference) :
    NewBibleReference book chapter verse fragment = .ok r ↔
      (checkChapterVerse book chapter verse = none ∧ badFragment fragment = false ∧
        r = mkRef book chapter verse fragment) := by
  unfold NewBibleReference mkRef
  cases hc : checkChapterVerse book chapter verse with
  | some e => simp
  | none =>
    cases hf : badFragment fragment with
    | true => simp
    | false =>
      simp only [Bool.false_eq_true, if_false, Except.ok.injEq, true_and]
      exact eq_comm

/-- C9: `NewBibleReference` succeeds exactly when the verse is not positive or
lies within an existing chapter, and the fragment is empty or one of a, b, c;
the reference it returns holds the four arguments; with a positive verse a
missing chapter gives the chapter error and a verse beyond the count gives the
verse error, whatever the fragment is. -/
theorem C9_NewBibleReference_contract (book : Book) (chapter verse : Int) (fragment : Str) :
    ((∃ r, NewBibleReference book chapter verse fragment = .ok r) ↔
      ((verse ≤ 0 ∨ ∃ vmax, book.ChapterStructure.lookup chapter = some vmax ∧ verse ≤ vmax) ∧
        (fragment = [] ∨ fragment = ['a'] ∨ fragment = ['b'] ∨ fragment = ['c']))) ∧
    (∀ r, NewBibleReference book chapter verse fragment = .ok r →
      r.Book = book ∧ r.Chapter = chapter ∧ r.Verse = verse ∧ r.Fragment = fragment) ∧
    (0 < verse → book.ChapterStructure.lookup chapter = none →
      NewBibleReference book chapter verse fragment = .error .chapterDoesNotExist) ∧
    (0 < verse → ∀ vmax, book.ChapterStructure.lookup chapter = some vmax → vmax < verse →
      NewBibleReference book chapter verse fragment = .error .verseDoesNotExist) := by
  refine ⟨?_, ?_, ?_, ?_⟩
  · constructor
    · rintro ⟨r, hr⟩
      rw [NewBibleReference_ok_iff] at hr
      exact ⟨(checkChapterVerse_eq_none_iff _ _ _).1 hr.1, (badFragment_eq_false_iff _).1 hr.2.1⟩
    · rintro ⟨hv, hf⟩
      exact ⟨mkRef book chapter verse fragment, (NewBibleReference_ok_iff _ _ _ _ _).2
        ⟨(checkChapterVerse_eq_none_iff _ _ _).2 hv, (badFragment_eq_false_iff _).2 hf, rfl⟩⟩
  · intro r hr
    rw [NewBibleReference_ok_iff] at hr
    rw [hr.2.2]
    exact ⟨rfl, rfl, rfl, rfl⟩
  · intro hv hl
    simp [NewBibleReference, checkChapterVerse, hv, hl]
  · intro hv vmax hl hm
    simp [NewBibleReference, checkChapterVerse, hv, hl, hm]

/-- C10 as stated fails: chapter 25 is absent from John, yet with verse 0
`NewBibleReference` returns a reference and no error. -/
theorem C10_counterexample :
    (sampleBook 43).ChapterStructure.lookup 25 = none ∧
    NewBibleReference (sampleBook 43) 25 0 [] = .ok (mkRef (sampleBook 43) 25 0 []) :=
  ⟨by decide, rfl⟩

/-- C10 amended: for a chapter absent from the book and a positive verse,
`NewBibleReference` fails with the chapter-does-not-exist error, whatever the
fragment is. -/
theorem C10_absent_chapter_positive_verse (book : Book) (chapter verse : Int) (fragment : Str)
    (habsent : book.ChapterStructure.lookup chapter = none) (hverse : 0 < verse) :
    NewBibleReference book chapter verse fragment = .error .chapterDoesNotExist := by
  simp [NewBibleReference, checkChapterVerse, hverse, habsent]

/-- C10 amended, at John 25:1 with fragment `a`. -/
theorem C10_absent_chapter_positive_verse_witness :
    (sampleBook 43).ChapterStructure.lookup 25 = none ∧
    NewBibleReference (sampleBook 43) 25 1 ['a'] = .error .chapterDoesNotExist :=
  ⟨by decide, C10_absent_chapter_positive_verse (sampleBook 43) 25 1 ['a'] (by decide) (by decide)⟩

/-! ## The clause loop -/

theorem finishSection_next {st st1 : LoopState} {f t : BibleReference} {lb : Str}
    {lc lv : Option Int} (h : finishSection st f t lb lc lv = .next st1) :
    f.IntegerNotation ≤ t.IntegerNotation ∧
      st1 = { passages := st.passages ++ [NewBiblePassage f t], lastBook := lb,
              lastChapter := lc, lastVerse := lv } := by
  unfold finishSection at h
  split at h
  · cases h
  · rename_i hle
    injection h with h
    exact ⟨not_lt.mp hle, h.symm⟩

theorem singleReference_next {p : BiblePassageParser} {st st1 : LoopState} {r : StartResult}
    (h : p.singleReference st r = .next st1) :
    ∃ (t : BibleReference) (lb : Str) (lc lv : Option Int),
      finishSection st r.fromRef t lb lc lv = .next st1 := by
  unfold BiblePassageParser.singleReference at h
  cases hb : p.getBookFromAbbreviation r.lastBook with
  | error e => rw [hb] at h; cases h
  | ok b =>
    rw [hb] at h
    simp only at h
    by_cases hsv : r.startVerse ≠ none
    · rw [if_pos hsv] at h
      exact ⟨_, _, _, _, h⟩
    · rw [if_neg hsv] at h
      generalize NewBibleReference b _ _ _ = res at h
      cases res with
      | error e => cases h
      | ok tr => exact ⟨_, _, _, _, h⟩

theorem rangeReference_next {p : BiblePassageParser} {st st1 : LoopState} {r : StartResult}
    {endText : Str} (h : p.rangeReference st r endText = .next st1) :
    ∃ (t : BibleReference) (lb : Str) (lc lv : Option Int),
      finishSection st r.fromRef t lb lc lv = .next st1 := by
  unfold BiblePassageParser.rangeReference at h
  cases hm : parseReference endText with
  | error e => rw [hm] at h; cases h
  | ok m =>
    rw [hm] at h
    simp only at h
    generalize p.getBookFromAbbreviation _ = bres at h
    cases bres with
    | error e => cases h
    | ok b =>
      simp only at h
      cases hv : endChapterOrVerse b r.startVerse r.lastChapter m with
      | none => rw [hv] at h; cases h
      | some v1 =>
        rw [hv] at h
        simp only at h
        generalize NewBibleReference b _ _ _ = res at h
        cases res with
        | error e => cases h
        | ok tr => exact ⟨_, _, _, _, h⟩

/-- A turn of the loop that goes on has appended one passage, made by
`finishSection` from the start reference. -/
theorem parseSection_next {p : BiblePassageParser} {st st1 : LoopState} {sec : Str}
    (h : p.parseSection st sec = .next st1) :
    ∃ (start : Str) (r : StartResult) (t : BibleReference) (lb : Str) (lc lv : Option Int),
      p.parseStartReference start st.lastBook st.lastChapter st.lastVerse = .ok r ∧
      finishSection st r.fromRef t lb lc lv = .next st1 := by
  unfold BiblePassageParser.parseSection at h
  split at h
  · cases h
  · rename_i start _
    cases hs : p.parseStartReference start st.lastBook st.lastChapter st.lastVerse with
    | error e => rw [hs] at h; cases h
    | ok r =>
      rw [hs] at h
      obtain ⟨t, lb, lc, lv, hf⟩ := singleReference_next h
      exact ⟨start, r, t, lb, lc, lv, hs, hf⟩
  · rename_i start endText _
    cases hs : p.parseStartReference start st.lastBook st.lastChapter st.lastVerse with
    | error e => rw [hs] at h; cases h
    | ok r =>
      rw [hs] at h
      obtain ⟨t, lb, lc, lv, hf⟩ := rangeReference_next h
      exact ⟨start, r, t, lb, lc, lv, hs, hf⟩
  · cases h

/-- Whatever holds of the passages carried into the loop and of each passage a
turn appends holds of every passage the loop returns. -/
theorem parseSections_forall (p : BiblePassageParser) (Q : BiblePassage → Prop)
    (hstep : ∀ (st st1 : LoopState) (sec : Str), p.parseSection st sec = .next st1 →
      ∃ x, st1.passages = st.passages ++ [x] ∧ Q x) :
    ∀ (secs : List Str) (st : LoopState) (ps : List BiblePassage),
      (∀ x ∈ st.passages, Q x) → p.parseSections secs st = .ret (some ps, none) →
      ∀ x ∈ ps, Q x := by
  intro secs
  induction secs with
  | nil =>
    intro st ps hst h
    simp only [BiblePassageParser.parseSections, Outcome.ret.injEq, Prod.mk.injEq,
      Option.some.injEq, and_true] at h
    rw [← h]; exact hst
  | cons sec rest ih =>
    intro st ps hst h
    unfold BiblePassageParser.parseSections at h
    split at h
    · exact ih st ps hst h
    · cases hsec : p.parseSection st (TrimSpace sec) with
      | next st1 =>
        rw [hsec] at h
        obtain ⟨x, hx, hQ⟩ := hstep st st1 _ hsec
        refine ih st1 ps ?_ h
        intro y hy
        rw [hx] at hy
        rcases List.mem_append.1 hy with hy | hy
        · exact hst y hy
        · rw [List.mem_singleton.1 hy]; exact hQ
      | fail e => rw [hsec] at h; cases h
      | panic => rw [hsec] at h; cases h

/-- The loop returns the passages without error, or an error without passages,
or it panics. -/
theorem parseSections_shape (p : BiblePassageParser) :
    ∀ (secs : List Str) (st : LoopState),
      (∃ ps, p.parseSections secs st = .ret (some ps, none)) ∨
      (∃ e, p.parseSections secs st = .ret (none, some e)) ∨
      p.parseSections secs st = .panic := by
  intro secs
  induction secs with
  | nil => intro st; exact Or.inl ⟨st.passages, rfl⟩
  | cons sec rest ih =>
    intro st
    unfold BiblePassageParser.parseSections
    split
    · exact ih st
    · cases hsec : p.parseSection st (TrimSpace sec) with
      | next st1 => exact ih st1
      | fail e => exact Or.inr (Or.inl ⟨e, rfl⟩)
      | panic => exact Or.inr (Or.inr rfl)

/-- `Parse` returns the passages without error, or an error without passages,
or it panics. -/
theorem Parse_shape (p : BiblePassageParser) (versesString : Str) :
    (∃ ps, p.Parse versesString = .ret (some ps, none)) ∨
    (∃ e, p.Parse versesString = .ret (none, some e)) ∨
    p.Parse versesString = .panic := by
  unfold BiblePassageParser.Parse
  split
  · exact Or.inr (Or.inl ⟨_, rfl⟩)
  · split
    · exact Or.inr (Or.inr rfl)
    · exact parseSections_shape p _ _

/-- `Parse` on a text that is not blank is the clause loop on its sections. -/
theorem Parse_eq_parseSections {p : BiblePassageParser} {versesString : Str}
    {r : ParseReturn} (h : p.Parse versesString = .ret r)
    (hne : TrimSpace versesString ≠ []) :
    ∃ secs, SplitOnSeparators p.separators (normalise versesString) = some secs ∧
      p.parseSections secs
        { passages := [], lastBook := [], lastChapter := none, lastVerse := none } = .ret r := by
  unfold BiblePassageParser.Parse at h
  rw [if_neg hne] at h
  cases hs : SplitOnSeparators p.separators (normalise versesString) with
  | none => rw [hs] at h; cases h
  | some secs => rw [hs] at h; exact ⟨secs, rfl, h⟩

theorem TrimSpace_eq_nil_of_forall_isSpace (s : Str) (h : ∀ c ∈ s, isSpace c = true) :
    TrimSpace s = [] := by
  have h1 : s.dropWhile isSpace = [] := List.dropWhile_eq_nil_iff.2 h
  simp [TrimSpace, TrimRightFunc, h1]

/-! ## Claims about `Parse` as a whole -/

/-- A clause that fails ends the loop with its error and the nil slice, whatever
passages the state holds. -/
theorem parseSections_fail (p : BiblePassageParser) (st : LoopState) (sec : Str)
    (rest : List Str) (e : ParseError) (hne : TrimSpace sec ≠ [])
    (h : p.parseSection st (TrimSpace sec) = .fail e) :
    p.parseSections (sec :: rest) st = .ret (none, some e) := by
  unfold BiblePassageParser.parseSections
  rw [if_neg hne, h]

/-! ### The loop after the clauses that resolve -/

theorem parseSections_stateAfter (p : BiblePassageParser) :
    ∀ (before rest : List Str) (st st1 : LoopState), p.stateAfter before st = some st1 →
      p.parseSections (before ++ rest) st = p.parseSections rest st1 := by
  intro before
  induction before with
  | nil =>
    intro rest st st1 h
    simp only [BiblePassageParser.stateAfter, Option.some.injEq] at h
    rw [h]; rfl
  | cons b before ih =>
    intro rest st st1 h
    rw [List.cons_append]
    unfold BiblePassageParser.stateAfter at h
    conv => lhs; unfold BiblePassageParser.parseSections
    by_cases hb : TrimSpace b = []
    · rw [if_pos hb] at h ⊢; exact ih rest st st1 h
    · rw [if_neg hb] at h ⊢
      cases hsec : p.parseSection st (TrimSpace b) with
      | next st2 => rw [hsec] at h; exact ih rest st2 st1 h
      | fail e => rw [hsec] at h; cases h
      | panic => rw [hsec] at h; cases h

/-- A clause that fails, reached after clauses that are blank or resolve, makes
`Parse` return an error and the nil slice; on a text that is not blank the
error is the one of the clause. -/
theorem Parse_failing_clause (p : BiblePassageParser) (text : Str) (before rest : List Str)
    (sec : Str) (st : LoopState) (e : ParseError)
    (hsplit : SplitOnSeparators p.separators (normalise text) = some (before ++ sec :: rest))
    (hbefore : p.stateAfter before initialState = some st)
    (hne : TrimSpace sec ≠ [])
    (hfail : p.parseSection st (TrimSpace sec) = .fail e) :
    (∃ e1, p.Parse text = .ret (none, some e1)) ∧
      (TrimSpace text ≠ [] → p.Parse text = .ret (none, some e)) := by
  have key : TrimSpace text ≠ [] → p.Parse text = .ret (none, some e) := by
    intro ht
    unfold BiblePassageParser.Parse
    rw [if_neg ht, hsplit]
    show p.parseSections (before ++ sec :: rest) initialState = _
    rw [parseSections_stateAfter p before (sec :: rest) _ st hbefore]
    exact parseSections_fail p st sec rest e hne hfail
  refine ⟨?_, key⟩
  by_cases ht : TrimSpace text = []
  · exact ⟨.unableToParse, by unfold BiblePassageParser.Parse; rw [if_pos ht]⟩
  · exact ⟨e, key ht⟩

/-! ### The references of a clause -/

theorem singleReference_end {p : BiblePassageParser} {r : StartResult} {t : BibleReference}
    (st : LoopState) (h : p.singleEnd r = some t) :
    p.singleReference st r = finishSection st r.fromRef t r.lastBook r.lastChapter r.lastVerse := by
  obtain ⟨fr, sv, lb, lc, lv, lf⟩ := r
  unfold BiblePassageParser.singleEnd at h
  unfold BiblePassageParser.singleReference
  cases hb : p.getBookFromAbbreviation lb with
  | error e => simp only [hb] at h; cases h
  | ok b =>
    simp only [hb] at h ⊢
    by_cases hsv : sv ≠ none
    · rw [if_pos hsv] at h ⊢
      cases h; rfl
    · rw [if_neg hsv] at h ⊢
      cases lc <;> cases lv <;> simp only at h ⊢ <;>
        (generalize NewBibleReference b _ _ _ = res at h ⊢
         cases res with
         | error e => cases h
         | ok tr => cases h; rfl)

theorem singleReference_no_end {p : BiblePassageParser} {r : StartResult}
    (st : LoopState) (h : p.singleEnd r = none) :
    ∃ e, p.singleReference st r = .fail e := by
  obtain ⟨fr, sv, lb, lc, lv, lf⟩ := r
  unfold BiblePassageParser.singleEnd at h
  unfold BiblePassageParser.singleReference
  cases hb : p.getBookFromAbbreviation lb with
  | error e => exact ⟨e, rfl⟩
  | ok b =>
    simp only [hb] at h ⊢
    by_cases hsv : sv ≠ none
    · rw [if_pos hsv] at h
      cases h
    · rw [if_neg hsv] at h ⊢
      cases lc <;> cases lv <;> simp only at h ⊢ <;>
        (generalize NewBibleReference b _ _ _ = res at h ⊢
         cases res with
         | error e => exact ⟨e, rfl⟩
         | ok tr => cases h)

theorem rangeReference_end {p : BiblePassageParser} {r : StartResult} {endText : Str}
    {t : BibleReference} (st : LoopState) (h : p.rangeEnd r endText = some t) :
    ∃ (lb : Str) (lc lv : Option Int),
      p.rangeReference st r endText = finishSection st r.fromRef t lb lc lv := by
  obtain ⟨fr, sv, lb, lc, lv, lf⟩ := r
  unfold BiblePassageParser.rangeEnd at h
  unfold BiblePassageParser.rangeReference
  cases hm : parseReference endText with
  | error e => rw [hm] at h; cases h
  | ok m =>
    rw [hm] at h
    simp only at h ⊢
    generalize p.getBookFromAbbreviation _ = bres at h ⊢
    cases bres with
    | error e => cases h
    | ok b =>
      simp only at h ⊢
      cases hv : endChapterOrVerse b sv lc m with
      | none => rw [hv] at h; cases h
      | some v1 =>
        rw [hv] at h
        simp only at h ⊢
        generalize endVerseField m v1 = v at h ⊢
        obtain ⟨ec, ev, ef⟩ := v
        cases ec <;> cases ev <;> cases lc <;> simp only at h ⊢ <;>
          (generalize NewBibleReference b _ _ _ = res at h ⊢
           cases res with
           | error e => cases h
           | ok tr => cases h; exact ⟨_, _, _, rfl⟩)

theorem rangeReference_no_end {p : BiblePassageParser} {r : StartResult} {endText : Str}
    (st : LoopState) (h : p.rangeEnd r endText = none) :
    (∃ e, p.rangeReference st r endText = .fail e) ∨ p.rangeReference st r endText = .panic := by
  obtain ⟨fr, sv, lb, lc, lv, lf⟩ := r
  unfold BiblePassageParser.rangeEnd at h
  unfold BiblePassageParser.rangeReference
  cases hm : parseReference endText with
  | error e => exact Or.inl ⟨e, rfl⟩
  | ok m =>
    rw [hm] at h
    simp only at h ⊢
    generalize p.getBookFromAbbreviation _ = bres at h ⊢
    cases bres with
    | error e => exact Or.inl ⟨e, rfl⟩
    | ok b =>
      simp only at h ⊢
      cases hv : endChapterOrVerse b sv lc m with
      | none => exact Or.inr rfl
      | some v1 =>
        rw [hv] at h
        simp only at h ⊢
        generalize endVerseField m v1 = v at h ⊢
        obtain ⟨ec, ev, ef⟩ := v
        cases ec <;> cases ev <;> cases lc <;> simp only at h ⊢ <;>
          (generalize NewBibleReference b _ _ _ = res at h ⊢
           cases res with
           | error e => exact Or.inl ⟨e, rfl⟩
           | ok tr => cases h)

/-- The loop body ends a clause that resolves with the ordering test on the two
references the clause resolves to. -/
theorem parseSection_references {p : BiblePassageParser} {st : LoopState} {sec : Str}
    {f t : BibleReference} (h : p.sectionReferences st sec = some (f, t)) :
    ∃ (lb : Str) (lc lv : Option Int),
      p.parseSection st sec = finishSection st f t lb lc lv := by
  unfold BiblePassageParser.sectionReferences at h
  unfold BiblePassageParser.parseSection
  split at h
  · rename_i start heq
    rw [heq]
    simp only
    cases hs : p.parseStartReference start st.lastBook st.lastChapter st.lastVerse with
    | error e => rw [hs] at h; cases h
    | ok r =>
      rw [hs] at h
      simp only at h ⊢
      cases he : p.singleEnd r with
      | none => rw [he] at h; cases h
      | some t1 =>
        rw [he] at h
        cases h
        exact ⟨_, _, _, singleReference_end st he⟩
  · rename_i start endText heq
    rw [heq]
    simp only
    cases hs : p.parseStartReference start st.lastBook st.lastChapter st.lastVerse with
    | error e => rw [hs] at h; cases h
    | ok r =>
      rw [hs] at h
      simp only at h ⊢
      cases he : p.rangeEnd r endText with
      | none => rw [he] at h; cases h
      | some t1 =>
        rw [he] at h
        cases h
        exact rangeReference_end st he
  · cases h

/-- A clause that does not resolve is never appended: the loop body returns an
error or panics. -/
theorem parseSection_no_references {p : BiblePassageParser} {st : LoopState} {sec : Str}
    (h : p.sectionReferences st sec = none) :
    (∃ e, p.parseSection st sec = .fail e) ∨ p.parseSection st sec = .panic := by
  unfold BiblePassageParser.sectionReferences at h
  unfold BiblePassageParser.parseSection
  split at h
  · rename_i start heq
    rw [heq]
    simp only
    cases hs : p.parseStartReference start st.lastBook st.lastChapter st.lastVerse with
    | error e => exact Or.inl ⟨e, rfl⟩
    | ok r =>
      rw [hs] at h
      simp only at h ⊢
      cases he : p.singleEnd r with
      | none => exact Or.inl (singleReference_no_end st he)
      | some t1 => rw [he] at h; cases h
  · rename_i start endText heq
    rw [heq]
    simp only
    cases hs : p.parseStartReference start st.lastBook st.lastChapter st.lastVerse with
    | error e => exact Or.inl ⟨e, rfl⟩
    | ok r =>
      rw [hs] at h
      simp only at h ⊢
      cases he : p.rangeEnd r endText with
      | none => exact rangeReference_no_end st he
      | some t1 => rw [he] at h; cases h
  · rename_i hne1 hne2
    split
    · exact Or.inr rfl
    · rename_i start heq; exact absurd heq (hne1 start)
    · rename_i start endText heq; exact absurd heq (hne2 start endText)
    · exact Or.inl ⟨_, rfl⟩

/-- A turn of the loop that goes on has appended the passage of the two
references the clause resolves to. -/
theorem parseSection_next_references {p : BiblePassageParser} {st st1 : LoopState} {sec : Str}
    (h : p.parseSection st sec = .next st1) :
    ∃ f t, p.sectionReferences st sec = some (f, t) ∧
      f.IntegerNotation ≤ t.IntegerNotation ∧
      st1.passages = st.passages ++ [NewBiblePassage f t] := by
  cases hr : p.sectionReferences st sec with
  | none =>
    rcases parseSection_no_references hr with ⟨e, he⟩ | he
    · rw [he] at h; cases h
    · rw [he] at h; cases h
  | some ft =>
    obtain ⟨f, t⟩ := ft
    obtain ⟨lb, lc, lv, hf⟩ := parseSection_references hr
    rw [hf] at h
    obtain ⟨hle, hst⟩ := finishSection_next h
    exact ⟨f, t, rfl, hle, by rw [hst]⟩

/-- A clause whose end sorts before its start is refused by the loop body. -/
theorem parseSection_inverted {p : BiblePassageParser} {st : LoopState} {sec : Str}
    {f t : BibleReference} (h : p.sectionReferences st sec = some (f, t))
    (hinv : t.IntegerNotation < f.IntegerNotation) :
    p.parseSection st sec = .fail .endBeforeBeginning := by
  obtain ⟨lb, lc, lv, hf⟩ := parseSection_references h
  rw [hf]
  unfold finishSection
  rw [if_pos hinv]

/-- A clause that resolves with its end before its start, reached after clauses
that are blank or resolve, makes `Parse` return an error and the nil slice. -/
theorem Parse_inverted_clause (p : BiblePassageParser) (text : Str) (before rest : List Str)
    (sec : Str) (st : LoopState) (f t : BibleReference)
    (hsplit : SplitOnSeparators p.separators (normalise text) = some (before ++ sec :: rest))
    (hbefore : p.stateAfter before initialState = some st)
    (hne : TrimSpace sec ≠ [])
    (href : p.sectionReferences st (TrimSpace sec) = some (f, t))
    (hinv : t.IntegerNotation < f.IntegerNotation) :
    (∃ e, p.Parse text = .ret (none, some e)) ∧
      (TrimSpace text ≠ [] → p.Parse text = .ret (none, some .endBeforeBeginning)) :=
  Parse_failing_clause p text before rest sec st .endBeforeBeginning hsplit hbefore hne
    (parseSection_inverted href hinv)

/-- Every passage `Parse` returns has a start whose `IntegerNotation` is at most
that of its end. -/
theorem Parse_passages_ordered (p : BiblePassageParser) (text : Str) (ps : List BiblePassage)
    (h : p.Parse text = .ret (some ps, none)) :
    ∀ x ∈ ps, x.From.IntegerNotation ≤ x.To.IntegerNotation := by
  have hne : TrimSpace text ≠ [] := by
    intro hblank
    unfold BiblePassageParser.Parse at h
    rw [if_pos hblank] at h
    cases h
  obtain ⟨secs, _, hloop⟩ := Parse_eq_parseSections h hne
  refine parseSections_forall p (fun x => x.From.IntegerNotation ≤ x.To.IntegerNotation) ?_
    secs _ ps (by intro x hx; cases hx) hloop
  intro st st1 sec hsec
  obtain ⟨_, r, t, lb, lc, lv, _, hf⟩ := parseSection_next hsec
  obtain ⟨hle, hst⟩ := finishSection_next hf
  exact ⟨NewBiblePassage r.fromRef t, by rw [hst], hle⟩

/-- When `Parse` returns an error it returns the nil slice with it. -/
theorem Parse_error_nil (p : BiblePassageParser) (text : Str)
    (ps : Option (List BiblePassage)) (e : ParseError)
    (h : p.Parse text = .ret (ps, some e)) : ps = none := by
  rcases Parse_shape p text with ⟨ps1, h1⟩ | ⟨e1, h1⟩ | h1
  · rw [h1] at h; cases h
  · rw [h1] at h; cases h; rfl
  · rw [h1] at h; cases h

/-- C1: every passage `Parse` returns has a start whose `IntegerNotation` is at
most that of its end; and a clause that resolves to an end sorting before its
start, reached in the loop after clauses that are blank or resolve, makes
`Parse` return an error and the nil slice instead of the passage: on a text
that is not blank, the end-before-beginning error. -/
theorem C1_passages_ordered (p : BiblePassageParser) (text : Str) :
    (∀ ps, p.Parse text = .ret (some ps, none) →
      ∀ x ∈ ps, x.From.IntegerNotation ≤ x.To.IntegerNotation) ∧
    (∀ (before rest : List Str) (sec : Str) (st : LoopState) (f t : BibleReference),
      SplitOnSeparators p.separators (normalise text) = some (before ++ sec :: rest) →
      p.stateAfter before initialState = some st →
      TrimSpace sec ≠ [] →
      p.sectionReferences st (TrimSpace sec) = some (f, t) →
      t.IntegerNotation < f.IntegerNotation →
      (∃ e, p.Parse text = .ret (none, some e)) ∧
        (TrimSpace text ≠ [] → p.Parse text = .ret (none, some .endBeforeBeginning))) :=
  ⟨fun ps h => Parse_passages_ordered p text ps h,
   fun before rest sec st f t hsplit hbefore hne href hinv =>
     Parse_inverted_clause p text before rest sec st f t hsplit hbefore hne href hinv⟩

/-- C1 at "John 3:16-18", which yields John 3:16 to 3:18; at "John 20-3", whose
only clause resolves to John 20:1 and John 3:36 and is refused; and at
"Jude 1; John 3:18-16", whose second clause resolves to John 3:18 and 3:16
after the first one has produced a passage. -/
theorem C1_passages_ordered_witness :
    sampleParser.Parse "John 3:16-18".toList =
        .ret (some [NewBiblePassage (mkRef (sampleBook 43) 3 16 []) (mkRef (sampleBook 43) 3 18 [])],
          none) ∧
    (∀ x ∈ [NewBiblePassage (mkRef (sampleBook 43) 3 16 []) (mkRef (sampleBook 43) 3 18 [])],
      x.From.IntegerNotation ≤ x.To.IntegerNotation) ∧
    sampleParser.sectionReferences initialState "John 20-3".toList =
        some (mkRef (sampleBook 43) 20 1 [], mkRef (sampleBook 43) 3 36 []) ∧
    sampleParser.Parse "John 20-3".toList = .ret (none, some .endBeforeBeginning) ∧
    sampleParser.stateAfter ["Jude 1".toList] initialState =
        some { passages := [NewBiblePassage (mkRef (sampleBook 65) 1 1 [])
                 (mkRef (sampleBook 65) 1 25 [])],
               lastBook := "Jude".toList, lastChapter := some 1, lastVerse := none } ∧
    sampleParser.Parse "Jude 1; John 3:18-16".toList = .ret (none, some .endBeforeBeginning) :=
  ⟨rfl, (C1_passages_ordered sampleParser "John 3:16-18".toList).1 _ rfl, rfl,
   ((C1_passages_ordered sampleParser "John 20-3".toList).2 [] [] "John 20-3".toList
      initialState (mkRef (sampleBook 43) 20 1 []) (mkRef (sampleBook 43) 3 36 [])
      (by decide) rfl (by decide) rfl (by decide)).2 (by decide),
   rfl,
   ((C1_passages_ordered sampleParser "Jude 1; John 3:18-16".toList).2 ["Jude 1".toList] []
      " John 3:18-16".toList
      { passages := [NewBiblePassage (mkRef (sampleBook 65) 1 1 [])
          (mkRef (sampleBook 65) 1 25 [])],
        lastBook := "Jude".toList, lastChapter := some 1, lastVerse := none }
      (mkRef (sampleBook 43) 3 18 []) (mkRef (sampleBook 43) 3 16 [])
      (by decide) rfl (by decide) rfl (by decide)).2 (by decide)⟩

/-- C5: a clause that fails, reached in the loop after clauses that are blank
or resolve, makes `Parse` return an error together with the nil slice, whatever
passages the clauses before it had produced; on a text that is not blank the
error is that of the failing clause. -/
theorem C5_all_or_nothing (p : BiblePassageParser) (text : Str) (before rest : List Str)
    (sec : Str) (st : LoopState) (e : ParseError)
    (hsplit : SplitOnSeparators p.separators (normalise text) = some (before ++ sec :: rest))
    (hbefore : p.stateAfter before initialState = some st)
    (hne : TrimSpace sec ≠ [])
    (hfail : p.parseSection st (TrimSpace sec) = .fail e) :
    (∃ e1, p.Parse text = .ret (none, some e1)) ∧
      (TrimSpace text ≠ [] → p.Parse text = .ret (none, some e)) :=
  Parse_failing_clause p text before rest sec st e hsplit hbefore hne hfail

/-- C5 at "John 3:16; Bob" and at "John 3:16; John 30:1; Jude 1": the first
clause resolves to John 3:16, the second names no book, or a chapter John does
not have, and nothing is returned with the error. -/
theorem C5_all_or_nothing_witness :
    sampleParser.stateAfter ["John 3:16".toList] initialState =
        some { passages := [NewBiblePassage (mkRef (sampleBook 43) 3 16 [])
                 (mkRef (sampleBook 43) 3 16 [])],
               lastBook := "John".toList, lastChapter := some 3, lastVerse := some 16 } ∧
    sampleParser.Parse "John 3:16; Bob".toList = .ret (none, some .invalidBookName) ∧
    sampleParser.Parse "John 3:16; John 30:1; Jude 1".toList =
        .ret (none, some .chapterDoesNotExist) :=
  ⟨rfl,
   (C5_all_or_nothing sampleParser "John 3:16; Bob".toList ["John 3:16".toList] []
      " Bob".toList
      { passages := [NewBiblePassage (mkRef (sampleBook 43) 3 16 [])
          (mkRef (sampleBook 43) 3 16 [])],
        lastBook := "John".toList, lastChapter := some 3, lastVerse := some 16 }
      .invalidBookName (by decide) rfl (by decide) rfl).2 (by decide),
   (C5_all_or_nothing sampleParser "John 3:16; John 30:1; Jude 1".toList ["John 3:16".toList]
      [" Jude 1".toList] " John 30:1".toList
      { passages := [NewBiblePassage (mkRef (sampleBook 43) 3 16 [])
          (mkRef (sampleBook 43) 3 16 [])],
        lastBook := "John".toList, lastChapter := some 3, lastVerse := some 16 }
      .chapterDoesNotExist (by decide) rfl (by decide) rfl).2 (by decide)⟩

/-- C6: on a text that is empty or holds only white space `Parse` returns the
unable-to-parse error and no passages. -/
theorem C6_blank_input (p : BiblePassageParser) (text : Str)
    (h : ∀ c ∈ text, isSpace c = true) :
    p.Parse text = .ret (none, some .unableToParse) := by
  unfold BiblePassageParser.Parse
  rw [if_pos (TrimSpace_eq_nil_of_forall_isSpace text h)]

/-- C6 at the empty text and at a text of blanks, a tab and a line feed. -/
theorem C6_blank_input_witness :
    sampleParser.Parse [] = .ret (none, some .unableToParse) ∧
    sampleParser.Parse " \t \n".toList = .ret (none, some .unableToParse) :=
  ⟨C6_blank_input sampleParser [] (by decide),
   C6_blank_input sampleParser " \t \n".toList (by decide)⟩

/-- C2 fails on the code: "John 3-25" is returned as a passage ending at
John 25:0 although John has no chapter 25 (the verse count of the missing
chapter is read as 0 and a verse 0 is not validated), and
"John 21:1 - Jude 0" as a passage ending at Jude 21:0. -/
theorem C2_end_reference_not_validated :
    sampleParser.Parse "John 3-25".toList =
        .ret (some [NewBiblePassage (mkRef (sampleBook 43) 3 1 []) (mkRef (sampleBook 43) 25 0 [])],
          none) ∧
    (sampleBook 43).ChapterStructure.lookup 25 = none ∧
    sampleParser.Parse "John 21:1 - Jude 0".toList =
        .ret (some [NewBiblePassage (mkRef (sampleBook 43) 21 1 []) (mkRef (sampleBook 65) 21 0 [])],
          none) ∧
    (sampleBook 65).ChapterStructure.lookup 21 = none :=
  ⟨rfl, by decide, rfl, by decide⟩

/-- C3 fails on the code: on "Obadiah v 5-end" the start half sets a verse and
leaves the chapter unset, and the `end` keyword then dereferences the unset
carried chapter: `Parse` panics. -/
theorem C3_end_keyword_panics :
    sampleParser.Parse "Obadiah v 5-end".toList = .panic ∧
    (sampleBook 31).ChaptersInBook = 1 ∧
    (∃ r, sampleParser.parseStartReference "Obadiah v 5".toList [] none none = .ok r ∧
      r.startVerse = some 5 ∧ r.lastChapter = none) :=
  ⟨rfl, by decide, ⟨_, rfl, rfl, rfl⟩⟩

theorem splitAux_ne_nil (sep : Str) : ∀ (s : Str) (skip : Nat), splitAux sep skip s ≠ [] := by
  intro s
  induction s with
  | nil => intro skip; cases skip <;> simp [splitAux]
  | cons c s ih =>
    intro skip
    cases skip with
    | succ k => simpa [splitAux] using ih k
    | zero =>
      unfold splitAux
      split
      · simp
      · split <;> simp

theorem split_hyphen_length (s : Str) :
    (Split s "-".toList).length = s.count '-' + 1 := by
  have hsep : "-".toList = ['-'] := rfl
  have key : ∀ t : Str, (splitAux ['-'] 0 t).length = t.count '-' + 1 := by
    intro t
    induction t with
    | nil => simp [splitAux]
    | cons c t ih =>
      unfold splitAux
      by_cases hc : c = '-'
      · subst hc
        simp [List.isPrefixOf, ih]
      · have hp : List.isPrefixOf ['-'] (c :: t) = false := by
          simp [List.isPrefixOf, Ne.symm hc]
        have hcount : (c :: t).count '-' = t.count '-' := by
          rw [List.count_cons]
          have : (c == '-') = false := by simpa using hc
          simp [this]
        rw [hp, hcount, ← ih]
        cases hsp : splitAux ['-'] 0 t with
        | nil => exact absurd hsp (splitAux_ne_nil _ _ _)
        | cons piece pieces => simp
  rw [hsep]
  unfold Split
  rw [if_neg (by simp)]
  exact key s

theorem count_dropWhile_hyphen (s : Str) :
    (s.dropWhile isSpace).count '-' = s.count '-' := by
  induction s with
  | nil => rfl
  | cons c s ih =>
    by_cases hc : isSpace c = true
    · have hne : (c == '-') = false := by
        by_contra h
        have : c = '-' := by simpa using h
        rw [this] at hc
        exact absurd hc (by decide)
      rw [List.dropWhile_cons_of_pos hc, ih, List.count_cons]
      simp [hne]
    · rw [List.dropWhile_cons_of_neg hc]

theorem count_TrimSpace_hyphen (s : Str) : (TrimSpace s).count '-' = s.count '-' := by
  unfold TrimSpace TrimRightFunc
  rw [List.count_reverse, count_dropWhile_hyphen, List.count_reverse, count_dropWhile_hyphen]

theorem parseSection_complex (p : BiblePassageParser) (st : LoopState) (sec : Str)
    (h : 2 ≤ sec.count '-') : p.parseSection st sec = .fail .rangeTooComplex := by
  have hlen := split_hyphen_length sec
  unfold BiblePassageParser.parseSection
  split
  · rename_i heq; rw [heq] at hlen; simp at hlen
  · rename_i heq; rw [heq] at hlen; simp at hlen; omega
  · rename_i heq; rw [heq] at hlen; simp at hlen; omega
  · rfl

/-- When some section holds two hyphens or more the loop never returns
passages: it returns an error, unless a clause before it panics. -/
theorem parseSections_complex (p : BiblePassageParser) :
    ∀ (secs : List Str) (st : LoopState), (∃ sec ∈ secs, 2 ≤ sec.count '-') →
      (∃ e, p.parseSections secs st = .ret (none, some e)) ∨
        p.parseSections secs st = .panic := by
  intro secs
  induction secs with
  | nil => intro st h; obtain ⟨sec, hmem, _⟩ := h; cases hmem
  | cons s rest ih =>
    intro st h
    obtain ⟨sec, hmem, hcount⟩ := h
    unfold BiblePassageParser.parseSections
    rcases List.mem_cons.1 hmem with heq | hrest
    · subst heq
      have htrim : 2 ≤ (TrimSpace sec).count '-' := by rw [count_TrimSpace_hyphen]; exact hcount
      have hne : TrimSpace sec ≠ [] := by
        intro hnil; rw [hnil] at htrim; simp at htrim
      rw [if_neg hne, parseSection_complex p st _ htrim]
      exact Or.inl ⟨_, rfl⟩
    · split
      · exact ih st ⟨sec, hrest, hcount⟩
      · cases hsec : p.parseSection st (TrimSpace s) with
        | next st1 => exact ih st1 ⟨sec, hrest, hcount⟩
        | fail e => exact Or.inl ⟨e, rfl⟩
        | panic => exact Or.inr rfl

/-- What the code does for C7: with a section of two hyphens or more, `Parse`
returns an error or panics in an earlier clause; it never returns passages. -/
theorem Parse_two_hyphens (p : BiblePassageParser) (text : Str) (secs : List Str) (sec : Str)
    (hsplit : SplitOnSeparators p.separators (normalise text) = some secs)
    (hmem : sec ∈ secs) (hcount : 2 ≤ sec.count '-') :
    (∃ e, p.Parse text = .ret (none, some e)) ∨ p.Parse text = .panic := by
  unfold BiblePassageParser.Parse
  split
  · exact Or.inl ⟨_, rfl⟩
  · rw [hsplit]
    exact parseSections_complex p secs _ ⟨sec, hmem, hcount⟩

/-- C7 fails on the code: in "Obadiah v 5-end; John 1-2-3" the second clause
holds two hyphens, but the first one panics before it is reached, so no error
is returned; on "John 1-2-3" alone the error is returned. -/
theorem C7_two_hyphens_after_panic :
    SplitOnSeparators sampleParser.separators (normalise "Obadiah v 5-end; John 1-2-3".toList) =
        some ["Obadiah v 5-end".toList, " John 1-2-3".toList] ∧
    sampleParser.Parse "Obadiah v 5-end; John 1-2-3".toList = .panic ∧
    sampleParser.Parse "John 1-2-3".toList = .ret (none, some .rangeTooComplex) :=
  ⟨by decide, rfl, rfl⟩

theorem parseSections_skip_blank (p : BiblePassageParser) (st : LoopState) :
    ∀ (before rest : List Str), (∀ s ∈ before, TrimSpace s = []) →
      p.parseSections (before ++ rest) st = p.parseSections rest st := by
  intro before
  induction before with
  | nil => intro rest _; rfl
  | cons b before ih =>
    intro rest hblank
    rw [List.cons_append]
    conv => lhs; unfold BiblePassageParser.parseSections
    rw [if_pos (hblank b (List.mem_cons_self _ _))]
    exact ih rest fun s hs => hblank s (List.mem_cons_of_mem _ hs)

theorem parseStartReference_unknown_book (p : BiblePassageParser) (start : Str) (m : Matches)
    (hkey : p.bookAbbr.lookup [] = none) (hparse : parseReference start = .ok m)
    (hbook : m.book = [] ∨ p.bookAbbr.lookup (StandardiseString m.book) = none) :
    p.parseStartReference start [] none none = .error .invalidBookName := by
  have hlook : p.bookAbbr.lookup
      (StandardiseString (if m.book ≠ [] then m.book else [])) = none := by
    rcases hbook with h | h
    · rw [h]; simpa [StandardiseString, TrimSpace, TrimRightFunc, ToLower] using hkey
    · by_cases hb : m.book = []
      · rw [hb]; simpa [StandardiseString, TrimSpace, TrimRightFunc, ToLower] using hkey
      · rw [if_pos hb]; exact h
  unfold BiblePassageParser.parseStartReference
  rw [hparse]
  simp only
  unfold BiblePassageParser.getBookFromAbbreviation BiblePassageParser.getBookNumber
  rw [hlook]

theorem parseSection_unknown_book (p : BiblePassageParser) (ps : List BiblePassage)
    (sec : Str) (m : Matches) (hkey : p.bookAbbr.lookup [] = none)
    (hparse : parseReference ((Split sec "-".toList).headD []) = .ok m)
    (hbook : m.book = [] ∨ p.bookAbbr.lookup (StandardiseString m.book) = none) :
    ∃ e, p.parseSection
      { passages := ps, lastBook := [], lastChapter := none, lastVerse := none } sec =
        .fail e := by
  unfold BiblePassageParser.parseSection
  generalize hsp : Split sec "-".toList = pieces at hparse
  rcases pieces with _ | ⟨start, _ | ⟨endText, _ | ⟨third, more⟩⟩⟩
  · exact absurd hsp (by unfold Split; simp [splitAux_ne_nil])
  · simp only [List.headD_cons] at hparse
    simp only [parseStartReference_unknown_book p start m hkey hparse hbook]
    exact ⟨_, rfl⟩
  · simp only [List.headD_cons] at hparse
    simp only [parseStartReference_unknown_book p start m hkey hparse hbook]
    exact ⟨_, rfl⟩
  · exact ⟨_, rfl⟩

/-- C8: over a parser with no empty lookup key, when the first clause that is
not blank has a start half whose book field is empty (nothing is carried yet) or
standardises to no registered name or abbreviation, `Parse` returns an error
and no passages. -/
theorem C8_unknown_book (p : BiblePassageParser) (text : Str) (before after : List Str)
    (sec : Str) (m : Matches)
    (hkey : p.bookAbbr.lookup [] = none)
    (hsplit : SplitOnSeparators p.separators (normalise text) = some (before ++ sec :: after))
    (hblank : ∀ s ∈ before, TrimSpace s = []) (hsec : TrimSpace sec ≠ [])
    (hparse : parseReference ((Split (TrimSpace sec) "-".toList).headD []) = .ok m)
    (hbook : m.book = [] ∨ p.bookAbbr.lookup (StandardiseString m.book) = none) :
    ∃ e, p.Parse text = .ret (none, some e) := by
  obtain ⟨e, he⟩ := parseSection_unknown_book p [] (TrimSpace sec) m hkey hparse hbook
  unfold BiblePassageParser.Parse
  split
  · exact ⟨_, rfl⟩
  · rw [hsplit]
    simp only
    rw [parseSections_skip_blank p _ before _ hblank]
    unfold BiblePassageParser.parseSections
    rw [if_neg hsec, he]
    exact ⟨e, rfl⟩

/-- C8 at "Bob", a name the table does not hold, and at "1", which names no
book at all. -/
theorem C8_unknown_book_witness :
    (∃ e, sampleParser.Parse "Bob".toList = .ret (none, some e)) ∧
    (∃ e, sampleParser.Parse "1".toList = .ret (none, some e)) :=
  ⟨C8_unknown_book sampleParser "Bob".toList [] [] "Bob".toList
      { book := "bob".toList, chapter_or_verse := [], verse := [] }
      (by decide) (by decide) (by intro s hs; cases hs) (by decide) rfl (Or.inr (by decide)),
   C8_unknown_book sampleParser "1".toList [] [] "1".toList
      { book := [], chapter_or_verse := ['1'], verse := [] }
      (by decide) (by decide) (by intro s hs; cases hs) (by decide) rfl (Or.inl rfl)⟩

/-- The inputs of the unknown-book tests, and a clause that opens with a
chapter and verse but no book: each is refused with the book-name error. -/
theorem unknown_book_examples :
    sampleParser.Parse "Bob".toList = .ret (none, some .invalidBookName) ∧
    sampleParser.Parse "1".toList = .ret (none, some .invalidBookName) ∧
    sampleParser.Parse "3:16".toList = .ret (none, some .invalidBookName) ∧
    parseReference "1".toList = .ok { book := [], chapter_or_verse := ['1'], verse := [] } ∧
    parseReference "3:16".toList =
      .ok { book := [], chapter_or_verse := ['3'], verse := ['1', '6'] } :=
  ⟨rfl, rfl, rfl, rfl, rfl⟩

/-! ## Canonical texts

The normaliser and the separator split leave a canonical text alone, and the
clause grammar reads each canonical shape back. -/

theorem digitChar_spec (k : Nat) (hk : k < 10) :
    isDigit (Char.ofNat (48 + k)) = true ∧ (Char.ofNat (48 + k)).toNat - 48 = k := by
  interval_cases k <;> decide

theorem digitsValue_eq_foldl (s : Str) : digitsValue s = s.foldl digitStep (some 0) := rfl

theorem fmtNatAux_spec : ∀ (fuel n : Nat) (acc : Str), n < fuel →
    ∃ ds : Str, fmtNatAux fuel n acc = ds ++ acc ∧ ds ≠ [] ∧ (∀ c ∈ ds, isDigit c = true) ∧
      ∀ a : Nat, ds.foldl digitStep (some a) = some (a * 10 ^ ds.length + n) := by
  intro fuel
  induction fuel with
  | zero => intro n acc h; omega
  | succ fuel ih =>
    intro n acc h
    obtain ⟨hd, hv⟩ := digitChar_spec (n % 10) (Nat.mod_lt _ (by norm_num))
    unfold fmtNatAux
    by_cases h0 : n / 10 = 0
    · simp only [h0, if_true]
      refine ⟨[Char.ofNat (48 + n % 10)], rfl, by simp, ?_, ?_⟩
      · intro c hc; rw [List.mem_singleton.1 hc]; exact hd
      · intro a
        simp only [List.foldl, digitStep, Option.bind, hd, if_true, hv, List.length_singleton,
          pow_one]
        congr 1
        have : n % 10 = n := by omega
        omega
    · simp only [h0, if_false]
      have hlt : n / 10 < fuel := by omega
      obtain ⟨ds, heq, hne, hdig, hval⟩ := ih (n / 10) (Char.ofNat (48 + n % 10) :: acc) hlt
      refine ⟨ds ++ [Char.ofNat (48 + n % 10)], by rw [heq]; simp, by simp, ?_, ?_⟩
      · intro c hc
        rcases List.mem_append.1 hc with hc | hc
        · exact hdig c hc
        · rw [List.mem_singleton.1 hc]; exact hd
      · intro a
        rw [List.foldl_append, hval a]
        simp only [List.foldl, digitStep, Option.bind, hd, if_true, hv, List.length_append,
          List.length_singleton]
        congr 1
        rw [pow_succ]
        have := Nat.div_add_mod n 10
        nlinarith [Nat.div_add_mod n 10]

theorem fmtNat_spec (n : Nat) :
    fmtNat n ≠ [] ∧ (∀ c ∈ fmtNat n, isDigit c = true) ∧ digitsValue (fmtNat n) = some n := by
  obtain ⟨ds, heq, hne, hdig, hval⟩ := fmtNatAux_spec (n + 1) n [] (Nat.lt_succ_self n)
  unfold fmtNat
  rw [heq, List.append_nil]
  refine ⟨hne, hdig, ?_⟩
  rw [digitsValue_eq_foldl, hval 0]
  simp

theorem isNumeral_fmtNat (n : Nat) : IsNumeral (fmtNat n) n := fmtNat_spec n

theorem isDigit_not_sign {c : Char} (h : isDigit c = true) : c ≠ '-' ∧ c ≠ '+' := by
  constructor <;> (intro hc; rw [hc] at h; exact absurd h (by decide))

theorem isDigit_not_frag {c : Char} (h : isDigit c = true) : isFragLetter c = false := by
  simp only [isDigit, Bool.and_eq_true, decide_eq_true_eq] at h
  have h1 : c.toNat ≤ 57 := h.2
  simp only [isFragLetter, Bool.or_eq_false_iff, beq_eq_false_iff_ne, ne_eq]
  refine ⟨⟨⟨⟨⟨?_, ?_⟩, ?_⟩, ?_⟩, ?_⟩, ?_⟩ <;>
    (intro hc; rw [hc] at h1; exact absurd h1 (by decide))

theorem Atoi_numeral {ds : Str} {n : Nat} (h : IsNumeral ds n) (hn : n < 2 ^ 63) :
    Atoi ds = (n : Int) := by
  obtain ⟨hne, hdig, hval⟩ := h
  obtain ⟨c, t, rfl⟩ := List.exists_cons_of_ne_nil hne
  have hc := isDigit_not_sign (hdig c (List.mem_cons_self _ _))
  unfold Atoi
  simp only [List.head?_cons, Option.some.injEq, hc.1, hc.2, or_self, if_false, hval]
  simp only [reduceCtorEq, if_false, decide_False, Bool.false_eq_true]
  rw [if_neg (by omega)]

theorem getLast?_append_frag (ds f : Str) (hf : f ≠ []) (hfr : IsFrag f) :
    (ds ++ f).getLast? = f.head? ∧ (ds ++ f).dropLast = ds := by
  rcases hfr with h | h | h | h
  · exact absurd h hf
  all_goals (subst h; simp [List.getLast?_append, List.dropLast_append_cons])

theorem parseNumFragment_numeral {ds f : Str} {n : Nat} (h : IsNumeral ds n) (hn : n < 2 ^ 63)
    (hf : IsFrag f) : parseNumFragment (ds ++ f) = ((n : Int), f) := by
  have hA := Atoi_numeral h hn
  obtain ⟨hne, hdig, hval⟩ := h
  unfold parseNumFragment
  rcases hf with h0 | h1 | h1 | h1
  · subst h0
    rw [List.append_nil]
    have hl : ds.getLast? = some (ds.getLast hne) := List.getLast?_eq_getLast _ hne
    have hnf := isDigit_not_frag (hdig _ (List.getLast_mem hne))
    simp [hl, hnf, hne, hA]
  all_goals
    subst h1
    simp [List.getLast?_append, isFragLetter, ToLower, toLowerRune, List.dropLast_append_cons,
      hne, hA]
    try decide

theorem TrimRightFunc_numeral_frag {ds f : Str} {n : Nat} (h : IsNumeral ds n) (hf : IsFrag f) :
    TrimRightFunc (ds ++ f) isFragLetter = ds := by
  obtain ⟨hne, hdig, _⟩ := h
  have hds : (ds.reverse.dropWhile isFragLetter) = ds.reverse := by
    obtain ⟨c, t, hct⟩ := List.exists_cons_of_ne_nil (by simpa using hne : ds.reverse ≠ [])
    rw [hct, List.dropWhile_cons_of_neg]
    have : c ∈ ds := by
      have : c ∈ ds.reverse := by rw [hct]; exact List.mem_cons_self _ _
      simpa using this
    simp [isDigit_not_frag (hdig c this)]
  unfold TrimRightFunc
  rcases hf with h0 | h1 | h1 | h1
  · subst h0; simp [hds]
  all_goals
    subst h1
    rw [List.reverse_append]
    simp only [List.reverse_cons, List.reverse_nil, List.nil_append, List.singleton_append]
    rw [List.dropWhile_cons_of_pos (by decide), hds, List.reverse_reverse]

theorem endNumber_numeral {ds f : Str} {n : Nat} (h : IsNumeral ds n) (hn : n < 2 ^ 63)
    (hf : IsFrag f) : endNumber (ds ++ f) = (n : Int) := by
  unfold endNumber
  rw [TrimRightFunc_numeral_frag h hf, Atoi_numeral h hn]

theorem trailingFragment_numeral {ds f : Str} {n : Nat} (h : IsNumeral ds n) (hf : IsFrag f) :
    trailingFragment (ds ++ f) [] = f := by
  obtain ⟨hne, hdig, _⟩ := h
  unfold trailingFragment
  rcases hf with h0 | h1 | h1 | h1
  · subst h0
    rw [List.append_nil, List.getLast?_eq_getLast _ hne]
    simp [isDigit_not_frag (hdig _ (List.getLast_mem hne))]
  all_goals
    subst h1
    simp [List.getLast?_append, isFragLetter, ToLower, toLowerRune]
    try decide

theorem fmtInt_of_nonneg {i : Int} (h : 0 ≤ i) : fmtInt i = fmtNat i.toNat := by
  unfold fmtInt
  rw [if_neg (by omega)]

theorem headNot_nil (p : Char → Bool) : HeadNot p [] := by intro c h; cases h

theorem headNot_cons {p : Char → Bool} {c : Char} {s : Str} (h : p c = false) :
    HeadNot p (c :: s) := by
  intro d hd
  simp only [List.head?_cons, Option.some.injEq] at hd
  rw [← hd]; exact h

theorem matchAt_eq_first (rx : Rx) (full : Nat) (s : Str) :
    rx.matchAt full s = rx.first full s [] := rfl

theorem head?_append_of_head? {α : Type} {l : List α} {x : α} (m : List α)
    (h : l.head? = some x) : (l ++ m).head? = some x := by
  cases l with
  | nil => cases h
  | cons a t => simpa using h

theorem starRests_head (p : Char → Bool) (xs rest : Str) (hxs : ∀ c ∈ xs, p c = true)
    (hrest : HeadNot p rest) : (starRests p (xs ++ rest)).head? = some rest := by
  induction xs with
  | nil =>
    cases rest with
    | nil => rfl
    | cons c r =>
      have := hrest c rfl
      simp [starRests, this]
  | cons x xs ih =>
    have hx : p x = true := hxs x (List.mem_cons_self _ _)
    rw [List.cons_append, starRests, if_pos hx]
    exact head?_append_of_head? _ (ih fun c hc => hxs c (List.mem_cons_of_mem _ hc))

theorem plusRests_head (p : Char → Bool) (xs rest : Str) (hne : xs ≠ [])
    (hxs : ∀ c ∈ xs, p c = true) (hrest : HeadNot p rest) :
    (plusRests p (xs ++ rest)).head? = some rest := by
  obtain ⟨x, t, rfl⟩ := List.exists_cons_of_ne_nil hne
  have hx : p x = true := hxs x (List.mem_cons_self _ _)
  rw [List.cons_append, plusRests, if_pos hx]
  exact starRests_head p t rest (fun c hc => hxs c (List.mem_cons_of_mem _ hc)) hrest

theorem plusRests_nil (p : Char → Bool) (s : Str) (h : HeadNot p s) : plusRests p s = [] := by
  cases s with
  | nil => rfl
  | cons c t => simp [plusRests, h c rfl]

theorem mem_starRests {p : Char → Bool} {s r : Str} (h : r ∈ starRests p s) :
    ∃ pre, s = pre ++ r ∧ ∀ c ∈ pre, p c = true := by
  induction s with
  | nil =>
    simp only [starRests, List.mem_singleton] at h
    exact ⟨[], by rw [h]; rfl, by intro c hc; cases hc⟩
  | cons x t ih =>
    unfold starRests at h
    by_cases hx : p x = true
    · rw [if_pos hx] at h
      rcases List.mem_append.1 h with h | h
      · obtain ⟨pre, hpre, hall⟩ := ih h
        refine ⟨x :: pre, by rw [hpre]; rfl, ?_⟩
        intro c hc
        rcases List.mem_cons.1 hc with hc | hc
        · rw [hc]; exact hx
        · exact hall c hc
      · rw [List.mem_singleton.1 h]
        exact ⟨[], rfl, by intro c hc; cases hc⟩
    · rw [if_neg hx] at h
      rw [List.mem_singleton.1 h]
      exact ⟨[], rfl, by intro c hc; cases hc⟩

theorem mem_plusRests {p : Char → Bool} {s r : Str} (h : r ∈ plusRests p s) :
    ∃ pre, pre ≠ [] ∧ s = pre ++ r ∧ ∀ c ∈ pre, p c = true := by
  cases s with
  | nil => simp [plusRests] at h
  | cons x t =>
    simp only [plusRests] at h
    by_cases hx : p x = true
    · rw [if_pos hx] at h
      obtain ⟨pre, hpre, hall⟩ := mem_starRests h
      refine ⟨x :: pre, by simp, by rw [hpre]; rfl, ?_⟩
      intro c hc
      rcases List.mem_cons.1 hc with hc | hc
      · rw [hc]; exact hx
      · exact hall c hc
    · rw [if_neg hx] at h; cases h

/-! ### The best match of a compound expression -/

theorem first_eps (full : Nat) (s : Str) (caps : Caps) :
    Rx.eps.first full s caps = some (s, caps) := rfl

theorem first_chr {p : Char → Bool} {c : Char} (h : p c = true) (full : Nat) (s : Str)
    (caps : Caps) : (Rx.chr p).first full (c :: s) caps = some (s, caps) := by
  simp [Rx.first, Rx.run, h]

theorem run_chr_nil {p : Char → Bool} {s : Str} (h : HeadNot p s) (full : Nat) (caps : Caps) :
    (Rx.chr p).run full s caps = [] := by
  cases s with
  | nil => rfl
  | cons c t => simp [Rx.run, h c rfl]

theorem first_seq {a b : Rx} {full : Nat} {s s1 : Str} {caps c1 : Caps} {r : Str × Caps}
    (ha : a.first full s caps = some (s1, c1)) (hb : b.first full s1 c1 = some r) :
    (Rx.seq a b).first full s caps = some r := by
  unfold Rx.first at *
  rw [Rx.run]
  cases hl : a.run full s caps with
  | nil => rw [hl] at ha; cases ha
  | cons x more =>
    rw [hl] at ha
    simp only [List.head?_cons, Option.some.injEq] at ha
    subst ha
    rw [List.flatMap_cons]
    exact head?_append_of_head? _ hb

theorem run_seq_nil_left {a b : Rx} {full : Nat} {s : Str} {caps : Caps}
    (ha : a.run full s caps = []) : (Rx.seq a b).run full s caps = [] := by
  rw [Rx.run, ha]; rfl

theorem run_seq_nil {a b : Rx} {full : Nat} {s : Str} {caps : Caps}
    (h : ∀ r ∈ a.run full s caps, b.run full r.1 r.2 = []) :
    (Rx.seq a b).run full s caps = [] := by
  rw [Rx.run]
  exact List.flatMap_eq_nil_iff.2 h

theorem first_opt_some {a : Rx} {full : Nat} {s : Str} {caps : Caps} {r : Str × Caps}
    (ha : a.first full s caps = some r) : (Rx.opt a).first full s caps = some r := by
  unfold Rx.first at *
  rw [Rx.run]
  exact head?_append_of_head? _ ha

theorem first_opt_none {a : Rx} {full : Nat} {s : Str} {caps : Caps}
    (ha : a.run full s caps = []) : (Rx.opt a).first full s caps = some (s, caps) := by
  unfold Rx.first
  rw [Rx.run, ha]; rfl

theorem first_alt_left {a b : Rx} {full : Nat} {s : Str} {caps : Caps} {r : Str × Caps}
    (ha : a.first full s caps = some r) : (Rx.alt a b).first full s caps = some r := by
  unfold Rx.first at *
  rw [Rx.run]
  exact head?_append_of_head? _ ha

theorem first_alt_right {a b : Rx} {full : Nat} {s : Str} {caps : Caps}
    (ha : a.run full s caps = []) :
    (Rx.alt a b).first full s caps = b.first full s caps := by
  unfold Rx.first
  rw [Rx.run, ha]; rfl

theorem first_cap {a : Rx} {i full : Nat} {s s1 : Str} {caps c1 : Caps}
    (ha : a.first full s caps = some (s1, c1)) :
    (Rx.cap i a).first full s caps = some (s1, (i, s.take (s.length - s1.length)) :: c1) := by
  unfold Rx.first at *
  rw [Rx.run]
  cases hl : a.run full s caps with
  | nil => rw [hl] at ha; cases ha
  | cons x more =>
    rw [hl] at ha
    simp only [List.head?_cons, Option.some.injEq] at ha
    subst ha
    rfl

theorem run_cap_nil {a : Rx} {i full : Nat} {s : Str} {caps : Caps}
    (ha : a.run full s caps = []) : (Rx.cap i a).run full s caps = [] := by
  rw [Rx.run, ha]; rfl

theorem first_star (p : Char → Bool) (full : Nat) (xs rest : Str) (caps : Caps)
    (hxs : ∀ c ∈ xs, p c = true) (hrest : HeadNot p rest) :
    (Rx.star p).first full (xs ++ rest) caps = some (rest, caps) := by
  unfold Rx.first
  rw [Rx.run, List.head?_map, starRests_head p xs rest hxs hrest]; rfl

theorem first_star_nil (p : Char → Bool) (full : Nat) (s : Str) (caps : Caps)
    (h : HeadNot p s) : (Rx.star p).first full s caps = some (s, caps) :=
  first_star p full [] s caps (by intro c hc; cases hc) h

theorem first_plus (p : Char → Bool) (full : Nat) (xs rest : Str) (caps : Caps) (hne : xs ≠ [])
    (hxs : ∀ c ∈ xs, p c = true) (hrest : HeadNot p rest) :
    (Rx.plus p).first full (xs ++ rest) caps = some (rest, caps) := by
  unfold Rx.first
  rw [Rx.run, List.head?_map, plusRests_head p xs rest hne hxs hrest]; rfl

theorem run_plus_nil (p : Char → Bool) (full : Nat) (s : Str) (caps : Caps) (h : HeadNot p s) :
    (Rx.plus p).run full s caps = [] := by
  rw [Rx.run, plusRests_nil p s h]; rfl

theorem first_bot (s : Str) (caps : Caps) : Rx.bot.first s.length s caps = some (s, caps) := by
  simp [Rx.first, Rx.run]

theorem first_eot (full : Nat) (caps : Caps) : Rx.eot.first full [] caps = some ([], caps) := by
  simp [Rx.first, Rx.run]

theorem take_length_sub_append (xs rest : Str) :
    (xs ++ rest).take ((xs ++ rest).length - rest.length) = xs := by
  simp

theorem allP_nil (p : Char → Bool) : AllP p [] := by intro c hc; cases hc

theorem headNot_append_of_ne_nil {p : Char → Bool} {a : Str} (b : Str) (hne : a ≠ [])
    (h : HeadNot p a) : HeadNot p (a ++ b) := by
  obtain ⟨x, t, rfl⟩ := List.exists_cons_of_ne_nil hne
  exact headNot_cons (h x rfl)

theorem headNot_of_allP {p q : Char → Bool} {a : Str} (hq : AllP q a)
    (hpq : ∀ c, q c = true → p c = false) : HeadNot p a := by
  intro c hc
  cases a with
  | nil => cases hc
  | cons x t =>
    simp only [List.head?_cons, Option.some.injEq] at hc
    subst hc
    exact hpq _ (hq _ (List.mem_cons_self _ _))

theorem headNot_append {p : Char → Bool} {a b : Str} (ha : HeadNot p a) (hb : HeadNot p b) :
    HeadNot p (a ++ b) := by
  cases a with
  | nil => exact hb
  | cons x t => exact headNot_cons (ha x rfl)

theorem mem_run_star {p : Char → Bool} {full : Nat} {s : Str} {caps : Caps} {r : Str × Caps}
    (h : r ∈ (Rx.star p).run full s caps) : ∃ pre, s = pre ++ r.1 ∧ AllP p pre ∧ r.2 = caps := by
  rw [Rx.run] at h
  obtain ⟨rest, hrest, rfl⟩ := List.mem_map.1 h
  obtain ⟨pre, hpre, hall⟩ := mem_starRests hrest
  exact ⟨pre, hpre, hall, rfl⟩

theorem mem_run_plus {p : Char → Bool} {full : Nat} {s : Str} {caps : Caps} {r : Str × Caps}
    (h : r ∈ (Rx.plus p).run full s caps) :
    ∃ pre, pre ≠ [] ∧ s = pre ++ r.1 ∧ AllP p pre ∧ r.2 = caps := by
  rw [Rx.run] at h
  obtain ⟨rest, hrest, rfl⟩ := List.mem_map.1 h
  obtain ⟨pre, hne, hpre, hall⟩ := mem_plusRests hrest
  exact ⟨pre, hne, hpre, hall, rfl⟩

/-! ### The book group -/

theorem isDigit_false_of_isNotDigit {c : Char} (h : isNotDigit c = true) : isDigit c = false := by
  simpa [isNotDigit] using h

theorem isNotDigit_false_of_isDigit {c : Char} (h : isDigit c = true) : isNotDigit c = false := by
  simp [isNotDigit, h]

/-- A text that opens with a book: non-digits `bk`, then a digit or the end. -/
theorem first_book (full : Nat) (bk rest : Str) (caps : Caps) (hne : bk ≠ [])
    (hall : AllP isNotDigit bk) (hrest : HeadNot isNotDigit rest) :
    (Rx.opt (.cap 1 rxBookBody)).first full (bk ++ rest) caps = some (rest, (1, bk) :: caps) := by
  have hhead : HeadNot isDigit (bk ++ rest) :=
    headNot_append_of_ne_nil rest hne
      (headNot_of_allP hall fun c hc => isDigit_false_of_isNotDigit hc)
  have h1 : (Rx.opt (.seq (.plus isDigit) (.plus isReSpace))).first full (bk ++ rest) caps =
      some (bk ++ rest, caps) :=
    first_opt_none (run_seq_nil_left (run_plus_nil _ _ _ _ hhead))
  have h2 : rxBookBody.first full (bk ++ rest) caps = some (rest, caps) :=
    first_seq h1 (first_plus isNotDigit full bk rest caps hne hall hrest)
  have h3 := first_cap (i := 1) h2
  rw [take_length_sub_append] at h3
  exact first_opt_some h3

/-- The text after the digits `ds` dropped from `ds ++ rest`, when `rest` opens
with no digit. -/
theorem rest_of_digit_prefix {pre r ds rest : Str} (h : ds ++ rest = pre ++ r)
    (hpre : AllP isDigit pre) (hrest : HeadNot isDigit rest) :
    ∃ a, ds = pre ++ a ∧ r = a ++ rest := by
  rcases List.append_eq_append_iff.1 h with ⟨a, h1, h2⟩ | ⟨c, h1, h2⟩
  · cases a with
    | nil =>
      simp only [List.append_nil, List.nil_append] at h1 h2
      exact ⟨[], by simp [h1], by simp [h2]⟩
    | cons x t =>
      have hx : isDigit x = true := hpre x (by rw [h1]; simp)
      have : isDigit x = false := hrest x (by rw [h2]; rfl)
      rw [hx] at this; cases this
  · exact ⟨c, h1, h2⟩

theorem isReSpace_false_of_isDigit {c : Char} (h : isDigit c = true) : isReSpace c = false := by
  simp only [isDigit, Bool.and_eq_true, decide_eq_true_eq] at h
  have h1 : 48 ≤ c.toNat := h.1
  simp only [isReSpace, Bool.or_eq_false_iff, beq_eq_false_iff_ne, ne_eq]
  refine ⟨⟨⟨⟨?_, ?_⟩, ?_⟩, ?_⟩, ?_⟩
  · intro hc; rw [hc] at h1; exact absurd h1 (by decide)
  · intro hc; rw [hc] at h1; exact absurd h1 (by decide)
  · intro hc; omega
  · intro hc; rw [hc] at h1; exact absurd h1 (by decide)
  · intro hc; rw [hc] at h1; exact absurd h1 (by decide)

/-- A text that opens with a numbered book: digits `ds`, white space `ws`,
non-digits `body` that do not open with white space, then a digit or the end. -/
theorem first_book_numbered (full : Nat) (ds ws body rest : Str) (caps : Caps)
    (hds : ds ≠ []) (hdall : AllP isDigit ds) (hws : ws ≠ []) (hwall : AllP isReSpace ws)
    (hne : body ≠ []) (hall : AllP isNotDigit body) (hbody : HeadNot isReSpace body)
    (hrest : HeadNot isNotDigit rest) :
    (Rx.opt (.cap 1 rxBookBody)).first full ((ds ++ (ws ++ body)) ++ rest) caps =
      some (rest, (1, ds ++ (ws ++ body)) :: caps) := by
  have hw1 : HeadNot isDigit (ws ++ (body ++ rest)) :=
    headNot_append_of_ne_nil _ hws
      (headNot_of_allP hwall fun c hc => by
        cases h : isDigit c with
        | false => rfl
        | true => rw [isReSpace_false_of_isDigit h] at hc; cases hc)
  have hb1 : HeadNot isReSpace (body ++ rest) := headNot_append_of_ne_nil _ hne hbody
  have h1 : (Rx.opt (.seq (.plus isDigit) (.plus isReSpace))).first full
      (ds ++ (ws ++ (body ++ rest))) caps = some (body ++ rest, caps) :=
    first_opt_some (first_seq (first_plus isDigit full ds _ caps hds hdall hw1)
      (first_plus isReSpace full ws _ caps hws hwall hb1))
  have h2 : rxBookBody.first full (ds ++ (ws ++ (body ++ rest))) caps = some (rest, caps) :=
    first_seq h1 (first_plus isNotDigit full body rest caps hne hall hrest)
  have h3 := first_cap (i := 1) h2
  have hassoc : ds ++ (ws ++ (body ++ rest)) = (ds ++ (ws ++ body)) ++ rest := by
    simp [List.append_assoc]
  rw [hassoc, take_length_sub_append] at h3
  exact first_opt_some h3

theorem run_book_nil (full : Nat) (s : Str) (caps : Caps) (h : NoBook s) :
    (Rx.cap 1 rxBookBody).run full s caps = [] := by
  apply run_cap_nil
  have hprefix : (Rx.seq (.plus isDigit) (.plus isReSpace)).run full s caps = [] := by
    apply run_seq_nil
    intro r hr
    obtain ⟨pre, hpne, hs, hpre, _⟩ := mem_run_plus hr
    apply run_plus_nil
    rcases h with h | ⟨ds, rest, hds, _, hall, hrd, hrs⟩
    · rw [h] at hs
      have := congrArg List.length hs
      simp at this
      exact absurd (List.length_eq_zero.1 (by omega)) hpne
    · obtain ⟨a, _, ha⟩ := rest_of_digit_prefix (hds ▸ hs) hpre hrd
      rw [ha]
      have hall_a : AllP isDigit a := by
        intro c hc; apply hall; rename_i h1; rw [h1]; exact List.mem_append_right _ hc
      exact headNot_append (headNot_of_allP hall_a fun c hc => isReSpace_false_of_isDigit hc) hrs
  have hs : HeadNot isNotDigit s := by
    rcases h with h | ⟨ds, rest, hds, hne, hall, _, _⟩
    · rw [h]; exact headNot_nil _
    · rw [hds]
      exact headNot_append_of_ne_nil rest hne
        (headNot_of_allP hall fun c hc => isNotDigit_false_of_isDigit hc)
  unfold rxBookBody
  apply run_seq_nil
  intro r hr
  rw [Rx.run, hprefix, List.nil_append, List.mem_singleton] at hr
  rw [hr]
  exact run_plus_nil _ _ _ _ hs

theorem first_no_book (full : Nat) (s : Str) (caps : Caps) (h : NoBook s) :
    (Rx.opt (.cap 1 rxBookBody)).first full s caps = some (s, caps) :=
  first_opt_none (run_book_nil full s caps h)

/-! ### The numeric groups -/

theorem isFrag_cases {f : Str} (hf : IsFrag f) :
    f = [] ∨ ∃ x, f = [x] ∧ isAbc x = true ∧ isDigit x = false := by
  rcases hf with h | h | h | h
  · exact Or.inl h
  all_goals exact Or.inr ⟨_, h, by decide, by decide⟩

theorem first_chapterOrVerse (full : Nat) (ds f rest : Str) (caps : Caps) (hne : ds ≠ [])
    (hall : AllP isDigit ds) (hf : IsFrag f) (hrd : HeadNot isDigit rest)
    (hra : HeadNot isAbc rest) :
    rxChapterOrVerse.first full (ds ++ f ++ rest) caps = some (rest, caps) := by
  unfold rxChapterOrVerse
  rcases isFrag_cases hf with h | ⟨x, h, hx, hxd⟩
  · subst h
    rw [List.append_nil]
    exact first_seq (first_plus isDigit full ds rest caps hne hall hrd)
      (first_opt_none (run_chr_nil hra full caps))
  · subst h
    rw [List.append_assoc]
    exact first_seq (first_plus isDigit full ds ([x] ++ rest) caps hne hall (headNot_cons hxd))
      (first_opt_some (first_chr hx full rest caps))

theorem first_verseBody (full : Nat) (ds f rest : Str) (caps : Caps) (hne : ds ≠ [])
    (hall : AllP isDigit ds) (hf : IsFrag f) (hrd : HeadNot isDigit rest)
    (hra : HeadNot isAbc rest) (hre : HeadNot (exactEq 'e') rest) :
    rxVerseBody.first full (ds ++ f ++ rest) caps = some (rest, caps) := by
  have hend : (Rx.opt (Rx.lit exactEq ['e', 'n', 'd'])).first full rest caps = some (rest, caps) :=
    first_opt_none (run_seq_nil_left (run_chr_nil hre full caps))
  unfold rxVerseBody
  rcases isFrag_cases hf with h | ⟨x, h, hx, hxd⟩
  · subst h
    rw [List.append_nil]
    exact first_seq (first_plus isDigit full ds rest caps hne hall hrd)
      (first_seq (first_opt_none (run_chr_nil hra full caps)) hend)
  · subst h
    rw [List.append_assoc]
    exact first_seq (first_plus isDigit full ds ([x] ++ rest) caps hne hall (headNot_cons hxd))
      (first_seq (first_opt_some (first_chr hx full rest caps)) hend)

theorem isSepChar_false_of_isDigit {c : Char} (h : isDigit c = true) : isSepChar c = false := by
  simp only [isDigit, Bool.and_eq_true, decide_eq_true_eq] at h
  have h1 : 48 ≤ c.toNat := h.1
  have h2 : c.toNat ≤ 57 := h.2
  simp only [isSepChar, Bool.or_eq_false_iff, beq_eq_false_iff_ne, ne_eq]
  refine ⟨⟨⟨?_, ?_⟩, ?_⟩, ?_⟩
  · intro hc; rw [hc] at h1; exact absurd h1 (by decide)
  · intro hc; rw [hc] at h1; exact absurd h1 (by decide)
  · intro hc; rw [hc] at h2; exact absurd h2 (by decide)
  · intro hc; rw [hc] at h2; exact absurd h2 (by decide)

theorem first_sepVerse (full : Nat) (w1 w2 ds f rest : Str) (caps : Caps)
    (hsep : IsSeparator w1 w2) (hne : ds ≠ []) (hall : AllP isDigit ds) (hf : IsFrag f)
    (hrd : HeadNot isDigit rest) (hra : HeadNot isAbc rest) (hre : HeadNot (exactEq 'e') rest) :
    rxSepVerse.first full (w1 ++ (w2 ++ (ds ++ f ++ rest))) caps =
      some (rest, (3, ds ++ f) :: caps) := by
  obtain ⟨hw1, hw2ne, hw2, hw2h⟩ := hsep
  have hdig : AllP isDigit ds := hall
  have hhead_sep : HeadNot isSepChar (ds ++ f ++ rest) := by
    rw [List.append_assoc]
    exact headNot_append_of_ne_nil _ hne
      (headNot_of_allP hdig fun c hc => isSepChar_false_of_isDigit hc)
  have hhead_ws : HeadNot isReSpace (ds ++ f ++ rest) := by
    rw [List.append_assoc]
    exact headNot_append_of_ne_nil _ hne
      (headNot_of_allP hdig fun c hc => isReSpace_false_of_isDigit hc)
  have hv := first_cap (i := 3) (first_verseBody full ds f rest caps hne hall hf hrd hra hre)
  rw [take_length_sub_append] at hv
  unfold rxSepVerse
  exact first_seq
    (first_star isReSpace full w1 _ caps hw1 (headNot_append_of_ne_nil _ hw2ne hw2h))
    (first_seq (first_plus isSepChar full w2 _ caps hw2ne hw2 hhead_sep)
      (first_seq (first_star_nil isReSpace full _ caps hhead_ws) hv))

theorem run_sepVerse_nil (full : Nat) (s : Str) (caps : Caps)
    (h : ∀ c ∈ s, isDigit c = false) : rxSepVerse.run full s caps = [] := by
  have key : ∀ t : Str, (∀ c ∈ t, isDigit c = false) → HeadNot isDigit t := by
    intro t ht c hc
    cases t with
    | nil => cases hc
    | cons x u =>
      simp only [List.head?_cons, Option.some.injEq] at hc
      subst hc; exact ht _ (List.mem_cons_self _ _)
  unfold rxSepVerse
  apply run_seq_nil
  intro r1 hr1
  obtain ⟨p1, hs1, _, _⟩ := mem_run_star hr1
  apply run_seq_nil
  intro r2 hr2
  obtain ⟨p2, _, hs2, _, _⟩ := mem_run_plus hr2
  apply run_seq_nil
  intro r3 hr3
  obtain ⟨p3, hs3, _, _⟩ := mem_run_star hr3
  apply run_cap_nil
  apply run_seq_nil_left
  apply run_plus_nil
  apply key
  intro c hc
  apply h
  rw [hs1, hs2, hs3]
  simp [hc]

theorem isDigit_false_of_isReSpace {c : Char} (h : isReSpace c = true) : isDigit c = false := by
  cases hd : isDigit c with
  | false => rfl
  | true => rw [isReSpace_false_of_isDigit hd] at h; cases h

theorem isAbc_false_of_isReSpace {c : Char} (h : isReSpace c = true) : isAbc c = false := by
  simp only [isReSpace, Bool.or_eq_true, beq_iff_eq] at h
  rcases h with (((h | h) | h) | h) | h
  · rw [h]; decide
  · rw [h]; decide
  · simp only [isAbc, Bool.or_eq_false_iff, beq_eq_false_iff_ne, ne_eq]
    refine ⟨⟨?_, ?_⟩, ?_⟩ <;> (intro hc; rw [hc] at h; exact absurd h (by decide))
  · rw [h]; decide
  · rw [h]; decide

theorem exactEq_e_false_of_isReSpace {c : Char} (h : isReSpace c = true) :
    exactEq 'e' c = false := by
  simp only [isReSpace, Bool.or_eq_true, beq_iff_eq] at h
  rcases h with (((h | h) | h) | h) | h
  · rw [h]; decide
  · rw [h]; decide
  · simp only [exactEq, beq_eq_false_iff_ne, ne_eq]
    intro hc; rw [hc] at h; exact absurd h (by decide)
  · rw [h]; decide
  · rw [h]; decide

theorem isDigit_false_of_isSepChar {c : Char} (h : isSepChar c = true) : isDigit c = false := by
  cases hd : isDigit c with
  | false => rfl
  | true => rw [isSepChar_false_of_isDigit hd] at h; cases h

theorem isAbc_false_of_isSepChar {c : Char} (h : isSepChar c = true) : isAbc c = false := by
  simp only [isSepChar, Bool.or_eq_true, beq_iff_eq] at h
  rcases h with ((h | h) | h) | h <;> (rw [h]; decide)

theorem headNot_separator {p : Char → Bool} {w1 w2 : Str} (rest : Str) (hsep : IsSeparator w1 w2)
    (hs : ∀ c, isReSpace c = true → p c = false) (hc : ∀ c, isSepChar c = true → p c = false) :
    HeadNot p (w1 ++ (w2 ++ rest)) := by
  obtain ⟨hw1, hw2ne, hw2, _⟩ := hsep
  exact headNot_append (headNot_of_allP hw1 hs)
    (headNot_append_of_ne_nil rest hw2ne (headNot_of_allP hw2 hc))

theorem first_numbers (full : Nat) (nums t1 t2 ws : Str) (caps : Caps)
    (h : IsNumbers nums t1 t2) (hws : AllP isReSpace ws) :
    (Rx.opt rxNumbers).first full (nums ++ ws) caps =
      some (ws, capsWith 3 t2 (capsWith 2 t1 caps)) := by
  have hwd : HeadNot isDigit ws := headNot_of_allP hws fun c hc => isDigit_false_of_isReSpace hc
  have hwa : HeadNot isAbc ws := headNot_of_allP hws fun c hc => isAbc_false_of_isReSpace hc
  have hwe : HeadNot (exactEq 'e') ws :=
    headNot_of_allP hws fun c hc => exactEq_e_false_of_isReSpace hc
  have hnosep : ∀ caps1, (Rx.opt rxSepVerse).first full ws caps1 = some (ws, caps1) := fun caps1 =>
    first_opt_none (run_sepVerse_nil full ws caps1 fun c hc => isDigit_false_of_isReSpace (hws c hc))
  apply first_opt_some
  unfold rxNumbers
  rcases h with ⟨hn, h1, h2⟩ | ⟨⟨ds, f, h1, hne, hall, hf⟩, h2, hn⟩ |
    ⟨⟨ds, f, h1, hne, hall, hf⟩, ⟨ds2, f2, h2, hne2, hall2, hf2⟩, w1, w2, hsep, hn⟩
  · subst hn h1 h2
    simp only [List.nil_append, capsWith, if_true]
    exact first_seq
      (first_opt_none (run_cap_nil (run_seq_nil_left (run_plus_nil _ _ _ _ hwd)))) (hnosep caps)
  · have ht1 : t1 ≠ [] := by rw [h1]; simp [hne]
    subst hn h2
    simp only [capsWith, if_true, if_neg ht1]
    have hc := first_cap (i := 2) (first_chapterOrVerse full ds f ws caps hne hall hf hwd hwa)
    rw [take_length_sub_append] at hc
    rw [h1]
    exact first_seq (first_opt_some hc) (hnosep _)
  · have ht1 : t1 ≠ [] := by rw [h1]; simp [hne]
    have ht2 : t2 ≠ [] := by rw [h2]; simp [hne2]
    simp only [capsWith, if_neg ht1, if_neg ht2]
    subst hn
    have hrd : HeadNot isDigit (w1 ++ (w2 ++ (t2 ++ ws))) :=
      headNot_separator _ hsep (fun c hc => isDigit_false_of_isReSpace hc)
        (fun c hc => isDigit_false_of_isSepChar hc)
    have hra : HeadNot isAbc (w1 ++ (w2 ++ (t2 ++ ws))) :=
      headNot_separator _ hsep (fun c hc => isAbc_false_of_isReSpace hc)
        (fun c hc => isAbc_false_of_isSepChar hc)
    have hc := first_cap (i := 2)
      (first_chapterOrVerse full ds f (w1 ++ (w2 ++ (t2 ++ ws))) caps hne hall hf hrd hra)
    rw [take_length_sub_append] at hc
    have hv := first_sepVerse full w1 w2 ds2 f2 ws ((2, ds ++ f) :: caps) hsep hne2 hall2 hf2
      hwd hwa hwe
    have hshape : t1 ++ (w1 ++ (w2 ++ t2)) ++ ws = ds ++ f ++ (w1 ++ (w2 ++ (t2 ++ ws))) := by
      rw [h1]; simp [List.append_assoc]
    rw [hshape, h1, h2]
    rw [h2] at hc
    exact first_seq (first_opt_some hc) (first_opt_some hv)

theorem first_bookPart (full : Nat) (bk rest : Str) (caps : Caps) (h : IsBookPart bk rest) :
    (Rx.opt (.cap 1 rxBookBody)).first full (bk ++ rest) caps =
      some (rest, capsWith 1 bk caps) := by
  rcases h with ⟨hne, hall, _, hrest⟩ | ⟨hnil, hno, _⟩ |
    ⟨ds, ws, body, hbk, hds, hdall, hws, hwall, hne, hall, hbody, hrest⟩
  · rw [capsWith, if_neg hne]
    exact first_book full bk rest caps hne hall hrest
  · subst hnil
    rw [capsWith, if_pos rfl, List.nil_append]
    exact first_no_book full rest caps hno
  · subst hbk
    rw [capsWith, if_neg (by simp [hds])]
    exact first_book_numbered full ds ws body rest caps hds hdall hws hwall hne hall hbody hrest

theorem headNot_bookPart {bk rest : Str} (h : IsBookPart bk rest) :
    HeadNot isReSpace (bk ++ rest) := by
  rcases h with ⟨hne, _, hh, _⟩ | ⟨hnil, _, hh⟩ | ⟨ds, ws, body, hbk, hds, hdall, _⟩
  · exact headNot_append_of_ne_nil rest hne hh
  · subst hnil; exact hh
  · subst hbk
    rw [List.append_assoc]
    exact headNot_append_of_ne_nil _ hds
      (headNot_of_allP hdall fun c hc => isReSpace_false_of_isDigit hc)

/-- The match of the clause grammar on white space, a book part, a numeric
part and white space. -/
theorem matchAt_reference (ws0 bk nums t1 t2 ws1 : Str) (hws0 : AllP isReSpace ws0)
    (hbk : IsBookPart bk (nums ++ ws1)) (hnums : IsNumbers nums t1 t2)
    (hws1 : AllP isReSpace ws1) :
    rxReference.matchAt (ws0 ++ (bk ++ (nums ++ ws1))).length (ws0 ++ (bk ++ (nums ++ ws1))) =
      some ([], capsWith 3 t2 (capsWith 2 t1 (capsWith 1 bk []))) := by
  rw [matchAt_eq_first]
  unfold rxReference
  refine first_seq (first_bot _ _) (first_seq
    (first_star isReSpace _ ws0 _ _ hws0 (headNot_bookPart hbk))
    (first_seq (first_bookPart _ bk _ _ hbk)
      (first_seq (first_numbers _ nums t1 t2 ws1 _ hnums hws1) ?_)))
  have := first_star isReSpace (ws0 ++ (bk ++ (nums ++ ws1))).length ws1 []
    (capsWith 3 t2 (capsWith 2 t1 (capsWith 1 bk []))) hws1 (headNot_nil _)
  rw [List.append_nil] at this
  exact first_seq this (first_eot _ _)

theorem caps_get_reference (bk t1 t2 : Str) :
    (capsWith 3 t2 (capsWith 2 t1 (capsWith 1 bk []))).get 1 = bk ∧
    (capsWith 3 t2 (capsWith 2 t1 (capsWith 1 bk []))).get 2 = t1 ∧
    (capsWith 3 t2 (capsWith 2 t1 (capsWith 1 bk []))).get 3 = t2 := by
  by_cases h1 : bk = [] <;> by_cases h2 : t1 = [] <;> by_cases h3 : t2 = [] <;>
    simp [capsWith, Caps.get, List.lookup, h1, h2, h3]

/-! ### Trimming and lower-casing -/

theorem isSpace_of_isReSpace {c : Char} (h : isReSpace c = true) : isSpace c = true := by
  simp only [isReSpace, Bool.or_eq_true, beq_iff_eq] at h
  rcases h with (((h | h) | h) | h) | h
  · rw [h]; decide
  · rw [h]; decide
  · simp [isSpace, h]
  · rw [h]; decide
  · rw [h]; decide

theorem TrimSpace_nil : TrimSpace [] = [] := rfl

/-- Trimming a text that neither opens nor closes with white space, with white
space before and after it. -/
theorem TrimSpace_pad (a s b : Str) (ha : AllP isSpace a) (hb : AllP isSpace b) (hne : s ≠ [])
    (hhead : HeadNot isSpace s) (hlast : ∀ c, s.getLast? = some c → isSpace c = false) :
    TrimSpace (a ++ (s ++ b)) = s := by
  obtain ⟨x, t, hxt⟩ := List.exists_cons_of_ne_nil hne
  have hx : isSpace x = false := hhead x (by rw [hxt]; rfl)
  have h1 : (a ++ (s ++ b)).dropWhile isSpace = s ++ b := by
    rw [hxt]
    clear hlast hhead hne hxt
    induction a with
    | nil => simp [List.dropWhile, hx]
    | cons y a ih =>
      rw [List.cons_append, List.dropWhile_cons_of_pos (ha y (List.mem_cons_self _ _))]
      exact ih fun c hc => ha c (List.mem_cons_of_mem _ hc)
  have hrev : s.reverse ≠ [] := by simpa using hne
  obtain ⟨z, u, hzu⟩ := List.exists_cons_of_ne_nil hrev
  have hz : isSpace z = false := by
    apply hlast
    rw [List.getLast?_eq_head?_reverse, hzu]; rfl
  have h2 : (s ++ b).reverse.dropWhile isSpace = s.reverse := by
    rw [List.reverse_append, hzu]
    have hb' : AllP isSpace b.reverse := fun c hc => hb c (List.mem_reverse.1 hc)
    generalize b.reverse = br at hb'
    induction br with
    | nil => simp [List.dropWhile, hz]
    | cons y br ih =>
      rw [List.cons_append, List.dropWhile_cons_of_pos (hb' y (List.mem_cons_self _ _))]
      exact ih fun c hc => hb' c (List.mem_cons_of_mem _ hc)
  unfold TrimSpace TrimRightFunc
  rw [h1, h2, List.reverse_reverse]

theorem TrimSpace_of_no_space (s : Str) (h : ∀ c ∈ s, isSpace c = false) : TrimSpace s = s := by
  by_cases hne : s = []
  · subst hne; rfl
  · have := TrimSpace_pad [] s [] (allP_nil _) (allP_nil _) hne
      (by intro c hc; exact h c (List.mem_of_mem_head? hc))
      (by intro c hc; exact h c (List.mem_of_mem_getLast? hc))
    simpa using this

theorem ToLower_append (a b : Str) : ToLower (a ++ b) = ToLower a ++ ToLower b := by
  simp [ToLower]

theorem ToLower_id (s : Str) (h : ∀ c ∈ s, toLowerRune c = c) : ToLower s = s := by
  unfold ToLower
  conv => rhs; rw [← List.map_id s]
  exact List.map_congr_left fun c hc => h c hc

/-! ### Character classes as ranges of code points -/

theorem char_eq_iff (c d : Char) : c = d ↔ c.toNat = d.toNat := by
  constructor
  · intro h; rw [h]
  · intro h
    apply Char.ext
    apply UInt32.ext
    exact h

theorem char_beq_iff (c d : Char) : (c == d) = true ↔ c.toNat = d.toNat := by
  rw [beq_iff_eq, char_eq_iff]

theorem char_le_iff (c d : Char) : c ≤ d ↔ c.toNat ≤ d.toNat := Iff.rfl

theorem isDigit_iff (c : Char) : isDigit c = true ↔ 48 ≤ c.toNat ∧ c.toNat ≤ 57 := by
  simp only [isDigit, Bool.and_eq_true, decide_eq_true_eq, char_le_iff]
  rfl

theorem isAsciiLetter_iff (c : Char) :
    isAsciiLetter c = true ↔ (97 ≤ c.toNat ∧ c.toNat ≤ 122) ∨ (65 ≤ c.toNat ∧ c.toNat ≤ 90) := by
  simp only [isAsciiLetter, Bool.or_eq_true, Bool.and_eq_true, decide_eq_true_eq, char_le_iff]
  rfl

theorem isNotDigit_iff (c : Char) : isNotDigit c = true ↔ ¬(48 ≤ c.toNat ∧ c.toNat ≤ 57) := by
  rw [isNotDigit, Bool.not_eq_true', ← Bool.not_eq_true, isDigit_iff]

theorem isReSpace_iff (c : Char) :
    isReSpace c = true ↔
      (c.toNat = 9 ∨ c.toNat = 10 ∨ c.toNat = 12 ∨ c.toNat = 13 ∨ c.toNat = 32) := by
  simp only [isReSpace, Bool.or_eq_true, char_beq_iff]
  simp only [beq_iff_eq]
  constructor
  · rintro ((((h | h) | h) | h) | h)
    · left; exact h
    · right; left; exact h
    · right; right; left; exact h
    · right; right; right; left; exact h
    · right; right; right; right; exact h
  · rintro (h | h | h | h | h)
    · exact Or.inl (Or.inl (Or.inl (Or.inl h)))
    · exact Or.inl (Or.inl (Or.inl (Or.inr h)))
    · exact Or.inl (Or.inl (Or.inr h))
    · exact Or.inl (Or.inr h)
    · exact Or.inr h

theorem isSpace_iff (c : Char) :
    isSpace c = true ↔
      ((9 ≤ c.toNat ∧ c.toNat ≤ 13) ∨ c.toNat = 0x20 ∨ c.toNat = 0x85 ∨ c.toNat = 0xA0 ∨
        c.toNat = 0x1680 ∨ (0x2000 ≤ c.toNat ∧ c.toNat ≤ 0x200A) ∨ c.toNat = 0x2028 ∨
        c.toNat = 0x2029 ∨ c.toNat = 0x202F ∨ c.toNat = 0x205F ∨ c.toNat = 0x3000) := by
  simp only [isSpace, Bool.or_eq_true, Bool.and_eq_true, decide_eq_true_eq, beq_iff_eq]
  tauto

theorem isSepChar_iff (c : Char) :
    isSepChar c = true ↔ (c.toNat = 46 ∨ c.toNat = 32 ∨ c.toNat = 58 ∨ c.toNat = 118) := by
  simp only [isSepChar, Bool.or_eq_true, char_beq_iff]
  constructor
  · rintro (((h | h) | h) | h)
    · left; exact h
    · right; left; exact h
    · right; right; left; exact h
    · right; right; right; exact h
  · rintro (h | h | h | h)
    · exact Or.inl (Or.inl (Or.inl h))
    · exact Or.inl (Or.inl (Or.inr h))
    · exact Or.inl (Or.inr h)
    · exact Or.inr h

theorem isAbc_iff (c : Char) : isAbc c = true ↔ (97 ≤ c.toNat ∧ c.toNat ≤ 99) := by
  simp only [isAbc, Bool.or_eq_true, char_beq_iff]
  constructor
  · rintro ((h | h) | h) <;> (rw [h]; decide)
  · rintro ⟨h1, h2⟩
    have h3 : c.toNat = ('a' : Char).toNat ∨ c.toNat = ('b' : Char).toNat ∨
        c.toNat = ('c' : Char).toNat := by
      have ha : ('a' : Char).toNat = 97 := rfl
      have hb : ('b' : Char).toNat = 98 := rfl
      have hc : ('c' : Char).toNat = 99 := rfl
      omega
    tauto

theorem isFoldLetter_iff (c : Char) :
    isFoldLetter c = true ↔
      ((97 ≤ c.toNat ∧ c.toNat ≤ 122) ∨ (65 ≤ c.toNat ∧ c.toNat ≤ 90) ∨ c.toNat = 0x17F ∨
        c.toNat = 0x212A) := by
  simp only [isFoldLetter, Bool.or_eq_true, Bool.and_eq_true, decide_eq_true_eq, char_le_iff,
    beq_iff_eq]
  constructor
  · rintro (((h | h) | h) | h)
    · left; exact h
    · right; left; exact h
    · right; right; left; exact h
    · right; right; right; exact h
  · rintro (h | h | h | h)
    · exact Or.inl (Or.inl (Or.inl h))
    · exact Or.inl (Or.inl (Or.inr h))
    · exact Or.inl (Or.inr h)
    · exact Or.inr h

theorem isNotFoldLetter_iff (c : Char) :
    isNotFoldLetter c = true ↔
      ¬((97 ≤ c.toNat ∧ c.toNat ≤ 122) ∨ (65 ≤ c.toNat ∧ c.toNat ≤ 90) ∨ c.toNat = 0x17F ∨
        c.toNat = 0x212A) := by
  rw [isNotFoldLetter, Bool.not_eq_true', ← Bool.not_eq_true, isFoldLetter_iff]

theorem isFoldDtoZ_iff (c : Char) :
    isFoldDtoZ c = true ↔
      ((100 ≤ c.toNat ∧ c.toNat ≤ 122) ∨ (68 ≤ c.toNat ∧ c.toNat ≤ 90) ∨ c.toNat = 0x17F ∨
        c.toNat = 0x212A) := by
  simp only [isFoldDtoZ, Bool.or_eq_true, Bool.and_eq_true, decide_eq_true_eq, char_le_iff,
    beq_iff_eq]
  constructor
  · rintro (((h | h) | h) | h)
    · left; exact h
    · right; left; exact h
    · right; right; left; exact h
    · right; right; right; exact h
  · rintro (h | h | h | h)
    · exact Or.inl (Or.inl (Or.inl h))
    · exact Or.inl (Or.inl (Or.inr h))
    · exact Or.inl (Or.inr h)
    · exact Or.inr h

theorem bool_eq_false_iff_not {b : Bool} {P : Prop} (h : b = true ↔ P) : b = false ↔ ¬P := by
  rw [← h]; simp

theorem ofNat_toNat_of_lt (n : Nat) (h : n < 0xD800) : (Char.ofNat n).toNat = n := by
  have hv : n.isValidChar := Or.inl h
  unfold Char.ofNat
  rw [dif_pos hv]
  rfl

theorem toLowerRune_toNat (c : Char) :
    (toLowerRune c).toNat =
      if 65 ≤ c.toNat ∧ c.toNat ≤ 90 then c.toNat + 32
      else if c.toNat = 0x130 then 105
      else if c.toNat = 0x212A then 107
      else c.toNat := by
  unfold toLowerRune
  simp only [char_le_iff]
  have hA : ('A' : Char).toNat = 65 := rfl
  have hZ : ('Z' : Char).toNat = 90 := rfl
  rw [hA, hZ]
  split
  · rename_i h
    exact ofNat_toNat_of_lt _ (by omega)
  · split
    · rfl
    · split
      · rfl
      · rfl

/-! ### `parseReference` on a plain book name and numbers -/

theorem hasSuffix_mem {s suffix : Str} (h : HasSuffix s suffix = true) :
    ∀ c ∈ suffix, c ∈ s := by
  intro c hc
  have hs : suffix <:+ s := by simpa [HasSuffix] using h
  exact hs.subset hc

theorem postprocess_id (m : Matches)
    (hkw : m.book ≠ "start".toList ∧ m.book ≠ "end".toList)
    (hch : HasSuffix m.book " ch".toList = false) (hv : HasSuffix m.book " v".toList = false)
    (hverse : HasSuffix m.book " verse".toList = false)
    (hverses : HasSuffix m.book " verses".toList = false) :
    (if byteLen (chStep (keywordStep m)).book ≥ 2
      then verseWordStep (vStep (chStep (keywordStep m)))
      else chStep (keywordStep m)) = m := by
  have hk : keywordStep m = m := by
    unfold keywordStep
    rw [if_neg]
    rintro ⟨h | h, _, _⟩
    · exact hkw.1 h
    · exact hkw.2 h
  have hc : chStep m = m := by
    unfold chStep
    rw [hch]
    simp
  have hv1 : vStep m = m := by
    unfold vStep
    rw [hv]
    simp
  have hw : verseWordStep m = m := by
    unfold verseWordStep
    rw [hverse, hverses]
    simp
  rw [hk, hc, hv1, hw]
  simp

/-- The lower-case form of a plain name: lower-case ASCII letters, at least one. -/
theorem plainName_lower {n : Str} (hn : plainName n = true) :
    ToLower n ≠ [] ∧ (∀ c ∈ ToLower n, 97 ≤ c.toNat ∧ c.toNat ≤ 122) ∧
      ToLower n ≠ "start".toList ∧ ToLower n ≠ "end".toList := by
  simp only [plainName, Bool.and_eq_true, Bool.not_eq_true', List.all_eq_true,
    List.isEmpty_eq_false] at hn
  obtain ⟨⟨⟨hne, hall⟩, _⟩, hkw⟩ := hn
  have hkw' : ∀ w ∈ grammarWords, ToLower n ≠ w := by
    intro w hw heq
    rw [List.contains_eq_any_beq, List.any_eq_false] at hkw
    have := hkw w hw
    simp [heq] at this
  refine ⟨by simpa [ToLower] using hne, ?_, hkw' _ (by decide), hkw' _ (by decide)⟩
  intro c hc
  obtain ⟨d, hd, rfl⟩ := List.mem_map.1 hc
  have hl := (isAsciiLetter_iff d).1 (hall d hd)
  rw [toLowerRune_toNat]
  split
  · omega
  · split
    · omega
    · split <;> omega

theorem plainName_letters {n : Str} (hn : plainName n = true) :
    n ≠ [] ∧ ∀ c ∈ n, isAsciiLetter c = true := by
  simp only [plainName, Bool.and_eq_true, Bool.not_eq_true', List.all_eq_true,
    List.isEmpty_eq_false] at hn
  exact ⟨hn.1.1.1, hn.1.1.2⟩

theorem safeWord_letters {n : Str} (hn : safeWord n = true) :
    n ≠ [] ∧ ∀ c ∈ n, isAsciiLetter c = true := by
  simp only [safeWord, Bool.and_eq_true, Bool.not_eq_true', List.all_eq_true,
    List.isEmpty_eq_false] at hn
  exact ⟨hn.1.1.1, hn.1.1.2⟩

theorem safeWord_not_norm {n : Str} (hn : safeWord n = true) :
    ∀ w ∈ normWords, ToLower n ≠ w := by
  simp only [safeWord, Bool.and_eq_true, Bool.not_eq_true'] at hn
  intro w hw heq
  have h2 := hn.2
  rw [List.contains_eq_any_beq, List.any_eq_false] at h2
  have := h2 w hw
  simp [heq] at this

/-- A plain name is a word the normaliser leaves alone. -/
theorem plainName_safeWord {n : Str} (hn : plainName n = true) : safeWord n = true := by
  simp only [plainName, Bool.and_eq_true, Bool.not_eq_true'] at hn
  obtain ⟨⟨⟨h1, h2⟩, h3⟩, h4⟩ := hn
  simp only [safeWord, Bool.and_eq_true, Bool.not_eq_true']
  refine ⟨⟨⟨h1, h2⟩, h3⟩, ?_⟩
  rw [List.contains_eq_any_beq, List.any_eq_false] at h4 ⊢
  intro w hw
  apply h4 w
  revert hw
  simp only [normWords, grammarWords, List.mem_cons, List.mem_singleton, List.not_mem_nil]
  tauto

theorem toLowerRune_id_of_not_upper {c : Char}
    (h : ¬(65 ≤ c.toNat ∧ c.toNat ≤ 90) ∧ c.toNat ≠ 0x130 ∧ c.toNat ≠ 0x212A) :
    toLowerRune c = c := by
  rw [char_eq_iff, toLowerRune_toNat, if_neg h.1, if_neg h.2.1, if_neg h.2.2]

theorem ToLower_reSpace {s : Str} (h : AllP isReSpace s) : ToLower s = s :=
  ToLower_id s fun c hc => toLowerRune_id_of_not_upper (by
    have := (isReSpace_iff c).1 (h c hc); omega)

theorem ToLower_digits {s : Str} (h : AllP isDigit s) : ToLower s = s :=
  ToLower_id s fun c hc => toLowerRune_id_of_not_upper (by
    have := (isDigit_iff c).1 (h c hc); omega)

theorem ToLower_sepChars {s : Str} (h : AllP isSepChar s) : ToLower s = s :=
  ToLower_id s fun c hc => toLowerRune_id_of_not_upper (by
    have := (isSepChar_iff c).1 (h c hc); omega)

theorem ToLower_frag {f : Str} (h : IsFrag f) : ToLower f = f := by
  rcases h with h | h | h | h <;> (subst h; rfl)

theorem ToLower_token {t : Str} (h : IsToken t) : ToLower t = t := by
  obtain ⟨ds, f, rfl, _, hall, hf⟩ := h
  rw [ToLower_append, ToLower_digits hall, ToLower_frag hf]

theorem ToLower_numbers {nums t1 t2 : Str} (h : IsNumbers nums t1 t2) : ToLower nums = nums := by
  rcases h with ⟨hn, _, _⟩ | ⟨h1, _, hn⟩ | ⟨h1, h2, w1, w2, hsep, hn⟩
  · subst hn; rfl
  · subst hn; exact ToLower_token h1
  · subst hn
    rw [ToLower_append, ToLower_append, ToLower_append, ToLower_token h1, ToLower_token h2,
      ToLower_reSpace hsep.1, ToLower_sepChars hsep.2.2.1]

theorem TrimSpace_token {t : Str} (h : IsToken t) : TrimSpace t = t := by
  obtain ⟨ds, f, rfl, _, hall, hf⟩ := h
  apply TrimSpace_of_no_space
  intro c hc
  rw [bool_eq_false_iff_not (isSpace_iff c)]
  rcases List.mem_append.1 hc with h | h
  · have := (isDigit_iff c).1 (hall c h); omega
  · rcases hf with h0 | h0 | h0 | h0 <;> subst h0
    · cases h
    all_goals (rw [List.mem_singleton.1 h]; decide)

theorem TrimSpace_numbers_tokens {nums t1 t2 : Str} (h : IsNumbers nums t1 t2) :
    TrimSpace t1 = t1 ∧ TrimSpace t2 = t2 := by
  rcases h with ⟨_, h1, h2⟩ | ⟨h1, h2, _⟩ | ⟨h1, h2, _⟩
  · subst h1 h2; exact ⟨rfl, rfl⟩
  · subst h2; exact ⟨TrimSpace_token h1, rfl⟩
  · exact ⟨TrimSpace_token h1, TrimSpace_token h2⟩

/-- `parseReference` on a book name followed by numbers: the book is the name
in lower case, the two numeric fields are the tokens. -/
theorem parseReference_book (ws0 n sp nums t1 t2 ws1 : Str) (hn : ReadsAsBook (ToLower n))
    (hws0 : AllP isReSpace ws0) (hsp : AllP isReSpace sp) (hnums : IsNumbers nums t1 t2)
    (hws1 : AllP isReSpace ws1) (hrest : HeadNot isNotDigit (nums ++ ws1)) :
    parseReference (ws0 ++ ((n ++ sp) ++ (nums ++ ws1))) =
      .ok { book := ToLower n, chapter_or_verse := t1, verse := t2 } := by
  obtain ⟨hpart, htrim, hkw1, hkw2, hch, hv, hverse, hverses⟩ := hn
  have hlower : ToLower (ws0 ++ ((n ++ sp) ++ (nums ++ ws1))) =
      ws0 ++ ((ToLower n ++ sp) ++ (nums ++ ws1)) := by
    rw [ToLower_append, ToLower_append, ToLower_append, ToLower_append, ToLower_reSpace hws0,
      ToLower_reSpace hsp, ToLower_numbers hnums, ToLower_reSpace hws1]
  have hm := matchAt_reference ws0 (ToLower n ++ sp) nums t1 t2 ws1 hws0 (hpart sp _ hsp hrest)
    hnums hws1
  obtain ⟨g1, g2, g3⟩ := caps_get_reference (ToLower n ++ sp) t1 t2
  obtain ⟨ht1, ht2⟩ := TrimSpace_numbers_tokens hnums
  unfold parseReference
  simp only [hlower, hm, g1, g2, g3, htrim sp hsp, ht1, ht2]
  congr 1
  exact postprocess_id _ ⟨hkw1, hkw2⟩ hch hv hverse hverses

/-- `parseReference` on numbers without a book. -/
theorem parseReference_numbers (nums t1 t2 : Str) (hnums : IsNumbers nums t1 t2)
    (hnb : NoBook nums) (hhead : HeadNot isReSpace nums) :
    parseReference nums = .ok { book := [], chapter_or_verse := t1, verse := t2 } := by
  have hbk : IsBookPart [] (nums ++ []) := by
    rw [List.append_nil]; exact Or.inr (Or.inl ⟨rfl, hnb, hhead⟩)
  have hm := matchAt_reference [] [] nums t1 t2 [] (allP_nil _) hbk hnums (allP_nil _)
  simp only [List.nil_append, List.append_nil] at hm
  obtain ⟨g1, g2, g3⟩ := caps_get_reference [] t1 t2
  obtain ⟨ht1, ht2⟩ := TrimSpace_numbers_tokens hnums
  unfold parseReference
  simp only [ToLower_numbers hnums, hm, g1, g2, g3, ht1, ht2, TrimSpace_nil]
  rw [postprocess_id _ ⟨by simp, by simp⟩ (by rfl) (by rfl) (by rfl) (by rfl)]

/-! ### When a substitution leaves the text alone -/

theorem replaceRxAux_id (rx : Rx) (template : Str) (full : Nat) :
    ∀ s : Str, (∀ t, t ≠ [] → t <:+ s → rx.matchAt full t = none) →
      replaceRxAux rx template full 0 s = s := by
  intro s
  induction s with
  | nil => intro _; rfl
  | cons c s ih =>
    intro h
    rw [replaceRxAux, h (c :: s) (by simp) (List.suffix_refl _)]
    simp only
    rw [ih fun t hne hsuf => h t hne (hsuf.trans (List.suffix_cons c s))]

theorem allSafe_nil (full : Nat) : AllSafe full [] := by
  intro t hne hsuf
  exact absurd (List.suffix_nil.1 hsuf) hne

theorem allSafe_cons {full : Nat} {c : Char} {s : Str} (h1 : Safe full (c :: s))
    (h2 : AllSafe full s) : AllSafe full (c :: s) := by
  intro t hne hsuf
  rcases List.suffix_cons_iff.1 hsuf with h | h
  · rw [h]; exact h1
  · exact h2 t hne h

theorem normalise_id (s : Str) (h : AllSafe s.length s) : normalise s = s := by
  have key : ∀ (subs : List (Rx × Str)), (∀ sub ∈ subs, sub ∈ substitutions) →
      subs.foldl (fun acc sub => ReplaceAllString sub.1 acc sub.2) s = s := by
    intro subs
    induction subs with
    | nil => intro _; rfl
    | cons sub subs ih =>
      intro hmem
      rw [List.foldl_cons]
      have : ReplaceAllString sub.1 s sub.2 = s := by
        unfold ReplaceAllString
        exact replaceRxAux_id _ _ _ s fun t hne hsuf =>
          h t hne hsuf sub (hmem sub (List.mem_cons_self _ _))
      rw [this]
      exact ih fun x hx => hmem x (List.mem_cons_of_mem _ hx)
  exact key substitutions fun _ h => h

/-! ### Literals -/

theorem run_lit (eq : Char → Char → Bool) (full : Nat) :
    ∀ (w s : Str) (caps : Caps),
      (Rx.lit eq w).run full s caps =
        match litRest eq w s with
        | some r => [(r, caps)]
        | none => [] := by
  intro w
  induction w with
  | nil => intro s caps; rfl
  | cons c w ih =>
    intro s caps
    cases s with
    | nil => simp [Rx.lit, Rx.run, litRest]
    | cons x s =>
      by_cases hx : eq c x = true
      · simp [Rx.lit, Rx.run, litRest, hx, ih]
      · simp [Rx.lit, Rx.run, litRest, hx]

theorem foldEq_lower {l x : Char} (hl : 97 ≤ l.toNat ∧ l.toNat ≤ 122)
    (h : foldEq l x = true) : isFoldLetter x = true ∧
      (isAsciiLetter x = true → toLowerRune x = l) := by
  simp only [foldEq, Bool.or_eq_true, Bool.and_eq_true, beq_iff_eq] at h
  rw [isFoldLetter_iff, isAsciiLetter_iff, char_eq_iff, toLowerRune_toNat]
  rcases h with ((h | h) | h) | h
  · subst h
    refine ⟨Or.inl hl, fun _ => ?_⟩
    rw [if_neg (by omega), if_neg (by omega), if_neg (by omega)]
  · refine ⟨Or.inr (Or.inl (by omega)), fun _ => ?_⟩
    rw [if_pos (by omega)]; exact h
  · refine ⟨Or.inr (Or.inr (Or.inl h.2)), fun hx => ?_⟩
    omega
  · refine ⟨Or.inr (Or.inr (Or.inr h.2)), fun hx => ?_⟩
    omega

/-- After a literal of lower-case letters read under `(?i)` on a run of ASCII
letters followed by no letter, the literal is the lower-case form of a prefix
of the run. -/
theorem litRest_letters :
    ∀ (w name rest r : Str), (∀ l ∈ w, 97 ≤ l.toNat ∧ l.toNat ≤ 122) →
      AllP isAsciiLetter name → HeadNot isFoldLetter rest →
      litRest foldEq w (name ++ rest) = some r →
      ∃ u v, name = u ++ v ∧ r = v ++ rest ∧ ToLower u = w := by
  intro w
  induction w with
  | nil =>
    intro name rest r _ _ _ h
    simp only [litRest, Option.some.injEq] at h
    exact ⟨[], name, rfl, h.symm, rfl⟩
  | cons l w ih =>
    intro name rest r hw hname hrest h
    have hl := hw l (List.mem_cons_self _ _)
    cases name with
    | nil =>
      cases rest with
      | nil => simp [litRest] at h
      | cons y rest =>
        rw [List.nil_append, litRest] at h
        by_cases hy : foldEq l y = true
        · have := (foldEq_lower hl hy).1
          rw [hrest y rfl] at this; cases this
        · rw [if_neg hy] at h; cases h
    | cons x name =>
      rw [List.cons_append, litRest] at h
      by_cases hx : foldEq l x = true
      · rw [if_pos hx] at h
        obtain ⟨u, v, h1, h2, h3⟩ := ih name rest r
          (fun l' hl' => hw l' (List.mem_cons_of_mem _ hl'))
          (fun c hc => hname c (List.mem_cons_of_mem _ hc)) hrest h
        refine ⟨x :: u, v, by rw [h1]; rfl, h2, ?_⟩
        have := (foldEq_lower hl hx).2 (hname x (List.mem_cons_self _ _))
        simp only [ToLower, List.map_cons] at h3 ⊢
        rw [this, h3]
      · rw [if_neg hx] at h; cases h

/-! ### Where each substitution pattern cannot match -/

theorem run_seq_chr (p : Char → Bool) (b : Rx) (full : Nat) (x : Char) (r : Str) (caps : Caps) :
    (Rx.seq (.chr p) b).run full (x :: r) caps = if p x = true then b.run full r caps else [] := by
  by_cases h : p x = true <;> simp [Rx.run, h]

theorem run_seq_cap_chr (i : Nat) (p : Char → Bool) (b : Rx) (full : Nat) (x : Char) (r : Str)
    (caps : Caps) :
    (Rx.seq (.cap i (.chr p)) b).run full (x :: r) caps =
      if p x = true then b.run full r ((i, [x]) :: caps) else [] := by
  by_cases h : p x = true <;> simp [Rx.run, h]

theorem run_cap_chr_nil (i : Nat) {p : Char → Bool} {s : Str} (h : HeadNot p s) (full : Nat)
    (caps : Caps) : (Rx.cap i (.chr p)).run full s caps = [] :=
  run_cap_nil (run_chr_nil h full caps)

theorem matchAt_letterDigit_none (full : Nat) (x : Char) (r : Str)
    (h : isFoldLetter x = false ∨ HeadNot isDigit r) :
    rxLetterDigit.matchAt full (x :: r) = none := by
  unfold Rx.matchAt rxLetterDigit
  rw [run_seq_cap_chr]
  rcases h with h | h
  · simp [h]
  · rw [run_cap_chr_nil 2 h]; simp

theorem matchAt_digitLetter_none (full : Nat) (x : Char) (r : Str)
    (h : isDigit x = false ∨ HeadNot isFoldDtoZ r) :
    rxDigitLetter.matchAt full (x :: r) = none := by
  unfold Rx.matchAt rxDigitLetter
  rw [run_seq_cap_chr]
  rcases h with h | h
  · simp [h]
  · rw [run_cap_chr_nil 2 h]; simp

theorem matchAt_dash_none (full : Nat) (x : Char) (r : Str)
    (h : x.toNat ≠ 0x2014 ∧ x.toNat ≠ 0x2013) : rxDash.matchAt full (x :: r) = none := by
  simp [Rx.matchAt, rxDash, Rx.run, h.1, h.2]

theorem isNotFoldLetter_false_of_letter {c : Char} (h : isAsciiLetter c = true) :
    isNotFoldLetter c = false := by
  rw [bool_eq_false_iff_not (isNotFoldLetter_iff c)]
  have := (isAsciiLetter_iff c).1 h
  omega

/-- After a word was read off a run of letters, no non-letter follows: either a
letter of the run does, or the text ends. -/
theorem headNot_after_word {v rest : Str} (hv : AllP isAsciiLetter v)
    (h : v = [] → rest = []) : HeadNot isNotFoldLetter (v ++ rest) := by
  cases v with
  | nil => rw [h rfl]; exact headNot_nil _
  | cons x v =>
    exact headNot_cons (isNotFoldLetter_false_of_letter (hv x (List.mem_cons_self _ _)))

theorem run_word_nil (w : Str) (tail : Rx) (full : Nat) (r : Str) (caps : Caps)
    (hw : ∀ l ∈ w, 97 ≤ l.toNat ∧ l.toNat ≤ 122)
    (htail : ∀ (u v rest : Str) (caps1 : Caps), r = (u ++ v) ++ rest → AllP isAsciiLetter (u ++ v) →
      HeadNot isFoldLetter rest → ToLower u = w → tail.run full (v ++ rest) caps1 = [])
    (hr : ∃ run rest, r = run ++ rest ∧ AllP isAsciiLetter run ∧ HeadNot isFoldLetter rest) :
    (Rx.seq (Rx.lit foldEq w) tail).run full r caps = [] := by
  obtain ⟨run, rest, hr1, hr2, hr3⟩ := hr
  apply run_seq_nil
  intro res hres
  rw [run_lit] at hres
  cases hl : litRest foldEq w r with
  | none => rw [hl] at hres; cases hres
  | some r1 =>
    rw [hl] at hres
    simp only [List.mem_singleton] at hres
    subst hres
    rw [hr1] at hl
    obtain ⟨u, v, h1, h2, h3⟩ := litRest_letters w run rest r1 hw hr2 hr3 hl
    simp only
    rw [h2]
    exact htail u v rest caps (by rw [hr1, h1]) (by rw [← h1]; exact hr2) hr3 h3

theorem keywordFree_parts {r : Str} (h : KeywordFree r) :
    ∃ run rest, r = run ++ rest ∧ AllP isAsciiLetter run ∧ HeadNot isFoldLetter rest := by
  obtain ⟨run, rest, h1, h2, h3, _⟩ := h
  exact ⟨run, rest, h1, h2, h3⟩

theorem wordFree_parts {ws : List Str} {r : Str} (h : WordFree ws r) :
    ∃ run rest, r = run ++ rest ∧ AllP isAsciiLetter run ∧ HeadNot isFoldLetter rest := by
  obtain ⟨run, rest, h1, h2, h3, _⟩ := h
  exact ⟨run, rest, h1, h2, h3⟩

theorem wordFree_of_keywordFree {ws : List Str} {r : Str}
    (hws : ∀ w ∈ ws, w = "to".toList ∨ w = "chapter".toList ∨ w = "c".toList ∨
      w = "verse".toList ∨ w = "verses".toList) (h : KeywordFree r) : WordFree ws r := by
  obtain ⟨run, rest, h1, h2, h3, h4⟩ := h
  refine ⟨run, rest, h1, h2, h3, h4.imp (fun h5 w hw => ?_) id⟩
  rcases hws w hw with e | e | e | e | e <;> subst e
  · exact h5.1
  · exact h5.2.1
  · exact h5.2.2.1
  · exact h5.2.2.2.1
  · exact h5.2.2.2.2

/-- Under `WordFree`, a word of `ws` that is the lower-case form of a prefix
`u` of the run leaves a letter of the run behind it, or the end of the text. -/
theorem wordFree_after {ws : List Str} {r u v rest : Str} {w : Str} (h : WordFree ws r)
    (hr : r = (u ++ v) ++ rest) (hl : AllP isAsciiLetter (u ++ v))
    (hrest : HeadNot isFoldLetter rest) (hu : ToLower u = w) (hw : w ∈ ws) :
    v = [] → rest = [] := by
  intro hv
  subst hv
  rw [List.append_nil] at hr hl
  obtain ⟨run, rest', h1, h2, h3, h4⟩ := h
  -- the two decompositions of `r` agree
  have hsame : run = u ∧ rest' = rest := by
    have heq : run ++ rest' = u ++ rest := by rw [← h1, hr]
    rcases List.append_eq_append_iff.1 heq with ⟨a, ha1, ha2⟩ | ⟨c, hc1, hc2⟩
    · cases a with
      | nil => simp at ha1 ha2; exact ⟨ha1.symm, ha2⟩
      | cons y a =>
        have hy : isAsciiLetter y = true := hl y (by rw [ha1]; simp)
        have : isFoldLetter y = false := h3 y (by rw [ha2]; rfl)
        have hy' := (isAsciiLetter_iff y).1 hy
        rw [bool_eq_false_iff_not (isFoldLetter_iff y)] at this
        omega
    · cases c with
      | nil => simp at hc1 hc2; exact ⟨hc1, hc2.symm⟩
      | cons y c =>
        have hy : isAsciiLetter y = true := h2 y (by rw [hc1]; simp)
        have : isFoldLetter y = false := hrest y (by rw [hc2]; rfl)
        have hy' := (isAsciiLetter_iff y).1 hy
        rw [bool_eq_false_iff_not (isFoldLetter_iff y)] at this
        omega
  rcases h4 with h4 | h4
  · rw [hsame.1, hu] at h4
    exact absurd rfl (h4 w hw)
  · rw [← hsame.2]; exact h4

/-- Under `KeywordFree`, a word that is the lower-case form of a prefix `u` of
the run leaves a letter of the run behind it, or the end of the text. -/
theorem keywordFree_after {r u v rest : Str} {w : Str} (h : KeywordFree r)
    (hr : r = (u ++ v) ++ rest) (hl : AllP isAsciiLetter (u ++ v))
    (hrest : HeadNot isFoldLetter rest) (hu : ToLower u = w)
    (hw : w = "to".toList ∨ w = "chapter".toList ∨ w = "c".toList ∨ w = "verse".toList ∨
      w = "verses".toList) : v = [] → rest = [] :=
  wordFree_after (@wordFree_of_keywordFree [w] r (by
    intro x hx
    rw [List.mem_singleton.1 hx]
    exact hw) h) hr hl hrest hu (List.mem_singleton.2 rfl)

theorem allP_of_append_right {p : Char → Bool} {a b : Str} (h : AllP p (a ++ b)) : AllP p b :=
  fun c hc => h c (List.mem_append_right _ hc)

theorem matchAt_to_free (full : Nat) (x : Char) (r : Str)
    (h : isFoldLetter x = true ∨ WordFree ["to".toList] r) : rxTo.matchAt full (x :: r) = none := by
  unfold Rx.matchAt rxTo
  rw [run_seq_chr]
  rcases h with h | h
  · simp [isNotFoldLetter, h]
  · have : (Rx.seq (Rx.lit foldEq ['t', 'o']) (.chr isNotFoldLetter)).run full r [] = [] := by
      apply run_word_nil _ _ _ _ _ (by decide) _ (wordFree_parts h)
      intro u v rest caps1 hr hl hrest hu
      exact run_chr_nil (headNot_after_word (allP_of_append_right hl)
        (wordFree_after h hr hl hrest hu (by decide))) full caps1
    rw [this]; simp

theorem matchAt_to_none (full : Nat) (x : Char) (r : Str)
    (h : isFoldLetter x = true ∨ KeywordFree r) : rxTo.matchAt full (x :: r) = none :=
  matchAt_to_free full x r (h.imp id (wordFree_of_keywordFree (by decide)))

theorem matchAt_chapter_free (full : Nat) (x : Char) (r : Str)
    (h : isFoldLetter x = true ∨ WordFree ["chapter".toList] r) : rxChapter.matchAt full (x :: r) = none := by
  unfold Rx.matchAt rxChapter
  rw [run_seq_cap_chr]
  rcases h with h | h
  · simp [isNotFoldLetter, h]
  · have : ∀ caps, (Rx.seq (Rx.lit foldEq ['c', 'h', 'a', 'p', 't', 'e', 'r'])
        (.cap 2 (.chr isNotFoldLetter))).run full r caps = [] := by
      intro caps
      apply run_word_nil _ _ _ _ _ (by decide) _ (wordFree_parts h)
      intro u v rest caps1 hr hl hrest hu
      exact run_cap_chr_nil 2 (headNot_after_word (allP_of_append_right hl)
        (wordFree_after h hr hl hrest hu (by decide))) full caps1
    rw [this]; simp

theorem matchAt_chapter_none (full : Nat) (x : Char) (r : Str)
    (h : isFoldLetter x = true ∨ KeywordFree r) : rxChapter.matchAt full (x :: r) = none :=
  matchAt_chapter_free full x r (h.imp id (wordFree_of_keywordFree (by decide)))

theorem matchAt_c_free (full : Nat) (x : Char) (r : Str)
    (h : isFoldLetter x = true ∨ WordFree ["c".toList] r) : rxC.matchAt full (x :: r) = none := by
  unfold Rx.matchAt rxC
  rw [run_seq_cap_chr]
  rcases h with h | h
  · simp [isNotFoldLetter, h]
  · have : ∀ caps, (Rx.seq (Rx.lit foldEq ['c'])
        (.cap 2 (.chr isNotFoldLetter))).run full r caps = [] := by
      intro caps
      apply run_word_nil _ _ _ _ _ (by decide) _ (wordFree_parts h)
      intro u v rest caps1 hr hl hrest hu
      exact run_cap_chr_nil 2 (headNot_after_word (allP_of_append_right hl)
        (wordFree_after h hr hl hrest hu (by decide))) full caps1
    rw [this]; simp

theorem matchAt_c_none (full : Nat) (x : Char) (r : Str)
    (h : isFoldLetter x = true ∨ KeywordFree r) : rxC.matchAt full (x :: r) = none :=
  matchAt_c_free full x r (h.imp id (wordFree_of_keywordFree (by decide)))

theorem matchAt_verse_free (full : Nat) (x : Char) (r : Str)
    (h : isFoldLetter x = true ∨ WordFree ["verse".toList, "verses".toList] r) : rxVerse.matchAt full (x :: r) = none := by
  unfold Rx.matchAt rxVerse
  rw [run_seq_cap_chr]
  rcases h with h | h
  · simp [isNotFoldLetter, h]
  · have : ∀ caps, (Rx.seq (Rx.lit foldEq ['v', 'e', 'r', 's', 'e'])
        (.seq (.opt (.chr (foldEq 's'))) (.cap 2 (.chr isNotFoldLetter)))).run full r caps = [] := by
      intro caps
      apply run_word_nil _ _ _ _ _ (by decide) _ (wordFree_parts h)
      intro u v rest caps1 hr hl hrest hu
      have hv : AllP isAsciiLetter v := allP_of_append_right hl
      apply run_seq_nil
      intro res hres
      rw [Rx.run] at hres
      rcases List.mem_append.1 hres with hres | hres
      · -- the optional `s` was read
        cases v with
        | nil =>
          cases rest with
          | nil => simp [Rx.run] at hres
          | cons y rest =>
            exfalso
            by_cases hy : foldEq 's' y = true
            · have := (foldEq_lower (l := 's') (by decide) hy).1
              rw [hrest y rfl] at this; cases this
            · simp [Rx.run, hy] at hres
        | cons y v =>
          by_cases hy : foldEq 's' y = true
          · simp only [List.cons_append, Rx.run, hy, if_true, List.mem_singleton] at hres
            subst hres
            have hlow : toLowerRune y = 's' :=
              (foldEq_lower (l := 's') (by decide) hy).2 (hv y (List.mem_cons_self _ _))
            have hu' : ToLower (u ++ [y]) = "verses".toList := by
              rw [ToLower_append, hu]
              simp only [ToLower, List.map_cons, List.map_nil, hlow]
              rfl
            exact run_cap_chr_nil 2 (headNot_after_word
              (fun c hc => hv c (List.mem_cons_of_mem _ hc))
              (wordFree_after h (by rw [hr]; simp) (by simpa using hl) hrest hu'
                (by decide))) full caps1
          · simp [Rx.run, hy] at hres
      · simp only [List.mem_singleton] at hres
        subst hres
        exact run_cap_chr_nil 2 (headNot_after_word hv
          (wordFree_after h hr hl hrest hu (by decide))) full caps1
    rw [this]; simp

theorem matchAt_verse_none (full : Nat) (x : Char) (r : Str)
    (h : isFoldLetter x = true ∨ KeywordFree r) : rxVerse.matchAt full (x :: r) = none :=
  matchAt_verse_free full x r (h.imp id (wordFree_of_keywordFree (by decide)))

theorem run_digit_letter_nil (full : Nat) (s : Str) (caps : Caps)
    (h : HeadNot isDigit s ∨ ∃ d r, s = d :: r ∧ HeadNot isFoldLetter r) :
    (Rx.seq (.cap 2 (.chr isDigit)) (.cap 3 (.chr isFoldLetter))).run full s caps = [] := by
  rcases h with h | ⟨d, r, hs, hr⟩
  · exact run_seq_nil_left (run_cap_chr_nil 2 h full caps)
  · subst hs
    rw [run_seq_cap_chr]
    split
    · exact run_cap_chr_nil 3 hr full _
    · rfl

theorem matchAt_boundaryDigit_none (full : Nat) (x : Char) (r : Str)
    (hx : x ≠ ';' ∧ x ≠ '-')
    (h : isDigit x = false ∨ (x :: r).length ≠ full ∨ HeadNot isFoldLetter r) :
    rxBoundaryDigit.matchAt full (x :: r) = none := by
  unfold Rx.matchAt rxBoundaryDigit
  rw [List.head?_eq_none_iff]
  apply run_seq_nil
  intro res hres
  have hres1 : res.1 = x :: r ∧ (x :: r).length = full := by
    simp only [Rx.run, beq_iff_eq, hx.1, hx.2, if_false, List.flatMap_nil, List.append_nil,
      List.mem_map] at hres
    obtain ⟨a, ha, rfl⟩ := hres
    by_cases hlen : (x :: r).length = full
    · simp only [hlen, if_true, List.mem_singleton] at ha
      subst ha
      exact ⟨rfl, hlen⟩
    · simp only [List.length_cons] at hlen
      simp [hlen] at ha
  rw [hres1.1]
  apply run_digit_letter_nil
  rcases h with h | h | h
  · exact Or.inl (headNot_cons h)
  · exact absurd hres1.2 h
  · exact Or.inr ⟨x, r, rfl, h⟩

theorem matchAt_boundaryDigit_hyphen_none (full : Nat) (r : Str)
    (h : HeadNot isDigit r ∨ ∃ d r1, r = d :: r1 ∧ HeadNot isFoldLetter r1) :
    rxBoundaryDigit.matchAt full ('-' :: r) = none := by
  unfold Rx.matchAt rxBoundaryDigit
  rw [List.head?_eq_none_iff]
  apply run_seq_nil
  intro res hres
  have hres1 : res.1 = '-' :: r ∨ res.1 = r := by
    simp only [Rx.run, List.mem_map] at hres
    obtain ⟨a, ha, rfl⟩ := hres
    rcases List.mem_append.1 ha with ha | ha
    · left
      split at ha
      · simp only [List.mem_singleton] at ha; rw [ha]
      · cases ha
    · right
      simp at ha
      rw [ha]
  rcases hres1 with h1 | h1
  · rw [h1]; exact run_digit_letter_nil _ _ _ (Or.inl (headNot_cons (by decide)))
  · rw [h1]; exact run_digit_letter_nil _ _ _ h

/-- Pattern 8 after a semicolon: no blanks after it are followed by a digit
and a letter. -/
theorem matchAt_boundaryDigit_semi_none (full : Nat) (r : Str)
    (h : ∀ pre res, r = pre ++ res → (∀ c ∈ pre, c = ' ') →
      HeadNot isDigit res ∨ ∃ d r1, res = d :: r1 ∧ HeadNot isFoldLetter r1) :
    rxBoundaryDigit.matchAt full (';' :: r) = none := by
  unfold Rx.matchAt rxBoundaryDigit
  rw [List.head?_eq_none_iff]
  apply run_seq_nil
  intro res hres
  have hres1 : res.1 = ';' :: r ∨ ∃ pre, r = pre ++ res.1 ∧ ∀ c ∈ pre, c = ' ' := by
    simp only [Rx.run, List.mem_map] at hres
    obtain ⟨a, ha, rfl⟩ := hres
    rcases List.mem_append.1 ha with ha | ha
    · left
      split at ha
      · simp only [List.mem_singleton] at ha; rw [ha]
      · cases ha
    · right
      rcases List.mem_append.1 ha with ha | ha
      · simp only [beq_self_eq_true, if_true, List.flatMap_cons, List.flatMap_nil,
          List.append_nil, List.mem_map] at ha
        obtain ⟨rest, hrest, rfl⟩ := ha
        obtain ⟨pre, hpre, hall⟩ := mem_starRests hrest
        exact ⟨pre, hpre, fun c hc => by simpa using hall c hc⟩
      · simp at ha
  rcases hres1 with h1 | ⟨pre, h1, h2⟩
  · rw [h1]; exact run_digit_letter_nil _ _ _ (Or.inl (headNot_cons (by decide)))
  · exact run_digit_letter_nil _ _ _ (h pre res.1 h1 h2)

theorem safe_of {full : Nat} {t : Str}
    (h1 : rxLetterDigit.matchAt full t = none) (h2 : rxDigitLetter.matchAt full t = none)
    (h3 : rxDash.matchAt full t = none) (h4 : rxTo.matchAt full t = none)
    (h5 : rxChapter.matchAt full t = none) (h6 : rxC.matchAt full t = none)
    (h7 : rxVerse.matchAt full t = none) (h8 : rxBoundaryDigit.matchAt full t = none) :
    Safe full t := by
  intro sub hsub
  simp only [substitutions, List.mem_cons, List.mem_singleton, List.not_mem_nil, or_false] at hsub
  rcases hsub with h | h | h | h | h | h | h | h <;> (subst h; assumption)

theorem safe_letter (full : Nat) {x : Char} {r : Str} (hx : isAsciiLetter x = true)
    (hr : HeadNot isDigit r) : Safe full (x :: r) := by
  have hl := (isAsciiLetter_iff x).1 hx
  have hfl : isFoldLetter x = true := (isFoldLetter_iff x).2 (by omega)
  have hd : isDigit x = false := by rw [bool_eq_false_iff_not (isDigit_iff x)]; omega
  refine safe_of (matchAt_letterDigit_none _ _ _ (Or.inr hr))
    (matchAt_digitLetter_none _ _ _ (Or.inl hd))
    (matchAt_dash_none _ _ _ (by omega))
    (matchAt_to_none _ _ _ (Or.inl hfl)) (matchAt_chapter_none _ _ _ (Or.inl hfl))
    (matchAt_c_none _ _ _ (Or.inl hfl)) (matchAt_verse_none _ _ _ (Or.inl hfl))
    (matchAt_boundaryDigit_none _ _ _ ⟨?_, ?_⟩ (Or.inl hd))
  · intro h; rw [h] at hl; revert hl; decide
  · intro h; rw [h] at hl; revert hl; decide

theorem safe_digit (full : Nat) {x : Char} {r : Str} (hx : isDigit x = true)
    (hz : HeadNot isFoldDtoZ r) (hk : KeywordFree r)
    (hlen : (x :: r).length ≠ full ∨ HeadNot isFoldLetter r) :
    Safe full (x :: r) := by
  have hl := (isDigit_iff x).1 hx
  have hfl : isFoldLetter x = false := by
    rw [bool_eq_false_iff_not (isFoldLetter_iff x)]; omega
  refine safe_of (matchAt_letterDigit_none _ _ _ (Or.inl hfl))
    (matchAt_digitLetter_none _ _ _ (Or.inr hz))
    (matchAt_dash_none _ _ _ (by omega))
    (matchAt_to_none _ _ _ (Or.inr hk)) (matchAt_chapter_none _ _ _ (Or.inr hk))
    (matchAt_c_none _ _ _ (Or.inr hk)) (matchAt_verse_none _ _ _ (Or.inr hk))
    (matchAt_boundaryDigit_none _ _ _ ⟨?_, ?_⟩ (Or.inr hlen))
  · intro h; rw [h] at hl; revert hl; decide
  · intro h; rw [h] at hl; revert hl; decide

theorem safe_punct (full : Nat) {x : Char} {r : Str}
    (hx : x = ':' ∨ x = ' ' ∨ x = '.' ∨ x = ',' ∨ x = '&')
    (hk : KeywordFree r) : Safe full (x :: r) := by
  rcases hx with hx | hx | hx | hx | hx <;> subst hx
  all_goals
    exact safe_of (matchAt_letterDigit_none _ _ _ (Or.inl (by decide)))
      (matchAt_digitLetter_none _ _ _ (Or.inl (by decide)))
      (matchAt_dash_none _ _ _ (by decide))
      (matchAt_to_none _ _ _ (Or.inr hk)) (matchAt_chapter_none _ _ _ (Or.inr hk))
      (matchAt_c_none _ _ _ (Or.inr hk)) (matchAt_verse_none _ _ _ (Or.inr hk))
      (matchAt_boundaryDigit_none _ _ _ ⟨by decide, by decide⟩ (Or.inl (by decide)))

theorem safe_semi (full : Nat) {r : Str} (hk : KeywordFree r)
    (h8 : ∀ pre res, r = pre ++ res → (∀ c ∈ pre, c = ' ') →
      HeadNot isDigit res ∨ ∃ d r1, res = d :: r1 ∧ HeadNot isFoldLetter r1) :
    Safe full (';' :: r) :=
  safe_of (matchAt_letterDigit_none _ _ _ (Or.inl (by decide)))
    (matchAt_digitLetter_none _ _ _ (Or.inl (by decide)))
    (matchAt_dash_none _ _ _ (by decide))
    (matchAt_to_none _ _ _ (Or.inr hk)) (matchAt_chapter_none _ _ _ (Or.inr hk))
    (matchAt_c_none _ _ _ (Or.inr hk)) (matchAt_verse_none _ _ _ (Or.inr hk))
    (matchAt_boundaryDigit_semi_none _ _ h8)

theorem safe_hyphen (full : Nat) {r : Str} (hk : KeywordFree r)
    (h8 : HeadNot isDigit r ∨ ∃ d r1, r = d :: r1 ∧ HeadNot isFoldLetter r1) :
    Safe full ('-' :: r) :=
  safe_of (matchAt_letterDigit_none _ _ _ (Or.inl (by decide)))
    (matchAt_digitLetter_none _ _ _ (Or.inl (by decide)))
    (matchAt_dash_none _ _ _ (by decide))
    (matchAt_to_none _ _ _ (Or.inr hk)) (matchAt_chapter_none _ _ _ (Or.inr hk))
    (matchAt_c_none _ _ _ (Or.inr hk)) (matchAt_verse_none _ _ _ (Or.inr hk))
    (matchAt_boundaryDigit_hyphen_none _ _ h8)

/-! ### `KeywordFree` texts -/

theorem keywordFree_of_headNot {r : Str} (h : HeadNot isFoldLetter r) : KeywordFree r :=
  ⟨[], r, rfl, allP_nil _, h, Or.inl ⟨by decide, by decide, by decide, by decide, by decide⟩⟩

theorem keywordFree_nil : KeywordFree [] := keywordFree_of_headNot (headNot_nil _)

theorem keywordFree_name {n : Str} (hn : safeWord n = true) (rest : Str)
    (hrest : HeadNot isFoldLetter rest) : KeywordFree (n ++ rest) := by
  refine ⟨n, rest, rfl, (safeWord_letters hn).2, hrest, Or.inl ?_⟩
  have hkw := safeWord_not_norm hn
  exact ⟨hkw _ (by decide), hkw _ (by decide), hkw _ (by decide), hkw _ (by decide),
    hkw _ (by decide)⟩

theorem keywordFree_frag {f rest : Str} (hf : IsFrag f) (hs : FragSafe f rest)
    (hrest : HeadNot isFoldLetter rest) : KeywordFree (f ++ rest) := by
  rcases hf with h | h | h | h
  · subst h; exact keywordFree_of_headNot hrest
  · subst h
    exact ⟨['a'], rest, rfl, by intro c hc; rw [List.mem_singleton.1 hc]; decide, hrest,
      Or.inl ⟨by decide, by decide, by decide, by decide, by decide⟩⟩
  · subst h
    exact ⟨['b'], rest, rfl, by intro c hc; rw [List.mem_singleton.1 hc]; decide, hrest,
      Or.inl ⟨by decide, by decide, by decide, by decide, by decide⟩⟩
  · subst h
    rcases hs with hs | hs
    · exact absurd rfl hs
    · exact ⟨['c'], rest, rfl, by intro c hc; rw [List.mem_singleton.1 hc]; decide, hrest,
        Or.inr hs⟩

/-- A fragment letter of either case before `rest`: it is not read as the word
`c` when it is another letter or nothing follows it. -/
theorem keywordFree_fragLetter {c : Char} {rest : Str} (hc : isFragLetter c = true)
    (hs : (c ≠ 'c' ∧ c ≠ 'C') ∨ rest = []) (hrest : HeadNot isFoldLetter rest) :
    KeywordFree (c :: rest) := by
  have hl : AllP isAsciiLetter [c] := by
    intro x hx
    rw [List.mem_singleton.1 hx]
    simp only [isFragLetter, Bool.or_eq_true, beq_iff_eq] at hc
    rcases hc with ((((h | h) | h) | h) | h) | h <;> (rw [h]; decide)
  refine ⟨[c], rest, rfl, hl, hrest, ?_⟩
  rcases hs with ⟨h1, h2⟩ | hs
  · left
    simp only [isFragLetter, Bool.or_eq_true, beq_iff_eq] at hc
    rcases hc with ((((h | h) | h) | h) | h) | h
    · subst h; exact ⟨by decide, by decide, by decide, by decide, by decide⟩
    · subst h; exact ⟨by decide, by decide, by decide, by decide, by decide⟩
    · exact absurd h h1
    · subst h; exact ⟨by decide, by decide, by decide, by decide, by decide⟩
    · subst h; exact ⟨by decide, by decide, by decide, by decide, by decide⟩
    · exact absurd h h2
  · exact Or.inr hs

/-! ### Runs of letters and of digits -/

theorem headNot_digit_of_letters {a : Str} (rest : Str) (ha : AllP isAsciiLetter a)
    (hrest : HeadNot isDigit rest) : HeadNot isDigit (a ++ rest) :=
  headNot_append (headNot_of_allP ha fun c hc => by
    rw [bool_eq_false_iff_not (isDigit_iff c)]
    have := (isAsciiLetter_iff c).1 hc; omega) hrest

theorem allSafe_letters (full : Nat) :
    ∀ (name rest : Str), AllP isAsciiLetter name → HeadNot isDigit rest → AllSafe full rest →
      AllSafe full (name ++ rest) := by
  intro name
  induction name with
  | nil => intro rest _ _ h; exact h
  | cons x name ih =>
    intro rest hname hrest h
    have hname' : AllP isAsciiLetter name := fun c hc => hname c (List.mem_cons_of_mem _ hc)
    exact allSafe_cons
      (safe_letter full (hname x (List.mem_cons_self _ _))
        (headNot_digit_of_letters rest hname' hrest))
      (ih rest hname' hrest h)

theorem headNot_of_digits {p : Char → Bool} {a : Str} (rest : Str) (ha : AllP isDigit a)
    (hp : ∀ c, isDigit c = true → p c = false) (hrest : HeadNot p rest) :
    HeadNot p (a ++ rest) :=
  headNot_append (headNot_of_allP ha hp) hrest

theorem isFoldLetter_false_of_isDigit {c : Char} (h : isDigit c = true) :
    isFoldLetter c = false := by
  rw [bool_eq_false_iff_not (isFoldLetter_iff c)]
  have := (isDigit_iff c).1 h; omega

theorem isFoldDtoZ_false_of_isDigit {c : Char} (h : isDigit c = true) :
    isFoldDtoZ c = false := by
  rw [bool_eq_false_iff_not (isFoldDtoZ_iff c)]
  have := (isDigit_iff c).1 h; omega

theorem keywordFree_digits {ds : Str} (rest : Str) (hds : AllP isDigit ds)
    (hk : KeywordFree rest) : KeywordFree (ds ++ rest) := by
  cases ds with
  | nil => exact hk
  | cons d ds =>
    exact keywordFree_of_headNot
      (headNot_cons (isFoldLetter_false_of_isDigit (hds d (List.mem_cons_self _ _))))

theorem allSafe_digits (full : Nat) :
    ∀ (ds rest : Str), AllP isDigit ds → HeadNot isFoldDtoZ rest → KeywordFree rest →
      ((ds ++ rest).length < full ∨ HeadNot isFoldLetter rest) → AllSafe full rest →
      AllSafe full (ds ++ rest) := by
  intro ds
  induction ds with
  | nil => intro rest _ _ _ _ h; exact h
  | cons x ds ih =>
    intro rest hds hz hk hlen h
    have hds' : AllP isDigit ds := fun c hc => hds c (List.mem_cons_of_mem _ hc)
    have hlen' : (ds ++ rest).length < full ∨ HeadNot isFoldLetter rest := by
      rcases hlen with hlen | hlen
      · left
        simp only [List.cons_append, List.length_cons] at hlen; omega
      · exact Or.inr hlen
    have hhere : (x :: (ds ++ rest)).length ≠ full ∨ HeadNot isFoldLetter (ds ++ rest) := by
      rcases hlen with hlen | hlen
      · exact Or.inl (Nat.ne_of_lt hlen)
      · exact Or.inr
          (headNot_of_digits rest hds' (fun c hc => isFoldLetter_false_of_isDigit hc) hlen)
    exact allSafe_cons
      (safe_digit full (hds x (List.mem_cons_self _ _))
        (headNot_of_digits rest hds' (fun c hc => isFoldDtoZ_false_of_isDigit hc) hz)
        (keywordFree_digits rest hds' hk) hhere)
      (ih rest hds' hz hk hlen' h)

/-! ### Separators -/

theorem replaceAllAux_id (old new : Str) :
    ∀ s : Str, (∀ t, t ≠ [] → t <:+ s → old.isPrefixOf t = false) →
      replaceAllAux old new 0 s = s := by
  intro s
  induction s with
  | nil => intro _; rfl
  | cons c s ih =>
    intro h
    rw [replaceAllAux, h (c :: s) (by simp) (List.suffix_refl _)]
    simp only [Bool.false_eq_true, if_false]
    rw [ih fun t hne hsuf => h t hne (hsuf.trans (List.suffix_cons c s))]

theorem ReplaceAll_char_id (s : Str) (x : Char) (new : Str) (h : x ∉ s) :
    ReplaceAll s [x] new = s := by
  unfold ReplaceAll
  rw [if_neg (by simp)]
  apply replaceAllAux_id
  intro t hne hsuf
  obtain ⟨y, t', rfl⟩ := List.exists_cons_of_ne_nil hne
  have hy : y ∈ s := hsuf.subset (List.mem_cons_self _ _)
  have : (x == y) = false := by
    rw [beq_eq_false_iff_ne]; intro hxy; rw [hxy] at h; exact h hy
  simp [List.isPrefixOf, this]

theorem noAnd_nil : NoAnd [] := by
  intro t ht
  rw [List.suffix_nil.1 ht]; rfl

theorem noAnd_cons {c : Char} {s : Str} (h1 : "and".toList.isPrefixOf (c :: s) = false)
    (h2 : NoAnd s) : NoAnd (c :: s) := by
  intro t ht
  rcases List.suffix_cons_iff.1 ht with h | h
  · rw [h]; exact h1
  · exact h2 t h

theorem noAnd_cons_other {c : Char} {s : Str} (hc : c ≠ 'a') (h : NoAnd s) : NoAnd (c :: s) := by
  apply noAnd_cons _ h
  have : ('a' == c) = false := by rw [beq_eq_false_iff_ne]; exact Ne.symm hc
  simp [List.isPrefixOf, this]

theorem noAnd_append_other : ∀ (a rest : Str), (∀ c ∈ a, c ≠ 'a') → NoAnd rest →
    NoAnd (a ++ rest) := by
  intro a
  induction a with
  | nil => intro rest _ h; exact h
  | cons x a ih =>
    intro rest ha h
    exact noAnd_cons_other (ha x (List.mem_cons_self _ _))
      (ih rest (fun c hc => ha c (List.mem_cons_of_mem _ hc)) h)

theorem hasInfix_cons (sub : Str) (x : Char) (s : Str) :
    hasInfix sub (x :: s) = (sub.isPrefixOf (x :: s) || hasInfix sub s) := by
  simp [hasInfix, List.tails]

/-- A run of letters without `and` inside, followed by no letter, brings in no
`and`. -/
theorem noAnd_letters : ∀ (name rest : Str), hasInfix "and".toList name = false →
    HeadNot isAsciiLetter rest → NoAnd rest → NoAnd (name ++ rest) := by
  intro name
  induction name with
  | nil => intro rest _ _ h; exact h
  | cons x name ih =>
    intro rest hname hrest h
    rw [hasInfix_cons, Bool.or_eq_false_iff] at hname
    refine noAnd_cons ?_ (ih rest hname.2 hrest h)
    have hp := hname.1
    have hnd : ∀ y : Char, rest.head? = some y → y ≠ 'n' ∧ y ≠ 'd' := by
      intro y hy
      have := hrest y hy
      constructor <;> (intro hc; rw [hc] at this; revert this; decide)
    cases hb : "and".toList.isPrefixOf (x :: name ++ rest) with
    | false => exact hb
    | true =>
      exfalso
      have hand : "and".toList = ['a', 'n', 'd'] := rfl
      rw [hand] at hb hp
      rcases name with _ | ⟨y, _ | ⟨z, name⟩⟩
      · rcases rest with _ | ⟨y, rest⟩
        · simp [List.isPrefixOf] at hb
        · simp only [List.nil_append, List.cons_append, List.isPrefixOf, Bool.and_eq_true,
            beq_iff_eq] at hb
          exact (hnd y rfl).1 hb.2.1.symm
      · rcases rest with _ | ⟨z, rest⟩
        · simp [List.isPrefixOf] at hb
        · simp only [List.nil_append, List.cons_append, List.isPrefixOf, Bool.and_eq_true,
            beq_iff_eq] at hb
          exact (hnd z rfl).2 hb.2.2.1.symm
      · simp only [List.cons_append, List.isPrefixOf, Bool.and_eq_true, beq_iff_eq] at hb
        simp only [List.isPrefixOf, Bool.and_eq_false_iff, beq_eq_false_iff_ne] at hp
        rcases hp with hp | hp | hp | hp
        · exact hp hb.1
        · exact hp hb.2.1
        · exact hp hb.2.2.1
        · simp at hp

theorem ReplaceAll_and_id (s new : Str) (h : NoAnd s) : ReplaceAll s "and".toList new = s := by
  unfold ReplaceAll
  rw [if_neg (by decide)]
  exact replaceAllAux_id _ _ s fun t _ hsuf => h t hsuf

theorem splitAux_char_id (x : Char) : ∀ s : Str, x ∉ s → splitAux [x] 0 s = [s] := by
  intro s
  induction s with
  | nil => intro _; rfl
  | cons c s ih =>
    intro h
    have hc : (x == c) = false := by
      rw [beq_eq_false_iff_ne]; intro hxc; exact h (by rw [hxc]; exact List.mem_cons_self _ _)
    rw [splitAux]
    simp only [List.isPrefixOf, hc, Bool.false_and, Bool.false_eq_true, if_false]
    rw [ih fun hm => h (List.mem_cons_of_mem _ hm)]

theorem Split_char_id (s : Str) (x : Char) (h : x ∉ s) : Split s [x] = [s] := by
  unfold Split
  rw [if_neg (by simp)]
  exact splitAux_char_id x s h

theorem SplitOnSeparators_id (s : Str) (h1 : NoSepChar s) (h2 : NoAnd s) :
    SplitOnSeparators defaultSeparators s = some [s] := by
  have ha : "&".toList = ['&'] := rfl
  have hc : ",".toList = [','] := rfl
  have hs : ";".toList = [';'] := rfl
  simp only [SplitOnSeparators, defaultSeparators, List.foldl, ha, hc, hs]
  rw [ReplaceAll_char_id s '&' _ h1.1, ReplaceAll_char_id s ',' _ h1.2.1,
    ReplaceAll_char_id s ';' _ h1.2.2, ReplaceAll_and_id s _ h2, Split_char_id s '&' h1.1]

theorem splitAux_char_append (x : Char) (b : Str) : ∀ a : Str, x ∉ a →
    splitAux [x] 0 (a ++ x :: b) = a :: splitAux [x] 0 b := by
  intro a
  induction a with
  | nil =>
    intro _
    rw [List.nil_append, splitAux]
    simp [List.isPrefixOf]
  | cons c a ih =>
    intro h
    have hc : (x == c) = false := by
      rw [beq_eq_false_iff_ne]; intro hxc; exact h (by rw [hxc]; exact List.mem_cons_self _ _)
    rw [List.cons_append, splitAux]
    simp only [List.isPrefixOf, hc, Bool.false_and, Bool.false_eq_true, if_false]
    rw [ih fun hm => h (List.mem_cons_of_mem _ hm)]

theorem Split_hyphen_none (s : Str) (h : '-' ∉ s) : Split s "-".toList = [s] :=
  Split_char_id s '-' h

theorem Split_hyphen_one (a b : Str) (ha : '-' ∉ a) (hb : '-' ∉ b) :
    Split (a ++ '-' :: b) "-".toList = [a, b] := by
  have hh : "-".toList = ['-'] := rfl
  rw [hh]
  unfold Split
  rw [if_neg (by simp), splitAux_char_append '-' b a ha, splitAux_char_id '-' b hb]

/-! ### Canonical texts as token lists -/

/-- The character classes a well-formed token list can open with. -/
theorem render_head {ts : List Tok} (h : WellFormed ts) :
    (ts = [] ∧ render ts = []) ∨
    (∃ r, ts = .sp :: r ∧ render ts = ' ' :: render r) ∨
    (∃ r, ts = .colon :: r ∧ render ts = ':' :: render r) ∨
    (∃ r, ts = .hyphen :: r ∧ render ts = '-' :: render r) ∨
    (∃ c r, ts = .frag c :: r ∧ render ts = c :: render r ∧ isFragLetter c = true) ∨
    (∃ ds d ds1 r, ts = .num ds :: r ∧ ds = d :: ds1 ∧ render ts = d :: (ds1 ++ render r) ∧
      AllP isDigit ds) ∨
    (∃ n x n1 r, ts = .name n :: r ∧ n = x :: n1 ∧ render ts = x :: (n1 ++ render r) ∧
      safeWord n = true) ∨
    (∃ c r, ts = .punct c :: r ∧ render ts = c :: render r ∧
      (c = '.' ∨ c = ',' ∨ c = '&' ∨ c = ';')) := by
  cases ts with
  | nil => exact Or.inl ⟨rfl, rfl⟩
  | cons t r =>
    right
    cases t with
    | sp => exact Or.inl ⟨r, rfl, rfl⟩
    | colon => exact Or.inr (Or.inl ⟨r, rfl, rfl⟩)
    | hyphen => exact Or.inr (Or.inr (Or.inl ⟨r, rfl, rfl⟩))
    | frag c => exact Or.inr (Or.inr (Or.inr (Or.inl ⟨c, r, rfl, rfl, h.1.1⟩)))
    | num ds =>
      obtain ⟨d, ds1, hd⟩ := List.exists_cons_of_ne_nil h.1.1
      exact Or.inr (Or.inr (Or.inr (Or.inr (Or.inl
        ⟨ds, d, ds1, r, rfl, hd, by rw [hd]; rfl, h.1.2.1⟩))))
    | name n =>
      obtain ⟨x, n1, hn⟩ := List.exists_cons_of_ne_nil (safeWord_letters h.1.1).1
      exact Or.inr (Or.inr (Or.inr (Or.inr (Or.inr (Or.inl
        ⟨n, x, n1, r, rfl, hn, by rw [hn]; rfl, h.1.1⟩)))))
    | punct c =>
      exact Or.inr (Or.inr (Or.inr (Or.inr (Or.inr (Or.inr ⟨c, r, rfl, rfl, h.1.1⟩)))))

/-- A class that holds of no blank, colon, hyphen, point, separator, fragment
letter or digit fails at the head of a well-formed text that opens with no
name. -/
theorem headNot_render {p : Char → Bool} {ts : List Tok} (h : WellFormed ts)
    (hname : ∀ n r, ts ≠ .name n :: r)
    (hsp : p ' ' = false) (hcolon : p ':' = false) (hhyphen : p '-' = false)
    (hpunct : p '.' = false ∧ p ',' = false ∧ p '&' = false ∧ p ';' = false)
    (hfrag : ∀ c, isFragLetter c = true → p c = false)
    (hnum : ∀ c, isDigit c = true → p c = false) :
    HeadNot p (render ts) := by
  rcases render_head h with ⟨_, hr⟩ | ⟨r, _, hr⟩ | ⟨r, _, hr⟩ | ⟨r, _, hr⟩ | ⟨c, r, _, hr, hc⟩ |
    ⟨ds, d, ds1, r, _, hd, hr, hds⟩ | ⟨n, x, n1, r, hts, _, _, _⟩ | ⟨c, r, _, hr, hc⟩
  · rw [hr]; exact headNot_nil _
  · rw [hr]; exact headNot_cons hsp
  · rw [hr]; exact headNot_cons hcolon
  · rw [hr]; exact headNot_cons hhyphen
  · rw [hr]; exact headNot_cons (hfrag c hc)
  · rw [hr]; exact headNot_cons (hnum d (hds d (by rw [hd]; exact List.mem_cons_self _ _)))
  · exact absurd hts (hname n r)
  · rw [hr]
    rcases hc with hc | hc | hc | hc <;> subst hc
    · exact headNot_cons hpunct.1
    · exact headNot_cons hpunct.2.1
    · exact headNot_cons hpunct.2.2.1
    · exact headNot_cons hpunct.2.2.2

theorem isFragLetter_iff (c : Char) :
    isFragLetter c = true ↔ (97 ≤ c.toNat ∧ c.toNat ≤ 99) ∨ (65 ≤ c.toNat ∧ c.toNat ≤ 67) := by
  simp only [isFragLetter, Bool.or_eq_true, beq_iff_eq, char_eq_iff]
  have ha : ('a' : Char).toNat = 97 := rfl
  have hb : ('b' : Char).toNat = 98 := rfl
  have hc : ('c' : Char).toNat = 99 := rfl
  have hA : ('A' : Char).toNat = 65 := rfl
  have hB : ('B' : Char).toNat = 66 := rfl
  have hC : ('C' : Char).toNat = 67 := rfl
  rw [ha, hb, hc, hA, hB, hC]
  omega

theorem isAbc_fragLetter {c : Char} (h : isAbc c = true) : isFragLetter c = true := by
  rw [isFragLetter_iff]
  have := (isAbc_iff c).1 h; omega

theorem isFragLetter_not_foldDtoZ {c : Char} (h : isFragLetter c = true) :
    isFoldDtoZ c = false := by
  rw [bool_eq_false_iff_not (isFoldDtoZ_iff c)]
  have := (isFragLetter_iff c).1 h; omega

theorem isFragLetter_letter {c : Char} (h : isFragLetter c = true) :
    isAsciiLetter c = true := by
  rw [isAsciiLetter_iff]
  have := (isFragLetter_iff c).1 h; omega

theorem isAbc_not_foldDtoZ {c : Char} (h : isAbc c = true) : isFoldDtoZ c = false :=
  isFragLetter_not_foldDtoZ (isAbc_fragLetter h)

theorem isAbc_letter {c : Char} (h : isAbc c = true) : isAsciiLetter c = true :=
  isFragLetter_letter (isAbc_fragLetter h)

/-- After a name or a fragment letter comes no letter and no digit. -/
theorem headNot_after_letters {ts : List Tok} (h : WellFormed ts)
    (hts : ts = [] ∨ (∃ r, ts = .sp :: r) ∨ (∃ r, ts = .hyphen :: r) ∨
      ∃ c r, ts = .punct c :: r) :
    HeadNot isDigit (render ts) ∧ HeadNot isFoldLetter (render ts) ∧
      HeadNot isAsciiLetter (render ts) := by
  rcases hts with h0 | ⟨r, h0⟩ | ⟨r, h0⟩ | ⟨c, r, h0⟩ <;> subst h0
  · exact ⟨headNot_nil _, headNot_nil _, headNot_nil _⟩
  · exact ⟨headNot_cons (by decide), headNot_cons (by decide), headNot_cons (by decide)⟩
  · exact ⟨headNot_cons (by decide), headNot_cons (by decide), headNot_cons (by decide)⟩
  · have hc := h.1.1
    rcases hc with hc | hc | hc | hc <;> subst hc <;>
      exact ⟨headNot_cons (by decide), headNot_cons (by decide), headNot_cons (by decide)⟩

theorem keywordFree_render {ts : List Tok} (h : WellFormed ts) : KeywordFree (render ts) := by
  rcases render_head h with ⟨_, hr⟩ | ⟨r, _, hr⟩ | ⟨r, _, hr⟩ | ⟨r, _, hr⟩ | ⟨c, r, hts, hr, hc⟩ |
    ⟨ds, d, ds1, r, _, hd, hr, hds⟩ | ⟨n, x, n1, r, hts, _, _, hn⟩ | ⟨c, r, _, hr, hc⟩
  · rw [hr]; exact keywordFree_nil
  · rw [hr]; exact keywordFree_of_headNot (headNot_cons (by decide))
  · rw [hr]; exact keywordFree_of_headNot (headNot_cons (by decide))
  · rw [hr]; exact keywordFree_of_headNot (headNot_cons (by decide))
  · subst hts
    obtain ⟨⟨_, hnext⟩, hwf⟩ := h
    have hsafe : (c ≠ 'c' ∧ c ≠ 'C') ∨ render r = [] := by
      rcases hnext with h0 | ⟨hc1, _⟩
      · right; rw [h0]; rfl
      · exact Or.inl hc1
    have hhead : HeadNot isFoldLetter (render r) := by
      rcases hnext with h0 | ⟨_, h0⟩
      · exact (headNot_after_letters hwf (Or.inl h0)).2.1
      · exact (headNot_after_letters hwf (Or.inr h0)).2.1
    rw [hr]
    exact keywordFree_fragLetter hc hsafe hhead
  · rw [hr]
    exact keywordFree_of_headNot (headNot_cons
      (isFoldLetter_false_of_isDigit (hds d (by rw [hd]; exact List.mem_cons_self _ _))))
  · subst hts
    obtain ⟨⟨_, hnext⟩, hwf⟩ := h
    exact keywordFree_name hn (render r)
      (headNot_after_letters hwf (hnext.imp id Or.inl)).2.1
  · rw [hr]
    rcases hc with hc | hc | hc | hc <;> subst hc <;>
      exact keywordFree_of_headNot (headNot_cons (by decide))

theorem tok_text_ne_nil {t : Tok} {rest : List Tok} (h : Follows t rest) : t.text ≠ [] := by
  cases t with
  | name n => exact (safeWord_letters h.1).1
  | num ds => exact h.1
  | frag c => simp [Tok.text]
  | sp => simp [Tok.text]
  | colon => simp [Tok.text]
  | hyphen => simp [Tok.text]
  | punct c => simp [Tok.text]

theorem render_cons_length_lt {t : Tok} {rest : List Tok} (h : Follows t rest) :
    (render rest).length < (render (t :: rest)).length := by
  have := List.length_pos.2 (tok_text_ne_nil h)
  simp only [render, List.length_append]
  omega

/-- What follows a number opens with no name. -/
theorem not_name_after_num {ds : Str} {rest : List Tok} (h : Follows (.num ds) rest) :
    ∀ n r, rest ≠ .name n :: r := by
  intro n r heq
  rcases h.2.2 with h0 | ⟨_, h0⟩ | ⟨_, h0⟩ | ⟨_, h0⟩ | ⟨_, _, h0⟩ | ⟨_, _, h0⟩ <;>
    (rw [heq] at h0; cases h0)

/-- After a number that is followed by no fragment letter comes no letter. -/
theorem headNot_letter_after_num {ds : Str} {r : List Tok} (h : Follows (.num ds) r)
    (hwf : WellFormed r) (hfr : ∀ c r1, r ≠ .frag c :: r1) :
    HeadNot isFoldLetter (render r) := by
  rcases h.2.2 with h0 | ⟨_, h0⟩ | ⟨_, h0⟩ | ⟨_, h0⟩ | ⟨c, r1, h0⟩ | ⟨c, r1, h0⟩
  · rw [h0]; exact headNot_nil _
  · rw [h0]; exact headNot_cons (by decide)
  · rw [h0]; exact headNot_cons (by decide)
  · rw [h0]; exact headNot_cons (by decide)
  · exact absurd h0 (hfr c r1)
  · subst h0
    exact (headNot_after_letters hwf (Or.inr (Or.inr (Or.inr ⟨c, r1, rfl⟩)))).2.1

/-- A number that is no single digit before a fragment letter: its first
digit is followed by no letter. -/
theorem num_next_ok {ds : Str} {r : List Tok} (hwf : WellFormed (.num ds :: r))
    (hlen : 2 ≤ ds.length ∨ ∀ c r1, r ≠ .frag c :: r1) :
    ∃ d r1, render (.num ds :: r) = d :: r1 ∧ HeadNot isFoldLetter r1 := by
  obtain ⟨⟨hne, hds, hnext⟩, hwf1⟩ := hwf
  obtain ⟨d, ds1, hd⟩ := List.exists_cons_of_ne_nil hne
  refine ⟨d, ds1 ++ render r, by rw [hd]; rfl, ?_⟩
  cases ds1 with
  | cons e ds1 =>
    exact headNot_cons (isFoldLetter_false_of_isDigit (hds e (by rw [hd]; simp)))
  | nil =>
    rw [List.nil_append]
    have hfr : ∀ c r1, r ≠ .frag c :: r1 := by
      rcases hlen with hlen | hlen
      · rw [hd] at hlen; simp at hlen
      · exact hlen
    exact headNot_letter_after_num ⟨hne, hds, hnext⟩ hwf1 hfr

theorem hyphen_next_ok {rest : List Tok} (h : Follows .hyphen rest) (hwf : WellFormed rest) :
    HeadNot isDigit (render rest) ∨
      ∃ d r1, render rest = d :: r1 ∧ HeadNot isFoldLetter r1 := by
  rcases h with ⟨r, h0⟩ | ⟨ds, r, h0, hlen⟩ | ⟨n, r, h0⟩
  · subst h0; exact Or.inl (headNot_cons (by decide))
  · subst h0
    exact Or.inr (num_next_ok hwf hlen)
  · subst h0
    obtain ⟨x, n1, hx⟩ := List.exists_cons_of_ne_nil (safeWord_letters hwf.1.1).1
    left
    rw [render, Tok.text, hx]
    apply headNot_cons
    rw [bool_eq_false_iff_not (isDigit_iff x)]
    have := (isAsciiLetter_iff x).1 ((safeWord_letters hwf.1.1).2 x (by rw [hx]; simp))
    omega

/-- After a semicolon and any blanks comes no single digit and a letter. -/
theorem semi_next_ok : ∀ (rest : List Tok), WellFormed rest → semiOk rest →
    ∀ pre res, render rest = pre ++ res → (∀ c ∈ pre, c = ' ') →
      HeadNot isDigit res ∨ ∃ d r1, res = d :: r1 ∧ HeadNot isFoldLetter r1 := by
  intro rest
  induction rest with
  | nil =>
    intro _ _ pre res h _
    have : res = [] := by
      have := congrArg List.length h
      simp [render] at this
      exact List.length_eq_zero.1 (by omega)
    rw [this]; exact Or.inl (headNot_nil _)
  | cons t r ih =>
    intro hwf hok pre res h hpre
    have hhead : ∀ x : Char, x ≠ ' ' → isDigit x = false →
        ∀ tl, render (t :: r) = x :: tl → HeadNot isDigit res := by
      intro x hx hd tl hr
      rw [hr] at h
      cases pre with
      | nil => rw [List.nil_append] at h; rw [← h]; exact headNot_cons hd
      | cons y pre =>
        have hy := hpre y (List.mem_cons_self _ _)
        simp only [List.cons_append, List.cons.injEq] at h
        exact absurd (h.1.trans hy) hx
    cases t with
    | sp =>
      cases pre with
      | nil =>
        rw [List.nil_append] at h
        rw [← h]
        exact Or.inl (headNot_cons (by decide))
      | cons y pre =>
        simp only [render, Tok.text, List.singleton_append, List.cons_append,
          List.cons.injEq] at h
        exact ih hwf.2 hok pre res h.2 (fun c hc => hpre c (List.mem_cons_of_mem _ hc))
    | num ds =>
      obtain ⟨d, r1, hr, hnl⟩ := num_next_ok hwf hok
      have hdig : isDigit d = true := by
        obtain ⟨e, ds1, he⟩ := List.exists_cons_of_ne_nil hwf.1.1
        have : d = e := by
          rw [render, Tok.text, he] at hr
          simp only [List.cons_append, List.cons.injEq] at hr
          exact hr.1.symm
        rw [this]
        exact hwf.1.2.1 e (by rw [he]; simp)
      rw [hr] at h
      cases pre with
      | nil => rw [List.nil_append] at h; exact Or.inr ⟨d, r1, h.symm, hnl⟩
      | cons y pre =>
        have hy := hpre y (List.mem_cons_self _ _)
        simp only [List.cons_append, List.cons.injEq] at h
        rw [h.1, hy] at hdig
        exact absurd hdig (by decide)
    | name n =>
      obtain ⟨x, n1, hx⟩ := List.exists_cons_of_ne_nil (safeWord_letters hwf.1.1).1
      have hl := (isAsciiLetter_iff x).1 ((safeWord_letters hwf.1.1).2 x (by rw [hx]; simp))
      left
      refine hhead x ?_ ?_ (n1 ++ render r) (by rw [render, Tok.text, hx]; rfl)
      · intro hxs; rw [hxs] at hl; revert hl; decide
      · rw [bool_eq_false_iff_not (isDigit_iff x)]; omega
    | frag c =>
      have hl := (isFragLetter_iff c).1 hwf.1.1
      left
      refine hhead c ?_ ?_ (render r) rfl
      · intro hxs; rw [hxs] at hl; revert hl; decide
      · rw [bool_eq_false_iff_not (isDigit_iff c)]; omega
    | colon => exact Or.inl (hhead ':' (by decide) (by decide) (render r) rfl)
    | hyphen => exact Or.inl (hhead '-' (by decide) (by decide) (render r) rfl)
    | punct c =>
      left
      have hc := hwf.1.1
      rcases hc with hc | hc | hc | hc <;> subst hc
      · exact hhead _ (by decide) (by decide) (render r) rfl
      · exact hhead _ (by decide) (by decide) (render r) rfl
      · exact hhead _ (by decide) (by decide) (render r) rfl
      · exact hhead _ (by decide) (by decide) (render r) rfl

/-- The normaliser finds nothing to rewrite in a well-formed text that is a
proper part of the whole text when it opens with a number and a fragment
letter. -/
theorem allSafe_render (full : Nat) :
    ∀ ts : List Tok, WellFormed ts → (render ts).length ≤ full →
      ((∀ ds c r, ts ≠ .num ds :: .frag c :: r) ∨ (render ts).length < full) →
      AllSafe full (render ts) := by
  intro ts
  induction ts with
  | nil => intro _ _ _; exact allSafe_nil full
  | cons t rest ih =>
    intro hwf hle hstart
    obtain ⟨hfol, hwf1⟩ := hwf
    have hlt := render_cons_length_lt hfol
    have ih1 : AllSafe full (render rest) := ih hwf1 (by omega) (Or.inr (by omega))
    cases t with
    | name n =>
      obtain ⟨hn, hnext⟩ := hfol
      exact allSafe_letters full n (render rest) (safeWord_letters hn).2
        (headNot_after_letters hwf1 (hnext.imp id Or.inl)).1 ih1
    | num ds =>
      obtain ⟨hne, hds, hnext⟩ := hfol
      have hlen : (ds ++ render rest).length < full ∨ HeadNot isFoldLetter (render rest) := by
        rcases hstart with h | h
        · exact Or.inr (headNot_letter_after_num ⟨hne, hds, hnext⟩ hwf1
            (fun c r1 heq => h ds c r1 (by rw [heq])))
        · exact Or.inl h
      exact allSafe_digits full ds (render rest) hds
        (headNot_render hwf1 (not_name_after_num ⟨hne, hds, hnext⟩) (by decide) (by decide)
          (by decide) (by decide) (fun c hc => isFragLetter_not_foldDtoZ hc)
          (fun c hc => isFoldDtoZ_false_of_isDigit hc))
        (keywordFree_render hwf1) hlen ih1
    | frag c =>
      obtain ⟨hc, hnext⟩ := hfol
      have hts : rest = [] ∨ (∃ r, rest = .sp :: r) ∨ (∃ r, rest = .hyphen :: r) ∨
          ∃ x r, rest = .punct x :: r := by
        rcases hnext with h | ⟨_, h⟩
        · exact Or.inl h
        · exact Or.inr h
      exact allSafe_cons
        (safe_letter full (isFragLetter_letter hc) (headNot_after_letters hwf1 hts).1) ih1
    | sp =>
      exact allSafe_cons
        (safe_punct full (Or.inr (Or.inl rfl)) (keywordFree_render hwf1)) ih1
    | colon => exact allSafe_cons (safe_punct full (Or.inl rfl) (keywordFree_render hwf1)) ih1
    | hyphen =>
      exact allSafe_cons (safe_hyphen full (keywordFree_render hwf1) (hyphen_next_ok hfol hwf1)) ih1
    | punct c =>
      obtain ⟨hc, hsemi⟩ := hfol
      rcases hc with hc | hc | hc | hc
      · subst hc
        exact allSafe_cons
          (safe_punct full (Or.inr (Or.inr (Or.inl rfl))) (keywordFree_render hwf1)) ih1
      · subst hc
        exact allSafe_cons
          (safe_punct full (Or.inr (Or.inr (Or.inr (Or.inl rfl)))) (keywordFree_render hwf1)) ih1
      · subst hc
        exact allSafe_cons
          (safe_punct full (Or.inr (Or.inr (Or.inr (Or.inr rfl)))) (keywordFree_render hwf1)) ih1
      · subst hc
        exact allSafe_cons
          (safe_semi full (keywordFree_render hwf1)
            (semi_next_ok rest hwf1 (hsemi rfl))) ih1

theorem hasInfix_and_safe {n : Str} (hn : safeWord n = true) :
    hasInfix "and".toList n = false := by
  simp only [safeWord, Bool.and_eq_true, Bool.not_eq_true'] at hn
  exact hn.1.2

theorem hasInfix_and_plain {n : Str} (hn : plainName n = true) :
    hasInfix "and".toList n = false :=
  hasInfix_and_safe (plainName_safeWord hn)

theorem noAnd_render : ∀ ts : List Tok, WellFormed ts → NoAnd (render ts) := by
  intro ts
  induction ts with
  | nil => intro _; exact noAnd_nil
  | cons t rest ih =>
    intro hwf
    obtain ⟨hfol, hwf1⟩ := hwf
    have ih1 := ih hwf1
    cases t with
    | name n =>
      obtain ⟨hn, hnext⟩ := hfol
      exact noAnd_letters n (render rest) (hasInfix_and_safe hn)
        (headNot_after_letters hwf1 (hnext.imp id Or.inl)).2.2 ih1
    | num ds =>
      refine noAnd_append_other ds (render rest) ?_ ih1
      intro c hc heq
      have := hfol.2.1 c hc
      rw [heq] at this; revert this; decide
    | frag c =>
      obtain ⟨hc, hnext⟩ := hfol
      have hts : rest = [] ∨ (∃ r, rest = .sp :: r) ∨ (∃ r, rest = .hyphen :: r) ∨
          ∃ x r, rest = .punct x :: r := by
        rcases hnext with h | ⟨_, h⟩
        · exact Or.inl h
        · exact Or.inr h
      refine noAnd_letters [c] (render rest) ?_ (headNot_after_letters hwf1 hts).2.2 ih1
      simp [hasInfix, List.tails, List.isPrefixOf]
    | sp => exact noAnd_cons_other (by decide) ih1
    | colon => exact noAnd_cons_other (by decide) ih1
    | hyphen => exact noAnd_cons_other (by decide) ih1
    | punct c =>
      obtain ⟨hc, _⟩ := hfol
      rcases hc with hc | hc | hc | hc <;> subst hc <;> exact noAnd_cons_other (by decide) ih1

/-- The characters of a well-formed text: ASCII letters, digits, blank, colon,
hyphen, point and the separator characters. -/
theorem render_chars : ∀ ts : List Tok, WellFormed ts →
    ∀ c ∈ render ts, isAsciiLetter c = true ∨ isDigit c = true ∨ c = ' ' ∨ c = ':' ∨ c = '-' ∨
      c = '.' ∨ ∃ r0 r1, ts = r0 ++ .punct c :: r1 := by
  intro ts
  induction ts with
  | nil => intro _ c hc; cases hc
  | cons t rest ih =>
    intro hwf c hc
    obtain ⟨hfol, hwf1⟩ := hwf
    rcases List.mem_append.1 hc with h | h
    · cases t with
      | name n => exact Or.inl ((safeWord_letters hfol.1).2 c h)
      | num ds => exact Or.inr (Or.inl (hfol.2.1 c h))
      | frag x => rw [List.mem_singleton.1 h]; exact Or.inl (isFragLetter_letter hfol.1)
      | sp => rw [List.mem_singleton.1 h]; exact Or.inr (Or.inr (Or.inl rfl))
      | colon => rw [List.mem_singleton.1 h]; exact Or.inr (Or.inr (Or.inr (Or.inl rfl)))
      | hyphen =>
        rw [List.mem_singleton.1 h]; exact Or.inr (Or.inr (Or.inr (Or.inr (Or.inl rfl))))
      | punct x =>
        rw [List.mem_singleton.1 h]
        exact Or.inr (Or.inr (Or.inr (Or.inr (Or.inr (Or.inr ⟨[], rest, rfl⟩)))))
    · rcases ih hwf1 c h with h1 | h1 | h1 | h1 | h1 | h1 | ⟨r0, r1, h1⟩
      · exact Or.inl h1
      · exact Or.inr (Or.inl h1)
      · exact Or.inr (Or.inr (Or.inl h1))
      · exact Or.inr (Or.inr (Or.inr (Or.inl h1)))
      · exact Or.inr (Or.inr (Or.inr (Or.inr (Or.inl h1))))
      · exact Or.inr (Or.inr (Or.inr (Or.inr (Or.inr (Or.inl h1)))))
      · exact Or.inr (Or.inr (Or.inr (Or.inr (Or.inr (Or.inr ⟨t :: r0, r1, by rw [h1]; rfl⟩)))))

theorem noSepChar_render (ts : List Tok) (h : WellFormed ts) (hns : NoSepTok ts) :
    NoSepChar (render ts) := by
  have key : ∀ x : Char, isAsciiLetter x = false → isDigit x = false → x ≠ ' ' → x ≠ ':' →
      x ≠ '-' → x ≠ '.' → x ∉ render ts := by
    intro x h1 h2 h3 h4 h5 h6 hx
    rcases render_chars ts h x hx with h0 | h0 | h0 | h0 | h0 | h0 | ⟨r0, r1, h0⟩
    · rw [h1] at h0; cases h0
    · rw [h2] at h0; cases h0
    · exact h3 h0
    · exact h4 h0
    · exact h5 h0
    · exact h6 h0
    · exact h6 (hns x (by rw [h0]; simp))
  exact ⟨key _ (by decide) (by decide) (by decide) (by decide) (by decide) (by decide),
    key _ (by decide) (by decide) (by decide) (by decide) (by decide) (by decide),
    key _ (by decide) (by decide) (by decide) (by decide) (by decide) (by decide)⟩

theorem noHyphen_render : ∀ ts : List Tok, WellFormed ts → (∀ t ∈ ts, t ≠ Tok.hyphen) →
    '-' ∉ render ts := by
  intro ts
  induction ts with
  | nil => intro _ _ h; cases h
  | cons t rest ih =>
    intro hwf hno hmem
    obtain ⟨hfol, hwf1⟩ := hwf
    rcases List.mem_append.1 hmem with h | h
    · cases t with
      | name n =>
        have := (safeWord_letters hfol.1).2 _ h
        revert this; decide
      | num ds =>
        have := hfol.2.1 _ h
        revert this; decide
      | frag x =>
        have hx := hfol.1
        rw [← List.mem_singleton.1 h] at hx
        revert hx; decide
      | sp => simp [Tok.text] at h
      | colon => simp [Tok.text] at h
      | hyphen => exact hno _ (List.mem_cons_self _ _) rfl
      | punct x =>
        have hx := hfol.1
        rw [← List.mem_singleton.1 h] at hx
        revert hx; decide
    · exact ih hwf1 (fun t ht => hno t (List.mem_cons_of_mem _ ht)) h

/-! ### `Parse` on a text that is one clause -/

theorem Parse_single (p : BiblePassageParser) (text : Str)
    (hsep : p.separators = defaultSeparators) (hne : text ≠ [])
    (htrim : TrimSpace text = text) (hsafe : AllSafe text.length text)
    (hns : NoSepChar text) (hna : NoAnd text) :
    p.Parse text = returnOf (p.parseSection initialState text) := by
  unfold BiblePassageParser.Parse
  rw [htrim, if_neg hne, normalise_id text hsafe, hsep, SplitOnSeparators_id text hns hna]
  simp only [BiblePassageParser.parseSections, htrim, if_neg hne]
  unfold initialState
  cases p.parseSection _ text <;> rfl

theorem render_append (a b : List Tok) : render (a ++ b) = render a ++ render b := by
  induction a with
  | nil => rfl
  | cons t a ih => simp [render, ih]

theorem wellFormed_append_right : ∀ (a b : List Tok), WellFormed (a ++ b) → WellFormed b := by
  intro a
  induction a with
  | nil => intro b h; exact h
  | cons t a ih => intro b h; exact ih b h.2

theorem isSpace_false_of_canon {c : Char}
    (h : isAsciiLetter c = true ∨ isDigit c = true ∨ c = ':' ∨ c = '-') : isSpace c = false := by
  rw [bool_eq_false_iff_not (isSpace_iff c)]
  rcases h with h | h | h | h
  · have := (isAsciiLetter_iff c).1 h; omega
  · have := (isDigit_iff c).1 h; omega
  · rw [h]; decide
  · rw [h]; decide

/-- The ends of a well-formed text that opens with a name or with a number
and a blank, and does not close with a blank: it is not empty, white space
neither opens nor closes it, and it does not open with a number and a fragment
letter. -/
theorem render_ends (ts : List Tok) (hwf : WellFormed ts)
    (hfirst : (∃ n r, ts = .name n :: r) ∨ ∃ ds r, ts = .num ds :: .sp :: r)
    (hlast : ts.getLast? ≠ some .sp) :
    HeadNot isSpace (render ts) ∧ render ts ≠ [] ∧
      (∀ c, (render ts).getLast? = some c → isSpace c = false) ∧
      ∀ ds c r, ts ≠ .num ds :: .frag c :: r := by
  have hhead : HeadNot isSpace (render ts) ∧ render ts ≠ [] ∧ ts ≠ [] ∧
      ∀ ds c r, ts ≠ .num ds :: .frag c :: r := by
    rcases hfirst with ⟨n, r, hts⟩ | ⟨ds, r, hts⟩
    · have hn : n ≠ [] ∧ ∀ c ∈ n, isAsciiLetter c = true := by
        rw [hts] at hwf; exact safeWord_letters hwf.1.1
      obtain ⟨x, n1, hx⟩ := List.exists_cons_of_ne_nil hn.1
      refine ⟨?_, by rw [hts]; simp [render, Tok.text, hn.1], by rw [hts]; simp, ?_⟩
      · rw [hts, render, Tok.text, hx]
        exact headNot_cons (isSpace_false_of_canon
          (Or.inl (hn.2 x (by rw [hx]; exact List.mem_cons_self _ _))))
      · intro ds c r1 h; rw [hts] at h; cases h
    · have hn : ds ≠ [] ∧ AllP isDigit ds := by
        rw [hts] at hwf; exact ⟨hwf.1.1, hwf.1.2.1⟩
      obtain ⟨x, n1, hx⟩ := List.exists_cons_of_ne_nil hn.1
      refine ⟨?_, by rw [hts]; simp [render, Tok.text, hn.1], by rw [hts]; simp, ?_⟩
      · rw [hts, render, Tok.text, hx]
        exact headNot_cons (isSpace_false_of_canon
          (Or.inr (Or.inl (hn.2 x (by rw [hx]; exact List.mem_cons_self _ _)))))
      · intro ds1 c r1 h; rw [hts] at h; cases h
  obtain ⟨hhead, hne, htsne, hstart⟩ := hhead
  refine ⟨hhead, hne, ?_, hstart⟩
  obtain ⟨init, last, hil⟩ : ∃ init last, ts = init ++ [last] :=
    ⟨ts.dropLast, ts.getLast htsne, (List.dropLast_append_getLast htsne).symm⟩
  have hlast1 : last ≠ .sp := by
    intro h
    apply hlast
    rw [hil, h]; simp
  have hwl : WellFormed [last] := wellFormed_append_right init [last] (hil ▸ hwf)
  have hlne : last.text ≠ [] := tok_text_ne_nil hwl.1
  intro c hc
  have hr : render ts = render init ++ last.text := by
    rw [hil, render_append]; simp [render]
  rw [hr, List.getLast?_append_of_ne_nil _ hlne] at hc
  have hmem := List.mem_of_mem_getLast? hc
  have hfol := hwl.1
  cases last with
  | name m => exact isSpace_false_of_canon (Or.inl ((safeWord_letters hfol.1).2 c hmem))
  | num ds => exact isSpace_false_of_canon (Or.inr (Or.inl (hfol.2.1 c hmem)))
  | frag y =>
    rw [List.mem_singleton.1 hmem]
    exact isSpace_false_of_canon (Or.inl (isFragLetter_letter hfol.1))
  | sp => exact absurd rfl hlast1
  | colon => rw [List.mem_singleton.1 hmem]; decide
  | hyphen => rw [List.mem_singleton.1 hmem]; decide
  | punct y =>
    rw [List.mem_singleton.1 hmem]
    rcases hfol.1 with hy | hy | hy | hy <;> (subst hy; decide)

theorem TrimSpace_render (ts : List Tok) (hwf : WellFormed ts)
    (hfirst : (∃ n r, ts = .name n :: r) ∨ ∃ ds r, ts = .num ds :: .sp :: r)
    (hlast : ts.getLast? ≠ some .sp) : TrimSpace (render ts) = render ts := by
  obtain ⟨hhead, hne, hlastc, _⟩ := render_ends ts hwf hfirst hlast
  have := TrimSpace_pad [] _ [] (allP_nil _) (allP_nil _) hne hhead hlastc
  simpa using this

/-- A well-formed text that opens with a name or with a number and a blank,
and does not close with a blank, is one clause for `Parse`. -/
theorem Parse_render (p : BiblePassageParser) (ts : List Tok)
    (hsep : p.separators = defaultSeparators) (hwf : WellFormed ts)
    (hfirst : (∃ n r, ts = .name n :: r) ∨ ∃ ds r, ts = .num ds :: .sp :: r)
    (hlast : ts.getLast? ≠ some .sp) (hns : NoSepTok ts) :
    p.Parse (render ts) = returnOf (p.parseSection initialState (render ts)) := by
  obtain ⟨_, hne, _, hstart⟩ := render_ends ts hwf hfirst hlast
  exact Parse_single p _ hsep hne (TrimSpace_render ts hwf hfirst hlast)
    (allSafe_render _ _ hwf (Nat.le_refl _) (Or.inl hstart))
    (noSepChar_render _ hwf hns) (noAnd_render _ hwf)

/-! ### Numbers as `Parse` reads them back -/

theorem isNumeral_fmtInt {x : Int} (h : 0 ≤ x) : IsNumeral (fmtInt x) x.toNat := by
  rw [fmtInt_of_nonneg h]; exact isNumeral_fmtNat _

theorem toNat_lt_of_lt {x : Int} (h0 : 0 ≤ x) (h : x < 2 ^ 63) : x.toNat < 2 ^ 63 := by
  omega

theorem parseNumFragment_fmtInt {x : Int} {f : Str} (h0 : 0 ≤ x) (h : x < 2 ^ 63)
    (hf : IsFrag f) : parseNumFragment (fmtInt x ++ f) = (x, f) := by
  rw [parseNumFragment_numeral (isNumeral_fmtInt h0) (toNat_lt_of_lt h0 h) hf,
    Int.toNat_of_nonneg h0]

theorem endNumber_fmtInt {x : Int} {f : Str} (h0 : 0 ≤ x) (h : x < 2 ^ 63) (hf : IsFrag f) :
    endNumber (fmtInt x ++ f) = x := by
  rw [endNumber_numeral (isNumeral_fmtInt h0) (toNat_lt_of_lt h0 h) hf, Int.toNat_of_nonneg h0]

theorem trailingFragment_fmtInt {x : Int} {f : Str} (h0 : 0 ≤ x) (hf : IsFrag f) :
    trailingFragment (fmtInt x ++ f) [] = f :=
  trailingFragment_numeral (isNumeral_fmtInt h0) hf

theorem isToken_fmtInt {x : Int} {f : Str} (h0 : 0 ≤ x) (hf : IsFrag f) :
    IsToken (fmtInt x ++ f) := by
  obtain ⟨hne, hall, _⟩ := isNumeral_fmtInt h0
  exact ⟨fmtInt x, f, rfl, hne, hall, hf⟩

/-! ### Book names -/

theorem splitWords_ne_nil (s : Str) : splitWords s ≠ [] := by
  cases s with
  | nil => simp [splitWords]
  | cons c cs =>
    rw [splitWords]
    split
    · simp
    · split <;> simp

theorem joinWords_cons_char (c : Char) (w : Str) (ws : List Str) :
    joinWords ((c :: w) :: ws) = c :: joinWords (w :: ws) := by
  cases ws <;> rfl

theorem joinWords_splitWords (s : Str) : joinWords (splitWords s) = s := by
  induction s with
  | nil => rfl
  | cons c cs ih =>
    rw [splitWords]
    split
    · rename_i hc
      obtain ⟨v, ws, hv⟩ := List.exists_cons_of_ne_nil (splitWords_ne_nil cs)
      rw [hv] at ih ⊢
      rw [joinWords, ih, hc]; rfl
    · split
      · rename_i h; exact absurd h (splitWords_ne_nil cs)
      · rename_i w ws h
        rw [h] at ih
        rw [joinWords_cons_char, ih]

theorem render_wordToks : ∀ ws : List Str, render (wordToks ws) = joinWords ws
  | [] => rfl
  | [w] => by simp [wordToks, render, Tok.text, joinWords]
  | w :: v :: ws => by
    rw [wordToks, render, render, render_wordToks (v :: ws), joinWords]
    rfl

theorem isNumberWord_iff {w : Str} (h : isNumberWord w = true) : w ≠ [] ∧ AllP isDigit w := by
  simp only [isNumberWord, Bool.and_eq_true, Bool.not_eq_true', List.isEmpty_eq_false,
    List.all_eq_true] at h
  exact ⟨h.1, h.2⟩

/-- A book name is the text of a token list of a name. -/
theorem bookName_toks {n : Str} (hn : bookName n = true) :
    ∃ nts, NameToks nts ∧ render nts = n := by
  have hj := joinWords_splitWords n
  unfold bookName at hn
  split at hn
  · cases hn
  · rename_i w hw
    rw [hw] at hj
    refine ⟨wordToks [w], ⟨w, [], ?_, Or.inl rfl⟩, by rw [render_wordToks]; exact hj⟩
    intro x hx
    rw [List.mem_singleton.1 hx]; exact hn
  · rename_i w ws hne hw
    rw [hw] at hj
    simp only [Bool.and_eq_true, Bool.or_eq_true, List.all_eq_true] at hn
    obtain ⟨hw1, hws⟩ := hn
    cases ws with
    | nil =>
      rcases hw1 with h | h
      · refine ⟨wordToks [w], ⟨w, [], ?_, Or.inl rfl⟩, by rw [render_wordToks]; exact hj⟩
        intro x hx
        rw [List.mem_singleton.1 hx]; exact h
      · exact absurd rfl hne
    | cons v ws =>
      rcases hw1 with h | h
      · refine ⟨wordToks (w :: v :: ws), ⟨w, v :: ws, ?_, Or.inl rfl⟩,
          by rw [render_wordToks]; exact hj⟩
        intro x hx
        rcases List.mem_cons.1 hx with hx | hx
        · rw [hx]; exact h
        · exact hws x hx
      · obtain ⟨hne1, hds⟩ := isNumberWord_iff h
        refine ⟨.num w :: .sp :: wordToks (v :: ws), ⟨v, ws, hws, Or.inr ⟨w, hne1, hds, rfl⟩⟩, ?_⟩
        rw [render, render, render_wordToks, ← hj, joinWords]
        rfl

/-! ### The token list of a name in a text -/

theorem wordToks_head (w : Str) (ws : List Str) : ∃ r, wordToks (w :: ws) = .name w :: r := by
  cases ws with
  | nil => exact ⟨[], rfl⟩
  | cons v ws => exact ⟨_, rfl⟩

theorem wellFormed_wordToks (rest : List Tok) (hrest : rest = [] ∨ ∃ r, rest = .sp :: r)
    (hwf : WellFormed rest) :
    ∀ (ws : List Str) (w : Str), (∀ x ∈ w :: ws, plainName x = true) →
      WellFormed (wordToks (w :: ws) ++ rest) := by
  intro ws
  induction ws with
  | nil =>
    intro w h
    exact ⟨⟨plainName_safeWord (h w (List.mem_cons_self _ _)), hrest⟩, hwf⟩
  | cons v ws ih =>
    intro w h
    have hv : ∀ x ∈ v :: ws, plainName x = true := fun x hx => h x (List.mem_cons_of_mem _ hx)
    obtain ⟨r, hr⟩ := wordToks_head v ws
    refine ⟨⟨plainName_safeWord (h w (List.mem_cons_self _ _)), Or.inr ⟨_, rfl⟩⟩, ?_, ih v hv⟩
    exact Or.inr (Or.inr (Or.inr (Or.inl ⟨v, r ++ rest, by rw [hr]; rfl⟩)))

/-- A name is well formed before the end of the text and before a blank. -/
theorem wellFormed_nameToks {nts rest : List Tok} (h : NameToks nts)
    (hrest : rest = [] ∨ ∃ r, rest = .sp :: r) (hwf : WellFormed rest) :
    WellFormed (nts ++ rest) := by
  obtain ⟨w, ws, hall, h | ⟨ds, hne, hds, h⟩⟩ := h
  · rw [h]; exact wellFormed_wordToks rest hrest hwf ws w hall
  · rw [h]
    obtain ⟨r, hr⟩ := wordToks_head w ws
    refine ⟨⟨hne, hds, Or.inr (Or.inl ⟨_, rfl⟩)⟩, ?_, wellFormed_wordToks rest hrest hwf ws w hall⟩
    exact Or.inr (Or.inr (Or.inr (Or.inl ⟨w, r ++ rest, by rw [hr]; rfl⟩)))

theorem nameToks_first {nts : List Tok} (h : NameToks nts) (rest : List Tok) :
    (∃ n r, nts ++ rest = .name n :: r) ∨ ∃ ds r, nts ++ rest = .num ds :: .sp :: r := by
  obtain ⟨w, ws, _, h | ⟨ds, _, _, h⟩⟩ := h
  · obtain ⟨r, hr⟩ := wordToks_head w ws
    exact Or.inl ⟨w, r ++ rest, by rw [h, hr]; rfl⟩
  · exact Or.inr ⟨ds, wordToks (w :: ws) ++ rest, by rw [h]; rfl⟩

theorem wordToks_getLast? : ∀ (ws : List Str) (w : Str),
    (wordToks (w :: ws)).getLast? = some (.name ((w :: ws).getLast (by simp)))
  | [], w => rfl
  | v :: ws, w => by
    have ih := wordToks_getLast? ws v
    obtain ⟨r, hr⟩ := wordToks_head v ws
    rw [wordToks, hr, List.getLast?_cons_cons, List.getLast?_cons_cons, ← hr, ih]
    simp

theorem nameToks_getLast? {nts : List Tok} (h : NameToks nts) :
    ∃ w, nts.getLast? = some (.name w) := by
  obtain ⟨w, ws, _, h | ⟨ds, _, _, h⟩⟩ := h
  · exact ⟨_, by rw [h]; exact wordToks_getLast? ws w⟩
  · obtain ⟨r, hr⟩ := wordToks_head w ws
    refine ⟨(w :: ws).getLast (by simp), ?_⟩
    rw [h, hr, List.getLast?_cons_cons, List.getLast?_cons_cons, ← hr]
    exact wordToks_getLast? ws w

theorem nameToks_ne_nil {nts : List Tok} (h : NameToks nts) : nts ≠ [] := by
  obtain ⟨w, hw⟩ := nameToks_getLast? h
  intro hn
  rw [hn] at hw
  cases hw

theorem nameToks_getLast?_ne_sp {nts : List Tok} (h : NameToks nts) :
    nts.getLast? ≠ some .sp := by
  obtain ⟨w, hw⟩ := nameToks_getLast? h
  rw [hw]
  simp

/-- A name alone is a well-formed text with trimmed ends. -/
theorem nameToks_alone {nts : List Tok} (h : NameToks nts) :
    WellFormed nts ∧ ((∃ n r, nts = .name n :: r) ∨ ∃ ds r, nts = .num ds :: .sp :: r) := by
  have h1 : WellFormed (nts ++ []) := wellFormed_nameToks h (Or.inl rfl) trivial
  have h2 := nameToks_first h []
  simp only [List.append_nil] at h1 h2
  exact ⟨h1, h2⟩

theorem wordToks_mem : ∀ (ws : List Str) (t : Tok), t ∈ wordToks ws →
    t ≠ .hyphen ∧ ∀ c, t ≠ .punct c
  | [], t, h => by cases h
  | [w], t, h => by
    rw [wordToks, List.mem_singleton] at h
    rw [h]; simp
  | w :: v :: ws, t, h => by
    rw [wordToks, List.mem_cons, List.mem_cons] at h
    rcases h with h | h | h
    · rw [h]; simp
    · rw [h]; simp
    · exact wordToks_mem (v :: ws) t h

theorem nameToks_mem {nts : List Tok} (h : NameToks nts) :
    ∀ t ∈ nts, t ≠ .hyphen ∧ ∀ c, t ≠ .punct c := by
  obtain ⟨w, ws, _, h | ⟨ds, _, _, h⟩⟩ := h
  · rw [h]; exact wordToks_mem _
  · rw [h]
    intro t ht
    rw [List.mem_cons, List.mem_cons] at ht
    rcases ht with ht | ht | ht
    · rw [ht]; simp
    · rw [ht]; simp
    · exact wordToks_mem _ t ht

theorem hyphen_not_mem_nameToks {nts : List Tok} (h : NameToks nts) : '-' ∉ render nts :=
  noHyphen_render nts (nameToks_alone h).1 fun t ht => (nameToks_mem h t ht).1

theorem noSepTok_nameToks {nts : List Tok} (h : NameToks nts) : NoSepTok nts := by
  intro c hc
  exact absurd rfl ((nameToks_mem h _ hc).2 c)

/-- A plain name is a book name. -/
theorem plainName_bookName {n : Str} (hn : plainName n = true) : bookName n = true := by
  have hl := plainName_letters hn
  have hsplit : ∀ s : Str, (∀ c ∈ s, isAsciiLetter c = true) → splitWords s = [s] := by
    intro s
    induction s with
    | nil => intro _; rfl
    | cons c s ih =>
      intro h
      have hc : c ≠ ' ' := by
        intro hc
        have := h c (List.mem_cons_self _ _)
        rw [hc] at this
        revert this; decide
      rw [splitWords, if_neg hc, ih fun x hx => h x (List.mem_cons_of_mem _ hx)]
  unfold bookName
  rw [hsplit n hl.2]
  exact hn

/-! ### The lower-case text of a book name -/

theorem lastWord_append_space (t kw : Str) (h : ' ' ∉ kw) : lastWord (t ++ ' ' :: kw) = kw := by
  unfold lastWord
  have hrev : (t ++ ' ' :: kw).reverse = kw.reverse ++ (' ' :: t.reverse) := by simp
  rw [hrev, List.takeWhile_append_of_pos, List.takeWhile_cons_of_neg (by simp)]
  · simp
  · intro a ha
    have : a ≠ ' ' := fun h1 => h (h1 ▸ List.mem_reverse.1 ha)
    simpa using this

theorem lastWord_no_space (s : Str) (h : ' ' ∉ s) : lastWord s = s := by
  unfold lastWord
  rw [List.takeWhile_eq_self_iff.2, List.reverse_reverse]
  intro a ha
  have : a ≠ ' ' := fun h1 => h (h1 ▸ List.mem_reverse.1 ha)
  simpa using this

theorem no_space_of_low {u : Str} (h : ∀ c ∈ u, 97 ≤ c.toNat ∧ c.toNat ≤ 122) : ' ' ∉ u := by
  intro hmem
  have := h ' ' hmem
  revert this; decide

/-- The words joined are what stands before the last word, and the last word. -/
theorem joinWords_decomp : ∀ (us : List Str) (u : Str),
    ∃ x v, v ∈ u :: us ∧ joinWords (u :: us) = x ++ v ∧ (x = [] ∨ ∃ y, x = y ++ [' '])
  | [], u => ⟨[], u, List.mem_cons_self _ _, rfl, Or.inl rfl⟩
  | w :: us, u => by
    obtain ⟨x, v, hv, hj, _⟩ := joinWords_decomp us w
    refine ⟨u ++ ' ' :: x, v, List.mem_cons_of_mem _ hv, ?_, Or.inr ?_⟩
    · rw [joinWords, hj]; simp
    · rename_i hx
      rcases hx with hx | ⟨y, hx⟩
      · exact ⟨u, by rw [hx]⟩
      · exact ⟨u ++ ' ' :: y, by rw [hx]; simp⟩

theorem joinWords_chars : ∀ (us : List Str), IsLowWords us →
    ∀ c ∈ joinWords us, (97 ≤ c.toNat ∧ c.toNat ≤ 122) ∨ c = ' '
  | [], _, c, hc => by cases hc
  | [u], h, c, hc => Or.inl ((h u (List.mem_cons_self _ _)).2.1 c hc)
  | u :: w :: us, h, c, hc => by
    rw [joinWords] at hc
    rcases List.mem_append.1 hc with hc | hc
    · exact Or.inl ((h u (List.mem_cons_self _ _)).2.1 c hc)
    · rcases List.mem_cons.1 hc with hc | hc
      · exact Or.inr hc
      · exact joinWords_chars (w :: us) (fun x hx => h x (List.mem_cons_of_mem _ hx)) c hc

theorem joinWords_head (u : Str) (us : List Str) (h : IsLowWords (u :: us)) :
    ∃ x t, joinWords (u :: us) = x :: t ∧ 97 ≤ x.toNat ∧ x.toNat ≤ 122 := by
  obtain ⟨hne, hlow, _⟩ := h u (List.mem_cons_self _ _)
  obtain ⟨x, t, hx⟩ := List.exists_cons_of_ne_nil hne
  have hr := hlow x (by rw [hx]; exact List.mem_cons_self _ _)
  cases us with
  | nil => exact ⟨x, t, hx, hr⟩
  | cons w us => exact ⟨x, t ++ ' ' :: joinWords (w :: us), by rw [joinWords, hx]; rfl, hr⟩

/-- The structure of a lower-case name: it is not empty, its characters are
lower-case letters, digits and blanks, it opens with a letter or a digit, and
it is what stands before its last word, which is none of the grammar. -/
theorem lowerName_parts {L : Str} (h : LowerName L) :
    (∃ x t, L = x :: t ∧ ((97 ≤ x.toNat ∧ x.toNat ≤ 122) ∨ (48 ≤ x.toNat ∧ x.toNat ≤ 57))) ∧
    (∀ c ∈ L, (97 ≤ c.toNat ∧ c.toNat ≤ 122) ∨ (48 ≤ c.toNat ∧ c.toNat ≤ 57) ∨ c = ' ') ∧
    ∃ x v, L = x ++ v ∧ (x = [] ∨ ∃ y, x = y ++ [' ']) ∧ v ≠ [] ∧
      (∀ c ∈ v, 97 ≤ c.toNat ∧ c.toNat ≤ 122) ∧ v ∉ grammarWords := by
  obtain ⟨pre, u, us, hlow, hL, hpre⟩ := h
  obtain ⟨x0, t0, hj0, hx0⟩ := joinWords_head u us hlow
  obtain ⟨x, v, hv, hj, hx⟩ := joinWords_decomp us u
  obtain ⟨hvne, hvlow, hvg⟩ := hlow v hv
  refine ⟨?_, ?_, pre ++ x, v, by rw [hL, hj, List.append_assoc], ?_, hvne, hvlow, hvg⟩
  · rcases hpre with hp | ⟨ds, hne, hds, hp⟩
    · exact ⟨x0, t0, by rw [hL, hp, hj0]; rfl, Or.inl hx0⟩
    · obtain ⟨d, ds1, hd⟩ := List.exists_cons_of_ne_nil hne
      refine ⟨d, ds1 ++ [' '] ++ joinWords (u :: us), by rw [hL, hp, hd]; simp, Or.inr ?_⟩
      exact (isDigit_iff d).1 (hds d (by rw [hd]; exact List.mem_cons_self _ _))
  · intro c hc
    rw [hL] at hc
    rcases List.mem_append.1 hc with hc | hc
    · rcases hpre with hp | ⟨ds, _, hds, hp⟩
      · rw [hp] at hc; cases hc
      · rw [hp] at hc
        rcases List.mem_append.1 hc with hc | hc
        · exact Or.inr (Or.inl ((isDigit_iff c).1 (hds c hc)))
        · exact Or.inr (Or.inr (List.mem_singleton.1 hc))
    · rcases joinWords_chars _ hlow c hc with h1 | h1
      · exact Or.inl h1
      · exact Or.inr (Or.inr h1)
  · rcases hx with hx | ⟨y, hx⟩
    · rcases hpre with hp | ⟨ds, _, _, hp⟩
      · exact Or.inl (by rw [hp, hx]; rfl)
      · exact Or.inr ⟨ds, by rw [hp, hx]; simp⟩
    · exact Or.inr ⟨pre ++ y, by rw [hx]; simp⟩

theorem lowerName_lastWord {L : Str} (h : LowerName L) : lastWord L ∉ grammarWords := by
  obtain ⟨_, _, x, v, hL, hx, _, hvlow, hvg⟩ := lowerName_parts h
  have hsp := no_space_of_low hvlow
  rcases hx with hx | ⟨y, hx⟩
  · rw [hL, hx, List.nil_append, lastWord_no_space v hsp]; exact hvg
  · have : L = y ++ ' ' :: v := by rw [hL, hx]; simp
    rw [this, lastWord_append_space y v hsp]; exact hvg

theorem lowerName_not_suffix {L : Str} (h : LowerName L) (kw : Str) (hkw : kw ∈ grammarWords)
    (hsp : ' ' ∉ kw) : HasSuffix L (' ' :: kw) = false := by
  cases hs : HasSuffix L (' ' :: kw) with
  | false => rfl
  | true =>
    exfalso
    have hsuf : (' ' :: kw) <:+ L := by simpa [HasSuffix] using hs
    obtain ⟨t, ht⟩ := hsuf
    have := lowerName_lastWord h
    rw [← ht, lastWord_append_space t kw hsp] at this
    exact this hkw

theorem lowerName_ne_word {L : Str} (h : LowerName L) (kw : Str) (hkw : kw ∈ grammarWords)
    (hsp : ' ' ∉ kw) : L ≠ kw := by
  intro heq
  have := lowerName_lastWord h
  rw [heq, lastWord_no_space kw hsp] at this
  exact this hkw

theorem lowerName_ne_nil {L : Str} (h : LowerName L) : L ≠ [] := by
  obtain ⟨⟨x, t, hL, _⟩, _⟩ := lowerName_parts h
  rw [hL]; simp

theorem lowerName_TrimSpace {L : Str} (h : LowerName L) (sp : Str) (hsp : AllP isReSpace sp) :
    TrimSpace (L ++ sp) = L := by
  obtain ⟨⟨x, t, hL, hx⟩, _, y, v, hLv, _, hvne, hvlow, _⟩ := lowerName_parts h
  have := TrimSpace_pad [] L sp (allP_nil _) (fun c hc => isSpace_of_isReSpace (hsp c hc))
    (lowerName_ne_nil h)
    (by
      rw [hL]
      apply headNot_cons
      rw [bool_eq_false_iff_not (isSpace_iff x)]
      omega)
    (by
      intro c hc
      rw [hLv, List.getLast?_append_of_ne_nil _ hvne] at hc
      have := hvlow c (List.mem_of_mem_getLast? hc)
      rw [bool_eq_false_iff_not (isSpace_iff c)]
      omega)
  simpa using this

theorem lowerName_bookPart {L : Str} (h : LowerName L) (sp rest : Str) (hsp : AllP isReSpace sp)
    (hrest : HeadNot isNotDigit rest) : IsBookPart (L ++ sp) rest := by
  obtain ⟨pre, u, us, hlow, hL, hpre⟩ := h
  obtain ⟨x0, t0, hj0, hx0⟩ := joinWords_head u us hlow
  have hbody : joinWords (u :: us) ++ sp ≠ [] ∧ AllP isNotDigit (joinWords (u :: us) ++ sp) ∧
      HeadNot isReSpace (joinWords (u :: us) ++ sp) := by
    refine ⟨by rw [hj0]; simp, ?_, ?_⟩
    · intro c hc
      rw [isNotDigit_iff]
      rcases List.mem_append.1 hc with hc | hc
      · rcases joinWords_chars _ hlow c hc with h1 | h1
        · omega
        · rw [h1]; decide
      · have := (isReSpace_iff c).1 (hsp c hc); omega
    · rw [hj0]
      apply headNot_cons
      rw [bool_eq_false_iff_not (isReSpace_iff x0)]
      omega
  rcases hpre with hp | ⟨ds, hne, hds, hp⟩
  · rw [hL, hp, List.nil_append]
    exact Or.inl ⟨hbody.1, hbody.2.1, hbody.2.2, hrest⟩
  · refine Or.inr (Or.inr ⟨ds, [' '], joinWords (u :: us) ++ sp, ?_, hne, hds, by simp, ?_,
      hbody.1, hbody.2.1, hbody.2.2, hrest⟩)
    · rw [hL, hp]; simp
    · intro c hc
      rw [List.mem_singleton.1 hc]; decide

/-- `parseReference` reads a lower-case name as a book. -/
theorem readsAsBook_of_lowerName {L : Str} (h : LowerName L) : ReadsAsBook L :=
  ⟨fun sp rest hsp hrest => lowerName_bookPart h sp rest hsp hrest,
    fun sp hsp => lowerName_TrimSpace h sp hsp,
    lowerName_ne_word h _ (by decide) (by decide),
    lowerName_ne_word h _ (by decide) (by decide),
    lowerName_not_suffix h "ch".toList (by decide) (by decide),
    lowerName_not_suffix h "v".toList (by decide) (by decide),
    lowerName_not_suffix h "verse".toList (by decide) (by decide),
    lowerName_not_suffix h "verses".toList (by decide) (by decide)⟩

theorem lowerName_ToLower {L : Str} (h : LowerName L) : ToLower L = L := by
  obtain ⟨_, hch, _⟩ := lowerName_parts h
  apply ToLower_id
  intro c hc
  apply toLowerRune_id_of_not_upper
  rcases hch c hc with h1 | h1 | h1
  · omega
  · omega
  · rw [h1]; decide

/-! ### From a name to its lower-case text -/

theorem ToLower_joinWords : ∀ ws : List Str, ToLower (joinWords ws) = joinWords (ws.map ToLower)
  | [] => rfl
  | [w] => rfl
  | w :: v :: ws => by
    rw [joinWords, List.map_cons, List.map_cons, joinWords, ← List.map_cons,
      ← ToLower_joinWords (v :: ws)]
    simp [ToLower]
    rfl

theorem plainName_not_grammar {n : Str} (hn : plainName n = true) : ToLower n ∉ grammarWords := by
  simp only [plainName, Bool.and_eq_true, Bool.not_eq_true'] at hn
  have := hn.2
  intro hmem
  rw [List.contains_eq_any_beq, List.any_eq_false] at this
  have h1 := this _ hmem
  simp at h1

theorem isLowWords_map {ws : List Str} (h : ∀ x ∈ ws, plainName x = true) :
    IsLowWords (ws.map ToLower) := by
  intro u hu
  obtain ⟨w, hw, rfl⟩ := List.mem_map.1 hu
  obtain ⟨h1, h2, _⟩ := plainName_lower (h w hw)
  exact ⟨h1, h2, plainName_not_grammar (h w hw)⟩

theorem lowerName_of_nameToks {nts : List Tok} (h : NameToks nts) :
    LowerName (ToLower (render nts)) := by
  obtain ⟨w, ws, hall, h | ⟨ds, hne, hds, h⟩⟩ := h
  · refine ⟨[], ToLower w, ws.map ToLower, ?_, ?_, Or.inl rfl⟩
    · have := isLowWords_map hall
      rwa [List.map_cons] at this
    · rw [h, render_wordToks, ToLower_joinWords, List.map_cons, List.nil_append]
  · refine ⟨ds ++ [' '], ToLower w, ws.map ToLower, ?_, ?_, Or.inr ⟨ds, hne, hds, rfl⟩⟩
    · have := isLowWords_map hall
      rwa [List.map_cons] at this
    · rw [h, render, render, render_wordToks, ToLower_append, ToLower_append, ToLower_joinWords,
        List.map_cons, Tok.text, Tok.text, ToLower_digits hds]
      simp [ToLower]
      rfl

/-! ### What the parser reads of a book name -/

theorem bookName_lowerName {n : Str} (hn : bookName n = true) : LowerName (ToLower n) := by
  obtain ⟨nts, hnts, hr⟩ := bookName_toks hn
  rw [← hr]
  exact lowerName_of_nameToks hnts

theorem bookName_lower_ne_nil {n : Str} (hn : bookName n = true) : ToLower n ≠ [] :=
  lowerName_ne_nil (bookName_lowerName hn)

theorem hyphen_not_mem_bookName {n : Str} (hn : bookName n = true) : '-' ∉ n := by
  obtain ⟨nts, hnts, hr⟩ := bookName_toks hn
  rw [← hr]
  exact hyphen_not_mem_nameToks hnts

theorem bookName_TrimSpace {n : Str} (hn : bookName n = true) : TrimSpace n = n := by
  obtain ⟨nts, hnts, hr⟩ := bookName_toks hn
  rw [← hr]
  exact TrimSpace_render nts (nameToks_alone hnts).1 (nameToks_alone hnts).2
    (nameToks_getLast?_ne_sp hnts)

/-- A book name and its lower-case text are looked up alike. -/
theorem StandardiseString_lower {n : Str} (hn : bookName n = true) :
    StandardiseString (ToLower n) = StandardiseString n := by
  have hL := bookName_lowerName hn
  have h2 : TrimSpace (ToLower n) = ToLower n := by
    have := lowerName_TrimSpace hL [] (allP_nil _)
    simpa using this
  unfold StandardiseString
  rw [bookName_TrimSpace hn, h2, lowerName_ToLower hL]

theorem getBook_lower (p : BiblePassageParser) {n : Str} (hn : bookName n = true) :
    p.getBookFromAbbreviation (ToLower n) = p.getBookFromAbbreviation n := by
  unfold BiblePassageParser.getBookFromAbbreviation BiblePassageParser.getBookNumber
  rw [StandardiseString_lower hn]

/-- `parseReference` on a book name followed by numbers: the book is the name
in lower case, the two numeric fields are the tokens. -/
theorem parseReference_named (ws0 n sp nums t1 t2 ws1 : Str) (hn : bookName n = true)
    (hws0 : AllP isReSpace ws0) (hsp : AllP isReSpace sp) (hnums : IsNumbers nums t1 t2)
    (hws1 : AllP isReSpace ws1) (hrest : HeadNot isNotDigit (nums ++ ws1)) :
    parseReference (ws0 ++ ((n ++ sp) ++ (nums ++ ws1))) =
      .ok { book := ToLower n, chapter_or_verse := t1, verse := t2 } :=
  parseReference_book ws0 n sp nums t1 t2 ws1
    (readsAsBook_of_lowerName (bookName_lowerName hn)) hws0 hsp hnums hws1 hrest

/-- A book name in a text: its tokens before a blank or the end form a
well-formed text that opens as a clause does, without hyphen or punctuation. -/
theorem bookName_in_text {n : Str} (hn : bookName n = true) :
    ∃ nts, render nts = n ∧ nts ≠ [] ∧
      (∀ rest, (rest = [] ∨ ∃ r, rest = .sp :: r) → WellFormed rest →
        WellFormed (nts ++ rest)) ∧
      (∀ rest, (∃ m r, nts ++ rest = .name m :: r) ∨ ∃ ds r, nts ++ rest = .num ds :: .sp :: r) ∧
      nts.getLast? ≠ some .sp ∧ ∀ t ∈ nts, t ≠ .hyphen ∧ ∀ c, t ≠ .punct c := by
  obtain ⟨nts, hnts, hr⟩ := bookName_toks hn
  exact ⟨nts, hr, nameToks_ne_nil hnts, fun rest h1 h2 => wellFormed_nameToks hnts h1 h2,
    nameToks_first hnts, nameToks_getLast?_ne_sp hnts, nameToks_mem hnts⟩

/-! ### The start half -/

theorem hasSuffix_marker_token {x : Int} {f : Str} (h0 : 0 ≤ x) (hf : IsFrag f) :
    HasSuffix (fmtInt x ++ f) explicitMarker = false := by
  cases h : HasSuffix (fmtInt x ++ f) explicitMarker with
  | false => rfl
  | true =>
    exfalso
    have hmem := hasSuffix_mem h '_' (by decide)
    rcases List.mem_append.1 hmem with h1 | h1
    · have := (isNumeral_fmtInt h0).2.1 _ h1
      revert this; decide
    · rcases hf with h2 | h2 | h2 | h2 <;> (rw [h2] at h1; revert h1; decide)

theorem fmtInt_ne_nil {x : Int} (h0 : 0 ≤ x) : fmtInt x ≠ [] := (isNumeral_fmtInt h0).1

theorem token_ne_end {x : Int} {f : Str} (h0 : 0 ≤ x) : fmtInt x ++ f ≠ "end".toList := by
  obtain ⟨hne, hall, _⟩ := isNumeral_fmtInt h0
  obtain ⟨d, ds, hd⟩ := List.exists_cons_of_ne_nil hne
  intro h
  rw [hd] at h
  have h1 : d = 'e' := by
    have := congrArg List.head? h
    simpa using this
  have := hall d (by rw [hd]; exact List.mem_cons_self _ _)
  rw [h1] at this
  revert this; decide

theorem setFragment_eq (v : StartVars) (f : Str) (hv : v.fragment = []) :
    v.setFragment f = { v with fragment := f } := by
  unfold StartVars.setFragment
  by_cases hf : f = []
  · rw [if_neg (by simpa using hf)]
    cases v
    simp only at hv
    simp [hv, hf]
  · rw [if_pos hf]

/-- The start half naming a book only. -/
theorem parseStartReference_book (p : BiblePassageParser) (start n lb : Str)
    (lc lv : Option Int) (B : Book) (r : BibleReference) (hn : bookName n = true)
    (hparse : parseReference start = .ok { book := ToLower n, chapter_or_verse := [], verse := [] })
    (hbook : p.getBookFromAbbreviation n = .ok B)
    (hfrom : NewBibleReference B 1 1 [] = .ok r) :
    p.parseStartReference start lb lc lv =
      .ok { fromRef := r, startVerse := none, lastBook := B.Name, lastChapter := none,
            lastVerse := none, lastFragment := [] } := by
  have hne : ToLower n ≠ [] := bookName_lower_ne_nil hn
  unfold BiblePassageParser.parseStartReference
  simp only [hparse, hne, ne_eq, not_false_eq_true, if_true, getBook_lower p hn, hbook]
  simp [classifyChapterOrVerse, classifyVerse, HasSuffix, explicitMarker, hfrom]

/-- The start half naming a book and a chapter. -/
theorem parseStartReference_chapter (p : BiblePassageParser) (start n lb : Str)
    (lc lv : Option Int) (B : Book) (c : Int) (r : BibleReference) (hn : bookName n = true)
    (hc : 1 ≤ c) (hc2 : c < 2 ^ 63)
    (hparse : parseReference start =
      .ok { book := ToLower n, chapter_or_verse := fmtInt c, verse := [] })
    (hbook : p.getBookFromAbbreviation n = .ok B)
    (hfrom : NewBibleReference B c 1 [] = .ok r) :
    p.parseStartReference start lb lc lv =
      .ok { fromRef := r, startVerse := none, lastBook := B.Name, lastChapter := some c,
            lastVerse := none, lastFragment := [] } := by
  have hne : ToLower n ≠ [] := bookName_lower_ne_nil hn
  have h0 : 0 ≤ c := by omega
  have hpn : parseNumFragment (fmtInt c) = (c, []) := by
    have := parseNumFragment_fmtInt (f := []) h0 hc2 (Or.inl rfl)
    simpa using this
  have hend : fmtInt c ≠ ['e', 'n', 'd'] := by
    have := token_ne_end (f := []) h0
    simpa using this
  have hcpos : c > 0 := by omega
  unfold BiblePassageParser.parseStartReference
  simp only [hparse, hne, ne_eq, not_false_eq_true, if_true, getBook_lower p hn, hbook]
  simp [classifyChapterOrVerse, classifyVerse, HasSuffix, explicitMarker, fmtInt_ne_nil h0, hpn,
    hend, StartVars.setFragment, hcpos, hfrom]

/-- The start half naming a book, a chapter and a verse. -/
theorem parseStartReference_verse (p : BiblePassageParser) (start n lb : Str)
    (lc lv : Option Int) (B : Book) (c v : Int) (f : Str) (r : BibleReference)
    (hn : bookName n = true) (hc : 1 ≤ c) (hc2 : c < 2 ^ 63) (hv : 1 ≤ v) (hv2 : v < 2 ^ 63)
    (hf : IsFrag f)
    (hparse : parseReference start =
      .ok { book := ToLower n, chapter_or_verse := fmtInt c, verse := fmtInt v ++ f })
    (hbook : p.getBookFromAbbreviation n = .ok B)
    (hfrom : NewBibleReference B c v f = .ok r) :
    p.parseStartReference start lb lc lv =
      .ok { fromRef := r, startVerse := some v, lastBook := B.Name, lastChapter := some c,
            lastVerse := some v, lastFragment := f } := by
  have hne : ToLower n ≠ [] := bookName_lower_ne_nil hn
  have h0 : 0 ≤ c := by omega
  have hv0 : 0 ≤ v := by omega
  have hpn : parseNumFragment (fmtInt c) = (c, []) := by
    have := parseNumFragment_fmtInt (f := []) h0 hc2 (Or.inl rfl)
    simpa using this
  have hpv : parseNumFragment (fmtInt v ++ f) = (v, f) := parseNumFragment_fmtInt hv0 hv2 hf
  have hend : fmtInt c ≠ ['e', 'n', 'd'] := by
    have := token_ne_end (f := []) h0
    simpa using this
  have hcpos : c > 0 := by omega
  have hvpos : v > 0 := by omega
  have hvne : fmtInt v ++ f ≠ [] := by simp [fmtInt_ne_nil hv0]
  unfold BiblePassageParser.parseStartReference
  simp only [hparse, hne, ne_eq, not_false_eq_true, if_true, getBook_lower p hn, hbook,
    hasSuffix_marker_token hv0 hf, Bool.false_eq_true, if_false]
  simp [classifyChapterOrVerse, classifyVerse, fmtInt_ne_nil h0, fmtInt_ne_nil hv0, hpn, hpv,
    hend, setFragment_eq, hcpos, hvpos, hfrom]

/-! ### The token lists of the rendered shapes -/

theorem isFragText_of_isFrag {f : Str} (hf : IsFrag f) : IsFragText f := by
  rcases hf with h | h | h | h
  · exact Or.inl h
  · exact Or.inr ⟨'a', h, by decide⟩
  · exact Or.inr ⟨'b', h, by decide⟩
  · exact Or.inr ⟨'c', h, by decide⟩

theorem render_tokFragText {F : Str} (hF : IsFragText F) (rest : List Tok) :
    render (tokFrag F ++ rest) = F ++ render rest := by
  rcases hF with h | ⟨c, h, _⟩ <;> (subst h; rfl)

theorem render_tokFrag {f : Str} (hf : IsFrag f) (rest : List Tok) :
    render (tokFrag f ++ rest) = f ++ render rest :=
  render_tokFragText (isFragText_of_isFrag hf) rest

theorem follows_tokNum {x : Int} (h0 : 0 ≤ x) {rest : List Tok}
    (h : rest = [] ∨ (∃ r, rest = .sp :: r) ∨ (∃ r, rest = .colon :: r) ∨
      (∃ r, rest = .hyphen :: r) ∨ ∃ c r, rest = .frag c :: r) :
    Follows (tokNum x) rest := by
  exact ⟨fmtInt_ne_nil h0, (isNumeral_fmtInt h0).2.1,
    h.imp_right (Or.imp_right (Or.imp_right (Or.imp_right Or.inl)))⟩

theorem punct_not_mem_tokFrag (c : Char) (F : Str) : Tok.punct c ∉ tokFrag F := by
  unfold tokFrag
  split <;> simp

theorem wellFormed_numFragText {ds F : Str} {rest : List Tok} (hne : ds ≠ [])
    (hds : AllP isDigit ds) (hF : IsFragText F) (ht : TailOkText F rest)
    (hwf : WellFormed rest) : WellFormed (.num ds :: (tokFrag F ++ rest)) := by
  obtain ⟨ht1, ht2⟩ := ht
  rcases hF with h | ⟨c, h, hc⟩
  · subst h
    refine ⟨⟨hne, hds, ?_⟩, hwf⟩
    rcases ht1 with h | h | h | h
    · exact Or.inl h
    · exact Or.inr (Or.inl h)
    · exact Or.inr (Or.inr (Or.inr (Or.inl h)))
    · exact Or.inr (Or.inr (Or.inr (Or.inr (Or.inr h))))
  · subst h
    refine ⟨⟨hne, hds, Or.inr (Or.inr (Or.inr (Or.inr (Or.inl ⟨c, _, rfl⟩))))⟩, ⟨hc, ?_⟩, hwf⟩
    by_cases hcc : c = 'c' ∨ c = 'C'
    · left
      apply ht2
      rcases hcc with h | h
      · exact Or.inl (by rw [h])
      · exact Or.inr (by rw [h])
    · rcases ht1 with h | h
      · exact Or.inl h
      · exact Or.inr ⟨⟨fun h1 => hcc (Or.inl h1), fun h1 => hcc (Or.inr h1)⟩, h⟩

theorem tailOkText_of_isFrag {f : Str} {rest : List Tok} (hf : IsFrag f) (ht : TailOk f rest) :
    TailOkText f rest := by
  obtain ⟨ht1, ht2⟩ := ht
  refine ⟨?_, ?_⟩
  · rcases ht1 with h | h | h
    · exact Or.inl h
    · exact Or.inr (Or.inl h)
    · exact Or.inr (Or.inr (Or.inl h))
  · rintro (h | h)
    · exact ht2 h
    · exfalso
      rcases hf with h1 | h1 | h1 | h1 <;> (rw [h1] at h; revert h; decide)

theorem wellFormed_numFrag {x : Int} {f : Str} {rest : List Tok} (h0 : 0 ≤ x) (hf : IsFrag f)
    (ht : TailOk f rest) (hwf : WellFormed rest) :
    WellFormed (tokNum x :: (tokFrag f ++ rest)) :=
  wellFormed_numFragText (fmtInt_ne_nil h0) (isNumeral_fmtInt h0).2.1 (isFragText_of_isFrag hf)
    (tailOkText_of_isFrag hf ht) hwf

theorem wellFormed_chapterVerseText {c v : Int} {F : Str} {rest : List Tok} (hc : 0 ≤ c)
    (hv : 0 ≤ v) (hF : IsFragText F) (ht : TailOkText F rest) (hwf : WellFormed rest) :
    WellFormed (tokNum c :: .colon :: tokNum v :: (tokFrag F ++ rest)) :=
  ⟨follows_tokNum hc (Or.inr (Or.inr (Or.inl ⟨_, rfl⟩))), Or.inl ⟨_, _, rfl⟩,
    wellFormed_numFragText (fmtInt_ne_nil hv) (isNumeral_fmtInt hv).2.1 hF ht hwf⟩

theorem wellFormed_chapterVerse {c v : Int} {f : Str} {rest : List Tok} (hc : 0 ≤ c)
    (hv : 0 ≤ v) (hf : IsFrag f) (ht : TailOk f rest) (hwf : WellFormed rest) :
    WellFormed (tokNum c :: .colon :: tokNum v :: (tokFrag f ++ rest)) :=
  wellFormed_chapterVerseText hc hv (isFragText_of_isFrag hf) (tailOkText_of_isFrag hf ht) hwf

/-- A number of two digits or more. -/
theorem fmtInt_length {x : Int} (h : 10 ≤ x) : 2 ≤ (fmtInt x).length := by
  have h0 : 0 ≤ x := by omega
  rw [fmtInt_of_nonneg h0]
  have hn : 10 ≤ x.toNat := by omega
  generalize x.toNat = n at hn
  unfold fmtNat
  rw [fmtNatAux]
  have hq : n / 10 ≠ 0 := by omega
  simp only [hq, if_false]
  obtain ⟨ds, heq, hne, _, _⟩ := fmtNatAux_spec n (n / 10) [Char.ofNat (48 + n % 10)] (by omega)
  rw [heq]
  have := List.length_pos.2 hne
  simp only [List.length_append, List.length_singleton]
  omega

/-! ### Hyphens -/

theorem hyphen_not_mem_fmtInt {x : Int} (h0 : 0 ≤ x) : '-' ∉ fmtInt x := by
  intro h
  have := (isNumeral_fmtInt h0).2.1 _ h
  revert this; decide

theorem hyphen_not_mem_frag {f : Str} (hf : IsFrag f) : '-' ∉ f := by
  rcases hf with h | h | h | h <;> (subst h; decide)

/-! ### The shapes without an end half -/

theorem finishSection_ok (st : LoopState) {f t : BibleReference} (lb : Str) (lc lv : Option Int)
    (h : f.IntegerNotation ≤ t.IntegerNotation) :
    finishSection st f t lb lc lv =
      .next { passages := st.passages ++ [NewBiblePassage f t], lastBook := lb,
              lastChapter := lc, lastVerse := lv } := by
  unfold finishSection
  rw [if_neg (by omega)]

theorem parseReference_name (n : Str) (hn : bookName n = true) :
    parseReference n = .ok { book := ToLower n, chapter_or_verse := [], verse := [] } := by
  have := parseReference_named [] n [] [] [] [] [] hn (allP_nil _) (allP_nil _)
    (Or.inl ⟨rfl, rfl, rfl⟩) (allP_nil _) (headNot_nil _)
  simpa using this

theorem parseReference_name_chapter (n : Str) (c : Int) (hn : bookName n = true) (hc : 0 ≤ c) :
    parseReference (n ++ ' ' :: fmtInt c) =
      .ok { book := ToLower n, chapter_or_verse := fmtInt c, verse := [] } := by
  have htok : IsToken (fmtInt c) := by
    have := isToken_fmtInt (f := []) hc (Or.inl rfl)
    simpa using this
  have hd := isNumeral_fmtInt hc
  have := parseReference_named [] n [' '] (fmtInt c) (fmtInt c) [] [] hn (allP_nil _)
    (by intro x hx; rw [List.mem_singleton.1 hx]; decide)
    (Or.inr (Or.inl ⟨htok, rfl, rfl⟩)) (allP_nil _)
    (by
      rw [List.append_nil]
      exact headNot_of_allP hd.2.1 fun x hx => isNotDigit_false_of_isDigit hx)
  simpa using this

/-- The numeric part `c:vF`. -/
theorem isNumbers_chapterVerse {c v : Int} {f : Str} (hc : 0 ≤ c) (hv : 0 ≤ v) (hf : IsFrag f) :
    IsNumbers (fmtInt c ++ ([] ++ ([':'] ++ (fmtInt v ++ f)))) (fmtInt c) (fmtInt v ++ f) := by
  have htok : IsToken (fmtInt c) := by
    have := isToken_fmtInt (f := []) hc (Or.inl rfl)
    simpa using this
  refine Or.inr (Or.inr ⟨htok, isToken_fmtInt hv hf, [], [':'], ?_, rfl⟩)
  exact ⟨allP_nil _, by simp, by intro x hx; rw [List.mem_singleton.1 hx]; decide,
    headNot_cons (by decide)⟩

theorem parseReference_name_verse (ws0 n : Str) (c v : Int) (f ws1 : Str)
    (hn : bookName n = true) (hc : 0 ≤ c) (hv : 0 ≤ v) (hf : IsFrag f)
    (hws0 : AllP isReSpace ws0) (hws1 : AllP isReSpace ws1) :
    parseReference (ws0 ++ (n ++ ' ' :: (fmtInt c ++ ':' :: (fmtInt v ++ (f ++ ws1))))) =
      .ok { book := ToLower n, chapter_or_verse := fmtInt c, verse := fmtInt v ++ f } := by
  have hd := isNumeral_fmtInt hc
  have := parseReference_named ws0 n [' '] _ _ _ ws1 hn hws0
    (by intro x hx; rw [List.mem_singleton.1 hx]; decide)
    (isNumbers_chapterVerse hc hv hf) hws1
    (by
      rw [List.append_assoc]
      exact headNot_append_of_ne_nil _ hd.1
        (headNot_of_allP hd.2.1 fun x hx => isNotDigit_false_of_isDigit hx))
  simpa [List.append_assoc] using this

theorem render_tokFrag_nil {f : Str} (hf : IsFrag f) : render (tokFrag f) = f := by
  have := render_tokFrag hf []
  simpa [render] using this

/-- A book name followed by a well-formed tail that opens with a blank, if
it is not empty, does not close with one and holds no separator, is one clause
for `Parse`. -/
theorem Parse_named (p : BiblePassageParser) (n : Str) (tail : List Tok)
    (hsep : p.separators = defaultSeparators) (hn : bookName n = true)
    (hwf : WellFormed tail) (hfirst : tail = [] ∨ ∃ r, tail = .sp :: r)
    (hlast : tail.getLast? ≠ some .sp) (hns : NoSepTok tail) :
    p.Parse (n ++ render tail) = returnOf (p.parseSection initialState (n ++ render tail)) := by
  obtain ⟨nts, hr, hne, hwfn, hfn, hln, hmem⟩ := bookName_in_text hn
  have hl : (nts ++ tail).getLast? ≠ some .sp := by
    by_cases ht : tail = []
    · rw [ht, List.append_nil]; exact hln
    · rw [List.getLast?_append_of_ne_nil _ ht]; exact hlast
  have hns1 : NoSepTok (nts ++ tail) := by
    intro c hc
    rcases List.mem_append.1 hc with h | h
    · exact absurd rfl ((hmem _ h).2 c)
    · exact hns c h
  have hP := Parse_render p (nts ++ tail) hsep (hwfn tail hfirst hwf) (hfn tail) hl hns1
  rw [render_append, hr] at hP
  exact hP

/-- A tail of numbers, blanks, colons, hyphens and fragment letters holds no
separator. -/
theorem noSepTok_of_forall {ts : List Tok} (h : ∀ t ∈ ts, ∀ c, t ≠ .punct c) : NoSepTok ts :=
  fun c hc => absurd rfl (h _ hc c)

/-- Shape 1: the name of a book alone is read back as the whole book. -/
theorem Parse_whole_book (p : BiblePassageParser) (B : Book) (n : Str) (f t : BibleReference)
    (hsep : p.separators = defaultSeparators) (hn : bookName n = true)
    (hbook : p.getBookFromAbbreviation n = .ok B)
    (hname : p.getBookFromAbbreviation B.Name = .ok B)
    (hfrom : NewBibleReference B 1 1 [] = .ok f)
    (hto : NewBibleReference B B.ChaptersInBook (B.versesOrZero B.ChaptersInBook) [] = .ok t)
    (hord : f.IntegerNotation ≤ t.IntegerNotation) :
    p.Parse n = .ret (some [NewBiblePassage f t], none) := by
  have hP := Parse_named p n [] hsep hn trivial (Or.inl rfl) (by simp)
    (by intro c hc; cases hc)
  simp only [render, List.append_nil] at hP
  rw [hP]
  unfold BiblePassageParser.parseSection
  rw [Split_hyphen_none n (hyphen_not_mem_bookName hn)]
  simp only [initialState]
  rw [parseStartReference_book p n n [] none none B f hn (parseReference_name n hn) hbook hfrom]
  simp only [BiblePassageParser.singleReference, hname, ne_eq, not_true_eq_false, if_false, hto]
  rw [finishSection_ok _ _ _ _ hord]
  rfl

/-- Shape 2: a name and a chapter are read back as the whole chapter. -/
theorem Parse_whole_chapter (p : BiblePassageParser) (B : Book) (n : Str) (c : Int)
    (f t : BibleReference)
    (hsep : p.separators = defaultSeparators) (hn : bookName n = true)
    (hbook : p.getBookFromAbbreviation n = .ok B)
    (hname : p.getBookFromAbbreviation B.Name = .ok B)
    (hc : 1 ≤ c) (hc2 : c < 2 ^ 63)
    (hfrom : NewBibleReference B c 1 [] = .ok f)
    (hto : NewBibleReference B c (B.versesOrZero c) [] = .ok t)
    (hord : f.IntegerNotation ≤ t.IntegerNotation) :
    p.Parse (n ++ ' ' :: fmtInt c) = .ret (some [NewBiblePassage f t], none) := by
  have h0 : 0 ≤ c := by omega
  have hwf : WellFormed [.sp, tokNum c] :=
    ⟨Or.inr (Or.inr (Or.inl ⟨_, _, rfl⟩)), follows_tokNum h0 (Or.inl rfl), trivial⟩
  have hP := Parse_named p n [.sp, tokNum c] hsep hn hwf (Or.inr ⟨_, rfl⟩) (by simp [tokNum])
    (by intro x hx; simp [tokNum] at hx)
  have hr : render [.sp, tokNum c] = ' ' :: fmtInt c := by
    simp [render, Tok.text, tokNum]
  rw [hr] at hP
  rw [hP]
  unfold BiblePassageParser.parseSection
  have hnh : '-' ∉ n ++ ' ' :: fmtInt c := by
    simp only [List.mem_append, List.mem_cons, not_or]
    exact ⟨hyphen_not_mem_bookName hn, by decide, hyphen_not_mem_fmtInt h0⟩
  rw [Split_hyphen_none _ hnh]
  simp only [initialState]
  rw [parseStartReference_chapter p _ n [] none none B c f hn hc hc2
    (parseReference_name_chapter n c hn h0) hbook hfrom]
  simp only [BiblePassageParser.singleReference, hname, ne_eq, not_true_eq_false, if_false, hto]
  rw [finishSection_ok _ _ _ _ hord]
  rfl

/-- Shape 3: a name, a chapter and a verse are read back as that single verse. -/
theorem Parse_single_verse (p : BiblePassageParser) (B : Book) (n : Str) (c v : Int) (fr : Str)
    (f : BibleReference)
    (hsep : p.separators = defaultSeparators) (hn : bookName n = true)
    (hbook : p.getBookFromAbbreviation n = .ok B)
    (hname : p.getBookFromAbbreviation B.Name = .ok B)
    (hc : 1 ≤ c) (hc2 : c < 2 ^ 63) (hv : 1 ≤ v) (hv2 : v < 2 ^ 63) (hfr : IsFrag fr)
    (hfrom : NewBibleReference B c v fr = .ok f) :
    p.Parse (n ++ ' ' :: (fmtInt c ++ ':' :: (fmtInt v ++ fr))) =
      .ret (some [NewBiblePassage f f], none) := by
  have h0 : 0 ≤ c := by omega
  have hv0 : 0 ≤ v := by omega
  have hwf : WellFormed (.sp :: tokNum c :: .colon :: tokNum v :: (tokFrag fr ++ [])) :=
    ⟨Or.inr (Or.inr (Or.inl ⟨_, _, rfl⟩)),
      wellFormed_chapterVerse h0 hv0 hfr ⟨Or.inl rfl, fun _ => rfl⟩ trivial⟩
  have hlast : (Tok.sp :: tokNum c :: .colon :: tokNum v ::
      (tokFrag fr ++ [])).getLast? ≠ some .sp := by
    rcases hfr with h | h | h | h <;> (subst h; simp [tokFrag, tokNum])
  have hP := Parse_named p n _ hsep hn hwf (Or.inr ⟨_, rfl⟩) hlast
    (by intro x hx; simp [tokNum, punct_not_mem_tokFrag] at hx)
  have hr : render (.sp :: tokNum c :: .colon :: tokNum v :: (tokFrag fr ++ [])) =
      ' ' :: (fmtInt c ++ ':' :: (fmtInt v ++ fr)) := by
    simp only [render, Tok.text, tokNum, render_tokFrag_nil hfr, List.append_nil,
      List.singleton_append]
  rw [hr] at hP
  rw [hP]
  unfold BiblePassageParser.parseSection
  have hnh : '-' ∉ n ++ ' ' :: (fmtInt c ++ ':' :: (fmtInt v ++ fr)) := by
    simp only [List.mem_append, List.mem_cons, not_or]
    exact ⟨hyphen_not_mem_bookName hn, by decide, hyphen_not_mem_fmtInt h0, by decide,
      hyphen_not_mem_fmtInt hv0, hyphen_not_mem_frag hfr⟩
  rw [Split_hyphen_none _ hnh]
  simp only [initialState]
  have hpr := parseReference_name_verse [] n c v fr [] hn h0 hv0 hfr (allP_nil _) (allP_nil _)
  simp only [List.nil_append, List.append_nil] at hpr
  rw [parseStartReference_verse p _ n [] none none B c v fr f hn hc hc2 hv hv2 hfr hpr hbook
    hfrom]
  simp only [BiblePassageParser.singleReference, hname, ne_eq, reduceCtorEq, not_false_eq_true,
    if_true]
  rw [finishSection_ok _ _ _ _ (le_refl _)]
  rfl

/-! ### The end half -/

theorem fmtInt_ne_end {x : Int} (h0 : 0 ≤ x) : fmtInt x ≠ ['e', 'n', 'd'] := by
  have := token_ne_end (f := []) h0
  simpa using this

theorem endNumber_fmtInt_nil {x : Int} (h0 : 0 ≤ x) (h : x < 2 ^ 63) : endNumber (fmtInt x) = x := by
  have := endNumber_fmtInt (f := []) h0 h (Or.inl rfl)
  simpa using this

/-- An end half that is a verse of the start's chapter (`"…-18"`). -/
theorem rangeReference_endVerse (p : BiblePassageParser) (st : LoopState) (r : StartResult)
    (endText : Str) (B : Book) (v1 c v2 : Int) (f2 : Str) (t : BibleReference)
    (hparse : parseReference endText =
      .ok { book := [], chapter_or_verse := fmtInt v2 ++ f2, verse := [] })
    (hbook : p.getBookFromAbbreviation r.lastBook = .ok B)
    (hsv : r.startVerse = some v1) (hlc : r.lastChapter = some c)
    (hv : 0 ≤ v2) (hv2 : v2 < 2 ^ 63) (hf : IsFrag f2)
    (hto : NewBibleReference B c v2 f2 = .ok t) :
    p.rangeReference st r endText =
      finishSection st r.fromRef t B.Name (some c) (some v2) := by
  have hne : fmtInt v2 ++ f2 ≠ [] := by simp [fmtInt_ne_nil hv]
  have hend : fmtInt v2 ++ f2 ≠ ['e', 'n', 'd'] := token_ne_end hv
  unfold BiblePassageParser.rangeReference
  simp only [hparse, ne_eq, not_true_eq_false, if_false, hbook]
  simp [endChapterOrVerse, endVerseField, hne, hsv, hlc, hend, endNumber_fmtInt hv hv2 hf,
    trailingFragment_fmtInt hv hf, hto]

/-- An end half that is a chapter (`"…-4"` after a start without verse). -/
theorem rangeReference_endChapter (p : BiblePassageParser) (st : LoopState) (r : StartResult)
    (endText : Str) (B : Book) (c2 : Int) (t : BibleReference)
    (hparse : parseReference endText =
      .ok { book := [], chapter_or_verse := fmtInt c2, verse := [] })
    (hbook : p.getBookFromAbbreviation r.lastBook = .ok B)
    (hsv : r.startVerse = none)
    (hc : 0 ≤ c2) (hc2 : c2 < 2 ^ 63)
    (hto : NewBibleReference B c2 (B.versesOrZero c2) [] = .ok t) :
    p.rangeReference st r endText =
      finishSection st r.fromRef t B.Name (some c2) none := by
  unfold BiblePassageParser.rangeReference
  simp only [hparse, ne_eq, not_true_eq_false, if_false, hbook]
  simp [endChapterOrVerse, endVerseField, fmtInt_ne_nil hc, hsv, fmtInt_ne_end hc,
    endNumber_fmtInt_nil hc hc2, hto]

/-- An end half with chapter and verse, in the book `B` that `bookText` (or,
when that is empty, the carried book) is looked up as. -/
theorem rangeReference_chapterVerse (p : BiblePassageParser) (st : LoopState) (r : StartResult)
    (endText bookText : Str) (B : Book) (c2 v2 : Int) (f2 : Str) (t : BibleReference)
    (hparse : parseReference endText =
      .ok { book := bookText, chapter_or_verse := fmtInt c2, verse := fmtInt v2 ++ f2 })
    (hbook : p.getBookFromAbbreviation (if bookText ≠ [] then bookText else r.lastBook) = .ok B)
    (hc : 0 ≤ c2) (hc2 : c2 < 2 ^ 63) (hv : 0 ≤ v2) (hv2 : v2 < 2 ^ 63) (hf : IsFrag f2)
    (hto : NewBibleReference B c2 v2 f2 = .ok t) :
    p.rangeReference st r endText =
      finishSection st r.fromRef t B.Name (some c2) (some v2) := by
  have hne : fmtInt v2 ++ f2 ≠ [] := by simp [fmtInt_ne_nil hv]
  have hne' : ¬(fmtInt v2 = [] ∧ f2 = []) := fun h => fmtInt_ne_nil hv h.1
  unfold BiblePassageParser.rangeReference
  simp only [hparse, hbook]
  simp [endChapterOrVerse, endVerseField, fmtInt_ne_nil hc, fmtInt_ne_nil hv, fmtInt_ne_end hc,
    endNumber_fmtInt_nil hc hc2, endNumber_fmtInt hv hv2 hf, trailingFragment_fmtInt hv hf, hto]

/-! ### `parseReference` on the end halves -/

theorem noBook_token {x : Int} (h0 : 0 ≤ x) (rest : Str) (hd : HeadNot isDigit rest)
    (hs : HeadNot isReSpace rest) : NoBook (fmtInt x ++ rest) ∧
      HeadNot isReSpace (fmtInt x ++ rest) := by
  obtain ⟨hne, hall, _⟩ := isNumeral_fmtInt h0
  exact ⟨Or.inr ⟨fmtInt x, rest, rfl, hne, hall, hd, hs⟩,
    headNot_append_of_ne_nil rest hne
      (headNot_of_allP hall fun c hc => isReSpace_false_of_isDigit hc)⟩

theorem headNot_frag {p : Char → Bool} {f : Str} (hf : IsFrag f)
    (hp : p 'a' = false ∧ p 'b' = false ∧ p 'c' = false) : HeadNot p f := by
  rcases hf with h | h | h | h <;> subst h
  · exact headNot_nil _
  · exact headNot_cons hp.1
  · exact headNot_cons hp.2.1
  · exact headNot_cons hp.2.2

theorem parseReference_endVerse (v : Int) (f : Str) (hv : 0 ≤ v) (hf : IsFrag f) :
    parseReference (fmtInt v ++ f) =
      .ok { book := [], chapter_or_verse := fmtInt v ++ f, verse := [] } := by
  obtain ⟨hnb, hh⟩ := noBook_token hv f (headNot_frag hf (by decide)) (headNot_frag hf (by decide))
  exact parseReference_numbers _ _ _ (Or.inr (Or.inl ⟨isToken_fmtInt hv hf, rfl, rfl⟩)) hnb hh

theorem parseReference_endChapter (c : Int) (hc : 0 ≤ c) :
    parseReference (fmtInt c) = .ok { book := [], chapter_or_verse := fmtInt c, verse := [] } := by
  have := parseReference_endVerse c [] hc (Or.inl rfl)
  simpa using this

theorem parseReference_endChapterVerse (c v : Int) (f : Str) (hc : 0 ≤ c) (hv : 0 ≤ v)
    (hf : IsFrag f) :
    parseReference (fmtInt c ++ ':' :: (fmtInt v ++ f)) =
      .ok { book := [], chapter_or_verse := fmtInt c, verse := fmtInt v ++ f } := by
  obtain ⟨hnb, hh⟩ := noBook_token hc (':' :: (fmtInt v ++ f)) (headNot_cons (by decide))
    (headNot_cons (by decide))
  have := parseReference_numbers _ _ _ (isNumbers_chapterVerse hc hv hf)
    (by simpa using hnb) (by simpa using hh)
  simpa using this

/-! ### The shapes with an end half -/

/-- A book name and a well-formed tail with one hyphen between them are a
start half and an end half. -/
theorem Parse_range (p : BiblePassageParser) (n : Str) (tail : List Tok) (a b : Str)
    (r : StartResult) (hsep : p.separators = defaultSeparators) (hn : bookName n = true)
    (hwf : WellFormed tail) (hfirst : tail = [] ∨ ∃ r, tail = .sp :: r)
    (hlast : tail.getLast? ≠ some .sp) (hns : NoSepTok tail)
    (hr : n ++ render tail = a ++ '-' :: b) (ha : '-' ∉ a) (hb : '-' ∉ b)
    (hstart : p.parseStartReference a [] none none = .ok r) :
    p.Parse (a ++ '-' :: b) = returnOf (p.rangeReference initialState r b) := by
  have hP := Parse_named p n tail hsep hn hwf hfirst hlast hns
  rw [hr] at hP
  rw [hP]
  unfold BiblePassageParser.parseSection
  rw [Split_hyphen_one a b ha hb]
  simp only [initialState, hstart]

/-- The start half `n c:vF` followed by blanks. -/
theorem parseStartReference_name_verse (p : BiblePassageParser) (n : Str) (c v : Int)
    (f ws1 lb : Str) (lc lv : Option Int) (B : Book) (r : BibleReference)
    (hn : bookName n = true) (hc : 1 ≤ c) (hc2 : c < 2 ^ 63) (hv : 1 ≤ v) (hv2 : v < 2 ^ 63)
    (hf : IsFrag f) (hws1 : AllP isReSpace ws1)
    (hbook : p.getBookFromAbbreviation n = .ok B)
    (hfrom : NewBibleReference B c v f = .ok r) :
    p.parseStartReference (n ++ ' ' :: (fmtInt c ++ ':' :: (fmtInt v ++ (f ++ ws1)))) lb lc lv =
      .ok { fromRef := r, startVerse := some v, lastBook := B.Name, lastChapter := some c,
            lastVerse := some v, lastFragment := f } := by
  have hpr := parseReference_name_verse [] n c v f ws1 hn (by omega) (by omega) hf (allP_nil _)
    hws1
  simp only [List.nil_append] at hpr
  exact parseStartReference_verse p _ n lb lc lv B c v f r hn hc hc2 hv hv2 hf hpr hbook hfrom

theorem hyphen_not_mem_chapterVerse {c v : Int} {f ws : Str} (hc : 0 ≤ c) (hv : 0 ≤ v)
    (hf : IsFrag f) (hws : '-' ∉ ws) : '-' ∉ fmtInt c ++ ':' :: (fmtInt v ++ (f ++ ws)) := by
  simp only [List.mem_append, List.mem_cons, not_or]
  exact ⟨hyphen_not_mem_fmtInt hc, by decide, hyphen_not_mem_fmtInt hv, hyphen_not_mem_frag hf,
    hws⟩

theorem hyphen_not_mem_named {n rest : Str} (hn : bookName n = true) (h : '-' ∉ rest) :
    '-' ∉ n ++ ' ' :: rest := by
  simp only [List.mem_append, List.mem_cons, not_or]
  exact ⟨hyphen_not_mem_bookName hn, by decide, h⟩

theorem getLast?_tokFrag_ne_sp {f : Str} (hf : IsFrag f) (pre : List Tok) (x : Int) :
    (pre ++ tokNum x :: (tokFrag f ++ [])).getLast? ≠ some .sp := by
  rcases hf with h | h | h | h <;>
    (subst h; simp [tokFrag, tokNum, List.getLast?_append, List.getLast?_cons_cons])

theorem wellFormed_endVerse {v : Int} {f : Str} (hv : 0 ≤ v) (hf : IsFrag f)
    (h : f = [] ∨ 10 ≤ v) : WellFormed (.hyphen :: tokNum v :: (tokFrag f ++ [])) := by
  refine ⟨Or.inr (Or.inl ⟨fmtInt v, _, rfl, ?_⟩), wellFormed_numFrag hv hf ⟨Or.inl rfl, fun _ => rfl⟩
    trivial⟩
  rcases h with h | h
  · subst h
    exact Or.inr (by simp [tokFrag])
  · exact Or.inl (fmtInt_length h)

theorem wellFormed_endChapterVerse {c v : Int} {f : Str} (hc : 0 ≤ c) (hv : 0 ≤ v)
    (hf : IsFrag f) :
    WellFormed (.hyphen :: tokNum c :: .colon :: tokNum v :: (tokFrag f ++ [])) :=
  ⟨Or.inr (Or.inl ⟨fmtInt c, _, rfl, Or.inr (by simp)⟩),
    wellFormed_chapterVerse hc hv hf ⟨Or.inl rfl, fun _ => rfl⟩ trivial⟩

/-- Shape 4: `n c:v1F1-v2F2` is read back as a range inside the chapter. -/
theorem Parse_verse_range (p : BiblePassageParser) (B : Book) (n : Str) (c v1 v2 : Int)
    (f1 f2 : Str) (f t : BibleReference)
    (hsep : p.separators = defaultSeparators) (hn : bookName n = true)
    (hbook : p.getBookFromAbbreviation n = .ok B)
    (hname : p.getBookFromAbbreviation B.Name = .ok B)
    (hc : 1 ≤ c) (hc2 : c < 2 ^ 63) (hv1 : 1 ≤ v1) (hv12 : v1 < 2 ^ 63)
    (hv2 : 1 ≤ v2) (hv22 : v2 < 2 ^ 63) (hf1 : IsFrag f1) (hf2 : IsFrag f2)
    (hf1c : f1 ≠ ['c']) (hf2v : f2 = [] ∨ 10 ≤ v2)
    (hfrom : NewBibleReference B c v1 f1 = .ok f)
    (hto : NewBibleReference B c v2 f2 = .ok t)
    (hord : f.IntegerNotation ≤ t.IntegerNotation) :
    p.Parse (n ++ ' ' :: (fmtInt c ++ ':' :: (fmtInt v1 ++ (f1 ++ '-' :: (fmtInt v2 ++ f2))))) =
      .ret (some [NewBiblePassage f t], none) := by
  have h0 : 0 ≤ c := by omega
  have hv10 : 0 ≤ v1 := by omega
  have hv20 : 0 ≤ v2 := by omega
  have hwf : WellFormed (.sp :: tokNum c :: .colon :: tokNum v1 ::
      (tokFrag f1 ++ (.hyphen :: tokNum v2 :: (tokFrag f2 ++ [])))) :=
    ⟨Or.inr (Or.inr (Or.inl ⟨_, _, rfl⟩)),
      wellFormed_chapterVerse h0 hv10 hf1 ⟨Or.inr (Or.inr ⟨_, rfl⟩), fun h => absurd h hf1c⟩
        (wellFormed_endVerse hv20 hf2 hf2v)⟩
  have hlast : (Tok.sp :: tokNum c :: .colon :: tokNum v1 ::
      (tokFrag f1 ++ (.hyphen :: tokNum v2 :: (tokFrag f2 ++ [])))).getLast? ≠ some .sp := by
    have := getLast?_tokFrag_ne_sp hf2
      (Tok.sp :: tokNum c :: .colon :: tokNum v1 :: (tokFrag f1 ++ [.hyphen])) v2
    simpa [List.append_assoc] using this
  have hr : n ++ render (.sp :: tokNum c :: .colon :: tokNum v1 ::
      (tokFrag f1 ++ (.hyphen :: tokNum v2 :: (tokFrag f2 ++ [])))) =
      (n ++ ' ' :: (fmtInt c ++ ':' :: (fmtInt v1 ++ (f1 ++ [])))) ++ '-' :: (fmtInt v2 ++ f2) := by
    simp only [render, Tok.text, tokNum, render_tokFrag hf1, render_tokFrag_nil hf2,
      List.append_nil, List.nil_append, List.singleton_append, List.append_assoc,
      List.cons_append]
  have hP := Parse_range p n _ _ _ _ hsep hn hwf (Or.inr ⟨_, rfl⟩) hlast
    (by intro x hx; simp [tokNum, punct_not_mem_tokFrag] at hx) hr
    (hyphen_not_mem_named hn (hyphen_not_mem_chapterVerse h0 hv10 hf1 (List.not_mem_nil _)))
    (by
      simp only [List.mem_append, not_or]
      exact ⟨hyphen_not_mem_fmtInt hv20, hyphen_not_mem_frag hf2⟩)
    (parseStartReference_name_verse p n c v1 f1 [] [] none none B f hn hc hc2 hv1 hv12 hf1
      (allP_nil _) hbook hfrom)
  simp only [List.append_nil, List.append_assoc, List.cons_append] at hP
  rw [hP, rangeReference_endVerse p _ _ _ B v1 c v2 f2 t (parseReference_endVerse v2 f2 hv20 hf2)
    hname rfl rfl hv20 hv22 hf2 hto, finishSection_ok _ _ _ _ hord]
  rfl

/-- Shape 6: `n c1-c2` is read back as a range of whole chapters. -/
theorem Parse_chapter_range (p : BiblePassageParser) (B : Book) (n : Str) (c1 c2 : Int)
    (f t : BibleReference)
    (hsep : p.separators = defaultSeparators) (hn : bookName n = true)
    (hbook : p.getBookFromAbbreviation n = .ok B)
    (hname : p.getBookFromAbbreviation B.Name = .ok B)
    (hc1 : 1 ≤ c1) (hc12 : c1 < 2 ^ 63) (hc2 : 1 ≤ c2) (hc22 : c2 < 2 ^ 63)
    (hfrom : NewBibleReference B c1 1 [] = .ok f)
    (hto : NewBibleReference B c2 (B.versesOrZero c2) [] = .ok t)
    (hord : f.IntegerNotation ≤ t.IntegerNotation) :
    p.Parse (n ++ ' ' :: (fmtInt c1 ++ '-' :: fmtInt c2)) =
      .ret (some [NewBiblePassage f t], none) := by
  have h10 : 0 ≤ c1 := by omega
  have h20 : 0 ≤ c2 := by omega
  have hwf : WellFormed [.sp, tokNum c1, .hyphen, tokNum c2] :=
    ⟨Or.inr (Or.inr (Or.inl ⟨_, _, rfl⟩)),
      follows_tokNum h10 (Or.inr (Or.inr (Or.inr (Or.inl ⟨_, rfl⟩)))),
      Or.inr (Or.inl ⟨fmtInt c2, [], rfl, Or.inr (by simp)⟩),
      follows_tokNum h20 (Or.inl rfl), trivial⟩
  have hr : n ++ render [.sp, tokNum c1, .hyphen, tokNum c2] =
      (n ++ ' ' :: fmtInt c1) ++ '-' :: fmtInt c2 := by
    simp only [render, Tok.text, tokNum, List.append_nil, List.nil_append,
      List.singleton_append, List.append_assoc, List.cons_append]
  have hP := Parse_range p n _ _ _ _ hsep hn hwf (Or.inr ⟨_, rfl⟩) (by simp [tokNum])
    (by intro x hx; simp [tokNum] at hx) hr
    (hyphen_not_mem_named hn (hyphen_not_mem_fmtInt h10))
    (hyphen_not_mem_fmtInt h20)
    (parseStartReference_chapter p _ n [] none none B c1 f hn hc1 hc12
      (parseReference_name_chapter n c1 hn h10) hbook hfrom)
  simp only [List.append_assoc, List.cons_append] at hP
  rw [hP, rangeReference_endChapter p _ _ _ B c2 t (parseReference_endChapter c2 h20)
    hname rfl h20 hc22 hto, finishSection_ok _ _ _ _ hord]
  rfl

/-- Shape 7: `n c1:v1F1-c2:v2F2` is read back as a range across chapters. -/
theorem Parse_cross_chapter (p : BiblePassageParser) (B : Book) (n : Str) (c1 v1 c2 v2 : Int)
    (f1 f2 : Str) (f t : BibleReference)
    (hsep : p.separators = defaultSeparators) (hn : bookName n = true)
    (hbook : p.getBookFromAbbreviation n = .ok B)
    (hname : p.getBookFromAbbreviation B.Name = .ok B)
    (hc1 : 1 ≤ c1) (hc12 : c1 < 2 ^ 63) (hv1 : 1 ≤ v1) (hv12 : v1 < 2 ^ 63)
    (hc2 : 1 ≤ c2) (hc22 : c2 < 2 ^ 63) (hv2 : 1 ≤ v2) (hv22 : v2 < 2 ^ 63)
    (hf1 : IsFrag f1) (hf2 : IsFrag f2) (hf1c : f1 ≠ ['c'])
    (hfrom : NewBibleReference B c1 v1 f1 = .ok f)
    (hto : NewBibleReference B c2 v2 f2 = .ok t)
    (hord : f.IntegerNotation ≤ t.IntegerNotation) :
    p.Parse (n ++ ' ' :: (fmtInt c1 ++ ':' :: (fmtInt v1 ++ (f1 ++ '-' ::
        (fmtInt c2 ++ ':' :: (fmtInt v2 ++ f2)))))) =
      .ret (some [NewBiblePassage f t], none) := by
  have h10 : 0 ≤ c1 := by omega
  have hv10 : 0 ≤ v1 := by omega
  have h20 : 0 ≤ c2 := by omega
  have hv20 : 0 ≤ v2 := by omega
  have hwf : WellFormed (.sp :: tokNum c1 :: .colon :: tokNum v1 ::
      (tokFrag f1 ++ (.hyphen :: tokNum c2 :: .colon :: tokNum v2 :: (tokFrag f2 ++ [])))) :=
    ⟨Or.inr (Or.inr (Or.inl ⟨_, _, rfl⟩)),
      wellFormed_chapterVerse h10 hv10 hf1 ⟨Or.inr (Or.inr ⟨_, rfl⟩), fun h => absurd h hf1c⟩
        (wellFormed_endChapterVerse h20 hv20 hf2)⟩
  have hlast : (Tok.sp :: tokNum c1 :: .colon :: tokNum v1 ::
      (tokFrag f1 ++ (.hyphen :: tokNum c2 :: .colon :: tokNum v2 ::
        (tokFrag f2 ++ [])))).getLast? ≠ some .sp := by
    have := getLast?_tokFrag_ne_sp hf2
      (Tok.sp :: tokNum c1 :: .colon :: tokNum v1 ::
        (tokFrag f1 ++ [.hyphen, tokNum c2, .colon])) v2
    simpa [List.append_assoc] using this
  have hr : n ++ render (.sp :: tokNum c1 :: .colon :: tokNum v1 ::
      (tokFrag f1 ++ (.hyphen :: tokNum c2 :: .colon :: tokNum v2 :: (tokFrag f2 ++ [])))) =
      (n ++ ' ' :: (fmtInt c1 ++ ':' :: (fmtInt v1 ++ (f1 ++ [])))) ++
        '-' :: (fmtInt c2 ++ ':' :: (fmtInt v2 ++ f2)) := by
    simp only [render, Tok.text, tokNum, render_tokFrag hf1, render_tokFrag_nil hf2,
      List.append_nil, List.nil_append, List.singleton_append, List.append_assoc,
      List.cons_append]
  have hP := Parse_range p n _ _ _ _ hsep hn hwf (Or.inr ⟨_, rfl⟩) hlast
    (by intro x hx; simp [tokNum, punct_not_mem_tokFrag] at hx) hr
    (hyphen_not_mem_named hn (hyphen_not_mem_chapterVerse h10 hv10 hf1 (List.not_mem_nil _)))
    (by
      have := @hyphen_not_mem_chapterVerse c2 v2 f2 [] h20 hv20 hf2 (List.not_mem_nil _)
      simpa using this)
    (parseStartReference_name_verse p n c1 v1 f1 [] [] none none B f hn hc1 hc12 hv1 hv12 hf1
      (allP_nil _) hbook hfrom)
  simp only [List.append_nil, List.append_assoc, List.cons_append] at hP
  rw [hP, rangeReference_chapterVerse p _ _ _ [] B c2 v2 f2 t
    (parseReference_endChapterVerse c2 v2 f2 h20 hv20 hf2) (by simpa using hname)
    h20 hc22 hv20 hv22 hf2 hto, finishSection_ok _ _ _ _ hord]
  rfl

/-- Shape 5: `n1 c1:v1F1 - n2 c2:v2F2` is read back as a range across books. -/
theorem Parse_cross_book (p : BiblePassageParser) (B1 B2 : Book) (n1 n2 : Str)
    (c1 v1 c2 v2 : Int) (f1 f2 : Str) (f t : BibleReference)
    (hsep : p.separators = defaultSeparators) (hn1 : bookName n1 = true)
    (hn2 : bookName n2 = true)
    (hbook1 : p.getBookFromAbbreviation n1 = .ok B1)
    (hbook2 : p.getBookFromAbbreviation n2 = .ok B2)
    (hc1 : 1 ≤ c1) (hc12 : c1 < 2 ^ 63) (hv1 : 1 ≤ v1) (hv12 : v1 < 2 ^ 63)
    (hc2 : 1 ≤ c2) (hc22 : c2 < 2 ^ 63) (hv2 : 1 ≤ v2) (hv22 : v2 < 2 ^ 63)
    (hf1 : IsFrag f1) (hf2 : IsFrag f2) (hf1c : f1 ≠ ['c'])
    (hfrom : NewBibleReference B1 c1 v1 f1 = .ok f)
    (hto : NewBibleReference B2 c2 v2 f2 = .ok t)
    (hord : f.IntegerNotation ≤ t.IntegerNotation) :
    p.Parse (n1 ++ ' ' :: (fmtInt c1 ++ ':' :: (fmtInt v1 ++ (f1 ++ ' ' :: '-' :: ' ' ::
        (n2 ++ ' ' :: (fmtInt c2 ++ ':' :: (fmtInt v2 ++ f2))))))) =
      .ret (some [NewBiblePassage f t], none) := by
  have h10 : 0 ≤ c1 := by omega
  have hv10 : 0 ≤ v1 := by omega
  have h20 : 0 ≤ c2 := by omega
  have hv20 : 0 ≤ v2 := by omega
  obtain ⟨nts2, hr2, hne2, hwfn2, hfn2, hln2, hmem2⟩ := bookName_in_text hn2
  have hp2 : ∀ c, Tok.punct c ∉ nts2 := fun c hc => (hmem2 _ hc).2 c rfl
  have hwf3 : WellFormed (nts2 ++ (.sp :: tokNum c2 :: .colon :: tokNum v2 ::
      (tokFrag f2 ++ []))) :=
    hwfn2 _ (Or.inr ⟨_, rfl⟩)
      ⟨Or.inr (Or.inr (Or.inl ⟨_, _, rfl⟩)),
        wellFormed_chapterVerse h20 hv20 hf2 ⟨Or.inl rfl, fun _ => rfl⟩ trivial⟩
  have hwf2 : WellFormed (.sp :: .hyphen :: .sp :: (nts2 ++ (.sp :: tokNum c2 :: .colon ::
      tokNum v2 :: (tokFrag f2 ++ [])))) := by
    refine ⟨Or.inr (Or.inl ⟨_, rfl⟩), Or.inl ⟨_, rfl⟩, ?_, hwf3⟩
    rcases hfn2 (.sp :: tokNum c2 :: .colon :: tokNum v2 :: (tokFrag f2 ++ [])) with
      ⟨m, r, h⟩ | ⟨ds, r, h⟩
    · exact Or.inr (Or.inr (Or.inr (Or.inl ⟨m, r, h⟩)))
    · exact Or.inr (Or.inr (Or.inl ⟨ds, _, h⟩))
  have hwf : WellFormed (.sp :: tokNum c1 :: .colon :: tokNum v1 ::
      (tokFrag f1 ++ (.sp :: .hyphen :: .sp :: (nts2 ++ (.sp :: tokNum c2 :: .colon ::
        tokNum v2 :: (tokFrag f2 ++ [])))))) :=
    ⟨Or.inr (Or.inr (Or.inl ⟨_, _, rfl⟩)),
      wellFormed_chapterVerse h10 hv10 hf1 ⟨Or.inr (Or.inl ⟨_, rfl⟩), fun h => absurd h hf1c⟩
        hwf2⟩
  have hlast : (Tok.sp :: tokNum c1 :: .colon :: tokNum v1 ::
      (tokFrag f1 ++ (.sp :: .hyphen :: .sp :: (nts2 ++ (.sp :: tokNum c2 :: .colon ::
        tokNum v2 :: (tokFrag f2 ++ [])))))).getLast? ≠ some .sp := by
    have := getLast?_tokFrag_ne_sp hf2
      (Tok.sp :: tokNum c1 :: .colon :: tokNum v1 ::
        (tokFrag f1 ++ (.sp :: .hyphen :: .sp :: (nts2 ++ [.sp, tokNum c2, .colon])))) v2
    simpa [List.append_assoc] using this
  have hr : n1 ++ render (.sp :: tokNum c1 :: .colon :: tokNum v1 ::
      (tokFrag f1 ++ (.sp :: .hyphen :: .sp :: (nts2 ++ (.sp :: tokNum c2 :: .colon ::
        tokNum v2 :: (tokFrag f2 ++ [])))))) =
      (n1 ++ ' ' :: (fmtInt c1 ++ ':' :: (fmtInt v1 ++ (f1 ++ [' '])))) ++
        '-' :: ([' '] ++ (n2 ++ ' ' :: (fmtInt c2 ++ ':' :: (fmtInt v2 ++ (f2 ++ []))))) := by
    simp only [render, Tok.text, tokNum, render_tokFrag hf1, render_tokFrag_nil hf2,
      render_append, hr2, List.append_nil, List.nil_append, List.singleton_append,
      List.append_assoc, List.cons_append]
  have hP := Parse_range p n1 _ _ _ _ hsep hn1 hwf (Or.inr ⟨_, rfl⟩) hlast
    (by intro x hx; simp [tokNum, punct_not_mem_tokFrag, hp2] at hx) hr
    (hyphen_not_mem_named hn1 (hyphen_not_mem_chapterVerse h10 hv10 hf1 (by decide)))
    (by
      intro h
      rcases List.mem_cons.1 h with h | h
      · exact absurd h (by decide)
      · exact hyphen_not_mem_named hn2
          (hyphen_not_mem_chapterVerse h20 hv20 hf2 (List.not_mem_nil _)) h)
    (parseStartReference_name_verse p n1 c1 v1 f1 [' '] [] none none B1 f hn1 hc1 hc12 hv1 hv12
      hf1 (by intro x hx; rw [List.mem_singleton.1 hx]; decide) hbook1 hfrom)
  rw [rangeReference_chapterVerse p _ _ _ (ToLower n2) B2 c2 v2 f2 t
    (parseReference_name_verse [' '] n2 c2 v2 f2 [] hn2 h20 hv20 hf2
      (by intro x hx; rw [List.mem_singleton.1 hx]; decide) (allP_nil _))
    (by rw [if_pos (bookName_lower_ne_nil hn2), getBook_lower p hn2]; exact hbook2)
    h20 hc22 hv20 hv22 hf2 hto, finishSection_ok _ _ _ _ hord] at hP
  simp only [List.append_nil, List.append_assoc, List.cons_append, List.singleton_append,
    List.nil_append] at hP
  rw [hP]
  rfl

/-! ### The round trip -/

theorem isFrag_of_ok {B : Book} {c v : Int} {f : Str} {r : BibleReference}
    (h : NewBibleReference B c v f = .ok r) : IsFrag f :=
  (badFragment_eq_false_iff f).1 ((NewBibleReference_ok_iff B c v f r).1 h).2.1

theorem bookName_examples :
    bookName "John".toList = true ∧ bookName "1 Kings".toList = true ∧
      bookName "Song of Songs".toList = true ∧ bookName "Psalm".toList = true ∧
      bookName "1John".toList = false ∧ bookName "Verse".toList = false := by
  decide

/-! ### Books of a regular table -/

theorem wrapInt_id {x : Int} (h1 : -2 ^ 63 ≤ x) (h2 : x < 2 ^ 63) : wrapInt x = x := by
  unfold wrapInt
  omega

theorem integerNotation_eq (r : BibleReference) (hn : 0 ≤ r.Book.Number) (hc : 0 ≤ r.Chapter)
    (hv : 0 ≤ r.Verse)
    (hfit : 1000000 * r.Book.Number + 1000 * r.Chapter + r.Verse < 2 ^ 63) :
    r.IntegerNotation = 1000000 * r.Book.Number + 1000 * r.Chapter + r.Verse := by
  unfold BibleReference.IntegerNotation
  have e1 : wrapInt (1000000 * r.Book.Number) = 1000000 * r.Book.Number :=
    wrapInt_id (by omega) (by omega)
  have e2 : wrapInt (1000 * r.Chapter) = 1000 * r.Chapter := wrapInt_id (by omega) (by omega)
  have e3 : wrapInt (1000000 * r.Book.Number + 1000 * r.Chapter) =
      1000000 * r.Book.Number + 1000 * r.Chapter := wrapInt_id (by omega) (by omega)
  rw [e1, e2, e3]
  exact wrapInt_id (by omega) (by omega)

/-- The key without wrap-around, on the widest range of book numbers. -/
theorem integerNotation_wide (r : BibleReference)
    (hn : -9223372036854 ≤ r.Book.Number ∧ r.Book.Number ≤ 9223372036853)
    (hc : 0 ≤ r.Chapter ∧ r.Chapter ≤ 999) (hv : 0 ≤ r.Verse ∧ r.Verse ≤ 999) :
    r.IntegerNotation = 1000000 * r.Book.Number + 1000 * r.Chapter + r.Verse := by
  unfold BibleReference.IntegerNotation
  have e1 : wrapInt (1000000 * r.Book.Number) = 1000000 * r.Book.Number :=
    wrapInt_id (by omega) (by omega)
  have e2 : wrapInt (1000 * r.Chapter) = 1000 * r.Chapter := wrapInt_id (by omega) (by omega)
  have e3 : wrapInt (1000000 * r.Book.Number + 1000 * r.Chapter) =
      1000000 * r.Book.Number + 1000 * r.Chapter := wrapInt_id (by omega) (by omega)
  rw [e1, e2, e3]
  exact wrapInt_id (by omega) (by omega)

/-- The chapters of a regular book. -/
theorem regular_chapter {B : Book} (hB : B.Regular) {c : Int} (h1 : 1 ≤ c)
    (h2 : c ≤ B.ChaptersInBook) :
    B.ChapterStructure.lookup c = some (B.versesOrZero c) ∧ 1 ≤ B.versesOrZero c ∧
      1000000 * B.Number + 1000 * c + B.versesOrZero c < 2 ^ 63 := by
  obtain ⟨v, hl, hv, hk⟩ := hB.2.2 c h1 h2
  have : B.versesOrZero c = v := by
    unfold Book.versesOrZero Book.VersesInChapter
    rw [hl]
  rw [this]
  exact ⟨hl, hv, hk⟩

/-- A verse of a regular book is a reference `NewBibleReference` builds, and
its ordering key is exact. -/
theorem regular_reference {B : Book} (hB : B.Regular) {c v : Int} {f : Str} (h1 : 1 ≤ c)
    (h2 : c ≤ B.ChaptersInBook) (hv1 : 1 ≤ v) (hv2 : v ≤ B.versesOrZero c) (hf : IsFrag f) :
    NewBibleReference B c v f = .ok (mkRef B c v f) ∧
      (mkRef B c v f).IntegerNotation = 1000000 * B.Number + 1000 * c + v ∧
      c < 2 ^ 63 ∧ v < 2 ^ 63 := by
  obtain ⟨hl, hvz, hk⟩ := regular_chapter hB h1 h2
  have hn := hB.1
  refine ⟨?_, ?_, by omega, by omega⟩
  · rw [NewBibleReference_ok_iff]
    refine ⟨?_, (badFragment_eq_false_iff f).2 hf, rfl⟩
    rw [checkChapterVerse_eq_none_iff]
    exact Or.inr ⟨_, hl, hv2⟩
  · exact integerNotation_eq (mkRef B c v f) (by simp only [mkRef]; omega)
      (by simp only [mkRef]; omega) (by simp only [mkRef]; omega) (by simp only [mkRef]; omega)

/-- Two verses of a regular book in key order: in one chapter, or the first
verse of a chapter and a verse of a later one. -/
theorem regular_order {B : Book} (hB : B.Regular) {c1 v1 c2 v2 : Int} {f1 f2 : Str}
    (h1 : 1 ≤ c1) (h2 : c1 ≤ B.ChaptersInBook) (hv1 : 1 ≤ v1) (hv2 : v1 ≤ B.versesOrZero c1)
    (h3 : 1 ≤ c2) (h4 : c2 ≤ B.ChaptersInBook) (hv3 : 1 ≤ v2) (hv4 : v2 ≤ B.versesOrZero c2)
    (hf1 : IsFrag f1) (hf2 : IsFrag f2) (hle : (c1 = c2 ∧ v1 ≤ v2) ∨ (c1 ≤ c2 ∧ v1 = 1)) :
    (mkRef B c1 v1 f1).IntegerNotation ≤ (mkRef B c2 v2 f2).IntegerNotation := by
  rw [(regular_reference hB h1 h2 hv1 hv2 hf1).2.1, (regular_reference hB h3 h4 hv3 hv4 hf2).2.1]
  omega

/-- The sample books are regular. -/
theorem regular_sample (k : Int)
    (hk : k = 1 ∨ k = 2 ∨ k = 31 ∨ k = 43 ∨ k = 44 ∨ k = 65) : (sampleBook k).Regular := by
  rcases hk with h | h | h | h | h | h <;> subst h <;>
    refine ⟨by decide, by decide, fun c h1 h2 => ?_⟩
  all_goals
    have h3 : c ≤ 50 := le_trans h2 (by decide)
    interval_cases c <;> first
      | exact ⟨_, rfl, by decide, by decide⟩
      | exact absurd h2 (by decide)

/-! ### Letter case of fragment tags -/

/-- `parseReference` reads its argument in lower case only. -/
theorem parseReference_congr {T U : Str} (h : ToLower T = ToLower U) :
    parseReference T = parseReference U := by
  unfold parseReference
  simp only [h]

theorem parseStartReference_congr (p : BiblePassageParser) {T U : Str}
    (h : ToLower T = ToLower U) (lb : Str) (lc lv : Option Int) :
    p.parseStartReference T lb lc lv = p.parseStartReference U lb lc lv := by
  unfold BiblePassageParser.parseStartReference
  rw [parseReference_congr h]

theorem rangeReference_congr (p : BiblePassageParser) (st : LoopState) (r : StartResult)
    {T U : Str} (h : ToLower T = ToLower U) :
    p.rangeReference st r T = p.rangeReference st r U := by
  unfold BiblePassageParser.rangeReference
  rw [parseReference_congr h]

theorem isFragLetter_cases {c : Char} (h : isFragLetter c = true) :
    c = 'a' ∨ c = 'b' ∨ c = 'c' ∨ c = 'A' ∨ c = 'B' ∨ c = 'C' := by
  simpa [isFragLetter, or_assoc] using h

theorem isFrag_ToLower {F : Str} (hF : IsFragText F) : IsFrag (ToLower F) := by
  rcases hF with h | ⟨c, h, hc⟩
  · subst h; exact Or.inl rfl
  · subst h
    rcases isFragLetter_cases hc with h | h | h | h | h | h <;> subst h
    · exact Or.inr (Or.inl rfl)
    · exact Or.inr (Or.inr (Or.inl rfl))
    · exact Or.inr (Or.inr (Or.inr rfl))
    · exact Or.inr (Or.inl rfl)
    · exact Or.inr (Or.inr (Or.inl rfl))
    · exact Or.inr (Or.inr (Or.inr rfl))

theorem ToLower_fragText {F : Str} (hF : IsFragText F) : ToLower (ToLower F) = ToLower F :=
  ToLower_frag (isFrag_ToLower hF)

/-- Lower case of a text is that of the text with a fragment tag in lower case. -/
theorem ToLower_tag (a F b : Str) (hF : IsFragText F) :
    ToLower (a ++ (F ++ b)) = ToLower (a ++ (ToLower F ++ b)) := by
  rw [ToLower_append, ToLower_append, ToLower_append, ToLower_append, ToLower_fragText hF]

theorem hyphen_not_mem_fragText {F : Str} (hF : IsFragText F) : '-' ∉ F := by
  rcases hF with h | ⟨c, h, hc⟩
  · subst h; simp
  · subst h
    rcases isFragLetter_cases hc with h | h | h | h | h | h <;> (subst h; decide)

theorem getLast?_tokFragText_ne_sp {F : Str} (hF : IsFragText F) (pre : List Tok) (x : Int) :
    (pre ++ tokNum x :: (tokFrag F ++ [])).getLast? ≠ some .sp := by
  rcases hF with h | ⟨c, h, hc⟩ <;>
    (subst h; simp [tokFrag, tokNum, List.getLast?_append, List.getLast?_cons_cons])

theorem wellFormed_endVerseText {v : Int} {F : Str} (hv : 0 ≤ v) (hF : IsFragText F)
    (h : F = [] ∨ 10 ≤ v) : WellFormed (.hyphen :: tokNum v :: (tokFrag F ++ [])) := by
  refine ⟨Or.inr (Or.inl ⟨fmtInt v, _, rfl, ?_⟩),
    wellFormed_numFragText (fmtInt_ne_nil hv) (isNumeral_fmtInt hv).2.1 hF
      ⟨Or.inl rfl, fun _ => rfl⟩ trivial⟩
  rcases h with h | h
  · subst h
    exact Or.inr (by simp [tokFrag])
  · exact Or.inl (fmtInt_length h)

/-- Shape 4 with fragment tags in either case: `n c:v1F1-v2F2`. -/
theorem Parse_verse_range_text (p : BiblePassageParser) (B : Book) (n : Str) (c v1 v2 : Int)
    (F1 F2 : Str) (f t : BibleReference)
    (hsep : p.separators = defaultSeparators) (hn : bookName n = true)
    (hbook : p.getBookFromAbbreviation n = .ok B)
    (hname : p.getBookFromAbbreviation B.Name = .ok B)
    (hc : 1 ≤ c) (hc2 : c < 2 ^ 63) (hv1 : 1 ≤ v1) (hv12 : v1 < 2 ^ 63)
    (hv2 : 1 ≤ v2) (hv22 : v2 < 2 ^ 63) (hF1 : IsFragText F1) (hF2 : IsFragText F2)
    (hF1c : F1 ≠ ['c'] ∧ F1 ≠ ['C']) (hF2v : F2 = [] ∨ 10 ≤ v2)
    (hfrom : NewBibleReference B c v1 (ToLower F1) = .ok f)
    (hto : NewBibleReference B c v2 (ToLower F2) = .ok t)
    (hord : f.IntegerNotation ≤ t.IntegerNotation) :
    p.Parse (n ++ ' ' :: (fmtInt c ++ ':' :: (fmtInt v1 ++ (F1 ++ '-' :: (fmtInt v2 ++ F2))))) =
      .ret (some [NewBiblePassage f t], none) := by
  have h0 : 0 ≤ c := by omega
  have hv10 : 0 ≤ v1 := by omega
  have hv20 : 0 ≤ v2 := by omega
  have hf1 := isFrag_ToLower hF1
  have hf2 := isFrag_ToLower hF2
  have hwf : WellFormed (.sp :: tokNum c :: .colon :: tokNum v1 ::
      (tokFrag F1 ++ (.hyphen :: tokNum v2 :: (tokFrag F2 ++ [])))) :=
    ⟨Or.inr (Or.inr (Or.inl ⟨_, _, rfl⟩)),
      wellFormed_chapterVerseText h0 hv10 hF1
        ⟨Or.inr (Or.inr (Or.inl ⟨_, rfl⟩)),
          fun h => h.elim (fun h => absurd h hF1c.1) (fun h => absurd h hF1c.2)⟩
        (wellFormed_endVerseText hv20 hF2 hF2v)⟩
  have hlast : (Tok.sp :: tokNum c :: .colon :: tokNum v1 ::
      (tokFrag F1 ++ (.hyphen :: tokNum v2 :: (tokFrag F2 ++ [])))).getLast? ≠ some .sp := by
    have := getLast?_tokFragText_ne_sp hF2
      (Tok.sp :: tokNum c :: .colon :: tokNum v1 :: (tokFrag F1 ++ [.hyphen])) v2
    simpa [List.append_assoc] using this
  have hr : n ++ render (.sp :: tokNum c :: .colon :: tokNum v1 ::
      (tokFrag F1 ++ (.hyphen :: tokNum v2 :: (tokFrag F2 ++ [])))) =
      (n ++ ' ' :: (fmtInt c ++ ':' :: (fmtInt v1 ++ (F1 ++ [])))) ++ '-' :: (fmtInt v2 ++ F2) := by
    have e2 := render_tokFragText hF2 []
    simp only [render, List.append_nil] at e2
    simp only [render, Tok.text, tokNum, render_tokFragText hF1, e2,
      List.append_nil, List.nil_append, List.singleton_append, List.append_assoc,
      List.cons_append]
  have e : ToLower (n ++ ' ' :: (fmtInt c ++ ':' :: (fmtInt v1 ++ (F1 ++ [])))) =
      ToLower (n ++ ' ' :: (fmtInt c ++ ':' :: (fmtInt v1 ++ (ToLower F1 ++ [])))) := by
    have := ToLower_tag (n ++ ' ' :: (fmtInt c ++ ':' :: fmtInt v1)) F1 [] hF1
    simpa [List.append_assoc] using this
  have hstart := parseStartReference_name_verse p n c v1 (ToLower F1) [] [] none none B f hn hc
    hc2 hv1 hv12 hf1 (allP_nil _) hbook hfrom
  rw [← parseStartReference_congr p e] at hstart
  have hP := Parse_range p n _ _ _ _ hsep hn hwf (Or.inr ⟨_, rfl⟩) hlast
    (by intro x hx; simp [tokNum, punct_not_mem_tokFrag] at hx) hr
    (by
      have h1 := hyphen_not_mem_fmtInt h0
      have h2 := hyphen_not_mem_fmtInt hv10
      have h3 := hyphen_not_mem_fragText hF1
      have h4 := hyphen_not_mem_bookName hn
      simp only [List.mem_append, List.mem_cons, List.not_mem_nil, not_or, or_false]
      exact ⟨h4, by decide, h1, by decide, h2, h3⟩)
    (by
      simp only [List.mem_append, not_or]
      exact ⟨hyphen_not_mem_fmtInt hv20, hyphen_not_mem_fragText hF2⟩)
    hstart
  simp only [List.append_nil, List.append_assoc, List.cons_append] at hP
  have e2 : ToLower (fmtInt v2 ++ F2) = ToLower (fmtInt v2 ++ ToLower F2) := by
    have := ToLower_tag (fmtInt v2) F2 [] hF2
    simpa using this
  rw [hP, rangeReference_congr p _ _ e2,
    rangeReference_endVerse p _ _ _ B v1 c v2 (ToLower F2) t
      (parseReference_endVerse v2 _ hv20 hf2) hname rfl rfl hv20 hv22 hf2 hto,
    finishSection_ok _ _ _ _ hord]
  rfl

/-! ### The `end` keyword -/

theorem parseReference_end :
    parseReference "end".toList =
      .ok { book := [], chapter_or_verse := "end".toList, verse := [] } := by
  rfl

/-- The end half `end` after a start that gave a verse: the last verse of the
chapter of the start. -/
theorem rangeReference_endKeyword_verse (p : BiblePassageParser) (st : LoopState)
    (r : StartResult) (B : Book) (v1 c : Int) (t : BibleReference)
    (hbook : p.getBookFromAbbreviation r.lastBook = .ok B)
    (hsv : r.startVerse = some v1) (hlc : r.lastChapter = some c)
    (hto : NewBibleReference B c (B.versesOrZero c) [] = .ok t) :
    p.rangeReference st r "end".toList =
      finishSection st r.fromRef t B.Name (some c) (some (B.versesOrZero c)) := by
  unfold BiblePassageParser.rangeReference
  simp only [parseReference_end, ne_eq, not_true_eq_false, if_false, hbook]
  simp [endChapterOrVerse, endVerseField, hsv, hlc, hto]

/-- The end half `end` after a start that gave no verse: the last verse of
the last chapter of the book. -/
theorem rangeReference_endKeyword_chapter (p : BiblePassageParser) (st : LoopState)
    (r : StartResult) (B : Book) (t : BibleReference)
    (hbook : p.getBookFromAbbreviation r.lastBook = .ok B)
    (hsv : r.startVerse = none)
    (hto : NewBibleReference B B.ChaptersInBook (B.versesOrZero B.ChaptersInBook) [] = .ok t) :
    p.rangeReference st r "end".toList =
      finishSection st r.fromRef t B.Name (some B.ChaptersInBook) none := by
  unfold BiblePassageParser.rangeReference
  simp only [parseReference_end, ne_eq, not_true_eq_false, if_false, hbook]
  simp [endChapterOrVerse, endVerseField, hsv, hto]

/-- The text `n c:v-end`. -/
theorem Parse_verse_to_end (p : BiblePassageParser) (B : Book) (n : Str) (c v : Int)
    (f t : BibleReference)
    (hsep : p.separators = defaultSeparators) (hn : bookName n = true)
    (hbook : p.getBookFromAbbreviation n = .ok B)
    (hname : p.getBookFromAbbreviation B.Name = .ok B)
    (hc : 1 ≤ c) (hc2 : c < 2 ^ 63) (hv : 1 ≤ v) (hv2 : v < 2 ^ 63)
    (hfrom : NewBibleReference B c v [] = .ok f)
    (hto : NewBibleReference B c (B.versesOrZero c) [] = .ok t)
    (hord : f.IntegerNotation ≤ t.IntegerNotation) :
    p.Parse (n ++ ' ' :: (fmtInt c ++ ':' :: (fmtInt v ++ '-' :: "end".toList))) =
      .ret (some [NewBiblePassage f t], none) := by
  have h0 : 0 ≤ c := by omega
  have hv0 : 0 ≤ v := by omega
  have hwf : WellFormed [.sp, tokNum c, .colon, tokNum v, .hyphen, .name "end".toList] :=
    ⟨Or.inr (Or.inr (Or.inl ⟨_, _, rfl⟩)),
      follows_tokNum h0 (Or.inr (Or.inr (Or.inl ⟨_, rfl⟩))), Or.inl ⟨_, _, rfl⟩,
      follows_tokNum hv0 (Or.inr (Or.inr (Or.inr (Or.inl ⟨_, rfl⟩)))),
      Or.inr (Or.inr ⟨_, _, rfl⟩), ⟨by decide, Or.inl rfl⟩, trivial⟩
  have hr : n ++ render [.sp, tokNum c, .colon, tokNum v, .hyphen, .name "end".toList] =
      (n ++ ' ' :: (fmtInt c ++ ':' :: (fmtInt v ++ ([] ++ [])))) ++ '-' :: "end".toList := by
    simp only [render, Tok.text, tokNum, List.append_nil, List.nil_append,
      List.singleton_append, List.append_assoc, List.cons_append]
  have hP := Parse_range p n _ _ _ _ hsep hn hwf (Or.inr ⟨_, rfl⟩) (by simp [tokNum])
    (by intro x hx; simp [tokNum] at hx) hr
    (hyphen_not_mem_named hn (hyphen_not_mem_chapterVerse h0 hv0 (Or.inl rfl)
      (List.not_mem_nil _)))
    (by decide)
    (parseStartReference_name_verse p n c v [] [] [] none none B f hn hc hc2 hv hv2 (Or.inl rfl)
      (allP_nil _) hbook hfrom)
  simp only [List.append_nil, List.append_assoc, List.cons_append] at hP
  rw [hP, rangeReference_endKeyword_verse p _ _ B v c t hname rfl rfl hto,
    finishSection_ok _ _ _ _ hord]
  rfl

/-- The text `n c-end`. -/
theorem Parse_chapter_to_end (p : BiblePassageParser) (B : Book) (n : Str) (c : Int)
    (f t : BibleReference)
    (hsep : p.separators = defaultSeparators) (hn : bookName n = true)
    (hbook : p.getBookFromAbbreviation n = .ok B)
    (hname : p.getBookFromAbbreviation B.Name = .ok B)
    (hc : 1 ≤ c) (hc2 : c < 2 ^ 63)
    (hfrom : NewBibleReference B c 1 [] = .ok f)
    (hto : NewBibleReference B B.ChaptersInBook (B.versesOrZero B.ChaptersInBook) [] = .ok t)
    (hord : f.IntegerNotation ≤ t.IntegerNotation) :
    p.Parse (n ++ ' ' :: (fmtInt c ++ '-' :: "end".toList)) =
      .ret (some [NewBiblePassage f t], none) := by
  have h0 : 0 ≤ c := by omega
  have hwf : WellFormed [.sp, tokNum c, .hyphen, .name "end".toList] :=
    ⟨Or.inr (Or.inr (Or.inl ⟨_, _, rfl⟩)),
      follows_tokNum h0 (Or.inr (Or.inr (Or.inr (Or.inl ⟨_, rfl⟩)))),
      Or.inr (Or.inr ⟨_, _, rfl⟩), ⟨by decide, Or.inl rfl⟩, trivial⟩
  have hr : n ++ render [.sp, tokNum c, .hyphen, .name "end".toList] =
      (n ++ ' ' :: fmtInt c) ++ '-' :: "end".toList := by
    simp only [render, Tok.text, tokNum, List.append_nil, List.nil_append,
      List.singleton_append, List.append_assoc, List.cons_append]
  have hP := Parse_range p n _ _ _ _ hsep hn hwf (Or.inr ⟨_, rfl⟩) (by simp [tokNum])
    (by intro x hx; simp [tokNum] at hx) hr
    (hyphen_not_mem_named hn (hyphen_not_mem_fmtInt h0))
    (by decide)
    (parseStartReference_chapter p _ n [] none none B c f hn hc hc2
      (parseReference_name_chapter n c hn h0) hbook hfrom)
  simp only [List.append_assoc, List.cons_append] at hP
  rw [hP, rangeReference_endKeyword_chapter p _ _ B t hname rfl hto,
    finishSection_ok _ _ _ _ hord]
  rfl

/-! ### Rendering a range inside a chapter -/

/-- `String` of a range of verses of one chapter that is not the whole
chapter and has two different verses. -/
theorem String_verse_range (B : Book) (c v1 v2 : Int) (f1 f2 : Str) (h1 : 1 ≤ v1)
    (hv : v1 ≠ v2) (hw : ¬(v1 = 1 ∧ B.versesOrZero c = v2)) :
    (NewBiblePassage (mkRef B c v1 f1) (mkRef B c v2 f2)).String =
      B.SingularName ++ ' ' :: (fmtInt c ++ ':' :: (fmtInt v1 ++ (f1 ++ '-' ::
        (fmtInt v2 ++ f2)))) := by
  have e1 : ¬(B = B ∧ c = 1 ∧ v1 = 1 ∧ B.ChaptersInBook = c ∧ B.versesOrZero c = v2) :=
    fun h => hw ⟨h.2.2.1, h.2.2.2.2⟩
  have e2 : ¬(B = B ∧ c = c ∧ (v1 = 0 ∨ (v1 = 1 ∧ B.versesOrZero c = v2))) := by
    rintro ⟨_, _, h | h⟩
    · omega
    · exact hw h
  have e3 : ¬(B = B ∧ c = c ∧ v2 = v1) := fun h => hv h.2.2.symm
  have e1' : ¬(True ∧ c = 1 ∧ v1 = 1 ∧ B.ChaptersInBook = c ∧ B.versesOrZero c = v2) :=
    fun h => e1 ⟨rfl, h.2⟩
  have e2' : ¬(True ∧ True ∧ (v1 = 0 ∨ (v1 = 1 ∧ B.versesOrZero c = v2))) :=
    fun h => e2 ⟨rfl, rfl, h.2.2⟩
  have e3' : ¬(True ∧ True ∧ v2 = v1) := fun h => e3 ⟨rfl, rfl, h.2.2⟩
  unfold BiblePassage.String
  simp only [NewBiblePassage, mkRef]
  rw [if_neg e1', if_neg e2', if_neg e3', if_pos trivial]
  simp [List.append_assoc]

/-! ### Two clauses -/

theorem replaceAllAux_char (x y : Char) :
    ∀ s : Str, replaceAllAux [x] [y] 0 s = s.map fun c => if c = x then y else c := by
  intro s
  induction s with
  | nil => rfl
  | cons c s ih =>
    rw [replaceAllAux]
    by_cases h : c = x
    · subst h
      simp [List.isPrefixOf, ih]
    · have hb : (x == c) = false := by
        rw [beq_eq_false_iff_ne]; exact fun e => h e.symm
      simp [List.isPrefixOf, hb, h, ih]

/-- Replacing a character by a character maps the text. -/
theorem ReplaceAll_char (s : Str) (x y : Char) :
    ReplaceAll s [x] [y] = s.map fun c => if c = x then y else c := by
  unfold ReplaceAll
  rw [if_neg (by simp)]
  exact replaceAllAux_char x y s

theorem map_subst_id (s : Str) (x y : Char) (h : x ∉ s) :
    (s.map fun c => if c = x then y else c) = s := by
  induction s with
  | nil => rfl
  | cons c s ih =>
    have hc : c ≠ x := fun e => h (by rw [e]; exact List.mem_cons_self _ _)
    simp only [List.map_cons, if_neg hc]
    rw [ih fun hm => h (List.mem_cons_of_mem _ hm)]

/-- The separator word does not span an ampersand. -/
theorem noAnd_append_amp : ∀ (a b : Str), NoAnd a → NoAnd b → NoAnd (a ++ '&' :: b) := by
  intro a
  induction a with
  | nil =>
    intro b _ hb
    exact noAnd_cons_other (by decide) hb
  | cons c a ih =>
    intro b ha hb
    have ha1 : NoAnd a := fun t ht => ha t (ht.trans (List.suffix_cons c a))
    refine noAnd_cons ?_ (ih b ha1 hb)
    have hp := ha (c :: a) (List.suffix_refl _)
    have hand : "and".toList = ['a', 'n', 'd'] := rfl
    rw [hand] at hp ⊢
    rcases a with _ | ⟨y, _ | ⟨z, a⟩⟩
    · simp [List.isPrefixOf]
    · simp [List.isPrefixOf]
    · simpa [List.isPrefixOf] using hp

/-- Two clauses around one separator character. -/
theorem SplitOnSeparators_two (A B : Str) (x : Char) (hx : x = '&' ∨ x = ',' ∨ x = ';')
    (hA : NoSepChar A) (hB : NoSepChar B) (hnA : NoAnd A) (hnB : NoAnd B) :
    SplitOnSeparators defaultSeparators (A ++ x :: B) = some [A, B] := by
  have ha : "&".toList = ['&'] := rfl
  have hc : ",".toList = [','] := rfl
  have hs : ";".toList = [';'] := rfl
  have hM : (((A ++ x :: B).map fun c => if c = '&' then '&' else c).map
      fun c => if c = ',' then '&' else c).map (fun c => if c = ';' then '&' else c) =
      A ++ '&' :: B := by
    simp only [List.map_append, List.map_cons, map_subst_id A _ _ hA.1, map_subst_id A _ _ hA.2.1,
      map_subst_id A _ _ hA.2.2, map_subst_id B _ _ hB.1, map_subst_id B _ _ hB.2.1,
      map_subst_id B _ _ hB.2.2]
    rcases hx with h | h | h <;> subst h <;> simp
  simp only [SplitOnSeparators, defaultSeparators, List.foldl, ha, hc, hs]
  rw [ReplaceAll_char, ReplaceAll_char, ReplaceAll_char, hM,
    ReplaceAll_and_id _ _ (noAnd_append_amp A B hnA hnB)]
  unfold Split
  rw [if_neg (by simp), splitAux_char_append '&' B A hA.1, splitAux_char_id '&' B hB.1]

/-- A book name, a tail, a separator and a second clause: `Parse` reads the
two clauses in turn. -/
theorem Parse_two_clauses (p : BiblePassageParser) (n : Str) (tail ts2 : List Tok) (x : Char)
    (hsep : p.separators = defaultSeparators) (hn : bookName n = true)
    (hx : x = '&' ∨ x = ',' ∨ x = ';')
    (hwf : WellFormed (tail ++ .punct x :: ts2)) (hwf1 : WellFormed tail)
    (hwf2 : WellFormed ts2) (hfirst : ∃ r, tail = .sp :: r)
    (hlast : (Tok.punct x :: ts2).getLast? ≠ some .sp)
    (hns1 : NoSepTok tail) (hns2 : NoSepTok ts2) :
    p.Parse ((n ++ render tail) ++ x :: render ts2) =
      p.parseSections [n ++ render tail, render ts2] initialState := by
  obtain ⟨nts, hr, hne, hwfn, hfn, hln, hmem⟩ := bookName_in_text hn
  have hfirst1 : tail ++ .punct x :: ts2 = [] ∨ ∃ r, tail ++ .punct x :: ts2 = .sp :: r := by
    obtain ⟨r, hr⟩ := hfirst
    exact Or.inr ⟨r ++ .punct x :: ts2, by rw [hr]; rfl⟩
  have hW := hwfn _ hfirst1 hwf
  have hl : (nts ++ (tail ++ .punct x :: ts2)).getLast? ≠ some .sp := by
    rw [List.getLast?_append_of_ne_nil _ (by simp), List.getLast?_append_of_ne_nil _ (by simp)]
    exact hlast
  obtain ⟨_, hne1, _, hstart⟩ := render_ends _ hW (hfn _) hl
  have htext : render (nts ++ (tail ++ .punct x :: ts2)) =
      (n ++ render tail) ++ x :: render ts2 := by
    rw [render_append, render_append, hr]
    simp [render, Tok.text]
  have hW1 := hwfn tail (Or.inr hfirst) hwf1
  have hnsA : NoSepTok (nts ++ tail) := by
    intro c hc
    rcases List.mem_append.1 hc with h | h
    · exact absurd rfl ((hmem _ h).2 c)
    · exact hns1 c h
  have hA := noSepChar_render _ hW1 hnsA
  have hnA := noAnd_render _ hW1
  rw [render_append, hr] at hA hnA
  have htrim := TrimSpace_render _ hW (hfn _) hl
  rw [htext] at htrim hne1
  have hsafe := allSafe_render _ _ hW (Nat.le_refl _) (Or.inl hstart)
  rw [htext] at hsafe
  unfold BiblePassageParser.Parse
  rw [htrim, if_neg hne1, normalise_id _ hsafe, hsep,
    SplitOnSeparators_two _ _ x hx hA (noSepChar_render _ hwf2 hns2) hnA (noAnd_render _ hwf2)]
  rfl

/-- Two clauses that both succeed. -/
theorem parseSections_two (p : BiblePassageParser) (A B : Str) (st st1 st2 : LoopState)
    (hA : TrimSpace A ≠ []) (hB : TrimSpace B ≠ [])
    (h1 : p.parseSection st (TrimSpace A) = .next st1)
    (h2 : p.parseSection st1 (TrimSpace B) = .next st2) :
    p.parseSections [A, B] st = .ret (some st2.passages, none) := by
  simp only [BiblePassageParser.parseSections, if_neg hA, if_neg hB, h1, h2]

/-! ### Clauses that carry the book on -/

theorem trim_pad_nospace (a s b : Str) (ha : AllP isSpace a) (hb : AllP isSpace b) (hne : s ≠ [])
    (h : ∀ c ∈ s, isSpace c = false) : TrimSpace (a ++ (s ++ b)) = s :=
  TrimSpace_pad a s b ha hb hne (fun c hc => h c (List.mem_of_mem_head? hc))
    fun c hc => h c (List.mem_of_mem_getLast? hc)

theorem isSpace_false_fmtInt {x : Int} (h0 : 0 ≤ x) : ∀ c ∈ fmtInt x, isSpace c = false :=
  fun c hc => isSpace_false_of_canon (Or.inr (Or.inl ((isNumeral_fmtInt h0).2.1 c hc)))

/-- A book name and a tail that does not close with a blank, followed by
blanks, is trimmed to the name and the tail. -/
theorem trim_named (n : Str) (tail : List Tok) (ws : Str) (hn : bookName n = true)
    (hwf : WellFormed tail) (hfirst : tail = [] ∨ ∃ r, tail = .sp :: r)
    (hlast : tail.getLast? ≠ some .sp) (hws : AllP isSpace ws) :
    TrimSpace ((n ++ render tail) ++ ws) = n ++ render tail ∧ n ++ render tail ≠ [] := by
  obtain ⟨nts, hr, hne, hwfn, hfn, hln, hmem⟩ := bookName_in_text hn
  have hl : (nts ++ tail).getLast? ≠ some .sp := by
    by_cases ht : tail = []
    · rw [ht, List.append_nil]; exact hln
    · rw [List.getLast?_append_of_ne_nil _ ht]; exact hlast
  obtain ⟨hhead, hne1, hlastc, _⟩ := render_ends _ (hwfn tail hfirst hwf) (hfn tail) hl
  rw [render_append, hr] at hhead hne1 hlastc
  have := TrimSpace_pad [] _ ws (allP_nil _) hws hne1 hhead hlastc
  exact ⟨by simpa using this, hne1⟩

/-- The start half `c:v` in a carried book. -/
theorem parseStartReference_carried_chapterVerse (p : BiblePassageParser) (start lb : Str)
    (lc lv : Option Int) (B : Book) (c v : Int) (r : BibleReference)
    (hc : 1 ≤ c) (hc2 : c < 2 ^ 63) (hv : 1 ≤ v) (hv2 : v < 2 ^ 63)
    (hparse : parseReference start =
      .ok { book := [], chapter_or_verse := fmtInt c, verse := fmtInt v })
    (hbook : p.getBookFromAbbreviation lb = .ok B)
    (hfrom : NewBibleReference B c v [] = .ok r) :
    p.parseStartReference start lb lc lv =
      .ok { fromRef := r, startVerse := some v, lastBook := B.Name, lastChapter := some c,
            lastVerse := some v, lastFragment := [] } := by
  have h0 : 0 ≤ c := by omega
  have hv0 : 0 ≤ v := by omega
  have hpn : parseNumFragment (fmtInt c) = (c, []) := by
    have := parseNumFragment_fmtInt (f := []) h0 hc2 (Or.inl rfl)
    simpa using this
  have hpv : parseNumFragment (fmtInt v) = (v, []) := by
    have := parseNumFragment_fmtInt (f := []) hv0 hv2 (Or.inl rfl)
    simpa using this
  have hend : fmtInt c ≠ ['e', 'n', 'd'] := fmtInt_ne_end h0
  have hcpos : c > 0 := by omega
  have hvpos : v > 0 := by omega
  have hsuf : HasSuffix (fmtInt v) explicitMarker = false := by
    have := hasSuffix_marker_token (f := []) hv0 (Or.inl rfl)
    simpa using this
  unfold BiblePassageParser.parseStartReference
  simp only [hparse, ne_eq, not_true_eq_false, if_false, hbook, hsuf, Bool.false_eq_true]
  simp [classifyChapterOrVerse, classifyVerse, fmtInt_ne_nil h0, fmtInt_ne_nil hv0, hpn, hpv,
    hend, StartVars.setFragment, hcpos, hvpos, hfrom]

/-- The start half `v`, a bare number after a clause that left a verse: a
verse of the carried chapter. -/
theorem parseStartReference_carried_verse (p : BiblePassageParser) (start lb : Str)
    (c v0 : Int) (B : Book) (v : Int) (r : BibleReference)
    (hc : 1 ≤ c) (hv : 1 ≤ v) (hv2 : v < 2 ^ 63)
    (hparse : parseReference start = .ok { book := [], chapter_or_verse := fmtInt v, verse := [] })
    (hbook : p.getBookFromAbbreviation lb = .ok B)
    (hfrom : NewBibleReference B c v [] = .ok r) :
    p.parseStartReference start lb (some c) (some v0) =
      .ok { fromRef := r, startVerse := some v, lastBook := B.Name, lastChapter := some c,
            lastVerse := some v, lastFragment := [] } := by
  have hv0 : 0 ≤ v := by omega
  have hpv : parseNumFragment (fmtInt v) = (v, []) := by
    have := parseNumFragment_fmtInt (f := []) hv0 hv2 (Or.inl rfl)
    simpa using this
  have hcpos : c > 0 := by omega
  have hvpos : v > 0 := by omega
  unfold BiblePassageParser.parseStartReference
  simp only [hparse, ne_eq, not_true_eq_false, if_false, hbook]
  simp [classifyChapterOrVerse, classifyVerse, HasSuffix, explicitMarker, fmtInt_ne_nil hv0, hpv,
    StartVars.setFragment, hcpos, hvpos, hfrom]

/-- The start half `c`, a bare number after a clause that left no verse: a
chapter. -/
theorem parseStartReference_carried_chapter (p : BiblePassageParser) (start lb : Str)
    (lc : Option Int) (B : Book) (c : Int) (r : BibleReference)
    (hc : 1 ≤ c) (hc2 : c < 2 ^ 63)
    (hparse : parseReference start = .ok { book := [], chapter_or_verse := fmtInt c, verse := [] })
    (hbook : p.getBookFromAbbreviation lb = .ok B)
    (hfrom : NewBibleReference B c 1 [] = .ok r) :
    p.parseStartReference start lb lc none =
      .ok { fromRef := r, startVerse := none, lastBook := B.Name, lastChapter := some c,
            lastVerse := none, lastFragment := [] } := by
  have h0 : 0 ≤ c := by omega
  have hpn : parseNumFragment (fmtInt c) = (c, []) := by
    have := parseNumFragment_fmtInt (f := []) h0 hc2 (Or.inl rfl)
    simpa using this
  have hend : fmtInt c ≠ ['e', 'n', 'd'] := fmtInt_ne_end h0
  have hcpos : c > 0 := by omega
  unfold BiblePassageParser.parseStartReference
  simp only [hparse, ne_eq, not_true_eq_false, if_false, hbook]
  simp [classifyChapterOrVerse, classifyVerse, HasSuffix, explicitMarker, fmtInt_ne_nil h0, hpn,
    hend, StartVars.setFragment, hcpos, hfrom]

/-! ### One clause, from any state -/

theorem hyphen_not_mem_cv {c v : Int} (hc : 0 ≤ c) (hv : 0 ≤ v) :
    '-' ∉ fmtInt c ++ ':' :: fmtInt v := by
  simp only [List.mem_append, List.mem_cons, not_or]
  exact ⟨hyphen_not_mem_fmtInt hc, by decide, hyphen_not_mem_fmtInt hv⟩

theorem parseReference_cv (c v : Int) (hc : 0 ≤ c) (hv : 0 ≤ v) :
    parseReference (fmtInt c ++ ':' :: fmtInt v) =
      .ok { book := [], chapter_or_verse := fmtInt c, verse := fmtInt v } := by
  have := parseReference_endChapterVerse c v [] hc hv (Or.inl rfl)
  simpa using this

theorem parseReference_name_cv (ws0 n : Str) (c v : Int) (ws1 : Str) (hn : bookName n = true)
    (hc : 0 ≤ c) (hv : 0 ≤ v) (hws0 : AllP isReSpace ws0) (hws1 : AllP isReSpace ws1) :
    parseReference (ws0 ++ (n ++ ' ' :: (fmtInt c ++ ':' :: (fmtInt v ++ ws1)))) =
      .ok { book := ToLower n, chapter_or_verse := fmtInt c, verse := fmtInt v } := by
  have := parseReference_name_verse ws0 n c v [] ws1 hn hc hv (Or.inl rfl) hws0 hws1
  simpa using this

/-- The clause `n c:v`. -/
theorem parseSection_name_verse (p : BiblePassageParser) (st : LoopState) (B : Book) (n : Str)
    (c v : Int) (f : BibleReference) (hn : bookName n = true)
    (hbook : p.getBookFromAbbreviation n = .ok B)
    (hname : p.getBookFromAbbreviation B.Name = .ok B)
    (hc : 1 ≤ c) (hc2 : c < 2 ^ 63) (hv : 1 ≤ v) (hv2 : v < 2 ^ 63)
    (hfrom : NewBibleReference B c v [] = .ok f) :
    p.parseSection st (n ++ ' ' :: (fmtInt c ++ ':' :: fmtInt v)) =
      .next { passages := st.passages ++ [NewBiblePassage f f], lastBook := B.Name,
              lastChapter := some c, lastVerse := some v } := by
  have h0 : 0 ≤ c := by omega
  have hv0 : 0 ≤ v := by omega
  have hpr := parseReference_name_cv [] n c v [] hn h0 hv0 (allP_nil _) (allP_nil _)
  simp only [List.nil_append, List.append_nil] at hpr
  unfold BiblePassageParser.parseSection
  rw [Split_hyphen_none _ (hyphen_not_mem_named hn (hyphen_not_mem_cv h0 hv0))]
  simp only []
  rw [parseStartReference_verse p _ n _ _ _ B c v [] f hn hc hc2 hv hv2 (Or.inl rfl)
    (by simpa using hpr) hbook hfrom]
  simp only [BiblePassageParser.singleReference, hname, ne_eq, reduceCtorEq, not_false_eq_true,
    if_true]
  rw [finishSection_ok _ _ _ _ (le_refl _)]

/-- The clause `n c`. -/
theorem parseSection_name_chapter (p : BiblePassageParser) (st : LoopState) (B : Book) (n : Str)
    (c : Int) (f t : BibleReference) (hn : bookName n = true)
    (hbook : p.getBookFromAbbreviation n = .ok B)
    (hname : p.getBookFromAbbreviation B.Name = .ok B)
    (hc : 1 ≤ c) (hc2 : c < 2 ^ 63)
    (hfrom : NewBibleReference B c 1 [] = .ok f)
    (hto : NewBibleReference B c (B.versesOrZero c) [] = .ok t)
    (hord : f.IntegerNotation ≤ t.IntegerNotation) :
    p.parseSection st (n ++ ' ' :: fmtInt c) =
      .next { passages := st.passages ++ [NewBiblePassage f t], lastBook := B.Name,
              lastChapter := some c, lastVerse := none } := by
  have h0 : 0 ≤ c := by omega
  unfold BiblePassageParser.parseSection
  rw [Split_hyphen_none _ (hyphen_not_mem_named hn (hyphen_not_mem_fmtInt h0))]
  simp only []
  rw [parseStartReference_chapter p _ n _ _ _ B c f hn hc hc2
    (parseReference_name_chapter n c hn h0) hbook hfrom]
  simp only [BiblePassageParser.singleReference, hname, ne_eq, not_true_eq_false, if_false, hto]
  rw [finishSection_ok _ _ _ _ hord]

/-- The clause `n1 c1:v1 - n2 c2:v2`. -/
theorem parseSection_cross_book (p : BiblePassageParser) (st : LoopState) (B1 B2 : Book)
    (n1 n2 : Str) (c1 v1 c2 v2 : Int) (f t : BibleReference)
    (hn1 : bookName n1 = true) (hn2 : bookName n2 = true)
    (hbook1 : p.getBookFromAbbreviation n1 = .ok B1)
    (hbook2 : p.getBookFromAbbreviation n2 = .ok B2)
    (hc1 : 1 ≤ c1) (hc12 : c1 < 2 ^ 63) (hv1 : 1 ≤ v1) (hv12 : v1 < 2 ^ 63)
    (hc2 : 1 ≤ c2) (hc22 : c2 < 2 ^ 63) (hv2 : 1 ≤ v2) (hv22 : v2 < 2 ^ 63)
    (hfrom : NewBibleReference B1 c1 v1 [] = .ok f)
    (hto : NewBibleReference B2 c2 v2 [] = .ok t)
    (hord : f.IntegerNotation ≤ t.IntegerNotation) :
    p.parseSection st ((n1 ++ ' ' :: (fmtInt c1 ++ ':' :: (fmtInt v1 ++ [' ']))) ++ '-' ::
        ([' '] ++ (n2 ++ ' ' :: (fmtInt c2 ++ ':' :: (fmtInt v2 ++ []))))) =
      .next { passages := st.passages ++ [NewBiblePassage f t], lastBook := B2.Name,
              lastChapter := some c2, lastVerse := some v2 } := by
  have h10 : 0 ≤ c1 := by omega
  have hv10 : 0 ≤ v1 := by omega
  have h20 : 0 ≤ c2 := by omega
  have hv20 : 0 ≤ v2 := by omega
  have hsp : AllP isReSpace [' '] := by intro x hx; rw [List.mem_singleton.1 hx]; decide
  have ha : '-' ∉ n1 ++ ' ' :: (fmtInt c1 ++ ':' :: (fmtInt v1 ++ [' '])) :=
    hyphen_not_mem_named hn1 (by
      have := @hyphen_not_mem_chapterVerse c1 v1 [] [' '] h10 hv10 (Or.inl rfl)
        (by decide)
      simpa using this)
  have hb : '-' ∉ [' '] ++ (n2 ++ ' ' :: (fmtInt c2 ++ ':' :: (fmtInt v2 ++ []))) := by
    intro h
    rcases List.mem_cons.1 h with h | h
    · exact absurd h (by decide)
    · exact hyphen_not_mem_named hn2 (by
        have := @hyphen_not_mem_chapterVerse c2 v2 [] [] h20 hv20 (Or.inl rfl)
          (List.not_mem_nil _)
        simpa using this) h
  unfold BiblePassageParser.parseSection
  rw [Split_hyphen_one _ _ ha hb]
  simp only []
  rw [parseStartReference_verse p _ n1 _ _ _ B1 c1 v1 [] f hn1 hc1 hc12 hv1 hv12 (Or.inl rfl)
    (by
      have := parseReference_name_cv [] n1 c1 v1 [' '] hn1 h10 hv10 (allP_nil _) hsp
      simpa using this) hbook1 hfrom]
  simp only []
  rw [rangeReference_chapterVerse p _ _ _ (ToLower n2) B2 c2 v2 [] t
    (by
      have := parseReference_name_cv [' '] n2 c2 v2 [] hn2 h20 hv20 hsp (allP_nil _)
      simpa using this)
    (by rw [if_pos (bookName_lower_ne_nil hn2), getBook_lower p hn2]; exact hbook2)
    h20 hc22 hv20 hv22 (Or.inl rfl) hto, finishSection_ok _ _ _ _ hord]

/-- The clause `c:v` in the carried book. -/
theorem parseSection_carried_chapterVerse (p : BiblePassageParser) (st : LoopState) (B : Book)
    (c v : Int) (f : BibleReference)
    (hbook : p.getBookFromAbbreviation st.lastBook = .ok B)
    (hname : p.getBookFromAbbreviation B.Name = .ok B)
    (hc : 1 ≤ c) (hc2 : c < 2 ^ 63) (hv : 1 ≤ v) (hv2 : v < 2 ^ 63)
    (hfrom : NewBibleReference B c v [] = .ok f) :
    p.parseSection st (fmtInt c ++ ':' :: fmtInt v) =
      .next { passages := st.passages ++ [NewBiblePassage f f], lastBook := B.Name,
              lastChapter := some c, lastVerse := some v } := by
  have h0 : 0 ≤ c := by omega
  have hv0 : 0 ≤ v := by omega
  unfold BiblePassageParser.parseSection
  rw [Split_hyphen_none _ (hyphen_not_mem_cv h0 hv0)]
  simp only []
  rw [parseStartReference_carried_chapterVerse p _ _ _ _ B c v f hc hc2 hv hv2
    (parseReference_cv c v h0 hv0) hbook hfrom]
  simp only [BiblePassageParser.singleReference, hname, ne_eq, reduceCtorEq, not_false_eq_true,
    if_true]
  rw [finishSection_ok _ _ _ _ (le_refl _)]

/-- The clause `v` after a clause that left a chapter and a verse. -/
theorem parseSection_carried_verse (p : BiblePassageParser) (st : LoopState) (B : Book)
    (c v0 v : Int) (f : BibleReference)
    (hbook : p.getBookFromAbbreviation st.lastBook = .ok B)
    (hname : p.getBookFromAbbreviation B.Name = .ok B)
    (hlc : st.lastChapter = some c) (hlv : st.lastVerse = some v0)
    (hc : 1 ≤ c) (hv : 1 ≤ v) (hv2 : v < 2 ^ 63)
    (hfrom : NewBibleReference B c v [] = .ok f) :
    p.parseSection st (fmtInt v) =
      .next { passages := st.passages ++ [NewBiblePassage f f], lastBook := B.Name,
              lastChapter := some c, lastVerse := some v } := by
  have hv0 : 0 ≤ v := by omega
  unfold BiblePassageParser.parseSection
  rw [Split_hyphen_none _ (hyphen_not_mem_fmtInt hv0)]
  simp only [hlc, hlv]
  rw [parseStartReference_carried_verse p _ _ c v0 B v f hc hv hv2
    (parseReference_endChapter v hv0) hbook hfrom]
  simp only [BiblePassageParser.singleReference, hname, ne_eq, reduceCtorEq, not_false_eq_true,
    if_true]
  rw [finishSection_ok _ _ _ _ (le_refl _)]

/-- The clause `c` after a clause that left no verse. -/
theorem parseSection_carried_chapter (p : BiblePassageParser) (st : LoopState) (B : Book)
    (c : Int) (f t : BibleReference)
    (hbook : p.getBookFromAbbreviation st.lastBook = .ok B)
    (hname : p.getBookFromAbbreviation B.Name = .ok B)
    (hlv : st.lastVerse = none)
    (hc : 1 ≤ c) (hc2 : c < 2 ^ 63)
    (hfrom : NewBibleReference B c 1 [] = .ok f)
    (hto : NewBibleReference B c (B.versesOrZero c) [] = .ok t)
    (hord : f.IntegerNotation ≤ t.IntegerNotation) :
    p.parseSection st (fmtInt c) =
      .next { passages := st.passages ++ [NewBiblePassage f t], lastBook := B.Name,
              lastChapter := some c, lastVerse := none } := by
  have h0 : 0 ≤ c := by omega
  unfold BiblePassageParser.parseSection
  rw [Split_hyphen_none _ (hyphen_not_mem_fmtInt h0)]
  simp only [hlv]
  rw [parseStartReference_carried_chapter p _ _ _ B c f hc hc2
    (parseReference_endChapter c h0) hbook hfrom]
  simp only [BiblePassageParser.singleReference, hname, ne_eq, not_true_eq_false, if_false, hto]
  rw [finishSection_ok _ _ _ _ hord]

/-- The clause `c:v1-v2` in the carried book. -/
theorem parseSection_carried_range (p : BiblePassageParser) (st : LoopState) (B : Book)
    (c v1 v2 : Int) (f t : BibleReference)
    (hbook : p.getBookFromAbbreviation st.lastBook = .ok B)
    (hname : p.getBookFromAbbreviation B.Name = .ok B)
    (hc : 1 ≤ c) (hc2 : c < 2 ^ 63) (hv1 : 1 ≤ v1) (hv12 : v1 < 2 ^ 63)
    (hv2 : 1 ≤ v2) (hv22 : v2 < 2 ^ 63)
    (hfrom : NewBibleReference B c v1 [] = .ok f)
    (hto : NewBibleReference B c v2 [] = .ok t)
    (hord : f.IntegerNotation ≤ t.IntegerNotation) :
    p.parseSection st ((fmtInt c ++ ':' :: fmtInt v1) ++ '-' :: fmtInt v2) =
      .next { passages := st.passages ++ [NewBiblePassage f t], lastBook := B.Name,
              lastChapter := some c, lastVerse := some v2 } := by
  have h0 : 0 ≤ c := by omega
  have hv10 : 0 ≤ v1 := by omega
  have hv20 : 0 ≤ v2 := by omega
  unfold BiblePassageParser.parseSection
  rw [Split_hyphen_one _ _ (hyphen_not_mem_cv h0 hv10) (hyphen_not_mem_fmtInt hv20)]
  simp only []
  rw [parseStartReference_carried_chapterVerse p _ _ _ _ B c v1 f hc hc2 hv1 hv12
    (parseReference_cv c v1 h0 hv10) hbook hfrom]
  simp only []
  rw [rangeReference_endVerse p _ _ _ B v1 c v2 [] t
    (by
      have := parseReference_endVerse v2 [] hv20 (Or.inl rfl)
      simpa using this)
    hname rfl rfl hv20 hv22 (Or.inl rfl) hto, finishSection_ok _ _ _ _ hord]

/-! ### Texts of two clauses -/

/-- Two clauses that both succeed, from the first clause on. -/
theorem Parse_two_of (p : BiblePassageParser) (n : Str) (tail ts2 : List Tok) (x : Char)
    (hsep : p.separators = defaultSeparators) (hn : bookName n = true)
    (hx : x = '&' ∨ x = ',' ∨ x = ';')
    (hwf : WellFormed (tail ++ .punct x :: ts2)) (hwf1 : WellFormed tail)
    (hwf2 : WellFormed ts2) (hfirst : ∃ r, tail = .sp :: r)
    (hlast : (Tok.punct x :: ts2).getLast? ≠ some .sp)
    (hns1 : NoSepTok tail) (hns2 : NoSepTok ts2) (A B : Str) (st1 st2 : LoopState)
    (hA : TrimSpace (n ++ render tail) = A) (hA1 : A ≠ [])
    (hB : TrimSpace (render ts2) = B) (hB1 : B ≠ [])
    (h1 : p.parseSection initialState A = .next st1)
    (h2 : p.parseSection st1 B = .next st2) :
    p.Parse ((n ++ render tail) ++ x :: render ts2) = .ret (some st2.passages, none) := by
  rw [Parse_two_clauses p n tail ts2 x hsep hn hx hwf hwf1 hwf2 hfirst hlast hns1 hns2]
  exact parseSections_two p _ _ _ st1 st2 (by rw [hA]; exact hA1) (by rw [hB]; exact hB1)
    (by rw [hA]; exact h1) (by rw [hB]; exact h2)

theorem follows_tokNum_punct {v : Int} (hv : 0 ≤ v) (x : Char) (r : List Tok) :
    Follows (tokNum v) (.punct x :: r) :=
  ⟨fmtInt_ne_nil hv, (isNumeral_fmtInt hv).2.1,
    Or.inr (Or.inr (Or.inr (Or.inr (Or.inr ⟨x, r, rfl⟩))))⟩

theorem sepChar_punct {x : Char} (hx : x = '&' ∨ x = ',' ∨ x = ';') :
    x = '.' ∨ x = ',' ∨ x = '&' ∨ x = ';' := by
  rcases hx with h | h | h
  · exact Or.inr (Or.inr (Or.inl h))
  · exact Or.inr (Or.inl h)
  · exact Or.inr (Or.inr (Or.inr h))

theorem allP_isSpace_blank : AllP isSpace [' '] := by
  intro x hx
  rw [List.mem_singleton.1 hx]
  decide

theorem isSpace_false_cv {c v : Int} (hc : 0 ≤ c) (hv : 0 ≤ v) :
    ∀ x ∈ fmtInt c ++ ':' :: fmtInt v, isSpace x = false := by
  intro x hx
  rcases List.mem_append.1 hx with h | h
  · exact isSpace_false_fmtInt hc x h
  · rcases List.mem_cons.1 h with h | h
    · rw [h]; decide
    · exact isSpace_false_fmtInt hv x h

/-- The text `n c1:v1; c2:v2`, with any of the separators `&`, `,`, `;`. -/
theorem Parse_verse_then_chapterVerse (p : BiblePassageParser) (B : Book) (n : Str) (x : Char)
    (c1 v1 c2 v2 : Int) (f1 f2 : BibleReference)
    (hsep : p.separators = defaultSeparators) (hn : bookName n = true)
    (hx : x = '&' ∨ x = ',' ∨ x = ';')
    (hbook : p.getBookFromAbbreviation n = .ok B)
    (hname : p.getBookFromAbbreviation B.Name = .ok B)
    (hc1 : 1 ≤ c1) (hc12 : c1 < 2 ^ 63) (hv1 : 1 ≤ v1) (hv12 : v1 < 2 ^ 63)
    (hc2 : 1 ≤ c2) (hc22 : c2 < 2 ^ 63) (hv2 : 1 ≤ v2) (hv22 : v2 < 2 ^ 63)
    (hr1 : NewBibleReference B c1 v1 [] = .ok f1)
    (hr2 : NewBibleReference B c2 v2 [] = .ok f2) :
    p.Parse (n ++ ' ' :: (fmtInt c1 ++ ':' :: (fmtInt v1 ++ x :: ' ' ::
        (fmtInt c2 ++ ':' :: fmtInt v2)))) =
      .ret (some [NewBiblePassage f1 f1, NewBiblePassage f2 f2], none) := by
  have h10 : 0 ≤ c1 := by omega
  have hv10 : 0 ≤ v1 := by omega
  have h20 : 0 ≤ c2 := by omega
  have hv20 : 0 ≤ v2 := by omega
  have hwf2 : WellFormed [.sp, tokNum c2, .colon, tokNum v2] :=
    ⟨Or.inr (Or.inr (Or.inl ⟨_, _, rfl⟩)),
      follows_tokNum h20 (Or.inr (Or.inr (Or.inl ⟨_, rfl⟩))), Or.inl ⟨_, _, rfl⟩,
      follows_tokNum hv20 (Or.inl rfl), trivial⟩
  have hwf1 : WellFormed [.sp, tokNum c1, .colon, tokNum v1] :=
    ⟨Or.inr (Or.inr (Or.inl ⟨_, _, rfl⟩)),
      follows_tokNum h10 (Or.inr (Or.inr (Or.inl ⟨_, rfl⟩))), Or.inl ⟨_, _, rfl⟩,
      follows_tokNum hv10 (Or.inl rfl), trivial⟩
  have hwf : WellFormed ([.sp, tokNum c1, .colon, tokNum v1] ++
      .punct x :: [.sp, tokNum c2, .colon, tokNum v2]) :=
    ⟨Or.inr (Or.inr (Or.inl ⟨_, _, rfl⟩)),
      follows_tokNum h10 (Or.inr (Or.inr (Or.inl ⟨_, rfl⟩))), Or.inl ⟨_, _, rfl⟩,
      follows_tokNum_punct hv10 x _,
      ⟨sepChar_punct hx, fun _ => Or.inr (fun _ _ h => by cases h)⟩, hwf2⟩
  have hA := trim_named n [.sp, tokNum c1, .colon, tokNum v1] [] hn hwf1 (Or.inr ⟨_, rfl⟩)
    (by simp [tokNum]) (allP_nil _)
  rw [List.append_nil] at hA
  have hB : TrimSpace (render [.sp, tokNum c2, .colon, tokNum v2]) =
      fmtInt c2 ++ ':' :: fmtInt v2 := by
    have := trim_pad_nospace [' '] (fmtInt c2 ++ ':' :: fmtInt v2) [] allP_isSpace_blank
      (allP_nil _) (by simp) (isSpace_false_cv h20 hv20)
    simpa [render, Tok.text, tokNum] using this
  have hP := Parse_two_of p n _ _ x hsep hn hx hwf hwf1 hwf2 ⟨_, rfl⟩ (by simp [tokNum])
    (by intro y hy; simp [tokNum] at hy) (by intro y hy; simp [tokNum] at hy) _ _ _ _
    hA.1 hA.2 hB (by simp)
    (by
      have := parseSection_name_verse p initialState B n c1 v1 f1 hn hbook hname hc1 hc12 hv1
        hv12 hr1
      simpa [render, Tok.text, tokNum] using this)
    (parseSection_carried_chapterVerse p _ B c2 v2 f2 hname hname hc2 hc22 hv2 hv22 hr2)
  simp only [render, Tok.text, tokNum, List.append_nil, List.nil_append, List.singleton_append,
    List.append_assoc, List.cons_append, initialState] at hP
  exact hP

/-- The text `n c:v1, v2`, with any of the separators `&`, `,`, `;`. -/
theorem Parse_verse_then_verse (p : BiblePassageParser) (B : Book) (n : Str) (x : Char)
    (c v1 v2 : Int) (f1 f2 : BibleReference)
    (hsep : p.separators = defaultSeparators) (hn : bookName n = true)
    (hx : x = '&' ∨ x = ',' ∨ x = ';')
    (hbook : p.getBookFromAbbreviation n = .ok B)
    (hname : p.getBookFromAbbreviation B.Name = .ok B)
    (hc : 1 ≤ c) (hc2 : c < 2 ^ 63) (hv1 : 1 ≤ v1) (hv12 : v1 < 2 ^ 63)
    (hv2 : 1 ≤ v2) (hv22 : v2 < 2 ^ 63)
    (hr1 : NewBibleReference B c v1 [] = .ok f1)
    (hr2 : NewBibleReference B c v2 [] = .ok f2) :
    p.Parse (n ++ ' ' :: (fmtInt c ++ ':' :: (fmtInt v1 ++ x :: ' ' :: fmtInt v2))) =
      .ret (some [NewBiblePassage f1 f1, NewBiblePassage f2 f2], none) := by
  have h0 : 0 ≤ c := by omega
  have hv10 : 0 ≤ v1 := by omega
  have hv20 : 0 ≤ v2 := by omega
  have hwf2 : WellFormed [.sp, tokNum v2] :=
    ⟨Or.inr (Or.inr (Or.inl ⟨_, _, rfl⟩)), follows_tokNum hv20 (Or.inl rfl), trivial⟩
  have hwf1 : WellFormed [.sp, tokNum c, .colon, tokNum v1] :=
    ⟨Or.inr (Or.inr (Or.inl ⟨_, _, rfl⟩)),
      follows_tokNum h0 (Or.inr (Or.inr (Or.inl ⟨_, rfl⟩))), Or.inl ⟨_, _, rfl⟩,
      follows_tokNum hv10 (Or.inl rfl), trivial⟩
  have hwf : WellFormed ([.sp, tokNum c, .colon, tokNum v1] ++ .punct x :: [.sp, tokNum v2]) :=
    ⟨Or.inr (Or.inr (Or.inl ⟨_, _, rfl⟩)),
      follows_tokNum h0 (Or.inr (Or.inr (Or.inl ⟨_, rfl⟩))), Or.inl ⟨_, _, rfl⟩,
      follows_tokNum_punct hv10 x _,
      ⟨sepChar_punct hx, fun _ => Or.inr (fun _ _ h => by cases h)⟩, hwf2⟩
  have hA := trim_named n [.sp, tokNum c, .colon, tokNum v1] [] hn hwf1 (Or.inr ⟨_, rfl⟩)
    (by simp [tokNum]) (allP_nil _)
  rw [List.append_nil] at hA
  have hB : TrimSpace (render [.sp, tokNum v2]) = fmtInt v2 := by
    have := trim_pad_nospace [' '] (fmtInt v2) [] allP_isSpace_blank
      (allP_nil _) (fmtInt_ne_nil hv20) (isSpace_false_fmtInt hv20)
    simpa [render, Tok.text, tokNum] using this
  have hP := Parse_two_of p n _ _ x hsep hn hx hwf hwf1 hwf2 ⟨_, rfl⟩ (by simp [tokNum])
    (by intro y hy; simp [tokNum] at hy) (by intro y hy; simp [tokNum] at hy) _ _ _ _
    hA.1 hA.2 hB (fmtInt_ne_nil hv20)
    (by
      have := parseSection_name_verse p initialState B n c v1 f1 hn hbook hname hc hc2 hv1
        hv12 hr1
      simpa [render, Tok.text, tokNum] using this)
    (parseSection_carried_verse p _ B c v1 v2 f2 hname hname rfl rfl hc hv2 hv22 hr2)
  simp only [render, Tok.text, tokNum, List.append_nil, List.nil_append, List.singleton_append,
    List.append_assoc, List.cons_append, initialState] at hP
  exact hP

/-- The text `n c1, c2`, with any of the separators `&`, `,`, `;`. -/
theorem Parse_chapter_then_chapter (p : BiblePassageParser) (B : Book) (n : Str) (x : Char)
    (c1 c2 : Int) (f1 t1 f2 t2 : BibleReference)
    (hsep : p.separators = defaultSeparators) (hn : bookName n = true)
    (hx : x = '&' ∨ x = ',' ∨ x = ';')
    (hbook : p.getBookFromAbbreviation n = .ok B)
    (hname : p.getBookFromAbbreviation B.Name = .ok B)
    (hc1 : 1 ≤ c1) (hc12 : c1 < 2 ^ 63) (hc2 : 1 ≤ c2) (hc22 : c2 < 2 ^ 63)
    (hf1 : NewBibleReference B c1 1 [] = .ok f1)
    (ht1 : NewBibleReference B c1 (B.versesOrZero c1) [] = .ok t1)
    (ho1 : f1.IntegerNotation ≤ t1.IntegerNotation)
    (hf2 : NewBibleReference B c2 1 [] = .ok f2)
    (ht2 : NewBibleReference B c2 (B.versesOrZero c2) [] = .ok t2)
    (ho2 : f2.IntegerNotation ≤ t2.IntegerNotation) :
    p.Parse (n ++ ' ' :: (fmtInt c1 ++ x :: ' ' :: fmtInt c2)) =
      .ret (some [NewBiblePassage f1 t1, NewBiblePassage f2 t2], none) := by
  have h10 : 0 ≤ c1 := by omega
  have h20 : 0 ≤ c2 := by omega
  have hwf2 : WellFormed [.sp, tokNum c2] :=
    ⟨Or.inr (Or.inr (Or.inl ⟨_, _, rfl⟩)), follows_tokNum h20 (Or.inl rfl), trivial⟩
  have hwf1 : WellFormed [.sp, tokNum c1] :=
    ⟨Or.inr (Or.inr (Or.inl ⟨_, _, rfl⟩)), follows_tokNum h10 (Or.inl rfl), trivial⟩
  have hwf : WellFormed ([.sp, tokNum c1] ++ .punct x :: [.sp, tokNum c2]) :=
    ⟨Or.inr (Or.inr (Or.inl ⟨_, _, rfl⟩)), follows_tokNum_punct h10 x _,
      ⟨sepChar_punct hx, fun _ => Or.inr (fun _ _ h => by cases h)⟩, hwf2⟩
  have hA := trim_named n [.sp, tokNum c1] [] hn hwf1 (Or.inr ⟨_, rfl⟩)
    (by simp [tokNum]) (allP_nil _)
  rw [List.append_nil] at hA
  have hB : TrimSpace (render [.sp, tokNum c2]) = fmtInt c2 := by
    have := trim_pad_nospace [' '] (fmtInt c2) [] allP_isSpace_blank
      (allP_nil _) (fmtInt_ne_nil h20) (isSpace_false_fmtInt h20)
    simpa [render, Tok.text, tokNum] using this
  have hP := Parse_two_of p n _ _ x hsep hn hx hwf hwf1 hwf2 ⟨_, rfl⟩ (by simp [tokNum])
    (by intro y hy; simp [tokNum] at hy) (by intro y hy; simp [tokNum] at hy) _ _ _ _
    hA.1 hA.2 hB (fmtInt_ne_nil h20)
    (by
      have := parseSection_name_chapter p initialState B n c1 f1 t1 hn hbook hname hc1 hc12
        hf1 ht1 ho1
      simpa [render, Tok.text, tokNum] using this)
    (parseSection_carried_chapter p _ B c2 f2 t2 hname hname rfl hc2 hc22 hf2 ht2 ho2)
  simp only [render, Tok.text, tokNum, List.append_nil, List.nil_append, List.singleton_append,
    List.append_assoc, List.cons_append, initialState] at hP
  exact hP

/-! ### A range across two books and a clause after it -/

/-- The tail ` c1:v1 - n2…` of a range that ends in a second book. -/
theorem wellFormed_cross_tail (nts2 : List Tok)
    (hwfn : ∀ rest, (rest = [] ∨ ∃ r, rest = .sp :: r) → WellFormed rest →
      WellFormed (nts2 ++ rest))
    (hfn : ∀ rest, (∃ m r, nts2 ++ rest = .name m :: r) ∨
      ∃ ds r, nts2 ++ rest = .num ds :: .sp :: r)
    {c1 v1 : Int} (hc : 0 ≤ c1) (hv : 0 ≤ v1) (rest : List Tok) (hs : ∃ r, rest = .sp :: r)
    (hw : WellFormed rest) :
    WellFormed (.sp :: tokNum c1 :: .colon :: tokNum v1 :: .sp :: .hyphen :: .sp ::
      (nts2 ++ rest)) := by
  refine ⟨Or.inr (Or.inr (Or.inl ⟨_, _, rfl⟩)),
    follows_tokNum hc (Or.inr (Or.inr (Or.inl ⟨_, rfl⟩))), Or.inl ⟨_, _, rfl⟩,
    follows_tokNum hv (Or.inr (Or.inl ⟨_, rfl⟩)), Or.inr (Or.inl ⟨_, rfl⟩), Or.inl ⟨_, rfl⟩, ?_,
    hwfn rest (Or.inr hs) hw⟩
  rcases hfn rest with ⟨m, r, h⟩ | ⟨ds, r, h⟩
  · exact Or.inr (Or.inr (Or.inr (Or.inl ⟨m, r, h⟩)))
  · exact Or.inr (Or.inr (Or.inl ⟨ds, _, h⟩))

/-- The text `n1 c1:v1 - n2 c2:v2 & c3:v3-v4`, with any of the separators
`&`, `,`, `;`. -/
theorem Parse_cross_book_then_range (p : BiblePassageParser) (B1 B2 : Book) (n1 n2 : Str)
    (x : Char) (c1 v1 c2 v2 c3 v3 v4 : Int) (f1 t1 f2 t2 : BibleReference)
    (hsep : p.separators = defaultSeparators) (hn1 : bookName n1 = true)
    (hn2 : bookName n2 = true) (hx : x = '&' ∨ x = ',' ∨ x = ';')
    (hbook1 : p.getBookFromAbbreviation n1 = .ok B1)
    (hbook2 : p.getBookFromAbbreviation n2 = .ok B2)
    (hname2 : p.getBookFromAbbreviation B2.Name = .ok B2)
    (hc1 : 1 ≤ c1) (hc12 : c1 < 2 ^ 63) (hv1 : 1 ≤ v1) (hv12 : v1 < 2 ^ 63)
    (hc2 : 1 ≤ c2) (hc22 : c2 < 2 ^ 63) (hv2 : 1 ≤ v2) (hv22 : v2 < 2 ^ 63)
    (hc3 : 1 ≤ c3) (hc32 : c3 < 2 ^ 63) (hv3 : 1 ≤ v3) (hv32 : v3 < 2 ^ 63)
    (hv4 : 1 ≤ v4) (hv42 : v4 < 2 ^ 63)
    (hf1 : NewBibleReference B1 c1 v1 [] = .ok f1)
    (ht1 : NewBibleReference B2 c2 v2 [] = .ok t1)
    (ho1 : f1.IntegerNotation ≤ t1.IntegerNotation)
    (hf2 : NewBibleReference B2 c3 v3 [] = .ok f2)
    (ht2 : NewBibleReference B2 c3 v4 [] = .ok t2)
    (ho2 : f2.IntegerNotation ≤ t2.IntegerNotation) :
    p.Parse (n1 ++ ' ' :: (fmtInt c1 ++ ':' :: (fmtInt v1 ++ ' ' :: '-' :: ' ' ::
        (n2 ++ ' ' :: (fmtInt c2 ++ ':' :: (fmtInt v2 ++ ' ' :: x :: ' ' ::
          (fmtInt c3 ++ ':' :: (fmtInt v3 ++ '-' :: fmtInt v4)))))))) =
      .ret (some [NewBiblePassage f1 t1, NewBiblePassage f2 t2], none) := by
  have h10 : 0 ≤ c1 := by omega
  have hv10 : 0 ≤ v1 := by omega
  have h20 : 0 ≤ c2 := by omega
  have hv20 : 0 ≤ v2 := by omega
  have h30 : 0 ≤ c3 := by omega
  have hv30 : 0 ≤ v3 := by omega
  have hv40 : 0 ≤ v4 := by omega
  obtain ⟨nts2, hr2, hne2, hwfn2, hfn2, hln2, hmem2⟩ := bookName_in_text hn2
  have hp2 : ∀ c, Tok.punct c ∉ nts2 := fun c hc => (hmem2 _ hc).2 c rfl
  have hwf2 : WellFormed [.sp, tokNum c3, .colon, tokNum v3, .hyphen, tokNum v4] :=
    ⟨Or.inr (Or.inr (Or.inl ⟨_, _, rfl⟩)),
      follows_tokNum h30 (Or.inr (Or.inr (Or.inl ⟨_, rfl⟩))), Or.inl ⟨_, _, rfl⟩,
      follows_tokNum hv30 (Or.inr (Or.inr (Or.inr (Or.inl ⟨_, rfl⟩)))),
      Or.inr (Or.inl ⟨fmtInt v4, [], rfl, Or.inr (by simp)⟩),
      follows_tokNum hv40 (Or.inl rfl), trivial⟩
  -- the first clause without and with its closing blank, and the whole text
  have hwf0 : WellFormed (.sp :: tokNum c1 :: .colon :: tokNum v1 :: .sp :: .hyphen :: .sp ::
      (nts2 ++ [.sp, tokNum c2, .colon, tokNum v2])) :=
    wellFormed_cross_tail nts2 hwfn2 hfn2 h10 hv10 _ ⟨_, rfl⟩
      ⟨Or.inr (Or.inr (Or.inl ⟨_, _, rfl⟩)),
        follows_tokNum h20 (Or.inr (Or.inr (Or.inl ⟨_, rfl⟩))), Or.inl ⟨_, _, rfl⟩,
        follows_tokNum hv20 (Or.inl rfl), trivial⟩
  have hwf1 : WellFormed (.sp :: tokNum c1 :: .colon :: tokNum v1 :: .sp :: .hyphen :: .sp ::
      (nts2 ++ [.sp, tokNum c2, .colon, tokNum v2, .sp])) :=
    wellFormed_cross_tail nts2 hwfn2 hfn2 h10 hv10 _ ⟨_, rfl⟩
      ⟨Or.inr (Or.inr (Or.inl ⟨_, _, rfl⟩)),
        follows_tokNum h20 (Or.inr (Or.inr (Or.inl ⟨_, rfl⟩))), Or.inl ⟨_, _, rfl⟩,
        follows_tokNum hv20 (Or.inr (Or.inl ⟨_, rfl⟩)), Or.inl rfl, trivial⟩
  have hwf : WellFormed ((.sp :: tokNum c1 :: .colon :: tokNum v1 :: .sp :: .hyphen :: .sp ::
      (nts2 ++ [.sp, tokNum c2, .colon, tokNum v2, .sp])) ++
      .punct x :: [.sp, tokNum c3, .colon, tokNum v3, .hyphen, tokNum v4]) := by
    have := wellFormed_cross_tail nts2 hwfn2 hfn2 h10 hv10
      (.sp :: tokNum c2 :: .colon :: tokNum v2 :: .sp :: .punct x ::
        [.sp, tokNum c3, .colon, tokNum v3, .hyphen, tokNum v4]) ⟨_, rfl⟩
      ⟨Or.inr (Or.inr (Or.inl ⟨_, _, rfl⟩)),
        follows_tokNum h20 (Or.inr (Or.inr (Or.inl ⟨_, rfl⟩))), Or.inl ⟨_, _, rfl⟩,
        follows_tokNum hv20 (Or.inr (Or.inl ⟨_, rfl⟩)),
        Or.inr (Or.inr (Or.inr (Or.inr (Or.inr ⟨x, _, rfl⟩)))),
        ⟨sepChar_punct hx, fun _ => Or.inr (fun _ _ h => by cases h)⟩, hwf2⟩
    simpa [List.append_assoc] using this
  have hlast0 : (Tok.sp :: tokNum c1 :: .colon :: tokNum v1 :: .sp :: .hyphen :: .sp ::
      (nts2 ++ [.sp, tokNum c2, .colon, tokNum v2])).getLast? ≠ some .sp := by
    have e : (Tok.sp :: tokNum c1 :: .colon :: tokNum v1 :: .sp :: .hyphen :: .sp ::
        (nts2 ++ [.sp, tokNum c2, .colon, tokNum v2])) =
        (Tok.sp :: tokNum c1 :: .colon :: tokNum v1 :: .sp :: .hyphen :: .sp ::
          (nts2 ++ [.sp, tokNum c2, .colon])) ++ [tokNum v2] := by simp
    rw [e, List.getLast?_append_of_ne_nil _ (by simp)]
    simp [tokNum]
  have hA := trim_named n1 _ [' '] hn1 hwf0 (Or.inr ⟨_, rfl⟩) hlast0 allP_isSpace_blank
  have hAtext : n1 ++ render (.sp :: tokNum c1 :: .colon :: tokNum v1 :: .sp :: .hyphen ::
      .sp :: (nts2 ++ [.sp, tokNum c2, .colon, tokNum v2, .sp])) =
      (n1 ++ render (.sp :: tokNum c1 :: .colon :: tokNum v1 :: .sp :: .hyphen :: .sp ::
        (nts2 ++ [.sp, tokNum c2, .colon, tokNum v2]))) ++ [' '] := by
    simp only [render, Tok.text, tokNum, render_append, List.append_nil, List.nil_append,
      List.singleton_append, List.append_assoc, List.cons_append]
  have hB : TrimSpace (render [.sp, tokNum c3, .colon, tokNum v3, .hyphen, tokNum v4]) =
      (fmtInt c3 ++ ':' :: fmtInt v3) ++ '-' :: fmtInt v4 := by
    have := trim_pad_nospace [' '] ((fmtInt c3 ++ ':' :: fmtInt v3) ++ '-' :: fmtInt v4) []
      allP_isSpace_blank (allP_nil _) (by simp)
      (by
        intro y hy
        rcases List.mem_append.1 hy with h | h
        · exact isSpace_false_cv h30 hv30 y h
        · rcases List.mem_cons.1 h with h | h
          · rw [h]; decide
          · exact isSpace_false_fmtInt hv40 y h)
    simpa [render, Tok.text, tokNum] using this
  have hP := Parse_two_of p n1 _ _ x hsep hn1 hx hwf hwf1 hwf2 ⟨_, rfl⟩ (by simp [tokNum])
    (by intro y hy; simp [tokNum, hp2] at hy) (by intro y hy; simp [tokNum] at hy) _ _ _ _
    (by rw [hAtext]; exact hA.1) hA.2 hB (by simp)
    (by
      have := parseSection_cross_book p initialState B1 B2 n1 n2 c1 v1 c2 v2 f1 t1 hn1 hn2
        hbook1 hbook2 hc1 hc12 hv1 hv12 hc2 hc22 hv2 hv22 hf1 ht1 ho1
      simpa [render, Tok.text, tokNum, render_append, hr2] using this)
    (parseSection_carried_range p _ B2 c3 v3 v4 f2 t2 hname2 hname2 hc3 hc32 hv3 hv32 hv4 hv42
      hf2 ht2 ho2)
  simp only [render, Tok.text, tokNum, render_append, hr2, List.append_nil, List.nil_append,
    List.singleton_append, List.append_assoc, List.cons_append, initialState] at hP
  exact hP

/-! ### Substitutions that change the text -/

theorem replaceRxAux_skip (rx : Rx) (template : Str) (full : Nat) :
    ∀ (m b : Str), replaceRxAux rx template full m.length (m ++ b) =
      replaceRxAux rx template full 0 b := by
  intro m
  induction m with
  | nil => intro b; rfl
  | cons c m ih =>
    intro b
    rw [List.length_cons, List.cons_append, replaceRxAux]
    exact ih b

/-- A stretch of the text in which the pattern matches nowhere is copied. -/
theorem replaceRxAux_pass (rx : Rx) (template : Str) (full : Nat) :
    ∀ (a b : Str), (∀ t, t ≠ [] → t <:+ a → rx.matchAt full (t ++ b) = none) →
      replaceRxAux rx template full 0 (a ++ b) = a ++ replaceRxAux rx template full 0 b := by
  intro a
  induction a with
  | nil => intro b _; rfl
  | cons c a ih =>
    intro b h
    have h1 : rx.matchAt full (c :: (a ++ b)) = none := h (c :: a) (by simp) (List.suffix_refl _)
    rw [List.cons_append, replaceRxAux, h1]
    simp only
    rw [ih b fun t hne hsuf => h t hne (hsuf.trans (List.suffix_cons c a))]
    rfl

/-- A match `m` at the head of the text is replaced, and the scan resumes
after it. -/
theorem replaceRxAux_hit (rx : Rx) (template : Str) (full : Nat) (m b : Str) (caps : Caps)
    (hm : m ≠ []) (h : rx.matchAt full (m ++ b) = some (b, caps)) :
    replaceRxAux rx template full 0 (m ++ b) =
      expand template ((0, m) :: caps) ++ replaceRxAux rx template full 0 b := by
  obtain ⟨c, m1, rfl⟩ := List.exists_cons_of_ne_nil hm
  have h1 : rx.matchAt full (c :: (m1 ++ b)) = some (b, caps) := h
  have e1 : (m1 ++ b).length + 1 - b.length = m1.length + 1 := by
    rw [List.length_append]; omega
  have e2 : (m1 ++ b).length - b.length = m1.length := by
    rw [List.length_append]; omega
  rw [List.cons_append, replaceRxAux, h1]
  simp only [e1, e2, Nat.succ_ne_zero, if_false, List.take_succ_cons, List.take_left']
  rw [replaceRxAux_skip]

/-! ### Patterns 1 and 2 -/

theorem matchAt_pair_hit (p q : Char → Bool) (full : Nat) (c d : Char) (s : Str)
    (hp : p c = true) (hq : q d = true) :
    (Rx.seq (.cap 1 (.chr p)) (.cap 2 (.chr q))).matchAt full (c :: d :: s) =
      some (s, [(2, [d]), (1, [c])]) := by
  simp [Rx.matchAt, Rx.run, hp, hq]

theorem matchAt_pair_none (p q : Char → Bool) (full : Nat) (c : Char) (s : Str)
    (h : p c = false ∨ HeadNot q s) :
    (Rx.seq (.cap 1 (.chr p)) (.cap 2 (.chr q))).matchAt full (c :: s) = none := by
  unfold Rx.matchAt
  rw [run_seq_cap_chr]
  rcases h with h | h
  · simp [h]
  · rw [run_cap_chr_nil 2 h]; simp

theorem expand_pair (c d : Char) (m : Str) :
    expand "$1 $2".toList ((0, m) :: [(2, [d]), (1, [c])]) = [c, ' ', d] := by
  rfl

theorem spaceBetween_cons {p q : Char → Bool} {d : Char} (s : Str) (h : p d = false) :
    spaceBetween p q (d :: s) = d :: spaceBetween p q s := by
  cases s with
  | nil => rfl
  | cons e s => simp [spaceBetween, h]

/-- A pattern of two character classes with the template `$1 $2` puts a blank
between the two characters of every match. -/
theorem replace_pair (p q : Char → Bool) (hpq : ∀ d, q d = true → p d = false) (full : Nat) :
    ∀ (n : Nat) (s : Str), s.length ≤ n →
      replaceRxAux (.seq (.cap 1 (.chr p)) (.cap 2 (.chr q))) "$1 $2".toList full 0 s =
        spaceBetween p q s := by
  intro n
  induction n with
  | zero =>
    intro s hs
    have : s = [] := List.length_eq_zero.1 (Nat.le_zero.1 hs)
    subst this; rfl
  | succ n ih =>
    intro s hs
    rcases s with _ | ⟨c, _ | ⟨d, s⟩⟩
    · rfl
    · have := replaceRxAux_pass (.seq (.cap 1 (.chr p)) (.cap 2 (.chr q))) "$1 $2".toList full
        [c] [] (by
          intro t hne hsuf
          have ht : t = [c] := by
            rcases List.suffix_cons_iff.1 hsuf with h | h
            · exact h
            · exact absurd (List.suffix_nil.1 h) hne
          subst ht
          exact matchAt_pair_none p q full c [] (Or.inr (headNot_nil _)))
      simpa [spaceBetween, replaceRxAux] using this
    · by_cases h : p c = true ∧ q d = true
      · have hit := replaceRxAux_hit (.seq (.cap 1 (.chr p)) (.cap 2 (.chr q))) "$1 $2".toList
          full [c, d] s _ (by simp) (matchAt_pair_hit p q full c d s h.1 h.2)
        have hs1 : s.length ≤ n := by
          simp only [List.length_cons] at hs; omega
        rw [expand_pair, ih s hs1] at hit
        have e : spaceBetween p q (c :: d :: s) = c :: ' ' :: d :: spaceBetween p q s := by
          rw [spaceBetween, h.1, h.2, Bool.and_self, if_pos rfl,
            spaceBetween_cons s (hpq d h.2)]
        rw [e]
        exact hit
      · have hn : p c = false ∨ HeadNot q (d :: s) := by
          by_cases hp : p c = true
          · right
            have hq : q d = false := by
              cases hq : q d with
              | false => rfl
              | true => exact absurd ⟨hp, hq⟩ h
            exact headNot_cons hq
          · left
            simpa using hp
        have hs1 : (d :: s).length ≤ n := by
          simp only [List.length_cons] at hs ⊢; omega
        have hpass := replaceRxAux_pass (.seq (.cap 1 (.chr p)) (.cap 2 (.chr q)))
          "$1 $2".toList full [c] (d :: s) (by
            intro t hne hsuf
            have ht : t = [c] := by
              rcases List.suffix_cons_iff.1 hsuf with h | h
              · exact h
              · exact absurd (List.suffix_nil.1 h) hne
            subst ht
            exact matchAt_pair_none p q full c (d :: s) hn)
        rw [ih _ hs1] at hpass
        have e : spaceBetween p q (c :: d :: s) = c :: spaceBetween p q (d :: s) := by
          rw [spaceBetween]
          have : (p c && q d) = false := by
            rcases hn with hn | hn
            · simp [hn]
            · have := hn d rfl; simp [this]
          rw [this]; rfl
        rw [e]
        exact hpass

theorem rule1_eq (s : Str) :
    ReplaceAllString rxLetterDigit s "$1 $2".toList = spaceBetween isFoldLetter isDigit s :=
  replace_pair isFoldLetter isDigit (fun _ h => isFoldLetter_false_of_isDigit h) _ _ s
    (Nat.le_refl _)

theorem isDigit_false_of_isFoldDtoZ {c : Char} (h : isFoldDtoZ c = true) : isDigit c = false := by
  cases hd : isDigit c with
  | false => rfl
  | true => rw [isFoldDtoZ_false_of_isDigit hd] at h; cases h

theorem rule2_eq (s : Str) :
    ReplaceAllString rxDigitLetter s "$1 $2".toList = spaceBetween isDigit isFoldDtoZ s :=
  replace_pair isDigit isFoldDtoZ (fun _ h => isDigit_false_of_isFoldDtoZ h) _ _ s
    (Nat.le_refl _)

/-- A stretch without a character of the first class is copied. -/
theorem spaceBetween_free {p q : Char → Bool} :
    ∀ (a b : Str), (∀ c ∈ a, p c = false) →
      spaceBetween p q (a ++ b) = a ++ spaceBetween p q b := by
  intro a
  induction a with
  | nil => intro b _; rfl
  | cons c a ih =>
    intro b h
    rw [List.cons_append, spaceBetween_cons _ (h c (List.mem_cons_self _ _)),
      ih b fun x hx => h x (List.mem_cons_of_mem _ hx)]
    rfl

/-- A stretch without a character of the second class, before a text that
does not open with one, is copied. -/
theorem spaceBetween_run {p q : Char → Bool} :
    ∀ (a b : Str), (∀ c ∈ a, q c = false) → HeadNot q b →
      spaceBetween p q (a ++ b) = a ++ spaceBetween p q b := by
  intro a
  induction a with
  | nil => intro b _ _; rfl
  | cons c a ih =>
    intro b h hb
    have ih1 := ih b (fun x hx => h x (List.mem_cons_of_mem _ hx)) hb
    have hhead : HeadNot q (a ++ b) := by
      cases a with
      | nil => exact hb
      | cons e a => exact headNot_cons (h e (List.mem_cons_of_mem _ (List.mem_cons_self _ _)))
    rw [List.cons_append]
    generalize a ++ b = l at ih1 hhead
    cases l with
    | nil =>
      show [c] = c :: (a ++ spaceBetween p q b)
      rw [← ih1]
      rfl
    | cons d s =>
      have hq : q d = false := hhead d rfl
      rw [spaceBetween, hq, Bool.and_false]
      simp only [Bool.false_eq_true, if_false]
      rw [ih1]
      rfl

/-- A run of characters of the first class that ends right before a
character of the second class gets a blank after it. -/
theorem spaceBetween_run_hit {p q : Char → Bool} (d : Char) (s : Str) (hd : q d = true) :
    ∀ a : Str, a ≠ [] → (∀ c ∈ a, q c = false ∧ p c = true) →
      spaceBetween p q (a ++ d :: s) = a ++ ' ' :: spaceBetween p q (d :: s) := by
  intro a
  induction a with
  | nil => intro h; exact absurd rfl h
  | cons c a ih =>
    intro _ h
    have hc := h c (List.mem_cons_self _ _)
    cases a with
    | nil =>
      rw [List.cons_append, List.nil_append, spaceBetween, hc.2, hd]
      rfl
    | cons e a =>
      have ih1 := ih (by simp) fun x hx => h x (List.mem_cons_of_mem _ hx)
      have he := h e (List.mem_cons_of_mem _ (List.mem_cons_self _ _))
      rw [List.cons_append, List.cons_append, spaceBetween, he.1, Bool.and_false]
      simp only [Bool.false_eq_true, if_false]
      rw [← List.cons_append, ih1]
      rfl

/-! ### Texts of names, numbers, blanks and colons -/

theorem isFoldLetter_of_ascii {c : Char} (h : isAsciiLetter c = true) : isFoldLetter c = true := by
  rw [isFoldLetter_iff]
  have := (isAsciiLetter_iff c).1 h
  omega

theorem isDigit_false_of_ascii {c : Char} (h : isAsciiLetter c = true) : isDigit c = false := by
  rw [bool_eq_false_iff_not (isDigit_iff c)]
  have := (isAsciiLetter_iff c).1 h
  omega

/-- The head of a plain text that does not open with a number is no digit. -/
theorem plain_headNot_digit {ts : List Tok} (h : Plain ts) (hn : ∀ d r, ts ≠ .num d :: r) :
    HeadNot isDigit (render ts) := by
  cases ts with
  | nil => exact headNot_nil _
  | cons t r =>
    cases t with
    | name m =>
      obtain ⟨x, m1, hm⟩ := List.exists_cons_of_ne_nil h.1.1
      rw [render, Tok.text, hm]
      exact headNot_cons (isDigit_false_of_ascii (h.1.2 x (by rw [hm]; exact List.mem_cons_self _ _)))
    | num d => exact absurd rfl (hn d r)
    | sp => exact headNot_cons (by decide)
    | colon => exact headNot_cons (by decide)
    | frag c => exact absurd h (by simp [Plain])
    | hyphen => exact absurd h (by simp [Plain])
    | punct c => exact absurd h (by simp [Plain])

theorem rule1_render : ∀ ts : List Tok, Plain ts →
    ReplaceAllString rxLetterDigit (render ts) "$1 $2".toList = render (gap1 ts) := by
  intro ts
  rw [rule1_eq]
  induction ts with
  | nil => intro _; rfl
  | cons t r ih =>
    intro h
    cases t with
    | name m =>
      have ih1 := ih h.2
      have hm : ∀ c ∈ m, isDigit c = false ∧ isFoldLetter c = true := fun c hc =>
        ⟨isDigit_false_of_ascii (h.1.2 c hc), isFoldLetter_of_ascii (h.1.2 c hc)⟩
      by_cases hr : ∃ d r1, r = .num d :: r1
      · obtain ⟨d, r1, hr⟩ := hr
        subst hr
        obtain ⟨x, d1, hd⟩ := List.exists_cons_of_ne_nil h.2.1.1
        have hx : isDigit x = true := h.2.1.2 x (by rw [hd]; exact List.mem_cons_self _ _)
        have e : render (.name m :: .num d :: r1) = m ++ x :: (d1 ++ render r1) := by
          simp [render, Tok.text, hd]
        have e2 : render (.num d :: r1) = x :: (d1 ++ render r1) := by
          simp [render, Tok.text, hd]
        rw [e, spaceBetween_run_hit x _ hx m h.1.1 hm, ← e2, ih1]
        simp [gap1, render, Tok.text]
      · have hn : ∀ d r1, r ≠ .num d :: r1 := fun d r1 e => hr ⟨d, r1, e⟩
        have e : gap1 (.name m :: r) = .name m :: gap1 r := by
          cases r with
          | nil => rfl
          | cons t1 r1 =>
            cases t1 with
            | num d => exact absurd rfl (hn d r1)
            | _ => rfl
        rw [e, render, Tok.text, spaceBetween_run m _ (fun c hc => (hm c hc).1)
          (plain_headNot_digit h.2 hn), ih1]
        rfl
    | num d =>
      rw [render, Tok.text, spaceBetween_free d _ fun c hc =>
        isFoldLetter_false_of_isDigit (h.1.2 c hc), ih h.2]
      rfl
    | sp =>
      have := spaceBetween_free (p := isFoldLetter) (q := isDigit) [' '] (render r)
        (by intro c hc; rw [List.mem_singleton.1 hc]; decide)
      rw [render, Tok.text, this, ih h]
      rfl
    | colon =>
      have := spaceBetween_free (p := isFoldLetter) (q := isDigit) [':'] (render r)
        (by intro c hc; rw [List.mem_singleton.1 hc]; decide)
      rw [render, Tok.text, this, ih h]
      rfl
    | frag c => exact absurd h (by simp [Plain])
    | hyphen => exact absurd h (by simp [Plain])
    | punct c => exact absurd h (by simp [Plain])

/-- The head of a plain text that does not open with a name on a letter `d`
to `z` is none of these letters. -/
theorem plain_headNot_dtoz {ts : List Tok} (h : Plain ts)
    (hn : ∀ x m r, ts = .name (x :: m) :: r → isFoldDtoZ x = false) :
    HeadNot isFoldDtoZ (render ts) := by
  cases ts with
  | nil => exact headNot_nil _
  | cons t r =>
    cases t with
    | name m =>
      obtain ⟨x, m1, hm⟩ := List.exists_cons_of_ne_nil h.1.1
      subst hm
      rw [render, Tok.text]
      exact headNot_cons (hn x m1 r rfl)
    | num d =>
      obtain ⟨x, d1, hd⟩ := List.exists_cons_of_ne_nil h.1.1
      rw [render, Tok.text, hd]
      exact headNot_cons (isFoldDtoZ_false_of_isDigit
        (h.1.2 x (by rw [hd]; exact List.mem_cons_self _ _)))
    | sp => exact headNot_cons (by decide)
    | colon => exact headNot_cons (by decide)
    | frag c => exact absurd h (by simp [Plain])
    | hyphen => exact absurd h (by simp [Plain])
    | punct c => exact absurd h (by simp [Plain])

theorem rule2_render : ∀ ts : List Tok, Plain ts →
    ReplaceAllString rxDigitLetter (render ts) "$1 $2".toList = render (gap2 ts) := by
  intro ts
  rw [rule2_eq]
  induction ts with
  | nil => intro _; rfl
  | cons t r ih =>
    intro h
    cases t with
    | num d =>
      have ih1 := ih h.2
      have hd : ∀ c ∈ d, isFoldDtoZ c = false ∧ isDigit c = true := fun c hc =>
        ⟨isFoldDtoZ_false_of_isDigit (h.1.2 c hc), h.1.2 c hc⟩
      by_cases hr : ∃ x m r1, r = .name (x :: m) :: r1 ∧ isFoldDtoZ x = true
      · obtain ⟨x, m, r1, hr, hx⟩ := hr
        subst hr
        have e : render (.num d :: .name (x :: m) :: r1) = d ++ x :: (m ++ render r1) := by
          simp [render, Tok.text]
        have e2 : render (.name (x :: m) :: r1) = x :: (m ++ render r1) := by
          simp [render, Tok.text]
        rw [e, spaceBetween_run_hit x _ hx d h.1.1 hd, ← e2, ih1]
        simp [gap2, render, Tok.text, hx]
      · have hn : ∀ x m r1, r = .name (x :: m) :: r1 → isFoldDtoZ x = false := by
          intro x m r1 e
          cases hx : isFoldDtoZ x with
          | false => rfl
          | true => exact absurd ⟨x, m, r1, e, hx⟩ hr
        have e : gap2 (.num d :: r) = .num d :: gap2 r := by
          cases r with
          | nil => rfl
          | cons t1 r1 =>
            cases t1 with
            | name m =>
              cases m with
              | nil => rfl
              | cons x m => simp [gap2, hn x m r1 rfl]
            | _ => rfl
        rw [e, render, Tok.text, spaceBetween_run d _ (fun c hc => (hd c hc).1)
          (plain_headNot_dtoz h.2 hn), ih1]
        rfl
    | name m =>
      rw [render, Tok.text, spaceBetween_free m _ fun c hc =>
        isDigit_false_of_ascii (h.1.2 c hc), ih h.2]
      rfl
    | sp =>
      have := spaceBetween_free (p := isDigit) (q := isFoldDtoZ) [' '] (render r)
        (by intro c hc; rw [List.mem_singleton.1 hc]; decide)
      rw [render, Tok.text, this, ih h]
      rfl
    | colon =>
      have := spaceBetween_free (p := isDigit) (q := isFoldDtoZ) [':'] (render r)
        (by intro c hc; rw [List.mem_singleton.1 hc]; decide)
      rw [render, Tok.text, this, ih h]
      rfl
    | frag c => exact absurd h (by simp [Plain])
    | hyphen => exact absurd h (by simp [Plain])
    | punct c => exact absurd h (by simp [Plain])

/-! ### Patterns 3 to 7 on plain texts -/

theorem suffix_append_cases {t b : Str} : ∀ a : Str, t <:+ a ++ b →
    (∃ s, s ≠ [] ∧ s <:+ a ∧ t = s ++ b) ∨ t <:+ b := by
  intro a
  induction a with
  | nil => intro h; exact Or.inr h
  | cons c a ih =>
    intro h
    rcases List.suffix_cons_iff.1 h with h1 | h1
    · exact Or.inl ⟨c :: a, by simp, List.suffix_refl _, h1⟩
    · rcases ih h1 with ⟨s, hs, hsuf, ht⟩ | h2
      · exact Or.inl ⟨s, hs, hsuf.trans (List.suffix_cons c a), ht⟩
      · exact Or.inr h2

theorem rule_id_of_allSafe (s : Str) (h : AllSafe s.length s) (sub : Rx × Str)
    (hsub : sub ∈ substitutions) : ReplaceAllString sub.1 s sub.2 = s := by
  unfold ReplaceAllString
  exact replaceRxAux_id _ _ _ s fun t hne hsuf => h t hne hsuf sub hsub

theorem plain_chars : ∀ ts : List Tok, Plain ts →
    ∀ c ∈ render ts, isAsciiLetter c = true ∨ isDigit c = true ∨ c = ' ' ∨ c = ':' := by
  intro ts
  induction ts with
  | nil => intro _ c hc; cases hc
  | cons t r ih =>
    intro h c hc
    rw [render] at hc
    rcases List.mem_append.1 hc with h1 | h1
    · cases t with
      | name m => exact Or.inl (h.1.2 c h1)
      | num d => exact Or.inr (Or.inl (h.1.2 c h1))
      | sp => exact Or.inr (Or.inr (Or.inl (List.mem_singleton.1 h1)))
      | colon => exact Or.inr (Or.inr (Or.inr (List.mem_singleton.1 h1)))
      | frag c => exact absurd h (by simp [Plain])
      | hyphen => exact absurd h (by simp [Plain])
      | punct c => exact absurd h (by simp [Plain])
    · cases t with
      | name m => exact ih h.2 c h1
      | num d => exact ih h.2 c h1
      | sp => exact ih h c h1
      | colon => exact ih h c h1
      | frag c => exact absurd h (by simp [Plain])
      | hyphen => exact absurd h (by simp [Plain])
      | punct c => exact absurd h (by simp [Plain])

theorem plain_tail {t : Tok} {r : List Tok} (h : Plain (t :: r)) : Plain r := by
  cases t with
  | name m => exact h.2
  | num d => exact h.2
  | sp => exact h
  | colon => exact h
  | frag c => exact absurd h (by simp [Plain])
  | hyphen => exact absurd h (by simp [Plain])
  | punct c => exact absurd h (by simp [Plain])

/-- Pattern 3 leaves a plain text alone. -/
theorem rule3_id (ts : List Tok) (h : Plain ts) :
    ReplaceAllString rxDash (render ts) "-".toList = render ts := by
  unfold ReplaceAllString
  apply replaceRxAux_id
  intro t hne hsuf
  obtain ⟨x, r, rfl⟩ := List.exists_cons_of_ne_nil hne
  have hx : x ∈ render ts := hsuf.subset (List.mem_cons_self _ _)
  apply matchAt_dash_none
  rcases plain_chars ts h x hx with h1 | h1 | h1 | h1
  · have := (isAsciiLetter_iff x).1 h1; omega
  · have := (isDigit_iff x).1 h1; omega
  · rw [h1]; decide
  · rw [h1]; decide

theorem isFoldLetter_false_blank_colon {c : Char} (h : c = ' ' ∨ c = ':') :
    isFoldLetter c = false := by
  rcases h with h | h <;> (rw [h]; decide)

/-- A plain text that does not open with a name opens with no letter. -/
theorem plain_headNot_letter {r : List Tok} (cont : Str) (h : Plain r)
    (hn : ∀ m r1, r ≠ .name m :: r1) (hcont : HeadNot isFoldLetter cont) :
    HeadNot isFoldLetter (render r ++ cont) := by
  cases r with
  | nil => exact hcont
  | cons t r1 =>
    cases t with
    | name m => exact absurd rfl (hn m r1)
    | num d =>
      obtain ⟨x, d1, hd⟩ := List.exists_cons_of_ne_nil h.1.1
      rw [render, Tok.text, hd]
      exact headNot_cons (isFoldLetter_false_of_isDigit
        (h.1.2 x (by rw [hd]; exact List.mem_cons_self _ _)))
    | sp => exact headNot_cons (by decide)
    | colon => exact headNot_cons (by decide)
    | frag c => exact absurd h (by simp [Plain])
    | hyphen => exact absurd h (by simp [Plain])
    | punct c => exact absurd h (by simp [Plain])

theorem wordFree_of_headNot {ws : List Str} (hws : ∀ w ∈ ws, w ≠ []) {r : Str}
    (h : HeadNot isFoldLetter r) : WordFree ws r :=
  ⟨[], r, rfl, allP_nil _, h, Or.inl fun w hw e => hws w hw e.symm⟩

/-- A plain text whose names are none of the words `ws` opens with none of
them. -/
theorem wordFree_render {ws : List Str} (hws : ∀ w ∈ ws, w ≠ []) (ts : List Tok) (cont : Str)
    (h : Plain ts) (ha : Apart ts) (hn : ∀ m, Tok.name m ∈ ts → ∀ w ∈ ws, ToLower m ≠ w)
    (hcont : HeadNot isFoldLetter cont) : WordFree ws (render ts ++ cont) := by
  cases ts with
  | nil => exact wordFree_of_headNot hws hcont
  | cons t r =>
    cases t with
    | name m =>
      refine ⟨m, render r ++ cont, by simp [render, Tok.text], h.1.2, ?_,
        Or.inl (hn m (List.mem_cons_self _ _))⟩
      exact plain_headNot_letter cont h.2 (fun m1 r1 e => ha.1 m m1 r1 rfl e) hcont
    | num d =>
      exact wordFree_of_headNot hws
        (plain_headNot_letter cont h (fun m r1 e => by cases e) hcont)
    | sp =>
      exact wordFree_of_headNot hws
        (plain_headNot_letter (r := .sp :: r) cont h (fun m r1 e => by cases e) hcont)
    | colon =>
      exact wordFree_of_headNot hws
        (plain_headNot_letter (r := .colon :: r) cont h (fun m r1 e => by cases e) hcont)
    | frag c => exact absurd h (by simp [Plain])
    | hyphen => exact absurd h (by simp [Plain])
    | punct c => exact absurd h (by simp [Plain])

/-- A pattern that reads one of the words `ws` between two non-letters matches
nowhere in a plain text whose names are none of these words. -/
theorem quiet_plain (rx : Rx) (ws : List Str) (hws : ∀ w ∈ ws, w ≠ [])
    (hrule : ∀ full x r, isFoldLetter x = true ∨ WordFree ws r → rx.matchAt full (x :: r) = none)
    (full : Nat) :
    ∀ (ts : List Tok) (cont : Str), Plain ts → Apart ts →
      (∀ m, Tok.name m ∈ ts → ∀ w ∈ ws, ToLower m ≠ w) → HeadNot isFoldLetter cont →
      ∀ t, t ≠ [] → t <:+ render ts → rx.matchAt full (t ++ cont) = none := by
  intro ts
  induction ts with
  | nil =>
    intro cont _ _ _ _ t hne hsuf
    exact absurd (List.suffix_nil.1 hsuf) hne
  | cons tok r ih =>
    intro cont h ha hn hcont t hne hsuf
    have hr := plain_tail h
    have hnr : ∀ m, Tok.name m ∈ r → ∀ w ∈ ws, ToLower m ≠ w :=
      fun m hm => hn m (List.mem_cons_of_mem _ hm)
    rw [render] at hsuf
    rcases suffix_append_cases _ hsuf with ⟨s, hs, hsuf1, ht⟩ | h2
    · obtain ⟨x, s1, rfl⟩ := List.exists_cons_of_ne_nil hs
      have hx : x ∈ tok.text := hsuf1.subset (List.mem_cons_self _ _)
      have hs1 : ∀ y ∈ s1, y ∈ tok.text := fun y hy => hsuf1.subset (List.mem_cons_of_mem _ hy)
      rw [ht]
      show rx.matchAt full (x :: ((s1 ++ render r) ++ cont)) = none
      rw [List.append_assoc]
      apply hrule
      have hfree := wordFree_render hws r cont hr ha.2 hnr hcont
      cases tok with
      | name m => exact Or.inl (isFoldLetter_of_ascii (h.1.2 x hx))
      | num d =>
        right
        cases s1 with
        | nil => exact hfree
        | cons y s2 =>
          exact wordFree_of_headNot hws (headNot_cons (isFoldLetter_false_of_isDigit
            (h.1.2 y (hs1 y (List.mem_cons_self _ _)))))
      | sp =>
        right
        have : s1 = [] := by
          have hl := hsuf1.length_le
          simp only [Tok.text, List.length_cons, List.length_nil] at hl
          exact List.length_eq_zero.1 (by omega)
        subst this
        exact hfree
      | colon =>
        right
        have : s1 = [] := by
          have hl := hsuf1.length_le
          simp only [Tok.text, List.length_cons, List.length_nil] at hl
          exact List.length_eq_zero.1 (by omega)
        subst this
        exact hfree
      | frag c => exact absurd h (by simp [Plain])
      | hyphen => exact absurd h (by simp [Plain])
      | punct c => exact absurd h (by simp [Plain])
    · exact ih cont hr ha.2 hnr hcont t hne h2

/-- Such a pattern leaves the text alone. -/
theorem wordRule_id (rx : Rx) (template : Str) (ws : List Str) (hws : ∀ w ∈ ws, w ≠ [])
    (hrule : ∀ full x r, isFoldLetter x = true ∨ WordFree ws r → rx.matchAt full (x :: r) = none)
    (ts : List Tok) (h : Plain ts) (ha : Apart ts)
    (hn : ∀ m, Tok.name m ∈ ts → ∀ w ∈ ws, ToLower m ≠ w) :
    ReplaceAllString rx (render ts) template = render ts := by
  unfold ReplaceAllString
  apply replaceRxAux_id
  intro t hne hsuf
  have := quiet_plain rx ws hws hrule (render ts).length ts [] h ha hn (headNot_nil _) t hne hsuf
  simpa using this

/-- Such a pattern with one match `m`, between two plain texts whose names are
none of the words. -/
theorem wordRule_hit (rx : Rx) (template : Str) (ws : List Str) (hws : ∀ w ∈ ws, w ≠ [])
    (hrule : ∀ full x r, isFoldLetter x = true ∨ WordFree ws r → rx.matchAt full (x :: r) = none)
    (pre post : List Tok) (m rep : Str) (caps : Caps) (hm : m ≠ [])
    (hmh : HeadNot isFoldLetter m)
    (hmatch : ∀ full s, rx.matchAt full (m ++ s) = some (s, caps))
    (hexp : expand template ((0, m) :: caps) = rep)
    (h1 : Plain pre) (ha1 : Apart pre)
    (hn1 : ∀ n, Tok.name n ∈ pre → ∀ w ∈ ws, ToLower n ≠ w)
    (h2 : Plain post) (ha2 : Apart post)
    (hn2 : ∀ n, Tok.name n ∈ post → ∀ w ∈ ws, ToLower n ≠ w) :
    ReplaceAllString rx (render pre ++ (m ++ render post)) template =
      render pre ++ (rep ++ render post) := by
  unfold ReplaceAllString
  rw [replaceRxAux_pass _ _ _ (render pre) (m ++ render post)
      (quiet_plain rx ws hws hrule _ pre _ h1 ha1 hn1 (headNot_append_of_ne_nil _ hm hmh)),
    replaceRxAux_hit _ _ _ m (render post) caps hm (hmatch _ _), hexp,
    replaceRxAux_id _ _ _ (render post) fun t hne hsuf => by
      have := quiet_plain rx ws hws hrule (render pre ++ (m ++ render post)).length post [] h2
        ha2 hn2 (headNot_nil _) t hne hsuf
      simpa using this]

/-! ### The matches of the words `chapter`, `c` and `verse` -/

theorem run_cap_chr_hit (i : Nat) (p : Char → Bool) (full : Nat) (x : Char) (r : Str)
    (caps : Caps) (h : p x = true) :
    (Rx.cap i (.chr p)).run full (x :: r) caps = [(r, (i, [x]) :: caps)] := by
  simp [Rx.run, h]

theorem hit_chapter (full : Nat) (s : Str) :
    rxChapter.matchAt full (" chapter ".toList ++ s) = some (s, [(2, [' ']), (1, [' '])]) := by
  have e : " chapter ".toList ++ s = ' ' :: ("chapter".toList ++ ' ' :: s) := rfl
  have hl : litRest foldEq ['c', 'h', 'a', 'p', 't', 'e', 'r'] ("chapter".toList ++ ' ' :: s) =
      some (' ' :: s) := rfl
  unfold Rx.matchAt rxChapter
  rw [e, run_seq_cap_chr, if_pos (by decide), Rx.run, run_lit, hl]
  simp only [List.flatMap_cons, List.flatMap_nil, List.append_nil]
  rw [run_cap_chr_hit 2 _ _ _ _ _ (by decide)]
  rfl

theorem hit_c (full : Nat) (s : Str) :
    rxC.matchAt full (" c ".toList ++ s) = some (s, [(2, [' ']), (1, [' '])]) := by
  have e : " c ".toList ++ s = ' ' :: ("c".toList ++ ' ' :: s) := rfl
  have hl : litRest foldEq ['c'] ("c".toList ++ ' ' :: s) = some (' ' :: s) := rfl
  unfold Rx.matchAt rxC
  rw [e, run_seq_cap_chr, if_pos (by decide), Rx.run, run_lit, hl]
  simp only [List.flatMap_cons, List.flatMap_nil, List.append_nil]
  rw [run_cap_chr_hit 2 _ _ _ _ _ (by decide)]
  rfl

theorem hit_verse (full : Nat) (s : Str) :
    rxVerse.matchAt full (" verse ".toList ++ s) = some (s, [(2, [' ']), (1, [' '])]) := by
  have e : " verse ".toList ++ s = ' ' :: ("verse".toList ++ ' ' :: s) := rfl
  have hl : litRest foldEq ['v', 'e', 'r', 's', 'e'] ("verse".toList ++ ' ' :: s) =
      some (' ' :: s) := rfl
  unfold Rx.matchAt rxVerse
  rw [e, run_seq_cap_chr, if_pos (by decide), Rx.run, run_lit, hl]
  simp only [List.flatMap_cons, List.flatMap_nil, List.append_nil]
  rw [Rx.run]
  have h1 : (Rx.opt (.chr (foldEq 's'))).run full (' ' :: s) [(1, [' '])] =
      [(' ' :: s, [(1, [' '])])] := by
    simp [Rx.run]
    decide
  rw [h1]
  simp only [List.flatMap_cons, List.flatMap_nil, List.append_nil]
  rw [run_cap_chr_hit 2 _ _ _ _ _ (by decide)]
  rfl

theorem expand_ch (m : Str) :
    expand "$1ch$2".toList ((0, m) :: [(2, [' ']), (1, [' '])]) = [' '] := by
  rfl

theorem expand_v (m : Str) :
    expand "$1 v $2".toList ((0, m) :: [(2, [' ']), (1, [' '])]) = "  v  ".toList := by
  rfl

/-! ### The normal forms of the spellings -/

theorem normalise_late (s : Str) :
    normalise s = lateRules (ReplaceAllString rxDigitLetter
      (ReplaceAllString rxLetterDigit s "$1 $2".toList) "$1 $2".toList) := rfl

theorem lateRules_steps (s s3 s4 s5 s6 s7 s8 : Str)
    (h3 : ReplaceAllString rxDash s "-".toList = s3)
    (h4 : ReplaceAllString rxTo s3 "-".toList = s4)
    (h5 : ReplaceAllString rxChapter s4 "$1ch$2".toList = s5)
    (h6 : ReplaceAllString rxC s5 "$1ch$2".toList = s6)
    (h7 : ReplaceAllString rxVerse s6 "$1 v $2".toList = s7)
    (h8 : ReplaceAllString rxBoundaryDigit s7 "$1 $2 $3".toList = s8) :
    lateRules s = s8 := by
  subst h3 h4 h5 h6 h7 h8
  rfl

theorem mem_substitutions :
    (rxDash, "-".toList) ∈ substitutions ∧ (rxTo, "-".toList) ∈ substitutions ∧
      (rxChapter, "$1ch$2".toList) ∈ substitutions ∧ (rxC, "$1ch$2".toList) ∈ substitutions ∧
      (rxVerse, "$1 v $2".toList) ∈ substitutions ∧
      (rxBoundaryDigit, "$1 $2 $3".toList) ∈ substitutions := by
  unfold substitutions
  simp

/-- The later substitutions leave a text alone that no pattern matches in. -/
theorem lateRules_id (s : Str) (h : AllSafe s.length s) : lateRules s = s := by
  obtain ⟨m3, m4, m5, m6, m7, m8⟩ := mem_substitutions
  exact lateRules_steps s s s s s s s (rule_id_of_allSafe s h _ m3) (rule_id_of_allSafe s h _ m4)
    (rule_id_of_allSafe s h _ m5) (rule_id_of_allSafe s h _ m6) (rule_id_of_allSafe s h _ m7)
    (rule_id_of_allSafe s h _ m8)

/-- The normaliser on a plain text: patterns 1 and 2 put their blanks, then
the later patterns work on the result. -/
theorem normalise_plain (ts : List Tok) (h : Plain ts) (h1 : Plain (gap1 ts)) :
    normalise (render ts) = lateRules (render (gap2 (gap1 ts))) := by
  rw [normalise_late, rule1_render ts h, rule2_render _ h1]

/-- A well-formed text that opens with a name is left alone by every pattern. -/
theorem allSafe_named (n : Str) (r : List Tok) (hwf : WellFormed (.name n :: r)) :
    AllSafe (render (.name n :: r)).length (render (.name n :: r)) :=
  allSafe_render _ _ hwf (Nat.le_refl _) (Or.inl fun ds c r1 e => by cases e)

theorem plainName_words {n : Str} (hn : plainName n = true) :
    ToLower n ≠ "to".toList ∧ ToLower n ≠ "chapter".toList ∧ ToLower n ≠ "c".toList ∧
      ToLower n ≠ "verse".toList ∧ ToLower n ≠ "verses".toList := by
  have h := plainName_not_grammar hn
  refine ⟨?_, ?_, ?_, ?_, ?_⟩ <;> (intro e; rw [e] at h; exact h (by decide))

theorem plainName_plain {n : Str} (hn : plainName n = true) : n ≠ [] ∧ AllP isAsciiLetter n :=
  safeWord_letters (plainName_safeWord hn)

theorem allP_of_all {p : Char → Bool} {w : Str} (h : w.all p = true) : AllP p w :=
  fun c hc => List.all_eq_true.1 h c hc

theorem digits_fmtInt {x : Int} (h : 0 ≤ x) : Digits (fmtInt x) :=
  ⟨fmtInt_ne_nil h, (isNumeral_fmtInt h).2.1⟩

/-- A plain text that patterns 1 and 2 turn into a well-formed one. -/
theorem normalise_to_safe (ts : List Tok) (n : Str) (r : List Tok) (h : Plain ts)
    (h1 : Plain (gap1 ts)) (hg : gap2 (gap1 ts) = .name n :: r) (hwf : WellFormed (.name n :: r)) :
    normalise (render ts) = render (.name n :: r) := by
  rw [normalise_plain ts h h1, hg, lateRules_id _ (allSafe_named n r hwf)]

theorem mark_facts {w : Str} (hw : IsMark w) :
    safeWord w = true ∧ AllP isAsciiLetter w ∧ w ≠ [] ∧ ∃ w1, w = 'v' :: w1 := by
  rcases hw with h | h <;> subst h
  · exact ⟨by decide, allP_of_all (by decide), by decide, [], rfl⟩
  · exact ⟨by decide, allP_of_all (by decide), by decide, ['v'], rfl⟩

/-- `n CvV` and `n CvvV`. -/
theorem normalise_CwV (n w C V : Str) (hn : plainName n = true) (hw : IsMark w)
    (hC : Digits C) (hV : Digits V) :
    normalise (render [.name n, .sp, .num C, .name w, .num V]) =
      render [.name n, .sp, .num C, .sp, .name w, .sp, .num V] := by
  obtain ⟨hw1, hw2, hw3, w1, hw4⟩ := mark_facts hw
  refine normalise_to_safe _ n _ ?_ ?_ ?_ ?_
  · simp [Plain, plainName_plain hn, hC.1, hC.2, hV.1, hV.2, hw2, hw3]
  · simp [gap1, Plain, plainName_plain hn, hC.1, hC.2, hV.1, hV.2, hw2, hw3]
  · subst hw4
    simp [gap1, gap2]
    decide
  · simp [WellFormed, Follows, plainName_safeWord hn, hw1, hC.1, hC.2, hV.1, hV.2]

/-- `n C vV` and `n C vvV`. -/
theorem normalise_C_wV (n w C V : Str) (hn : plainName n = true) (hw : IsMark w)
    (hC : Digits C) (hV : Digits V) :
    normalise (render [.name n, .sp, .num C, .sp, .name w, .num V]) =
      render [.name n, .sp, .num C, .sp, .name w, .sp, .num V] := by
  obtain ⟨hw1, hw2, hw3, w1, hw4⟩ := mark_facts hw
  refine normalise_to_safe _ n _ ?_ ?_ ?_ ?_
  · simp [Plain, plainName_plain hn, hC.1, hC.2, hV.1, hV.2, hw2, hw3]
  · simp [gap1, Plain, plainName_plain hn, hC.1, hC.2, hV.1, hV.2, hw2, hw3]
  · subst hw4
    simp [gap1, gap2]
  · simp [WellFormed, Follows, plainName_safeWord hn, hw1, hC.1, hC.2, hV.1, hV.2]

/-- `n C: vV`. -/
theorem normalise_C_colon_vV (n C V : Str) (hn : plainName n = true)
    (hC : Digits C) (hV : Digits V) :
    normalise (render [.name n, .sp, .num C, .colon, .sp, .name "v".toList, .num V]) =
      render [.name n, .sp, .num C, .colon, .sp, .name "v".toList, .sp, .num V] := by
  have hw1 : safeWord ['v'] = true := by decide
  have hw2 : AllP isAsciiLetter ['v'] := allP_of_all (by decide)
  refine normalise_to_safe _ n _ ?_ ?_ ?_ ?_
  · simp [Plain, plainName_plain hn, hC.1, hC.2, hV.1, hV.2, hw2]
  · simp [gap1, Plain, plainName_plain hn, hC.1, hC.2, hV.1, hV.2, hw2]
  · simp [gap1, gap2]
  · simp [WellFormed, Follows, plainName_safeWord hn, hw1, hC.1, hC.2, hV.1, hV.2]

/-- `n chCvV` and `n chCvvV`. -/
theorem normalise_chCwV (n w C V : Str) (hn : plainName n = true) (hw : IsMark w)
    (hC : Digits C) (hV : Digits V) :
    normalise (render [.name n, .sp, .name "ch".toList, .num C, .name w, .num V]) =
      render [.name n, .sp, .name "ch".toList, .sp, .num C, .sp, .name w, .sp, .num V] := by
  obtain ⟨hw1, hw2, hw3, w1, hw4⟩ := mark_facts hw
  have hch : AllP isAsciiLetter ['c', 'h'] := allP_of_all (by decide)
  have hch1 : safeWord ['c', 'h'] = true := by decide
  refine normalise_to_safe _ n _ ?_ ?_ ?_ ?_
  · simp [Plain, plainName_plain hn, hC.1, hC.2, hV.1, hV.2, hw2, hw3, hch]
  · simp [gap1, Plain, plainName_plain hn, hC.1, hC.2, hV.1, hV.2, hw2, hw3, hch]
  · subst hw4
    simp [gap1, gap2]
    decide
  · simp [WellFormed, Follows, plainName_safeWord hn, hw1, hch1, hC.1, hC.2, hV.1, hV.2]

/-- `n chC vV`. -/
theorem normalise_chC_vV (n C V : Str) (hn : plainName n = true)
    (hC : Digits C) (hV : Digits V) :
    normalise (render [.name n, .sp, .name "ch".toList, .num C, .sp, .name "v".toList, .num V]) =
      render [.name n, .sp, .name "ch".toList, .sp, .num C, .sp, .name "v".toList, .sp,
        .num V] := by
  have hw1 : safeWord ['v'] = true := by decide
  have hw2 : AllP isAsciiLetter ['v'] := allP_of_all (by decide)
  have hch : AllP isAsciiLetter ['c', 'h'] := allP_of_all (by decide)
  have hch1 : safeWord ['c', 'h'] = true := by decide
  refine normalise_to_safe _ n _ ?_ ?_ ?_ ?_
  · simp [Plain, plainName_plain hn, hC.1, hC.2, hV.1, hV.2, hw2, hch]
  · simp [gap1, Plain, plainName_plain hn, hC.1, hC.2, hV.1, hV.2, hw2, hch]
  · simp [gap1, gap2]
  · simp [WellFormed, Follows, plainName_safeWord hn, hw1, hch1, hC.1, hC.2, hV.1, hV.2]

/-! ### The words `c`, `chapter` and `verse` -/

/-- The later substitutions on `n c C v V`: the word `c` and the blank before
it go. -/
theorem lateRules_c (n C V : Str) (hn : plainName n = true) (hC : Digits C) (hV : Digits V) :
    lateRules (render [.name n, .sp, .name "c".toList, .sp, .num C, .sp, .name "v".toList, .sp,
        .num V]) =
      render [.name n, .sp, .num C, .sp, .name "v".toList, .sp, .num V] := by
  obtain ⟨m3, m4, m5, m6, m7, m8⟩ := mem_substitutions
  obtain ⟨k1, k2, k3, k4, k5⟩ := plainName_words hn
  have hv1 : safeWord ['v'] = true := by decide
  have hv2 : AllP isAsciiLetter ['v'] := allP_of_all (by decide)
  have hc2 : AllP isAsciiLetter ['c'] := allP_of_all (by decide)
  have hP : Plain [.name n, .sp, .name "c".toList, .sp, .num C, .sp, .name "v".toList, .sp,
      .num V] := by
    simp [Plain, plainName_plain hn, hC.1, hC.2, hV.1, hV.2, hv2, hc2]
  have hA : Apart [.name n, .sp, .name "c".toList, .sp, .num C, .sp, .name "v".toList, .sp,
      .num V] := by
    simp [Apart]
  have hwf : WellFormed [.name n, .sp, .num C, .sp, .name "v".toList, .sp, .num V] := by
    simp [WellFormed, Follows, plainName_safeWord hn, hv1, hC.1, hC.2, hV.1, hV.2]
  have hsafe := allSafe_named n _ hwf
  have e : render [.name n, .sp, .name "c".toList, .sp, .num C, .sp, .name "v".toList, .sp,
      .num V] = render [.name n] ++ (" c ".toList ++ render [.num C, .sp, .name "v".toList, .sp,
      .num V]) := by
    simp [render, Tok.text]
  have e2 : render [.name n] ++ ([' '] ++ render [.num C, .sp, .name "v".toList, .sp, .num V]) =
      render [.name n, .sp, .num C, .sp, .name "v".toList, .sp, .num V] := by
    simp [render, Tok.text]
  refine lateRules_steps _ _ _ _ _ _ _ (rule3_id _ hP)
    (wordRule_id rxTo _ ["to".toList] (by decide) matchAt_to_free _ hP hA ?_)
    (wordRule_id rxChapter _ ["chapter".toList] (by decide) matchAt_chapter_free _ hP hA ?_)
    ?_ (rule_id_of_allSafe _ hsafe _ m7) (rule_id_of_allSafe _ hsafe _ m8)
  · intro m hm w hw
    simp at hm hw
    subst hw
    rcases hm with h | h | h <;> subst h
    · exact k1
    · decide
    · decide
  · intro m hm w hw
    simp at hm hw
    subst hw
    rcases hm with h | h | h <;> subst h
    · exact k2
    · decide
    · decide
  · rw [e, ← e2]
    refine wordRule_hit rxC _ ["c".toList] (by decide) matchAt_c_free [.name n]
      [.num C, .sp, .name "v".toList, .sp, .num V] _ _ _ (by decide) (headNot_cons (by decide))
      hit_c (expand_ch _) ?_ ?_ ?_ ?_ ?_ ?_
    · simp [Plain, plainName_plain hn]
    · simp [Apart]
    · intro m hm w hw
      simp at hm hw
      subst hw hm
      exact k3
    · simp [Plain, hC.1, hC.2, hV.1, hV.2, hv2]
    · simp [Apart]
    · intro m hm w hw
      simp at hm hw
      subst hw hm
      decide

/-- `n cCvV`. -/
theorem normalise_cCvV (n C V : Str) (hn : plainName n = true) (hC : Digits C)
    (hV : Digits V) :
    normalise (render [.name n, .sp, .name "c".toList, .num C, .name "v".toList, .num V]) =
      render [.name n, .sp, .num C, .sp, .name "v".toList, .sp, .num V] := by
  have hv2 : AllP isAsciiLetter ['v'] := allP_of_all (by decide)
  have hc2 : AllP isAsciiLetter ['c'] := allP_of_all (by decide)
  rw [normalise_plain _ (by simp [Plain, plainName_plain hn, hC.1, hC.2, hV.1, hV.2, hv2, hc2])
    (by simp [gap1, Plain, plainName_plain hn, hC.1, hC.2, hV.1, hV.2, hv2, hc2]),
    ]
  have hg : gap2 (gap1 [.name n, .sp, .name "c".toList, .num C, .name "v".toList, .num V]) =
      [.name n, .sp, .name "c".toList, .sp, .num C, .sp, .name "v".toList, .sp, .num V] := by
    simp [gap1, gap2]
    decide
  rw [hg, lateRules_c n C V hn hC hV]

/-- The later substitutions on `n chapter C verse V`: the word `chapter` and
the blank before it go, and the word `verse` becomes ` v ` between its
blanks. -/
theorem lateRules_chapter_verse (n C V : Str) (hn : plainName n = true) (hC : Digits C)
    (hV : Digits V) :
    lateRules (render [.name n, .sp, .name "chapter".toList, .sp, .num C, .sp,
        .name "verse".toList, .sp, .num V]) =
      render [.name n, .sp, .num C, .sp, .sp, .name "v".toList, .sp, .sp, .num V] := by
  obtain ⟨m3, m4, m5, m6, m7, m8⟩ := mem_substitutions
  obtain ⟨k1, k2, k3, k4, k5⟩ := plainName_words hn
  have hv1 : safeWord ['v'] = true := by decide
  have hl1 : AllP isAsciiLetter ['c', 'h', 'a', 'p', 't', 'e', 'r'] := allP_of_all (by decide)
  have hl2 : AllP isAsciiLetter ['v', 'e', 'r', 's', 'e'] := allP_of_all (by decide)
  have hP : Plain [.name n, .sp, .name "chapter".toList, .sp, .num C, .sp,
      .name "verse".toList, .sp, .num V] := by
    simp [Plain, plainName_plain hn, hC.1, hC.2, hV.1, hV.2, hl1, hl2]
  have hA : Apart [.name n, .sp, .name "chapter".toList, .sp, .num C, .sp,
      .name "verse".toList, .sp, .num V] := by
    simp [Apart]
  have hP2 : Plain [.name n, .sp, .num C, .sp, .name "verse".toList, .sp, .num V] := by
    simp [Plain, plainName_plain hn, hC.1, hC.2, hV.1, hV.2, hl2]
  have hA2 : Apart [.name n, .sp, .num C, .sp, .name "verse".toList, .sp, .num V] := by
    simp [Apart]
  have hwf : WellFormed [.name n, .sp, .num C, .sp, .sp, .name "v".toList, .sp, .sp,
      .num V] := by
    simp [WellFormed, Follows, plainName_safeWord hn, hv1, hC.1, hC.2, hV.1, hV.2]
  have hsafe := allSafe_named n _ hwf
  have e5 : render [.name n, .sp, .name "chapter".toList, .sp, .num C, .sp,
      .name "verse".toList, .sp, .num V] = render [.name n] ++ (" chapter ".toList ++
      render [.num C, .sp, .name "verse".toList, .sp, .num V]) := by
    simp [render, Tok.text]
  have e5' : render [.name n] ++ ([' '] ++ render [.num C, .sp, .name "verse".toList, .sp,
      .num V]) = render [.name n, .sp, .num C, .sp, .name "verse".toList, .sp, .num V] := by
    simp [render, Tok.text]
  have e7 : render [.name n, .sp, .num C, .sp, .name "verse".toList, .sp, .num V] =
      render [.name n, .sp, .num C] ++ (" verse ".toList ++ render [.num V]) := by
    simp [render, Tok.text]
  have e7' : render [.name n, .sp, .num C] ++ ("  v  ".toList ++ render [.num V]) =
      render [.name n, .sp, .num C, .sp, .sp, .name "v".toList, .sp, .sp, .num V] := by
    simp [render, Tok.text]
  refine lateRules_steps _ _ _ _ _ _ _ (rule3_id _ hP)
    (wordRule_id rxTo _ ["to".toList] (by decide) matchAt_to_free _ hP hA ?_)
    ?_
    (wordRule_id rxC _ ["c".toList] (by decide) matchAt_c_free _ hP2 hA2 ?_)
    ?_ (rule_id_of_allSafe _ hsafe _ m8)
  · intro m hm w hw
    simp at hm hw
    subst hw
    rcases hm with h | h | h <;> subst h
    · exact k1
    · decide
    · decide
  · rw [e5, ← e5']
    refine wordRule_hit rxChapter _ ["chapter".toList] (by decide) matchAt_chapter_free
      [.name n] [.num C, .sp, .name "verse".toList, .sp, .num V] _ _ _ (by decide)
      (headNot_cons (by decide)) hit_chapter (expand_ch _) ?_ ?_ ?_ ?_ ?_ ?_
    · simp [Plain, plainName_plain hn]
    · simp [Apart]
    · intro m hm w hw
      simp at hm hw
      subst hw hm
      exact k2
    · simp [Plain, hC.1, hC.2, hV.1, hV.2, hl2]
    · simp [Apart]
    · intro m hm w hw
      simp at hm hw
      subst hw hm
      decide
  · intro m hm w hw
    simp at hm hw
    subst hw
    rcases hm with h | h <;> subst h
    · exact k3
    · decide
  · rw [e7, ← e7']
    refine wordRule_hit rxVerse _ ["verse".toList, "verses".toList] (by decide)
      matchAt_verse_free [.name n, .sp, .num C] [.num V] _ _ _ (by decide)
      (headNot_cons (by decide)) hit_verse (expand_v _) ?_ ?_ ?_ ?_ ?_ ?_
    · simp [Plain, plainName_plain hn, hC.1, hC.2]
    · simp [Apart]
    · intro m hm w hw
      simp at hm hw
      subst hm
      rcases hw with h | h <;> subst h
      · exact k4
      · exact k5
    · simp [Plain, hV.1, hV.2]
    · simp [Apart]
    · intro m hm w hw
      simp at hm

/-- `n chapterCverseV`, `n chapterC verseV` and `n chapter C verse V`. -/
theorem normalise_chapter_verse (n C V : Str) (hn : plainName n = true) (hC : Digits C)
    (hV : Digits V) :
    normalise (render [.name n, .sp, .name "chapter".toList, .num C, .name "verse".toList,
        .num V]) =
        render [.name n, .sp, .num C, .sp, .sp, .name "v".toList, .sp, .sp, .num V] ∧
      normalise (render [.name n, .sp, .name "chapter".toList, .num C, .sp,
        .name "verse".toList, .num V]) =
        render [.name n, .sp, .num C, .sp, .sp, .name "v".toList, .sp, .sp, .num V] ∧
      normalise (render [.name n, .sp, .name "chapter".toList, .sp, .num C, .sp,
        .name "verse".toList, .sp, .num V]) =
        render [.name n, .sp, .num C, .sp, .sp, .name "v".toList, .sp, .sp, .num V] := by
  have hl1 : AllP isAsciiLetter ['c', 'h', 'a', 'p', 't', 'e', 'r'] := allP_of_all (by decide)
  have hl2 : AllP isAsciiLetter ['v', 'e', 'r', 's', 'e'] := allP_of_all (by decide)
  have g1 : gap2 (gap1 [.name n, .sp, .name "chapter".toList, .num C, .name "verse".toList,
      .num V]) = [.name n, .sp, .name "chapter".toList, .sp, .num C, .sp,
      .name "verse".toList, .sp, .num V] := by
    simp [gap1, gap2]
    decide
  have g2 : gap2 (gap1 [.name n, .sp, .name "chapter".toList, .num C, .sp,
      .name "verse".toList, .num V]) = [.name n, .sp, .name "chapter".toList, .sp, .num C, .sp,
      .name "verse".toList, .sp, .num V] := by
    simp [gap1, gap2]
  have g3 : gap2 (gap1 [.name n, .sp, .name "chapter".toList, .sp, .num C, .sp,
      .name "verse".toList, .sp, .num V]) = [.name n, .sp, .name "chapter".toList, .sp, .num C,
      .sp, .name "verse".toList, .sp, .num V] := by
    simp [gap1, gap2]
  refine ⟨?_, ?_, ?_⟩
  · rw [normalise_plain _
      (by simp [Plain, plainName_plain hn, hC.1, hC.2, hV.1, hV.2, hl1, hl2])
      (by simp [gap1, Plain, plainName_plain hn, hC.1, hC.2, hV.1, hV.2, hl1, hl2]),
      g1, lateRules_chapter_verse n C V hn hC hV]
  · rw [normalise_plain _
      (by simp [Plain, plainName_plain hn, hC.1, hC.2, hV.1, hV.2, hl1, hl2])
      (by simp [gap1, Plain, plainName_plain hn, hC.1, hC.2, hV.1, hV.2, hl1, hl2]),
      g2, lateRules_chapter_verse n C V hn hC hV]
  · rw [normalise_plain _
      (by simp [Plain, plainName_plain hn, hC.1, hC.2, hV.1, hV.2, hl1, hl2])
      (by simp [gap1, Plain, plainName_plain hn, hC.1, hC.2, hV.1, hV.2, hl1, hl2]),
      g3, lateRules_chapter_verse n C V hn hC hV]

/-- `n verse k`. -/
theorem normalise_verse (n V : Str) (hn : plainName n = true) (hV : Digits V) :
    normalise (render [.name n, .sp, .name "verse".toList, .sp, .num V]) =
      render [.name n, .sp, .sp, .name "v".toList, .sp, .sp, .num V] := by
  obtain ⟨m3, m4, m5, m6, m7, m8⟩ := mem_substitutions
  obtain ⟨k1, k2, k3, k4, k5⟩ := plainName_words hn
  have hv1 : safeWord ['v'] = true := by decide
  have hl2 : AllP isAsciiLetter ['v', 'e', 'r', 's', 'e'] := allP_of_all (by decide)
  have hP : Plain [.name n, .sp, .name "verse".toList, .sp, .num V] := by
    simp [Plain, plainName_plain hn, hV.1, hV.2, hl2]
  have hA : Apart [.name n, .sp, .name "verse".toList, .sp, .num V] := by
    simp [Apart]
  have hwf : WellFormed [.name n, .sp, .sp, .name "v".toList, .sp, .sp, .num V] := by
    simp [WellFormed, Follows, plainName_safeWord hn, hv1, hV.1, hV.2]
  have hsafe := allSafe_named n _ hwf
  have e7 : render [.name n, .sp, .name "verse".toList, .sp, .num V] =
      render [.name n] ++ (" verse ".toList ++ render [.num V]) := by
    simp [render, Tok.text]
  have e7' : render [.name n] ++ ("  v  ".toList ++ render [.num V]) =
      render [.name n, .sp, .sp, .name "v".toList, .sp, .sp, .num V] := by
    simp [render, Tok.text]
  have hnames : ∀ w0 : Str, ToLower n ≠ w0 → ToLower "verse".toList ≠ w0 →
      ∀ m, Tok.name m ∈ [Tok.name n, .sp, .name "verse".toList, .sp, .num V] →
        ∀ w ∈ [w0], ToLower m ≠ w := by
    intro w0 h1 h2 m hm w hw
    simp at hm hw
    subst hw
    rcases hm with h | h <;> subst h
    · exact h1
    · exact h2
  rw [normalise_plain _ hP (by simpa [gap1] using hP)]
  have hg : gap2 (gap1 [.name n, .sp, .name "verse".toList, .sp, .num V]) =
      [.name n, .sp, .name "verse".toList, .sp, .num V] := by
    simp [gap1, gap2]
  rw [hg]
  refine lateRules_steps _ _ _ _ _ _ _ (rule3_id _ hP)
    (wordRule_id rxTo _ ["to".toList] (by decide) matchAt_to_free _ hP hA
      (hnames _ k1 (by decide)))
    (wordRule_id rxChapter _ ["chapter".toList] (by decide) matchAt_chapter_free _ hP hA
      (hnames _ k2 (by decide)))
    (wordRule_id rxC _ ["c".toList] (by decide) matchAt_c_free _ hP hA
      (hnames _ k3 (by decide)))
    ?_ (rule_id_of_allSafe _ hsafe _ m8)
  rw [e7, ← e7']
  refine wordRule_hit rxVerse _ ["verse".toList, "verses".toList] (by decide)
    matchAt_verse_free [.name n] [.num V] _ _ _ (by decide)
    (headNot_cons (by decide)) hit_verse (expand_v _) ?_ ?_ ?_ ?_ ?_ ?_
  · simp [Plain, plainName_plain hn]
  · simp [Apart]
  · intro m hm w hw
    simp at hm hw
    subst hm
    rcases hw with h | h <;> subst h
    · exact k4
    · exact k5
  · simp [Plain, hV.1, hV.2]
  · simp [Apart]
  · intro m hm w hw
    simp at hm

/-! ### One clause read through its normal form -/

theorem TrimSpace_ne_nil (c : Char) (r : Str) (hc : isSpace c = false) :
    TrimSpace (c :: r) ≠ [] := by
  unfold TrimSpace TrimRightFunc
  rw [List.dropWhile_cons_of_neg (by simp [hc])]
  intro h
  have h2 := List.reverse_eq_nil_iff.1 h
  rw [List.dropWhile_eq_nil_iff] at h2
  have h3 := h2 c (by simp)
  rw [hc] at h3
  cases h3

theorem isSpace_false_of_letter {c : Char} (h : isAsciiLetter c = true) : isSpace c = false :=
  isSpace_false_of_canon (Or.inl h)

theorem TrimSpace_named_ne_nil {n : Str} (hn : plainName n = true) (r : Str) :
    TrimSpace (n ++ r) ≠ [] := by
  obtain ⟨hne, hall⟩ := plainName_letters hn
  obtain ⟨x, t, rfl⟩ := List.exists_cons_of_ne_nil hne
  exact TrimSpace_ne_nil x (t ++ r) (isSpace_false_of_letter (hall x (List.mem_cons_self _ _)))

/-- A text whose normal form is a well-formed clause opening with a name is
read as that clause. -/
theorem Parse_normalised (p : BiblePassageParser) (s n : Str) (ts : List Tok)
    (hsep : p.separators = defaultSeparators) (hne : TrimSpace s ≠ [])
    (hnorm : normalise s = render (.name n :: ts)) (hwf : WellFormed (.name n :: ts))
    (hlast : (Tok.name n :: ts).getLast? ≠ some .sp) (hns : NoSepTok (.name n :: ts)) :
    p.Parse s = returnOf (p.parseSection initialState (render (.name n :: ts))) := by
  have hfirst : (∃ m r, Tok.name n :: ts = .name m :: r) ∨
      ∃ ds r, Tok.name n :: ts = .num ds :: .sp :: r := Or.inl ⟨n, ts, rfl⟩
  obtain ⟨_, hne2, _, _⟩ := render_ends _ hwf hfirst hlast
  have htrim := TrimSpace_render _ hwf hfirst hlast
  unfold BiblePassageParser.Parse
  rw [if_neg hne, hnorm, hsep,
    SplitOnSeparators_id _ (noSepChar_render _ hwf hns) (noAnd_render _ hwf)]
  simp only [BiblePassageParser.parseSections, htrim, if_neg hne2]
  unfold initialState
  cases p.parseSection _ (render (.name n :: ts)) <;> rfl

/-- A clause without hyphen that `parseReference` reads as a book, a chapter
and a verse is the single verse. -/
theorem parseSection_single_verse (p : BiblePassageParser) (B : Book) (n text : Str) (c v : Int)
    (f : BibleReference) (hn : bookName n = true)
    (hbook : p.getBookFromAbbreviation n = .ok B)
    (hname : p.getBookFromAbbreviation B.Name = .ok B)
    (hc : 1 ≤ c) (hc2 : c < 2 ^ 63) (hv : 1 ≤ v) (hv2 : v < 2 ^ 63)
    (hfrom : NewBibleReference B c v [] = .ok f) (hh : '-' ∉ text)
    (hparse : parseReference text =
      .ok { book := ToLower n, chapter_or_verse := fmtInt c, verse := fmtInt v }) :
    returnOf (p.parseSection initialState text) = .ret (some [NewBiblePassage f f], none) := by
  have hparse2 : parseReference text =
      .ok { book := ToLower n, chapter_or_verse := fmtInt c, verse := fmtInt v ++ [] } := by
    rw [List.append_nil]; exact hparse
  unfold BiblePassageParser.parseSection
  rw [Split_hyphen_none _ hh]
  simp only [initialState]
  rw [parseStartReference_verse p _ n [] none none B c v [] f hn hc hc2 hv hv2 (Or.inl rfl)
    hparse2 hbook hfrom]
  simp only [BiblePassageParser.singleReference, hname, ne_eq, reduceCtorEq, not_false_eq_true,
    if_true]
  rw [finishSection_ok _ _ _ _ (le_refl _)]
  rfl

/-- A spelling of a single verse: its normal form is a well-formed clause
without hyphen that `parseReference` reads as the book, the chapter and the
verse. -/
theorem Parse_spelling (p : BiblePassageParser) (B : Book) (n : Str) (c v : Int)
    (f : BibleReference) (src nf : List Tok)
    (hsep : p.separators = defaultSeparators) (hn : plainName n = true)
    (hbook : p.getBookFromAbbreviation n = .ok B)
    (hname : p.getBookFromAbbreviation B.Name = .ok B)
    (hc : 1 ≤ c) (hc2 : c < 2 ^ 63) (hv : 1 ≤ v) (hv2 : v < 2 ^ 63)
    (hfrom : NewBibleReference B c v [] = .ok f)
    (hnorm : normalise (render (.name n :: src)) = render (.name n :: nf))
    (hwf : WellFormed (.name n :: nf))
    (hlast : (Tok.name n :: nf).getLast? ≠ some .sp) (hns : NoSepTok (.name n :: nf))
    (hnh : ∀ t ∈ Tok.name n :: nf, t ≠ Tok.hyphen)
    (hparse : parseReference (render (.name n :: nf)) =
      .ok { book := ToLower n, chapter_or_verse := fmtInt c, verse := fmtInt v }) :
    p.Parse (render (.name n :: src)) = .ret (some [NewBiblePassage f f], none) := by
  have hP := Parse_normalised p (render (.name n :: src)) n nf hsep
    (TrimSpace_named_ne_nil hn (render src)) hnorm hwf hlast hns
  rw [hP]
  exact parseSection_single_verse p B n _ c v f (plainName_bookName hn) hbook hname hc hc2 hv hv2
    hfrom (noHyphen_render _ hwf hnh) hparse

/-! ### `parseReference` on the normal forms of a single verse -/

/-- The match of the clause grammar on a book part and a numeric part, given
what the numeric part of the grammar takes. -/
theorem matchAt_reference_of (bk nums t1 t2 : Str) (hbk : IsBookPart bk nums)
    (hfirst : ∀ full caps, (Rx.opt rxNumbers).first full nums caps =
      some ([], capsWith 3 t2 (capsWith 2 t1 caps))) :
    rxReference.matchAt (bk ++ nums).length (bk ++ nums) =
      some ([], capsWith 3 t2 (capsWith 2 t1 (capsWith 1 bk []))) := by
  rw [matchAt_eq_first]
  unfold rxReference
  exact first_seq (first_bot _ _) (first_seq
    (first_star_nil isReSpace _ _ _ (headNot_bookPart hbk))
    (first_seq (first_bookPart _ bk _ _ hbk)
      (first_seq (hfirst _ _)
        (first_seq (first_star_nil isReSpace _ [] _ (headNot_nil _)) (first_eot _ _)))))

/-- `parseReference` on a text whose lower-case form is a book part and a
numeric part: the three groups, trimmed, go through the post-processing. -/
theorem parseReference_of (text bk nums t1 t2 : Str) (hlow : ToLower text = bk ++ nums)
    (hbk : IsBookPart bk nums)
    (hfirst : ∀ full caps, (Rx.opt rxNumbers).first full nums caps =
      some ([], capsWith 3 t2 (capsWith 2 t1 caps))) :
    parseReference text =
      .ok (if byteLen (chStep (keywordStep
            { book := TrimSpace bk, chapter_or_verse := TrimSpace t1,
              verse := TrimSpace t2 })).book ≥ 2
        then verseWordStep (vStep (chStep (keywordStep
            { book := TrimSpace bk, chapter_or_verse := TrimSpace t1, verse := TrimSpace t2 })))
        else chStep (keywordStep
            { book := TrimSpace bk, chapter_or_verse := TrimSpace t1,
              verse := TrimSpace t2 })) := by
  have hm := matchAt_reference_of bk nums t1 t2 hbk hfirst
  obtain ⟨g1, g2, g3⟩ := caps_get_reference bk t1 t2
  unfold parseReference
  simp only [hlow, hm, g1, g2, g3]

theorem first_numbers_end (nums t1 t2 : Str) (h : IsNumbers nums t1 t2) (full : Nat)
    (caps : Caps) :
    (Rx.opt rxNumbers).first full nums caps = some ([], capsWith 3 t2 (capsWith 2 t1 caps)) := by
  have := first_numbers full nums t1 t2 [] caps h (allP_nil _)
  rw [List.append_nil] at this
  exact this

theorem isToken_digits {t : Str} (h : Digits t) : IsToken t :=
  ⟨t, [], by simp, h.1, h.2, Or.inl rfl⟩

theorem headNot_notDigit_digits {t : Str} (h : Digits t) (r : Str) :
    HeadNot isNotDigit (t ++ r) := by
  obtain ⟨x, u, rfl⟩ := List.exists_cons_of_ne_nil h.1
  exact headNot_cons (by simp [isNotDigit, h.2 x (List.mem_cons_self _ _)])

theorem isNumbers_sep {C V w1 w2 : Str} (hC : Digits C) (hV : Digits V)
    (hsep : IsSeparator w1 w2) : IsNumbers (C ++ (w1 ++ (w2 ++ V))) C V :=
  Or.inr (Or.inr ⟨isToken_digits hC, isToken_digits hV, w1, w2, hsep, rfl⟩)

/-- A name, a blank, and two numbers around a separator. -/
theorem parseReference_sep (n C V w1 w2 : Str) (hn : bookName n = true) (hC : Digits C)
    (hV : Digits V) (hsep : IsSeparator w1 w2) :
    parseReference (n ++ ' ' :: (C ++ (w1 ++ (w2 ++ V)))) =
      .ok { book := ToLower n, chapter_or_verse := C, verse := V } := by
  have := parseReference_named [] n [' '] _ _ _ [] hn (allP_nil _)
    (by intro y hy; rw [List.mem_singleton.1 hy]; decide) (isNumbers_sep hC hV hsep) (allP_nil _)
    (by rw [List.append_nil]; exact headNot_notDigit_digits hC _)
  simpa using this

/-! ### A blank alone between the numbers -/

theorem starRests_digit (t : Str) (h : Digits t) : starRests isReSpace t = [t] := by
  obtain ⟨x, r, rfl⟩ := List.exists_cons_of_ne_nil h.1
  have hx := isReSpace_false_of_isDigit (h.2 x (List.mem_cons_self _ _))
  simp [starRests, hx]

/-- The separator of the grammar on a single blank: the white space before
the separator gives the blank back to it. -/
theorem first_sepVerse_blank (full : Nat) (t : Str) (caps : Caps) (h : Digits t) :
    rxSepVerse.first full (' ' :: t) caps = some ([], (3, t) :: caps) := by
  have hcap := @first_cap _ 3 _ _ _ _ _
    (first_verseBody full t [] [] caps h.1 h.2 (Or.inl rfl) (headNot_nil _) (headNot_nil _)
      (headNot_nil _))
  simp only [List.append_nil] at hcap
  have htake : t.take (t.length - ([] : Str).length) = t := by simp
  rw [htake] at hcap
  have hsep : HeadNot isSepChar t := headNot_of_allP h.2 fun c hc => isSepChar_false_of_isDigit hc
  have hws : HeadNot isReSpace t := headNot_of_allP h.2 fun c hc => isReSpace_false_of_isDigit hc
  have hB : (Rx.seq (.plus isSepChar) (.seq (.star isReSpace) (.cap 3 rxVerseBody))).first full
      (' ' :: t) caps = some ([], (3, t) :: caps) := by
    have h1 := first_plus isSepChar full [' '] t caps (by simp)
      (by intro y hy; rw [List.mem_singleton.1 hy]; decide) hsep
    exact first_seq h1 (first_seq (first_star_nil isReSpace full t caps hws) hcap)
  have hnil : (Rx.seq (.plus isSepChar) (.seq (.star isReSpace) (.cap 3 rxVerseBody))).run full
      t caps = [] := run_seq_nil_left (run_plus_nil isSepChar full t caps hsep)
  have hstar : (Rx.star isReSpace).run full (' ' :: t) caps = [(t, caps), (' ' :: t, caps)] := by
    have hb : isReSpace ' ' = true := by decide
    rw [Rx.run]
    simp [starRests, hb, starRests_digit t h]
  unfold rxSepVerse
  unfold Rx.first at hB ⊢
  rw [Rx.run, hstar]
  simp only [List.flatMap_cons, List.flatMap_nil, hnil, List.nil_append, List.append_nil]
  exact hB

theorem first_numbers_blank (full : Nat) (t1 t2 : Str) (caps : Caps) (h1 : Digits t1)
    (h2 : Digits t2) :
    (Rx.opt rxNumbers).first full (t1 ++ ' ' :: t2) caps =
      some ([], capsWith 3 t2 (capsWith 2 t1 caps)) := by
  have hb1 : isDigit ' ' = false := by decide
  have hb2 : isAbc ' ' = false := by decide
  have hc := @first_cap _ 2 _ _ _ _ _
    (first_chapterOrVerse full t1 [] (' ' :: t2) caps h1.1 h1.2 (Or.inl rfl) (headNot_cons hb1)
      (headNot_cons hb2))
  rw [take_length_sub_append] at hc
  simp only [List.append_nil] at hc
  rw [capsWith, if_neg h2.1, capsWith, if_neg h1.1]
  apply first_opt_some
  unfold rxNumbers
  exact first_seq (first_opt_some hc) (first_opt_some (first_sepVerse_blank full t2 _ h2))

theorem TrimSpace_digits {t : Str} (h : Digits t) : TrimSpace t = t :=
  TrimSpace_token (isToken_digits h)

/-- A name, a blank, and two numbers around a blank. -/
theorem parseReference_blank (n t1 t2 : Str) (hn : bookName n = true) (h1 : Digits t1)
    (h2 : Digits t2) :
    parseReference (n ++ ' ' :: (t1 ++ ' ' :: t2)) =
      .ok { book := ToLower n, chapter_or_verse := t1, verse := t2 } := by
  obtain ⟨hpart, htrim, hkw1, hkw2, hch, hv, hverse, hverses⟩ :=
    readsAsBook_of_lowerName (bookName_lowerName hn)
  have hsp : AllP isReSpace [' '] := by intro y hy; rw [List.mem_singleton.1 hy]; decide
  have hlow : ToLower (n ++ ' ' :: (t1 ++ ' ' :: t2)) =
      (ToLower n ++ [' ']) ++ (t1 ++ ' ' :: t2) := by
    have e : n ++ ' ' :: (t1 ++ ' ' :: t2) = n ++ ([' '] ++ (t1 ++ ([' '] ++ t2))) := by simp
    rw [e, ToLower_append, ToLower_append, ToLower_append, ToLower_append, ToLower_reSpace hsp,
      ToLower_digits h1.2, ToLower_digits h2.2]
    simp
  rw [parseReference_of _ _ _ t1 t2 hlow
    (hpart [' '] _ hsp (headNot_notDigit_digits h1 _))
    (fun full caps => first_numbers_blank full t1 t2 caps h1 h2)]
  rw [htrim [' '] hsp, TrimSpace_digits h1, TrimSpace_digits h2]
  congr 1
  exact postprocess_id _ ⟨hkw1, hkw2⟩ hch hv hverse hverses

/-! ### The word `ch` after the name -/

theorem keywordStep_numbered (m : Matches) (h : m.chapter_or_verse ≠ []) : keywordStep m = m := by
  unfold keywordStep
  rw [if_neg]
  rintro ⟨_, h2, _⟩
  exact h h2

theorem hasLetter_lower {L : Str} (hne : L ≠ [])
    (h : ∀ c ∈ L, 97 ≤ c.toNat ∧ c.toNat ≤ 122) : hasLetter L = true := by
  obtain ⟨x, t, rfl⟩ := List.exists_cons_of_ne_nil hne
  have hx := h x (List.mem_cons_self _ _)
  have h1 : 'a' ≤ x := (char_le_iff _ _).2 hx.1
  have h2 : x ≤ 'z' := (char_le_iff _ _).2 hx.2
  simp [hasLetter, h1, h2]

theorem isSpace_false_lower {L : Str} (h : ∀ c ∈ L, 97 ≤ c.toNat ∧ c.toNat ≤ 122) :
    ∀ c ∈ L, isSpace c = false := by
  intro c hc
  rw [bool_eq_false_iff_not (isSpace_iff c)]
  have := h c hc
  omega

theorem isNotDigit_lower {L : Str} (h : ∀ c ∈ L, 97 ≤ c.toNat ∧ c.toNat ≤ 122) :
    AllP isNotDigit L := by
  intro c hc
  rw [isNotDigit_iff]
  have := h c hc
  omega

theorem isReSpace_false_lower {L : Str} (h : ∀ c ∈ L, 97 ≤ c.toNat ∧ c.toNat ≤ 122) :
    ∀ c ∈ L, isReSpace c = false := by
  intro c hc
  rw [bool_eq_false_iff_not (isReSpace_iff c)]
  have := h c hc
  omega

/-- A book part made of a lower-case word and a tail without digit. -/
theorem isBookPart_word {L tail rest : Str} (hne : L ≠ [])
    (h : ∀ c ∈ L, 97 ≤ c.toNat ∧ c.toNat ≤ 122) (ht : AllP isNotDigit tail)
    (hrest : HeadNot isNotDigit rest) : IsBookPart (L ++ tail) rest := by
  refine Or.inl ⟨by simp [hne], ?_, ?_, hrest⟩
  · intro c hc
    rcases List.mem_append.1 hc with h1 | h1
    · exact isNotDigit_lower h c h1
    · exact ht c h1
  · obtain ⟨x, t, rfl⟩ := List.exists_cons_of_ne_nil hne
    exact headNot_cons (isReSpace_false_lower h x (List.mem_cons_self _ _))

/-- The lower-case text of a plain name, with what the post-processing of
`parseReference` asks of it. -/
theorem plainName_reads {n : Str} (hn : plainName n = true) :
    ToLower n ≠ [] ∧ (∀ c ∈ ToLower n, 97 ≤ c.toNat ∧ c.toNat ≤ 122) ∧
      ReadsAsBook (ToLower n) :=
  ⟨(plainName_lower hn).1, (plainName_lower hn).2.1,
    readsAsBook_of_lowerName (bookName_lowerName (plainName_bookName hn))⟩

theorem chStep_cut (L cov verse : Str) (hne : L ≠ [])
    (h : ∀ c ∈ L, 97 ≤ c.toNat ∧ c.toNat ≤ 122) :
    chStep { book := L ++ [' ', 'c', 'h'], chapter_or_verse := cov, verse := verse } =
      { book := L, chapter_or_verse := cov, verse := verse } := by
  have h1 : byteLen (L ++ [' ', 'c', 'h']) ≥ 3 := by
    simp only [byteLen, List.map_append, List.sum_append]
    have : ([' ', 'c', 'h'].map Char.utf8Size).sum = 3 := by decide
    omega
  have h2 : HasSuffix (L ++ [' ', 'c', 'h']) " ch".toList = true := by
    simp [HasSuffix]
  have h3 : (L ++ [' ', 'c', 'h']).take ((L ++ [' ', 'c', 'h']).length - 3) = L := by simp
  have h4 : TrimSpace L = L := TrimSpace_of_no_space L (isSpace_false_lower h)
  unfold chStep
  simp only [h1, h2, h3, h4, hasLetter_lower hne h, and_self, if_true]

/-- A name, the word `ch`, and the numbers. -/
theorem parseReference_ch (n nums t1 t2 : Str) (hn : plainName n = true)
    (hnums : IsNumbers nums t1 t2) (ht1 : t1 ≠ []) (hrest : HeadNot isNotDigit nums) :
    parseReference (n ++ (" ch ".toList ++ nums)) =
      .ok { book := ToLower n, chapter_or_verse := t1, verse := t2 } := by
  obtain ⟨hne, hlo, hpart, htrim, hkw1, hkw2, hch, hv, hverse, hverses⟩ := plainName_reads hn
  have hlow : ToLower (n ++ (" ch ".toList ++ nums)) =
      (ToLower n ++ [' ', 'c', 'h', ' ']) ++ nums := by
    rw [ToLower_append, ToLower_append, ToLower_numbers hnums]
    simp [ToLower, toLowerRune]
  have hbk : IsBookPart (ToLower n ++ [' ', 'c', 'h', ' ']) nums :=
    isBookPart_word hne hlo (by intro c hc; revert c; decide) hrest
  obtain ⟨ht1t, ht2t⟩ := TrimSpace_numbers_tokens hnums
  have htr : TrimSpace (ToLower n ++ [' ', 'c', 'h', ' ']) = ToLower n ++ [' ', 'c', 'h'] := by
    have := TrimSpace_pad [] (ToLower n ++ [' ', 'c', 'h']) [' '] (allP_nil _)
      allP_isSpace_blank (by simp)
      (by
        obtain ⟨x, t, hxt⟩ := List.exists_cons_of_ne_nil hne
        rw [hxt]
        exact headNot_cons (isSpace_false_lower hlo x (by rw [hxt]; exact List.mem_cons_self _ _)))
      (by
        intro c hc
        have e : (ToLower n ++ [' ', 'c', 'h']).getLast? = some 'h' := by simp
        rw [e] at hc
        cases hc
        decide)
    simpa using this
  rw [parseReference_of _ _ _ t1 t2 hlow hbk (first_numbers_end nums t1 t2 hnums)]
  rw [htr, ht1t, ht2t, keywordStep_numbered _ ht1, chStep_cut _ _ _ hne hlo]
  congr 1
  have hv1 : vStep { book := ToLower n, chapter_or_verse := t1, verse := t2 } =
      { book := ToLower n, chapter_or_verse := t1, verse := t2 } := by
    unfold vStep
    simp only [hv, Bool.false_eq_true, if_false]
  have hw : verseWordStep { book := ToLower n, chapter_or_verse := t1, verse := t2 } =
      { book := ToLower n, chapter_or_verse := t1, verse := t2 } := by
    unfold verseWordStep
    simp only [hverse, hverses, Bool.false_eq_true, or_self, if_false]
  rw [hv1, hw]
  simp

/-! ### The normal forms of a single verse -/

theorem isSeparator_of (w1 : Str) (x : Char) (w2 : Str) (h1 : AllP isReSpace w1)
    (h2 : AllP isSepChar (x :: w2)) (hx : isReSpace x = false) : IsSeparator w1 (x :: w2) :=
  ⟨h1, by simp, h2, headNot_cons hx⟩

/-- Every normal form is a well-formed clause without separator or hyphen. -/
theorem verseForms_shape {n C V : Str} (hn : plainName n = true) (hC : Digits C)
    (hV : Digits V) : ∀ nf ∈ verseForms C V,
      WellFormed (.name n :: nf) ∧ (Tok.name n :: nf).getLast? ≠ some .sp ∧
        NoSepTok (.name n :: nf) ∧ ∀ t ∈ Tok.name n :: nf, t ≠ Tok.hyphen := by
  have hv1 : safeWord ['v'] = true := by decide
  have hv2 : safeWord ['v', 'v'] = true := by decide
  have hch : safeWord ['c', 'h'] = true := by decide
  intro nf hnf
  simp only [verseForms, List.mem_cons, List.mem_singleton, List.not_mem_nil, or_false] at hnf
  rcases hnf with h | h | h | h | h | h | h | h | h <;> subst h <;>
    simp [WellFormed, Follows, NoSepTok, plainName_safeWord hn, hv1, hv2, hch, hC.1, hC.2, hV.1,
      hV.2]

/-- Every normal form is read by `parseReference` as the name, the chapter
and the verse. -/
theorem verseForms_parse {n C V : Str} (hn : plainName n = true) (hC : Digits C)
    (hV : Digits V) : ∀ nf ∈ verseForms C V,
      parseReference (render (.name n :: nf)) =
        .ok { book := ToLower n, chapter_or_verse := C, verse := V } := by
  have hb := plainName_bookName hn
  have hsp1 : AllP isReSpace [' '] := allP_of_all (by decide)
  have hsp2 : AllP isReSpace [' ', ' '] := allP_of_all (by decide)
  intro nf hnf
  simp only [verseForms, List.mem_cons, List.mem_singleton, List.not_mem_nil, or_false] at hnf
  rcases hnf with h | h | h | h | h | h | h | h | h <;> subst h
  · have := parseReference_sep n C V [] [':'] hb hC hV
      (isSeparator_of _ _ _ (allP_nil _) (allP_of_all (by decide)) (by decide))
    simpa [render, Tok.text] using this
  · have := parseReference_sep n C V [' '] ['v', ' '] hb hC hV
      (isSeparator_of _ _ _ hsp1 (allP_of_all (by decide)) (by decide))
    simpa [render, Tok.text] using this
  · have := parseReference_sep n C V [] [':', ' ', 'v', ' '] hb hC hV
      (isSeparator_of _ _ _ (allP_nil _) (allP_of_all (by decide)) (by decide))
    simpa [render, Tok.text] using this
  · have := parseReference_sep n C V [' '] ['v', 'v', ' '] hb hC hV
      (isSeparator_of _ _ _ hsp1 (allP_of_all (by decide)) (by decide))
    simpa [render, Tok.text] using this
  · have := parseReference_ch n _ C V hn
      (isNumbers_sep hC hV (isSeparator_of [' '] 'v' [' '] hsp1 (allP_of_all (by decide)) (by decide))) hC.1
      (headNot_notDigit_digits hC _)
    simpa [render, Tok.text] using this
  · have := parseReference_ch n _ C V hn
      (isNumbers_sep hC hV (isSeparator_of [' '] 'v' ['v', ' '] hsp1 (allP_of_all (by decide)) (by decide)))
      hC.1 (headNot_notDigit_digits hC _)
    simpa [render, Tok.text] using this
  · have := parseReference_sep n C V [' ', ' '] ['v', ' ', ' '] hb hC hV
      (isSeparator_of _ _ _ hsp2 (allP_of_all (by decide)) (by decide))
    simpa [render, Tok.text] using this
  · have := parseReference_sep n C V [] ['.'] hb hC hV
      (isSeparator_of _ _ _ (allP_nil _) (allP_of_all (by decide)) (by decide))
    simpa [render, Tok.text] using this
  · have := parseReference_blank n C V hb hC hV
    simpa [render, Tok.text] using this

/-- A text that is normalised to one of the normal forms of chapter `c` and
verse `v` after the name `n` is read as that single verse. -/
theorem Parse_verse_form (p : BiblePassageParser) (B : Book) (n : Str) (c v : Int)
    (f : BibleReference) (hsep : p.separators = defaultSeparators) (hn : plainName n = true)
    (hbook : p.getBookFromAbbreviation n = .ok B)
    (hname : p.getBookFromAbbreviation B.Name = .ok B)
    (hc : 1 ≤ c) (hc2 : c < 2 ^ 63) (hv : 1 ≤ v) (hv2 : v < 2 ^ 63)
    (hfrom : NewBibleReference B c v [] = .ok f) (src nf : List Tok)
    (hnf : nf ∈ verseForms (fmtInt c) (fmtInt v))
    (hnorm : normalise (render (.name n :: src)) = render (.name n :: nf)) :
    p.Parse (render (.name n :: src)) = .ret (some [NewBiblePassage f f], none) := by
  have hC := @digits_fmtInt c (by omega)
  have hV := @digits_fmtInt v (by omega)
  obtain ⟨hwf, hlast, hns, hnh⟩ := verseForms_shape hn hC hV nf hnf
  exact Parse_spelling p B n c v f src nf hsep hn hbook hname hc hc2 hv hv2 hfrom hnorm hwf hlast
    hns hnh (verseForms_parse hn hC hV nf hnf)

/-! ### The spellings of a single verse -/

/-- A normal form is left alone by the normaliser. -/
theorem verseForms_fixed {n C V : Str} (hn : plainName n = true) (hC : Digits C)
    (hV : Digits V) (nf : List Tok) (hnf : nf ∈ verseForms C V) :
    normalise (render (.name n :: nf)) = render (.name n :: nf) :=
  normalise_id _ (allSafe_named n nf (verseForms_shape hn hC hV nf hnf).1)

/-- Every spelling is the text of a token list that is normalised to one of
the normal forms. -/
theorem verseSpellings_normal {n C V : Str} (hn : plainName n = true) (hC : Digits C)
    (hV : Digits V) : ∀ s ∈ verseSpellings n C V, ∃ src nf, s = render (.name n :: src) ∧
      nf ∈ verseForms C V ∧
      normalise (render (.name n :: src)) = render (.name n :: nf) := by
  have mv : IsMark "v".toList := Or.inl rfl
  have mvv : IsMark "vv".toList := Or.inr rfl
  obtain ⟨g1, g2, g3⟩ := normalise_chapter_verse n C V hn hC hV
  intro s hs
  simp only [verseSpellings, List.mem_cons, List.mem_singleton, List.not_mem_nil, or_false] at hs
  rcases hs with h | h | h | h | h | h | h | h | h | h | h | h | h | h | h <;> subst h
  · exact ⟨[.sp, .num C, .colon, .num V], _, by simp [render, Tok.text],
      by simp [verseForms], verseForms_fixed hn hC hV _ (by simp [verseForms])⟩
  · exact ⟨[.sp, .num C, .name "v".toList, .num V], _, by simp [render, Tok.text],
      by simp [verseForms], normalise_CwV n _ C V hn mv hC hV⟩
  · exact ⟨[.sp, .num C, .colon, .sp, .name "v".toList, .num V], _, by simp [render, Tok.text],
      by simp [verseForms], normalise_C_colon_vV n C V hn hC hV⟩
  · exact ⟨[.sp, .num C, .sp, .name "v".toList, .num V], _, by simp [render, Tok.text],
      by simp [verseForms], normalise_C_wV n _ C V hn mv hC hV⟩
  · exact ⟨[.sp, .num C, .name "vv".toList, .num V], _, by simp [render, Tok.text],
      by simp [verseForms], normalise_CwV n _ C V hn mvv hC hV⟩
  · exact ⟨[.sp, .num C, .sp, .name "vv".toList, .num V], _, by simp [render, Tok.text],
      by simp [verseForms], normalise_C_wV n _ C V hn mvv hC hV⟩
  · exact ⟨[.sp, .name "c".toList, .num C, .name "v".toList, .num V], _,
      by simp [render, Tok.text], by simp [verseForms], normalise_cCvV n C V hn hC hV⟩
  · exact ⟨[.sp, .name "ch".toList, .num C, .name "v".toList, .num V], _,
      by simp [render, Tok.text], by simp [verseForms], normalise_chCwV n _ C V hn mv hC hV⟩
  · exact ⟨[.sp, .name "ch".toList, .num C, .name "vv".toList, .num V], _,
      by simp [render, Tok.text], by simp [verseForms], normalise_chCwV n _ C V hn mvv hC hV⟩
  · exact ⟨[.sp, .name "ch".toList, .num C, .sp, .name "v".toList, .num V], _,
      by simp [render, Tok.text], by simp [verseForms], normalise_chC_vV n C V hn hC hV⟩
  · exact ⟨[.sp, .name "chapter".toList, .num C, .name "verse".toList, .num V], _,
      by simp [render, Tok.text], by simp [verseForms], g1⟩
  · exact ⟨[.sp, .name "chapter".toList, .num C, .sp, .name "verse".toList, .num V], _,
      by simp [render, Tok.text], by simp [verseForms], g2⟩
  · exact ⟨[.sp, .name "chapter".toList, .sp, .num C, .sp, .name "verse".toList, .sp, .num V], _,
      by simp [render, Tok.text], by simp [verseForms], g3⟩
  · exact ⟨[.sp, .num C, .punct '.', .num V], _, by simp [render, Tok.text],
      by simp [verseForms], verseForms_fixed hn hC hV _ (by simp [verseForms])⟩
  · exact ⟨[.sp, .num C, .sp, .num V], _, by simp [render, Tok.text],
      by simp [verseForms], verseForms_fixed hn hC hV _ (by simp [verseForms])⟩

/-- Every spelling of chapter `c` and verse `v` after the name `n` is read as
that single verse. -/
theorem Parse_verseSpellings (p : BiblePassageParser) (B : Book) (n : Str) (c v : Int)
    (f : BibleReference) (hsep : p.separators = defaultSeparators) (hn : plainName n = true)
    (hbook : p.getBookFromAbbreviation n = .ok B)
    (hname : p.getBookFromAbbreviation B.Name = .ok B)
    (hc : 1 ≤ c) (hc2 : c < 2 ^ 63) (hv : 1 ≤ v) (hv2 : v < 2 ^ 63)
    (hfrom : NewBibleReference B c v [] = .ok f) :
    ∀ s ∈ verseSpellings n (fmtInt c) (fmtInt v),
      p.Parse s = .ret (some [NewBiblePassage f f], none) := by
  intro s hs
  obtain ⟨src, nf, hsrc, hnf, hnorm⟩ :=
    verseSpellings_normal hn (@digits_fmtInt c (by omega)) (@digits_fmtInt v (by omega)) s hs
  rw [hsrc]
  exact Parse_verse_form p B n c v f hsep hn hbook hname hc hc2 hv hv2 hfrom src nf hnf hnorm

/-! ### A verse marked by `v` after the name -/

theorem hasSuffix_last {s suf : Str} (h : HasSuffix s suf = true) (hne : suf ≠ []) :
    s.getLast? = suf.getLast? := by
  have hs : suf <:+ s := by simpa [HasSuffix] using h
  obtain ⟨t, rfl⟩ := hs
  exact List.getLast?_append_of_ne_nil _ hne

theorem chStep_id (m : Matches) (h : HasSuffix m.book " ch".toList = false) : chStep m = m := by
  unfold chStep
  simp only [h, Bool.false_eq_true, and_false, if_false]

theorem verseWordStep_id (m : Matches) (h1 : HasSuffix m.book " verse".toList = false)
    (h2 : HasSuffix m.book " verses".toList = false) : verseWordStep m = m := by
  unfold verseWordStep
  simp only [h1, h2, Bool.false_eq_true, or_self, if_false]

theorem vStep_cut (L a cov : Str) (hne : L ≠ [])
    (h : ∀ c ∈ L, 97 ≤ c.toNat ∧ c.toNat ≤ 122) (ha : TrimSpace (L ++ a) = L) :
    vStep { book := L ++ (a ++ [' ', 'v']), chapter_or_verse := cov, verse := [] } =
      { book := L, chapter_or_verse := ['1'], verse := cov ++ explicitMarker } := by
  have h2 : HasSuffix (L ++ (a ++ [' ', 'v'])) " v".toList = true := by
    have : [' ', 'v'] <:+ L ++ (a ++ [' ', 'v']) := ⟨L ++ a, by simp⟩
    simpa [HasSuffix] using this
  have h3 : (L ++ (a ++ [' ', 'v'])).take ((L ++ (a ++ [' ', 'v'])).length - 2) = L ++ a := by
    rw [← List.append_assoc]
    exact take_length_sub_append (L ++ a) [' ', 'v']
  unfold vStep
  simp only [h2, h3, ha, hasLetter_lower hne h, if_true, markExplicitVerse]

/-- A name, the word `v` between blanks, and a number: the number is the
marked verse and the chapter is `1`. -/
theorem parseReference_v (n a b ds : Str) (hn : plainName n = true) (ha : AllP isReSpace a)
    (hb : AllP isReSpace b) (hds : Digits ds) :
    parseReference (n ++ (a ++ (" v".toList ++ (b ++ ds)))) =
      .ok { book := ToLower n, chapter_or_verse := ['1'], verse := ds ++ explicitMarker } := by
  obtain ⟨hne, hlo, hpart, htrim, hkw1, hkw2, hch, hv, hverse, hverses⟩ := plainName_reads hn
  have hv0 : AllP isReSpace [' '] := allP_of_all (by decide)
  have hlow : ToLower (n ++ (a ++ (" v".toList ++ (b ++ ds)))) =
      (ToLower n ++ (a ++ ([' ', 'v'] ++ b))) ++ ds := by
    rw [ToLower_append, ToLower_append, ToLower_append, ToLower_append, ToLower_reSpace ha,
      ToLower_reSpace hb, ToLower_digits hds.2]
    simp [ToLower, toLowerRune]
  have hnd : AllP isNotDigit (a ++ ([' ', 'v'] ++ b)) := by
    intro c hc
    rw [isNotDigit, Bool.not_eq_true']
    rcases List.mem_append.1 hc with h1 | h1
    · exact isDigit_false_of_isReSpace (ha c h1)
    · rcases List.mem_append.1 h1 with h2 | h2
      · simp only [List.mem_cons, List.mem_singleton, List.not_mem_nil, or_false] at h2
        rcases h2 with h3 | h3 <;> (rw [h3]; decide)
      · exact isDigit_false_of_isReSpace (hb c h2)
  have hbk : IsBookPart (ToLower n ++ (a ++ ([' ', 'v'] ++ b))) ds := by
    have := headNot_notDigit_digits hds []
    rw [List.append_nil] at this
    exact isBookPart_word hne hlo hnd this
  have hnums : IsNumbers ds ds [] := Or.inr (Or.inl ⟨isToken_digits hds, rfl, rfl⟩)
  have hlast : (ToLower n ++ (a ++ [' ', 'v'])).getLast? = some 'v' := by
    rw [← List.append_assoc]
    simp
  have htr : TrimSpace (ToLower n ++ (a ++ ([' ', 'v'] ++ b))) = ToLower n ++ (a ++ [' ', 'v']) := by
    have := TrimSpace_pad [] (ToLower n ++ (a ++ [' ', 'v'])) b (allP_nil _)
      (fun c hc => isSpace_of_isReSpace (hb c hc)) (by simp [hne])
      (by
        obtain ⟨x, t, hxt⟩ := List.exists_cons_of_ne_nil hne
        rw [hxt]
        exact headNot_cons (isSpace_false_lower hlo x (by rw [hxt]; exact List.mem_cons_self _ _)))
      (by
        intro c hc
        rw [hlast] at hc
        cases hc
        decide)
    simpa using this
  have hs : HasSuffix (ToLower n ++ (a ++ [' ', 'v'])) " ch".toList = false := by
    cases hx : HasSuffix (ToLower n ++ (a ++ [' ', 'v'])) " ch".toList with
    | false => rfl
    | true =>
      have := hasSuffix_last hx (by decide)
      rw [hlast] at this
      revert this
      decide
  have hlen : byteLen (ToLower n ++ (a ++ [' ', 'v'])) ≥ 2 := by
    simp only [byteLen, List.map_append, List.sum_append]
    have : ([' ', 'v'].map Char.utf8Size).sum = 2 := by decide
    omega
  rw [parseReference_of _ _ _ ds [] hlow hbk (first_numbers_end ds ds [] hnums)]
  rw [htr, TrimSpace_digits hds, TrimSpace_nil, keywordStep_numbered _ hds.1, chStep_id _ hs,
    if_pos hlen, vStep_cut _ _ _ hne hlo (htrim a ha), verseWordStep_id _ hverse hverses]

/-! ### The start half with a marked verse -/

theorem hasSuffix_append (a b : Str) : HasSuffix (a ++ b) b = true := by
  simp [HasSuffix]

theorem trimSuffix_append (a b : Str) : TrimSuffix (a ++ b) b = a := by
  unfold TrimSuffix
  rw [hasSuffix_append, if_pos rfl]
  simp

/-- The start half naming a book of one chapter and a marked verse. -/
theorem parseStartReference_marked (p : BiblePassageParser) (start n lb : Str)
    (lc lv : Option Int) (B : Book) (k : Int) (ds : Str) (r : BibleReference)
    (hn : bookName n = true) (hone : B.ChaptersInBook = 1) (hk : 1 ≤ k)
    (hk1 : k ≤ B.versesOrZero 1) (hk2 : k < 2 ^ 63) (hds : IsNumeral ds k.toNat)
    (hparse : parseReference start =
      .ok { book := ToLower n, chapter_or_verse := ['1'], verse := ds ++ explicitMarker })
    (hbook : p.getBookFromAbbreviation n = .ok B)
    (hfrom : NewBibleReference B 1 k [] = .ok r) :
    p.parseStartReference start lb lc lv =
      .ok { fromRef := r, startVerse := some k, lastBook := B.Name, lastChapter := none,
            lastVerse := some k, lastFragment := [] } := by
  have hne : ToLower n ≠ [] := bookName_lower_ne_nil hn
  have hp1 : parseNumFragment ['1'] = (1, []) := by decide
  have hpk : parseNumFragment ds = (k, []) := by
    have := @parseNumFragment_numeral ds [] k.toNat hds (by omega) (Or.inl rfl)
    rw [List.append_nil, Int.toNat_of_nonneg (by omega)] at this
    exact this
  have hmax : (1 : Int) ≤ B.versesOrZero 1 := le_trans hk hk1
  have hkpos : k > 0 := by omega
  have h1e : (['1'] : Str) ≠ ['e', 'n', 'd'] := by decide
  unfold BiblePassageParser.parseStartReference
  simp only [hparse, hne, ne_eq, not_false_eq_true, if_true, getBook_lower p hn, hbook,
    hasSuffix_append, trimSuffix_append]
  simp [classifyChapterOrVerse, classifyVerse, hone, hp1, hpk, hmax, hds.1, h1e,
    StartVars.setFragment, hkpos, hfrom]

/-- A clause without hyphen that `parseReference` reads as a book of one
chapter and a marked verse is the single verse. -/
theorem parseSection_marked (p : BiblePassageParser) (B : Book) (n text : Str) (k : Int)
    (ds : Str) (f : BibleReference) (hn : bookName n = true)
    (hbook : p.getBookFromAbbreviation n = .ok B)
    (hname : p.getBookFromAbbreviation B.Name = .ok B)
    (hone : B.ChaptersInBook = 1) (hk : 1 ≤ k) (hk1 : k ≤ B.versesOrZero 1) (hk2 : k < 2 ^ 63)
    (hds : IsNumeral ds k.toNat)
    (hfrom : NewBibleReference B 1 k [] = .ok f) (hh : '-' ∉ text)
    (hparse : parseReference text =
      .ok { book := ToLower n, chapter_or_verse := ['1'], verse := ds ++ explicitMarker }) :
    returnOf (p.parseSection initialState text) = .ret (some [NewBiblePassage f f], none) := by
  unfold BiblePassageParser.parseSection
  rw [Split_hyphen_none _ hh]
  simp only [initialState]
  rw [parseStartReference_marked p _ n [] none none B k ds f hn hone hk hk1 hk2 hds hparse hbook
    hfrom]
  simp only [BiblePassageParser.singleReference, hname, ne_eq, reduceCtorEq, not_false_eq_true,
    if_true]
  rw [finishSection_ok _ _ _ _ (le_refl _)]
  rfl

/-- The verse `k` of a book of one chapter, written `ds`, after the name and
the word `v` or `verse`. -/
theorem Parse_marked_verse (p : BiblePassageParser) (B : Book) (n : Str) (k : Int) (ds : Str)
    (f : BibleReference) (hsep : p.separators = defaultSeparators) (hn : plainName n = true)
    (hbook : p.getBookFromAbbreviation n = .ok B)
    (hname : p.getBookFromAbbreviation B.Name = .ok B)
    (hone : B.ChaptersInBook = 1) (hk : 1 ≤ k) (hk1 : k ≤ B.versesOrZero 1) (hk2 : k < 2 ^ 63)
    (hds : IsNumeral ds k.toNat) (hfrom : NewBibleReference B 1 k [] = .ok f) :
    p.Parse (n ++ " v ".toList ++ ds) = .ret (some [NewBiblePassage f f], none) ∧
      p.Parse (n ++ " verse ".toList ++ ds) = .ret (some [NewBiblePassage f f], none) := by
  have hD : Digits ds := ⟨hds.1, hds.2.1⟩
  have hb := plainName_bookName hn
  have hv1 : safeWord ['v'] = true := by decide
  have hsp1 : AllP isReSpace [' '] := allP_of_all (by decide)
  have hsp2 : AllP isReSpace [' ', ' '] := allP_of_all (by decide)
  have hwf1 : WellFormed [.name n, .sp, .name "v".toList, .sp, .num ds] := by
    simp [WellFormed, Follows, plainName_safeWord hn, hv1, hD.1, hD.2]
  have hwf2 : WellFormed [.name n, .sp, .sp, .name "v".toList, .sp, .sp, .num ds] := by
    simp [WellFormed, Follows, plainName_safeWord hn, hv1, hD.1, hD.2]
  have e1 : n ++ " v ".toList ++ ds = render [.name n, .sp, .name "v".toList, .sp, .num ds] := by
    simp [render, Tok.text]
  have e2 : n ++ " verse ".toList ++ ds =
      render [.name n, .sp, .name "verse".toList, .sp, .num ds] := by
    simp [render, Tok.text]
  have p1 : parseReference (render [.name n, .sp, .name "v".toList, .sp, .num ds]) =
      .ok { book := ToLower n, chapter_or_verse := ['1'], verse := ds ++ explicitMarker } := by
    have := parseReference_v n [] [' '] ds hn (allP_nil _) hsp1 hD
    simpa [render, Tok.text] using this
  have p2 : parseReference (render [.name n, .sp, .sp, .name "v".toList, .sp, .sp, .num ds]) =
      .ok { book := ToLower n, chapter_or_verse := ['1'], verse := ds ++ explicitMarker } := by
    have := parseReference_v n [' '] [' ', ' '] ds hn hsp1 hsp2 hD
    simpa [render, Tok.text] using this
  constructor
  · have hP := Parse_normalised p (render [.name n, .sp, .name "v".toList, .sp, .num ds]) n _
      hsep (TrimSpace_named_ne_nil hn _) (normalise_id _ (allSafe_named n _ hwf1)) hwf1
      (by simp) (by simp [NoSepTok])
    rw [e1, hP]
    exact parseSection_marked p B n _ k ds f hb hbook hname hone hk hk1 hk2 hds hfrom
      (noHyphen_render _ hwf1 (by simp)) p1
  · have hP := Parse_normalised p (render [.name n, .sp, .name "verse".toList, .sp, .num ds]) n _
      hsep (TrimSpace_named_ne_nil hn _) (normalise_verse n ds hn hD) hwf2 (by simp)
      (by simp [NoSepTok])
    rw [e2, hP]
    exact parseSection_marked p B n _ k ds f hb hbook hname hone hk hk1 hk2 hds hfrom
      (noHyphen_render _ hwf2 (by simp)) p2

/-! ### The shapes of `String` -/

/-- `String` within one book. -/
theorem String_same_book (P : BiblePassage) (h : P.To.Book = P.From.Book) :
    P.String = sameBookShape P.From P.To := by
  unfold BiblePassage.String sameBookShape
  simp only [h, true_and, ne_eq, not_true_eq_false, if_false]
  by_cases h1 : P.From.Chapter = 1 ∧ P.From.Verse = 1 ∧
      P.To.Chapter = P.From.Book.ChaptersInBook ∧
      P.To.Verse = P.From.Book.versesOrZero P.From.Book.ChaptersInBook
  · have h1' : P.From.Chapter = 1 ∧ P.From.Verse = 1 ∧
        P.From.Book.ChaptersInBook = P.To.Chapter ∧
        P.From.Book.versesOrZero P.To.Chapter = P.To.Verse :=
      ⟨h1.1, h1.2.1, h1.2.2.1.symm, by rw [h1.2.2.1]; exact h1.2.2.2.symm⟩
    rw [if_pos h1', if_pos h1]
  · have h1' : ¬(P.From.Chapter = 1 ∧ P.From.Verse = 1 ∧
        P.From.Book.ChaptersInBook = P.To.Chapter ∧
        P.From.Book.versesOrZero P.To.Chapter = P.To.Verse) := by
      rintro ⟨a, b, c, d⟩
      exact h1 ⟨a, b, c.symm, by rw [c]; exact d.symm⟩
    rw [if_neg h1', if_neg h1]
    by_cases hc : P.To.Chapter = P.From.Chapter
    · simp only [hc, true_and, eq_comm (a := P.From.Book.versesOrZero P.From.Chapter),
        List.append_assoc]
    · have hc' : ¬P.From.Chapter = P.To.Chapter := fun e => hc e.symm
      simp only [hc, hc', false_and, if_false, eq_comm (a := P.From.Book.versesOrZero P.To.Chapter),
        List.append_assoc]

/-- `String` across two books: the cross-book shape when the chapter numbers
differ, and the shape of a range within one chapter, with the first book's
singular name, when they are equal. -/
theorem String_cross_book (P : BiblePassage) (h : P.From.Book ≠ P.To.Book) :
    P.String =
      if P.From.Chapter = P.To.Chapter then
        P.From.Book.SingularName ++ " ".toList ++ fmtInt P.From.Chapter ++ ":".toList ++
          fmtInt P.From.Verse ++ P.From.Fragment ++ "-".toList ++ fmtInt P.To.Verse ++
          P.To.Fragment
      else crossBookShape P.From P.To := by
  have h' : ¬P.To.Book = P.From.Book := fun e => h e.symm
  unfold BiblePassage.String crossBookShape
  simp only [h', false_and, if_false, ne_eq, h, not_false_eq_true, if_true, List.append_assoc]

/-! ### `parseReference` on a blank text -/

theorem toLowerRune_space {c : Char} (h : isSpace c = true) : toLowerRune c = c :=
  toLowerRune_id_of_not_upper (by have := (isSpace_iff c).1 h; omega)

theorem isNotDigit_of_isSpace {c : Char} (h : isSpace c = true) : isNotDigit c = true := by
  rw [isNotDigit_iff]
  have := (isSpace_iff c).1 h
  omega

theorem headNot_dropWhile (p : Char → Bool) (s : Str) : HeadNot p (s.dropWhile p) := by
  induction s with
  | nil => exact headNot_nil p
  | cons c t ih =>
    by_cases hc : p c = true
    · rw [List.dropWhile_cons_of_pos hc]; exact ih
    · rw [List.dropWhile_cons_of_neg hc]
      exact headNot_cons (by simpa using hc)

/-- The clause grammar matches every text of white space, the empty text
included, with its three groups empty: `parseReference` returns the empty
fields and no error. -/
theorem parseReference_blank_text (s : Str) (h : ∀ c ∈ s, isSpace c = true) :
    parseReference s = .ok { book := [], chapter_or_verse := [], verse := [] } := by
  have hsplit : s = s.takeWhile isReSpace ++ (s.dropWhile isReSpace ++ ([] ++ [])) := by
    simp
  have hws0 : AllP isReSpace (s.takeWhile isReSpace) := fun c hc => (List.mem_takeWhile_imp hc)
  have hsub : ∀ c ∈ s.dropWhile isReSpace, isSpace c = true := fun c hc =>
    h c ((List.dropWhile_sublist _).subset hc)
  have hbk : IsBookPart (s.dropWhile isReSpace) ([] ++ []) := by
    by_cases hnil : s.dropWhile isReSpace = []
    · rw [hnil]
      exact Or.inr (Or.inl ⟨rfl, Or.inl rfl, headNot_nil _⟩)
    · exact Or.inl ⟨hnil, fun c hc => isNotDigit_of_isSpace (hsub c hc), headNot_dropWhile _ _,
        headNot_nil _⟩
  have hm := matchAt_reference (s.takeWhile isReSpace) (s.dropWhile isReSpace) [] [] [] []
    hws0 hbk (Or.inl ⟨rfl, rfl, rfl⟩) (allP_nil _)
  rw [← hsplit] at hm
  obtain ⟨g1, g2, g3⟩ := caps_get_reference (s.dropWhile isReSpace) [] []
  have hlow : ToLower s = s := ToLower_id s fun c hc => toLowerRune_space (h c hc)
  unfold parseReference
  simp only [hlow, hm, g1, g2, g3, TrimSpace_eq_nil_of_forall_isSpace _ hsub, TrimSpace_nil]
  rw [postprocess_id _ ⟨by simp, by simp⟩ (by rfl) (by rfl) (by rfl) (by rfl)]

/-! ### Patterns that do not tell two characters apart -/

theorem starRests_map (m : Char → Char) (p : Char → Bool) (h : ∀ c, p (m c) = p c) :
    ∀ s : Str, starRests p (s.map m) = (starRests p s).map (List.map m) := by
  intro s
  induction s with
  | nil => rfl
  | cons c s ih =>
    rw [List.map_cons, starRests, starRests, h c]
    by_cases hc : p c = true
    · rw [if_pos hc, if_pos hc, ih]
      simp
    · rw [if_neg hc, if_neg hc]
      simp

theorem plusRests_map (m : Char → Char) (p : Char → Bool) (h : ∀ c, p (m c) = p c) :
    ∀ s : Str, plusRests p (s.map m) = (plusRests p s).map (List.map m) := by
  intro s
  cases s with
  | nil => rfl
  | cons c s =>
    rw [List.map_cons, plusRests, plusRests, h c]
    by_cases hc : p c = true
    · rw [if_pos hc, if_pos hc]
      exact starRests_map m p h s
    · rw [if_neg hc, if_neg hc]
      rfl

/-- The matches of an expression on a mapped text are the mapped matches. -/
theorem run_map (m : Char → Char) (full : Nat) :
    ∀ (rx : Rx), rx.Respects m → ∀ (s : Str) (caps : Caps),
      rx.run full (s.map m) (mapCaps m caps) =
        (rx.run full s caps).map fun r => (r.1.map m, mapCaps m r.2) := by
  intro rx
  induction rx with
  | eps => intro _ s caps; rfl
  | chr p =>
    intro h s caps
    cases s with
    | nil => rfl
    | cons c t =>
      have hc : p (m c) = p c := h c
      by_cases hp : p c = true
      · simp [Rx.run, hc, hp]
      · simp [Rx.run, hc, hp]
  | seq a b iha ihb =>
    intro h s caps
    rw [Rx.run, Rx.run, iha h.1, List.flatMap_map, List.map_flatMap]
    congr 1
    funext r
    exact ihb h.2 r.1 r.2
  | alt a b iha ihb =>
    intro h s caps
    rw [Rx.run, Rx.run, iha h.1, ihb h.2, List.map_append]
  | opt a iha =>
    intro h s caps
    rw [Rx.run, Rx.run, iha h, List.map_append]
    rfl
  | star p =>
    intro h s caps
    rw [Rx.run, Rx.run, starRests_map m p h]
    simp
  | plus p =>
    intro h s caps
    rw [Rx.run, Rx.run, plusRests_map m p h]
    simp
  | cap i a iha =>
    intro h s caps
    rw [Rx.run, Rx.run, iha h]
    simp [mapCaps, List.map_take]
  | bot =>
    intro _ s caps
    by_cases hl : s.length = full
    · simp [Rx.run, hl]
    · simp [Rx.run, hl]
  | eot =>
    intro _ s caps
    cases s with
    | nil => rfl
    | cons c t => simp [Rx.run]

theorem matchAt_map (m : Char → Char) (full : Nat) (rx : Rx) (h : rx.Respects m) (s : Str) :
    rx.matchAt full (s.map m) =
      (rx.matchAt full s).map fun r => (r.1.map m, mapCaps m r.2) := by
  have := run_map m full rx h s []
  unfold Rx.matchAt
  rw [show mapCaps m [] = [] from rfl] at this
  rw [this, List.head?_map]

theorem caps_get_map (m : Char → Char) (i : Nat) :
    ∀ caps : Caps, (mapCaps m caps).get i = (caps.get i).map m := by
  intro caps
  induction caps with
  | nil => rfl
  | cons e caps ih =>
    unfold Caps.get at ih ⊢
    rw [mapCaps, List.map_cons, List.lookup, List.lookup]
    by_cases he : (i == e.1) = true
    · simp [he]
    · simp only [he]
      exact ih

/-- The replacement text under a map that leaves the template alone. -/
theorem expandAux_map (m : Char → Char) (caps : Caps) :
    ∀ (t : Str), (∀ c ∈ t, m c = c) → ∀ skip : Nat,
      expandAux (mapCaps m caps) skip t = (expandAux caps skip t).map m := by
  intro t
  induction t with
  | nil => intro _ skip; cases skip <;> rfl
  | cons c t ih =>
    intro h skip
    have ht : ∀ x ∈ t, m x = x := fun x hx => h x (List.mem_cons_of_mem _ hx)
    have hc : m c = c := h c (List.mem_cons_self _ _)
    cases skip with
    | succ k =>
      rw [expandAux, expandAux]
      exact ih ht k
    | zero =>
      rw [expandAux, expandAux]
      by_cases hd : c = '$'
      · rw [if_pos hd, if_pos hd]
        have hdm : m '$' = '$' := by rw [← hd]; exact hc
        by_cases h2 : t.head? = some '$'
        · rw [if_pos h2, if_pos h2, List.map_cons, hdm, ih ht 1]
        · rw [if_neg h2, if_neg h2]
          by_cases hn : t.takeWhile isNameChar = []
          · simp only [hn, if_true, List.map_cons, hdm, ih ht 0]
          · simp only [hn, if_false, List.map_append, ih ht]
            congr 1
            cases templateIndex (t.takeWhile isNameChar) with
            | none => rfl
            | some i => exact caps_get_map m i caps
      · rw [if_neg hd, if_neg hd, List.map_cons, hc, ih ht 0]

theorem expand_map (m : Char → Char) (template : Str) (h : ∀ c ∈ template, m c = c)
    (caps : Caps) : expand template (mapCaps m caps) = (expand template caps).map m :=
  expandAux_map m caps template h 0

/-- A substitution whose pattern does not tell a character from its image and
whose template the map leaves alone commutes with the map. -/
theorem replaceRxAux_map (m : Char → Char) (rx : Rx) (template : Str) (full : Nat)
    (hrx : rx.Respects m) (ht : ∀ c ∈ template, m c = c) :
    ∀ (s : Str) (skip : Nat),
      replaceRxAux rx template full skip (s.map m) =
        (replaceRxAux rx template full skip s).map m := by
  intro s
  induction s with
  | nil => intro skip; cases skip <;> rfl
  | cons c s ih =>
    intro skip
    cases skip with
    | succ k =>
      rw [List.map_cons, replaceRxAux, replaceRxAux]
      exact ih k
    | zero =>
      have hm := matchAt_map m full rx hrx (c :: s)
      rw [List.map_cons] at hm
      rw [List.map_cons, replaceRxAux, replaceRxAux, hm]
      cases hr : rx.matchAt full (c :: s) with
      | none =>
        simp only [Option.map_none', List.map_cons, ih 0]
      | some r =>
        obtain ⟨rest, caps⟩ := r
        simp only [Option.map_some', List.length_map]
        by_cases hz : s.length + 1 - rest.length = 0
        · simp only [hz, if_true, List.map_cons, ih 0]
        · simp only [hz, if_false, List.map_append, ih]
          congr 1
          have := expand_map m template ht ((0, (c :: s).take (s.length + 1 - rest.length)) :: caps)
          rw [← this]
          simp [mapCaps, List.map_take]

theorem ReplaceAllString_map (m : Char → Char) (rx : Rx) (template : Str)
    (hrx : rx.Respects m) (ht : ∀ c ∈ template, m c = c) (s : Str) :
    ReplaceAllString rx (s.map m) template = (ReplaceAllString rx s template).map m := by
  unfold ReplaceAllString
  rw [List.length_map]
  exact replaceRxAux_map m rx template s.length hrx ht s 0

theorem TrimSpace_map (m : Char → Char) (h : ∀ c, isSpace (m c) = isSpace c) (s : Str) :
    TrimSpace (s.map m) = (TrimSpace s).map m := by
  have hf : isSpace ∘ m = isSpace := funext h
  unfold TrimSpace TrimRightFunc
  rw [List.dropWhile_map, hf, ← List.map_reverse, List.dropWhile_map, hf, List.map_reverse]

/-! ### En dash and em dash -/

theorem matchAt_dash (full : Nat) (c : Char) (s : Str) :
    rxDash.matchAt full (c :: s) =
      if c.toNat = 0x2013 ∨ c.toNat = 0x2014 then some (s, [(1, [c])]) else none := by
  by_cases h1 : c.toNat = 0x2014
  · simp [Rx.matchAt, Rx.run, rxDash, h1]
  · by_cases h2 : c.toNat = 0x2013
    · simp [Rx.matchAt, Rx.run, rxDash, h1, h2]
    · simp [Rx.matchAt, Rx.run, rxDash, h1, h2]

/-- Pattern 3 replaces each dash by the hyphen and nothing else. -/
theorem replaceRxAux_dash (full : Nat) :
    ∀ s : Str, replaceRxAux rxDash "-".toList full 0 s = asciiDashes s := by
  intro s
  induction s with
  | nil => rfl
  | cons c s ih =>
    rw [replaceRxAux, matchAt_dash]
    by_cases h : c.toNat = 0x2013 ∨ c.toNat = 0x2014
    · have e1 : s.length + 1 - s.length = 1 := by omega
      have e2 : s.length - s.length = 0 := by omega
      simp only [h, if_true, e1, e2, one_ne_zero, if_false, ih]
      simp [expand, expandAux, asciiDashes, dashToHyphen, h]
    · simp only [h, if_false, ih]
      simp [asciiDashes, dashToHyphen, h]

theorem rule3_eq (s : Str) : ReplaceAllString rxDash s "-".toList = asciiDashes s :=
  replaceRxAux_dash s.length s

theorem dashToHyphen_class {p : Char → Bool} (hh : p '-' = false)
    (hd : ∀ c : Char, c.toNat = 0x2013 ∨ c.toNat = 0x2014 → p c = false) :
    ∀ c, p (dashToHyphen c) = p c := by
  intro c
  unfold dashToHyphen
  by_cases h : c.toNat = 0x2013 ∨ c.toNat = 0x2014
  · rw [if_pos h, hh, hd c h]
  · rw [if_neg h]

theorem isFoldLetter_dash (c : Char) (h : c.toNat = 0x2013 ∨ c.toNat = 0x2014) :
    isFoldLetter c = false := by
  rw [bool_eq_false_iff_not (isFoldLetter_iff c)]
  omega

theorem isDigit_dash (c : Char) (h : c.toNat = 0x2013 ∨ c.toNat = 0x2014) :
    isDigit c = false := by
  rw [bool_eq_false_iff_not (isDigit_iff c)]
  omega

theorem isFoldDtoZ_dash (c : Char) (h : c.toNat = 0x2013 ∨ c.toNat = 0x2014) :
    isFoldDtoZ c = false := by
  rw [bool_eq_false_iff_not (isFoldDtoZ_iff c)]
  omega

theorem isSpace_dash (c : Char) (h : c.toNat = 0x2013 ∨ c.toNat = 0x2014) :
    isSpace c = false := by
  rw [bool_eq_false_iff_not (isSpace_iff c)]
  omega

theorem respects_dash :
    rxLetterDigit.Respects dashToHyphen ∧ rxDigitLetter.Respects dashToHyphen :=
  ⟨⟨dashToHyphen_class (by decide) isFoldLetter_dash, dashToHyphen_class (by decide) isDigit_dash⟩,
    ⟨dashToHyphen_class (by decide) isDigit_dash, dashToHyphen_class (by decide) isFoldDtoZ_dash⟩⟩

theorem dashToHyphen_idem (c : Char) : dashToHyphen (dashToHyphen c) = dashToHyphen c := by
  unfold dashToHyphen
  by_cases h : c.toNat = 0x2013 ∨ c.toNat = 0x2014
  · rw [if_pos h]; rfl
  · rw [if_neg h, if_neg h]

theorem asciiDashes_idem (s : Str) : asciiDashes (asciiDashes s) = asciiDashes s := by
  unfold asciiDashes
  rw [List.map_map]
  exact List.map_congr_left fun c _ => dashToHyphen_idem c

/-- The first three substitutions give the same text with the dashes replaced
beforehand. -/
theorem dash_rules (s : Str) :
    ReplaceAllString rxDash (ReplaceAllString rxDigitLetter
        (ReplaceAllString rxLetterDigit (asciiDashes s) "$1 $2".toList) "$1 $2".toList)
        "-".toList =
      ReplaceAllString rxDash (ReplaceAllString rxDigitLetter
        (ReplaceAllString rxLetterDigit s "$1 $2".toList) "$1 $2".toList) "-".toList := by
  have ht : ∀ c ∈ "$1 $2".toList, dashToHyphen c = c := by decide
  unfold asciiDashes
  rw [ReplaceAllString_map _ _ _ respects_dash.1 ht, ReplaceAllString_map _ _ _ respects_dash.2 ht,
    rule3_eq, rule3_eq]
  exact asciiDashes_idem _

theorem normalise_asciiDashes (s : Str) : normalise (asciiDashes s) = normalise s := by
  have key : ∀ x : Str, normalise x =
      (substitutions.drop 3).foldl (fun acc sub => ReplaceAllString sub.1 acc sub.2)
        (ReplaceAllString rxDash (ReplaceAllString rxDigitLetter
          (ReplaceAllString rxLetterDigit x "$1 $2".toList) "$1 $2".toList) "-".toList) :=
    fun _ => rfl
  rw [key, key, dash_rules]

theorem TrimSpace_asciiDashes (s : Str) : TrimSpace (asciiDashes s) = asciiDashes (TrimSpace s) :=
  TrimSpace_map dashToHyphen (dashToHyphen_class (by decide) isSpace_dash) s

/-- `Parse` reads a text and the text with its dashes replaced alike. -/
theorem Parse_asciiDashes (p : BiblePassageParser) (s : Str) :
    p.Parse (asciiDashes s) = p.Parse s := by
  have hnil : TrimSpace (asciiDashes s) = [] ↔ TrimSpace s = [] := by
    rw [TrimSpace_asciiDashes]
    unfold asciiDashes
    exact List.map_eq_nil_iff
  unfold BiblePassageParser.Parse
  rw [normalise_asciiDashes]
  by_cases h : TrimSpace s = []
  · rw [if_pos h, if_pos (hnil.2 h)]
  · rw [if_neg h, if_neg fun e => h (hnil.1 e)]

/-! ### Comma and ampersand -/

theorem commaToAmp_class {p : Char → Bool} (h : p '&' = p ',') :
    ∀ c, p (commaToAmp c) = p c := by
  intro c
  unfold commaToAmp
  by_cases hc : c = ','
  · rw [if_pos hc, hc, h]
  · rw [if_neg hc]

/-- No substitution pattern tells a comma from an ampersand, and no template
holds a comma. -/
theorem respects_comma : ∀ sub ∈ substitutions,
    sub.1.Respects commaToAmp ∧ ∀ c ∈ sub.2, commaToAmp c = c := by
  intro sub hsub
  simp only [substitutions, List.mem_cons, List.mem_singleton, List.not_mem_nil, or_false] at hsub
  rcases hsub with h | h | h | h | h | h | h | h <;> subst h <;> refine ⟨?_, by decide⟩ <;>
    simp only [rxLetterDigit, rxDigitLetter, rxDash, rxTo, rxChapter, rxC, rxVerse,
      rxBoundaryDigit, Rx.lit, Rx.Respects] <;>
    repeat' constructor
  all_goals
    intro c
    by_cases hc : c = ','
    · subst hc; decide
    · unfold commaToAmp; rw [if_neg hc]

theorem foldl_substitutions_map (m : Char → Char) :
    ∀ (subs : List (Rx × Str)), (∀ sub ∈ subs, sub.1.Respects m ∧ ∀ c ∈ sub.2, m c = c) →
      ∀ s : Str, subs.foldl (fun acc sub => ReplaceAllString sub.1 acc sub.2) (s.map m) =
        (subs.foldl (fun acc sub => ReplaceAllString sub.1 acc sub.2) s).map m := by
  intro subs
  induction subs with
  | nil => intro _ s; rfl
  | cons sub rest ih =>
    intro h s
    have h1 := h sub (List.mem_cons_self _ _)
    rw [List.foldl_cons, List.foldl_cons, ReplaceAllString_map m sub.1 sub.2 h1.1 h1.2]
    exact ih (fun x hx => h x (List.mem_cons_of_mem _ hx)) _

/-- The normaliser commutes with turning commas into ampersands. -/
theorem normalise_commaToAmp (s : Str) :
    normalise (s.map commaToAmp) = (normalise s).map commaToAmp :=
  foldl_substitutions_map commaToAmp substitutions respects_comma s

theorem commaToAmp_idem (s : Str) : (s.map commaToAmp).map commaToAmp = s.map commaToAmp := by
  rw [List.map_map]
  apply List.map_congr_left
  intro c _
  show commaToAmp (commaToAmp c) = commaToAmp c
  unfold commaToAmp
  by_cases hc : c = ','
  · rw [if_pos hc]; rfl
  · rw [if_neg hc, if_neg hc]

/-- The separator split maps each comma to the ampersand before anything
else. -/
theorem SplitOnSeparators_comma (x : Str) :
    SplitOnSeparators defaultSeparators x =
      some (Split (ReplaceAll (ReplaceAll (x.map commaToAmp) ";".toList "&".toList)
        "and".toList "&".toList) "&".toList) := by
  have h1 : ReplaceAll x "&".toList "&".toList = x := by
    have := ReplaceAll_char x '&' '&'
    rw [show "&".toList = ['&'] from rfl, this]
    conv => rhs; rw [← List.map_id x]
    apply List.map_congr_left
    intro c _
    by_cases hc : c = '&'
    · rw [if_pos hc, hc]; rfl
    · rw [if_neg hc]; rfl
  have h2 : ReplaceAll x ",".toList "&".toList = x.map commaToAmp := ReplaceAll_char x ',' '&'
  unfold SplitOnSeparators defaultSeparators
  simp only [List.foldl_cons, List.foldl_nil, h1, h2]

theorem SplitOnSeparators_commaToAmp (x : Str) :
    SplitOnSeparators defaultSeparators (x.map commaToAmp) =
      SplitOnSeparators defaultSeparators x := by
  rw [SplitOnSeparators_comma, SplitOnSeparators_comma, commaToAmp_idem]

/-- `Parse` reads a text and the text with its commas turned into ampersands
alike. -/
theorem Parse_commaToAmp (p : BiblePassageParser) (hsep : p.separators = defaultSeparators)
    (s : Str) : p.Parse (s.map commaToAmp) = p.Parse s := by
  have hsp : ∀ c, isSpace (commaToAmp c) = isSpace c := commaToAmp_class (by decide)
  have hnil : TrimSpace (s.map commaToAmp) = [] ↔ TrimSpace s = [] := by
    rw [TrimSpace_map commaToAmp hsp]
    exact List.map_eq_nil_iff
  unfold BiblePassageParser.Parse
  rw [normalise_commaToAmp, hsep, SplitOnSeparators_commaToAmp]
  by_cases h : TrimSpace s = []
  · rw [if_pos h, if_pos (hnil.2 h)]
  · rw [if_neg h, if_neg fun e => h (hnil.1 e)]

/-- A comma and an ampersand at the same place of a text are read alike. -/
theorem Parse_comma_amp (p : BiblePassageParser) (hsep : p.separators = defaultSeparators)
    (a b : Str) : p.Parse (a ++ ',' :: b) = p.Parse (a ++ '&' :: b) := by
  have e : (a ++ ',' :: b).map commaToAmp = (a ++ '&' :: b).map commaToAmp := by
    simp [commaToAmp]
  rw [← Parse_commaToAmp p hsep (a ++ ',' :: b), e, Parse_commaToAmp p hsep]

/-! ### A range from a chapter to a verse -/

/-- `n c1-c2:v2` is read back as a range from the first verse of chapter `c1`
to the verse `c2:v2`. -/
theorem Parse_chapter_to_verse (p : BiblePassageParser) (B : Book) (n : Str) (c1 c2 v2 : Int)
    (f t : BibleReference)
    (hsep : p.separators = defaultSeparators) (hn : bookName n = true)
    (hbook : p.getBookFromAbbreviation n = .ok B)
    (hname : p.getBookFromAbbreviation B.Name = .ok B)
    (hc1 : 1 ≤ c1) (hc12 : c1 < 2 ^ 63) (hc2 : 1 ≤ c2) (hc22 : c2 < 2 ^ 63)
    (hv2 : 1 ≤ v2) (hv22 : v2 < 2 ^ 63)
    (hfrom : NewBibleReference B c1 1 [] = .ok f)
    (hto : NewBibleReference B c2 v2 [] = .ok t)
    (hord : f.IntegerNotation ≤ t.IntegerNotation) :
    p.Parse (n ++ ' ' :: (fmtInt c1 ++ '-' :: (fmtInt c2 ++ ':' :: fmtInt v2))) =
      .ret (some [NewBiblePassage f t], none) := by
  have h10 : 0 ≤ c1 := by omega
  have h20 : 0 ≤ c2 := by omega
  have hv20 : 0 ≤ v2 := by omega
  have hf0 : IsFrag [] := Or.inl rfl
  have hwf : WellFormed (.sp :: tokNum c1 :: .hyphen :: tokNum c2 :: .colon :: tokNum v2 ::
      (tokFrag [] ++ [])) :=
    ⟨Or.inr (Or.inr (Or.inl ⟨_, _, rfl⟩)),
      follows_tokNum h10 (Or.inr (Or.inr (Or.inr (Or.inl ⟨_, rfl⟩)))),
      wellFormed_endChapterVerse h20 hv20 hf0⟩
  have hr : n ++ render (.sp :: tokNum c1 :: .hyphen :: tokNum c2 :: .colon :: tokNum v2 ::
      (tokFrag [] ++ [])) =
      (n ++ ' ' :: fmtInt c1) ++ '-' :: (fmtInt c2 ++ ':' :: (fmtInt v2 ++ [])) := by
    simp only [render, Tok.text, tokNum, tokFrag, List.append_nil, List.nil_append,
      List.singleton_append, List.append_assoc, List.cons_append]
  have hP := Parse_range p n _ _ _ _ hsep hn hwf (Or.inr ⟨_, rfl⟩) (by simp [tokNum, tokFrag])
    (by intro x hx; simp [tokNum, tokFrag] at hx) hr
    (hyphen_not_mem_named hn (hyphen_not_mem_fmtInt h10))
    (by
      have := @hyphen_not_mem_chapterVerse c2 v2 [] [] h20 hv20 hf0 (List.not_mem_nil _)
      simpa using this)
    (parseStartReference_chapter p _ n [] none none B c1 f hn hc1 hc12
      (parseReference_name_chapter n c1 hn h10) hbook hfrom)
  simp only [List.append_nil, List.append_assoc, List.cons_append] at hP
  have hpr := parseReference_endChapterVerse c2 v2 [] h20 hv20 hf0
  have hR := rangeReference_chapterVerse p initialState
    { fromRef := f, startVerse := none, lastBook := B.Name, lastChapter := some c1,
      lastVerse := none, lastFragment := [] } _ [] B c2 v2 [] t hpr (by simpa using hname)
    h20 hc22 hv20 hv22 hf0 hto
  simp only [List.append_nil] at hR
  rw [hP, hR, finishSection_ok _ _ _ _ hord]
  rfl

/-! ### The start of every passage -/

/-- The chapter or verse `parseStartReference` hands to `NewBibleReference`:
the value read when it is positive, else 1. -/
theorem positive_or_one (x : Option Int) :
    1 ≤ (match x with
      | some c => if c > 0 then c else 1
      | none => 1 : Int) := by
  cases x with
  | none => exact le_refl 1
  | some c =>
    by_cases h : c > 0
    · simp only [h, if_true]; omega
    · simp only [h, if_false]; exact le_refl 1

/-- The reference `parseStartReference` returns was built by `NewBibleReference`
from a chapter and a verse that are at least 1. -/
theorem parseStartReference_built {p : BiblePassageParser} {start lb : Str}
    {lc lv : Option Int} {r : StartResult}
    (h : p.parseStartReference start lb lc lv = .ok r) :
    ∃ (B : Book) (ch vs : Int) (frag : Str), 1 ≤ ch ∧ 1 ≤ vs ∧
      NewBibleReference B ch vs frag = .ok r.fromRef := by
  unfold BiblePassageParser.parseStartReference at h
  cases hm : parseReference start with
  | error e => rw [hm] at h; cases h
  | ok m =>
    rw [hm] at h
    simp only at h
    split at h
    · cases h
    · rename_i B hB
      split at h
      · cases h
      · rename_i fromRef hf
        injection h with h
        subst h
        exact ⟨B, _, _, _, positive_or_one _, positive_or_one _, hf⟩

/-- The start reference of a clause is a verse of a chapter of its book, with
a fragment that is empty or one of `a`, `b`, `c`. -/
theorem parseStartReference_valid {p : BiblePassageParser} {start lb : Str}
    {lc lv : Option Int} {r : StartResult}
    (h : p.parseStartReference start lb lc lv = .ok r) :
    ∃ vmax, r.fromRef.Book.ChapterStructure.lookup r.fromRef.Chapter = some vmax ∧
      1 ≤ r.fromRef.Chapter ∧ 1 ≤ r.fromRef.Verse ∧ r.fromRef.Verse ≤ vmax ∧
      IsFrag r.fromRef.Fragment := by
  obtain ⟨B, ch, vs, frag, hch, hvs, hnew⟩ := parseStartReference_built h
  rw [NewBibleReference_ok_iff] at hnew
  obtain ⟨hc, hf, he⟩ := hnew
  rw [he]
  simp only [mkRef]
  rcases (checkChapterVerse_eq_none_iff _ _ _).1 hc with h0 | ⟨vmax, hl, hle⟩
  · omega
  · exact ⟨vmax, hl, hch, hvs, hle, (badFragment_eq_false_iff _).1 hf⟩

/-- Every passage `Parse` returns starts at a verse of a chapter of its book. -/
theorem Parse_from_valid (p : BiblePassageParser) (text : Str) (ps : List BiblePassage)
    (h : p.Parse text = .ret (some ps, none)) :
    ∀ x ∈ ps, ∃ vmax, x.From.Book.ChapterStructure.lookup x.From.Chapter = some vmax ∧
      1 ≤ x.From.Chapter ∧ 1 ≤ x.From.Verse ∧ x.From.Verse ≤ vmax ∧
      IsFrag x.From.Fragment := by
  have hne : TrimSpace text ≠ [] := by
    intro hblank
    unfold BiblePassageParser.Parse at h
    rw [if_pos hblank] at h
    cases h
  obtain ⟨secs, _, hloop⟩ := Parse_eq_parseSections h hne
  refine parseSections_forall p _ ?_ secs _ ps (by intro x hx; cases hx) hloop
  intro st st1 sec hsec
  obtain ⟨_, r, t, lb, lc, lv, hstart, hf⟩ := parseSection_next hsec
  obtain ⟨_, hst⟩ := finishSection_next hf
  exact ⟨NewBiblePassage r.fromRef t, by rw [hst], parseStartReference_valid hstart⟩

/-! ### Spellings of a name that are looked up alike -/

theorem isStdChar_iff (c : Char) :
    isStdChar c = true ↔ ((97 ≤ c.toNat ∧ c.toNat ≤ 122) ∨ (48 ≤ c.toNat ∧ c.toNat ≤ 57) ∨
      c.toNat = 32) := by
  simp only [isStdChar, Bool.or_eq_true, Bool.and_eq_true, decide_eq_true_eq, char_le_iff,
    isDigit_iff, char_beq_iff]
  constructor
  · rintro ((h | h) | h)
    · exact Or.inl h
    · exact Or.inr (Or.inl h)
    · exact Or.inr (Or.inr h)
  · rintro (h | h | h)
    · exact Or.inl (Or.inl h)
    · exact Or.inl (Or.inr h)
    · exact Or.inr h

theorem isKeptChar_iff (c : Char) :
    isKeptChar c = true ↔ ((97 ≤ c.toNat ∧ c.toNat ≤ 122) ∨ (65 ≤ c.toNat ∧ c.toNat ≤ 90) ∨
      (48 ≤ c.toNat ∧ c.toNat ≤ 57) ∨ c.toNat = 32) := by
  simp only [isKeptChar, Bool.or_eq_true, isAsciiLetter_iff, isDigit_iff, char_beq_iff]
  constructor
  · rintro (((h | h) | h) | h)
    · exact Or.inl h
    · exact Or.inr (Or.inl h)
    · exact Or.inr (Or.inr (Or.inl h))
    · exact Or.inr (Or.inr (Or.inr h))
  · rintro (h | h | h | h)
    · exact Or.inl (Or.inl (Or.inl h))
    · exact Or.inl (Or.inl (Or.inr h))
    · exact Or.inl (Or.inr h)
    · exact Or.inr h

/-- A dropped character is deleted by `StandardiseString`. -/
theorem isDropped_std {c : Char} (h : isDropped c = true) :
    isStdChar (toLowerRune c) = false := by
  simp only [isDropped, Bool.and_eq_true, Bool.not_eq_true', bne_iff_ne, ne_eq] at h
  obtain ⟨⟨hk, h1⟩, h2⟩ := h
  have hk' := (bool_eq_false_iff_not (isKeptChar_iff c)).1 hk
  have hnu : ¬(65 ≤ c.toNat ∧ c.toNat ≤ 90) := by omega
  rw [bool_eq_false_iff_not (isStdChar_iff _), toLowerRune_toNat, if_neg hnu, if_neg h1,
    if_neg h2]
  omega

theorem isDropped_ne_blank {c : Char} (h : isDropped c = true) : c ≠ ' ' := by
  intro e
  rw [e] at h
  revert h
  decide

theorem stdText_cons (c : Char) (s : Str) :
    stdText (c :: s) =
      if isStdChar (toLowerRune c) then toLowerRune c :: stdText s else stdText s := by
  unfold stdText ToLower
  rw [List.map_cons, List.filter_cons]

/-- A respelling with dropped characters keeps the standard text. -/
theorem stdText_respelling {a s : Str} (h : Respelling isDropped a s) :
    stdText s = stdText a := by
  induction h with
  | nil => rfl
  | keep c _ ih => rw [stdText_cons, stdText_cons, ih]
  | recase x y _ _ hxy _ ih => rw [stdText_cons, stdText_cons, ih, hxy]
  | insert c hc _ ih => rw [stdText_cons, isDropped_std hc, ih]; rfl

theorem respelling_append {ok : Char → Bool} {a1 s1 a2 s2 : Str}
    (h1 : Respelling ok a1 s1) (h2 : Respelling ok a2 s2) :
    Respelling ok (a1 ++ a2) (s1 ++ s2) := by
  induction h1 with
  | nil => exact h2
  | keep c _ ih => exact .keep c ih
  | recase x y hx hy hxy _ ih => exact .recase x y hx hy hxy ih
  | insert c hc _ ih => exact .insert c hc ih

theorem respelling_reverse {ok : Char → Bool} {a s : Str} (h : Respelling ok a s) :
    Respelling ok a.reverse s.reverse := by
  induction h with
  | nil => exact .nil
  | keep c _ ih =>
    rw [List.reverse_cons, List.reverse_cons]
    exact respelling_append ih (.keep c .nil)
  | recase x y hx hy hxy _ ih =>
    rw [List.reverse_cons, List.reverse_cons]
    exact respelling_append ih (.recase x y hx hy hxy .nil)
  | insert c hc _ ih =>
    rw [List.reverse_cons]
    have := respelling_append ih (Respelling.insert c hc .nil)
    rw [List.append_nil] at this
    exact this

theorem isSpace_false_of_asciiLetter {c : Char} (h : isAsciiLetter c = true) :
    isSpace c = false :=
  isSpace_false_of_canon (Or.inl h)

/-- The white space a respelling opens with holds no blank when that of the
name holds none. -/
theorem respelling_leading {a s : Str} (h : Respelling isDropped a s)
    (ha : ' ' ∉ a.takeWhile isSpace) : ' ' ∉ s.takeWhile isSpace := by
  induction h with
  | nil => exact ha
  | keep c _ ih =>
    by_cases hc : isSpace c = true
    · rw [List.takeWhile_cons_of_pos hc] at ha ⊢
      intro hm
      rcases List.mem_cons.1 hm with e | e
      · exact ha (List.mem_cons.2 (Or.inl e))
      · exact ih (fun x => ha (List.mem_cons_of_mem _ x)) e
    · rw [List.takeWhile_cons_of_neg hc]
      exact List.not_mem_nil _
  | recase x y _ hy _ _ _ =>
    rw [List.takeWhile_cons_of_neg (by rw [isSpace_false_of_asciiLetter hy]; decide)]
    exact List.not_mem_nil _
  | insert c hc _ ih =>
    by_cases hs : isSpace c = true
    · rw [List.takeWhile_cons_of_pos hs]
      intro hm
      rcases List.mem_cons.1 hm with e | e
      · exact isDropped_ne_blank hc e.symm
      · exact ih ha e
    · rw [List.takeWhile_cons_of_neg hs]
      exact List.not_mem_nil _

theorem respelling_outer {a s : Str} (h : Respelling isDropped a s) (ha : NoOuterBlank a) :
    NoOuterBlank s :=
  ⟨respelling_leading h ha.1, respelling_leading (respelling_reverse h) ha.2⟩

/-- Cutting off leading white space without a blank keeps the standard text. -/
theorem stdText_dropWhile (s : Str) (h : ' ' ∉ s.takeWhile isSpace) :
    stdText (s.dropWhile isSpace) = stdText s := by
  induction s with
  | nil => rfl
  | cons c s ih =>
    by_cases hc : isSpace c = true
    · rw [List.takeWhile_cons_of_pos hc] at h
      rw [List.dropWhile_cons_of_pos hc, stdText_cons,
        ih fun x => h (List.mem_cons_of_mem _ x)]
      have hne : c ≠ ' ' := fun e => h (List.mem_cons.2 (Or.inl e.symm))
      have hstd : isStdChar (toLowerRune c) = false := by
        rw [toLowerRune_space hc, bool_eq_false_iff_not (isStdChar_iff c)]
        have h1 := (isSpace_iff c).1 hc
        have h2 : c.toNat ≠ 32 := fun e => hne ((char_eq_iff c ' ').2 e)
        omega
      rw [hstd]
      rfl
    · rw [List.dropWhile_cons_of_neg hc]

theorem stdText_reverse (s : Str) : stdText s.reverse = (stdText s).reverse := by
  unfold stdText ToLower
  rw [List.map_reverse, List.filter_reverse]

theorem mem_takeWhile_append {p : Char → Bool} {c : Char} :
    ∀ (l1 l2 : Str), c ∈ l1.takeWhile p → c ∈ (l1 ++ l2).takeWhile p := by
  intro l1
  induction l1 with
  | nil => intro _ h; cases h
  | cons x l ih =>
    intro l2 h
    by_cases hx : p x = true
    · rw [List.takeWhile_cons_of_pos hx] at h
      rw [List.cons_append, List.takeWhile_cons_of_pos hx]
      rcases List.mem_cons.1 h with e | e
      · exact List.mem_cons.2 (Or.inl e)
      · exact List.mem_cons_of_mem _ (ih l2 e)
    · rw [List.takeWhile_cons_of_neg hx] at h
      cases h

/-- Trimming a text without a blank among the white space at its ends keeps
the standard text. -/
theorem StandardiseString_outer (s : Str) (h : NoOuterBlank s) :
    StandardiseString s = stdText s := by
  have hrev : ' ' ∉ (s.dropWhile isSpace).reverse.takeWhile isSpace := by
    intro hm
    apply h.2
    have e : s.reverse = (s.dropWhile isSpace).reverse ++ (s.takeWhile isSpace).reverse := by
      rw [← List.reverse_append, List.takeWhile_append_dropWhile]
    rw [e]
    exact mem_takeWhile_append _ _ hm
  show stdText (TrimSpace s) = stdText s
  unfold TrimSpace TrimRightFunc
  rw [stdText_reverse, stdText_dropWhile _ hrev, stdText_reverse, List.reverse_reverse,
    stdText_dropWhile _ h.1]

/-- A respelling of a name is standardised to the same text, and looked up as
the same book. -/
theorem StandardiseString_respelling {a s : Str} (h : Respelling isDropped a s)
    (ha : NoOuterBlank a) : StandardiseString s = StandardiseString a := by
  rw [StandardiseString_outer s (respelling_outer h ha), StandardiseString_outer a ha,
    stdText_respelling h]

theorem getBookNumber_respelling (p : BiblePassageParser) {a s : Str}
    (h : Respelling isDropped a s) (ha : NoOuterBlank a) :
    p.getBookNumber s = p.getBookNumber a := by
  unfold BiblePassageParser.getBookNumber
  rw [StandardiseString_respelling h ha]

theorem StandardiseString_chars (s : Str) : ∀ c ∈ StandardiseString s, isStdChar c = true := by
  intro c hc
  unfold StandardiseString at hc
  exact (List.mem_filter.1 hc).2

/-! ### A table with a numbered book -/

/-! ## C4: rendering and parsing back -/

/-- C4 as stated fails, on five passages of valid references in ascending
order.  John 3:5 to 3:7a is rendered `John 3:5-7a`, which `Parse` rejects.
John 3:5c to 4:7 is rendered `John 3:5c-4:7`, which `Parse` rejects.
John 3:1a to 3:36 is rendered `John 3`, which is read back without the
fragment.  John 3:5a to 3:5b is rendered `John 3:5a`, which is read back as
the verse 3:5a alone.  Genesis 3:5 to Exodus 3:7 is rendered `Genesis 3:5-7`,
which is read back as a range inside Genesis. -/
theorem C4_counterexample :
    (NewBibleReference (sampleBook 43) 3 5 [] = .ok (mkRef (sampleBook 43) 3 5 []) ∧
      NewBibleReference (sampleBook 43) 3 7 ['a'] = .ok (mkRef (sampleBook 43) 3 7 ['a']) ∧
      (mkRef (sampleBook 43) 3 5 []).IntegerNotation ≤
        (mkRef (sampleBook 43) 3 7 ['a']).IntegerNotation ∧
      (NewBiblePassage (mkRef (sampleBook 43) 3 5 []) (mkRef (sampleBook 43) 3 7 ['a'])).String =
        "John 3:5-7a".toList ∧
      sampleParser.Parse "John 3:5-7a".toList = .ret (none, some .invalidBookName)) ∧
    (NewBibleReference (sampleBook 43) 3 5 ['c'] = .ok (mkRef (sampleBook 43) 3 5 ['c']) ∧
      NewBibleReference (sampleBook 43) 4 7 [] = .ok (mkRef (sampleBook 43) 4 7 []) ∧
      (mkRef (sampleBook 43) 3 5 ['c']).IntegerNotation ≤
        (mkRef (sampleBook 43) 4 7 []).IntegerNotation ∧
      (NewBiblePassage (mkRef (sampleBook 43) 3 5 ['c']) (mkRef (sampleBook 43) 4 7 [])).String =
        "John 3:5c-4:7".toList ∧
      sampleParser.Parse "John 3:5c-4:7".toList = .ret (none, some .unableToParse)) ∧
    (NewBibleReference (sampleBook 43) 3 1 ['a'] = .ok (mkRef (sampleBook 43) 3 1 ['a']) ∧
      NewBibleReference (sampleBook 43) 3 36 [] = .ok (mkRef (sampleBook 43) 3 36 []) ∧
      (mkRef (sampleBook 43) 3 1 ['a']).IntegerNotation ≤
        (mkRef (sampleBook 43) 3 36 []).IntegerNotation ∧
      (NewBiblePassage (mkRef (sampleBook 43) 3 1 ['a']) (mkRef (sampleBook 43) 3 36 [])).String =
        "John 3".toList ∧
      sampleParser.Parse "John 3".toList =
        .ret (some [NewBiblePassage (mkRef (sampleBook 43) 3 1 [])
          (mkRef (sampleBook 43) 3 36 [])], none)) ∧
    (NewBibleReference (sampleBook 43) 3 5 ['a'] = .ok (mkRef (sampleBook 43) 3 5 ['a']) ∧
      NewBibleReference (sampleBook 43) 3 5 ['b'] = .ok (mkRef (sampleBook 43) 3 5 ['b']) ∧
      (mkRef (sampleBook 43) 3 5 ['a']).IntegerNotation ≤
        (mkRef (sampleBook 43) 3 5 ['b']).IntegerNotation ∧
      (NewBiblePassage (mkRef (sampleBook 43) 3 5 ['a']) (mkRef (sampleBook 43) 3 5 ['b'])).String =
        "John 3:5a".toList ∧
      sampleParser.Parse "John 3:5a".toList =
        .ret (some [NewBiblePassage (mkRef (sampleBook 43) 3 5 ['a'])
          (mkRef (sampleBook 43) 3 5 ['a'])], none)) ∧
    (NewBibleReference (sampleBook 1) 3 5 [] = .ok (mkRef (sampleBook 1) 3 5 []) ∧
      NewBibleReference (sampleBook 2) 3 7 [] = .ok (mkRef (sampleBook 2) 3 7 []) ∧
      (mkRef (sampleBook 1) 3 5 []).IntegerNotation ≤
        (mkRef (sampleBook 2) 3 7 []).IntegerNotation ∧
      (NewBiblePassage (mkRef (sampleBook 1) 3 5 []) (mkRef (sampleBook 2) 3 7 [])).String =
        "Genesis 3:5-7".toList ∧
      sampleParser.Parse "Genesis 3:5-7".toList =
        .ret (some [NewBiblePassage (mkRef (sampleBook 1) 3 5 [])
          (mkRef (sampleBook 1) 3 7 [])], none)) :=
  ⟨⟨rfl, rfl, by decide, rfl, rfl⟩, ⟨rfl, rfl, by decide, rfl, rfl⟩,
    ⟨rfl, rfl, by decide, rfl, rfl⟩, ⟨rfl, rfl, by decide, rfl, rfl⟩,
    ⟨rfl, rfl, by decide, rfl, rfl⟩⟩

/-- C4 amended: with the default separators, a passage whose two references
are valid (`ValidRef`: a registered book whose names are plain words, the first
possibly a number, chapter and verse at least 1, accepted by
`NewBibleReference`), whose start's ordering key is at
most its end's, whose end is in the start's book unless the chapters differ,
and whose fragments are those the text keeps (`FragmentsKept`), is rendered to
a text that `Parse` reads back as exactly that one passage, without error. -/
theorem C4_round_trip_canonical (p : BiblePassageParser) (P : BiblePassage)
    (hsep : p.separators = defaultSeparators)
    (hfrom : ValidRef p P.From) (hto : ValidRef p P.To)
    (hord : P.From.IntegerNotation ≤ P.To.IntegerNotation)
    (hbk : P.From.Book = P.To.Book ∨ P.From.Chapter ≠ P.To.Chapter)
    (hfr : FragmentsKept P) :
    p.Parse P.String = .ret (some [P], none) := by
  obtain ⟨f, t⟩ := P
  obtain ⟨B1, c1, v1, fr1⟩ := f
  obtain ⟨B2, c2, v2, fr2⟩ := t
  obtain ⟨⟨hn1, hs1, hg1, hgs1⟩, hc1, hc12, hv1, hv12, hr1⟩ := hfrom
  obtain ⟨⟨hn2, hs2, hg2, hgs2⟩, hc2, hc22, hv2, hv22, hr2⟩ := hto
  simp only at hn1 hs1 hg1 hgs1 hc1 hc12 hv1 hv12 hr1 hn2 hs2 hg2 hgs2 hc2 hc22 hv2 hv22 hr2 hbk
  have hf1 : IsFrag fr1 := isFrag_of_ok hr1
  have hf2 : IsFrag fr2 := isFrag_of_ok hr2
  have hsp : " ".toList = [' '] := rfl
  have hcol : ":".toList = [':'] := rfl
  have hhy : "-".toList = ['-'] := rfl
  have hsps : " - ".toList = [' ', '-', ' '] := rfl
  simp only [BiblePassage.String, hsp, hcol, hhy, hsps, List.append_assoc, List.singleton_append,
    List.cons_append, List.nil_append]
  simp only [FragmentsKept] at hfr
  by_cases hW : B2 = B1 ∧ v1 = 1 ∧ B2.versesOrZero c2 = v2
  · rw [if_pos hW] at hfr
    obtain ⟨hb, hfv, hvz⟩ := hW
    obtain ⟨hfe, hte⟩ := hfr
    subst hb hfv hvz hfe hte
    by_cases hA : c1 = 1 ∧ B2.ChaptersInBook = c2
    · obtain ⟨hA1, hA2⟩ := hA
      subst hA1 hA2
      rw [if_pos ⟨rfl, rfl, rfl, rfl, rfl⟩]
      exact Parse_whole_book p B2 B2.Name _ _ hsep hn1 hg1 hg1 hr1 hr2 hord
    · rw [if_neg (fun h => hA ⟨h.2.1, h.2.2.2.1⟩)]
      by_cases hch : c2 = c1
      · subst hch
        rw [if_pos ⟨rfl, rfl, Or.inr ⟨rfl, rfl⟩⟩]
        exact Parse_whole_chapter p B2 B2.SingularName c2 _ _ hsep hs1 hgs1 hg1 hc1 hc12 hr1 hr2
          hord
      · rw [if_neg (fun h => hch h.2.1), if_neg (fun h => hch h.2.1),
          if_neg (fun h => hch h.symm), if_neg (fun h => h rfl), if_pos ⟨rfl, rfl⟩]
        exact Parse_chapter_range p B2 B2.Name c1 c2 _ _ hsep hn1 hg1 hg1 hc1 hc12 hc2 hc22 hr1
          hr2 hord
  · rw [if_neg hW] at hfr
    rw [if_neg (fun h => hW ⟨h.1, h.2.2.1, h.2.2.2.2⟩)]
    have hB : ¬(B2 = B1 ∧ c2 = c1 ∧ (v1 = 0 ∨ v1 = 1 ∧ B2.versesOrZero c2 = v2)) := by
      rintro ⟨hb, _, h | h⟩
      · omega
      · exact hW ⟨hb, h⟩
    rw [if_neg hB]
    by_cases hC : c2 = c1 ∧ v2 = v1
    · rw [if_pos hC] at hfr
      obtain ⟨hcc, hvv⟩ := hC
      subst hcc hvv hfr
      have hb : B1 = B2 := hbk.resolve_right (fun h => h rfl)
      subst hb
      rw [if_pos ⟨rfl, rfl, rfl⟩]
      exact Parse_single_verse p B1 B1.SingularName c2 v2 fr2 _ hsep hs1 hgs1 hg1 hc1 hc12 hv1
        hv12 hf1 hr1
    · rw [if_neg hC] at hfr
      obtain ⟨hfc, hfv⟩ := hfr
      rw [if_neg (fun h => hC h.2)]
      by_cases hch : c1 = c2
      · subst hch
        have hb : B1 = B2 := hbk.resolve_right (fun h => h rfl)
        subst hb
        rw [if_pos rfl]
        exact Parse_verse_range p B1 B1.SingularName c1 v1 v2 fr1 fr2 _ _ hsep hs1 hgs1 hg1 hc1
          hc12 hv1 hv12 hv2 hv22 hf1 hf2 hfc (hfv rfl) hr1 hr2 hord
      · rw [if_neg hch]
        by_cases hb : B1 = B2
        · subst hb
          rw [if_neg (fun h => h rfl), if_neg (fun h => hW ⟨rfl, h⟩)]
          exact Parse_cross_chapter p B1 B1.SingularName c1 v1 c2 v2 fr1 fr2 _ _ hsep hs1 hgs1
            hg1 hc1 hc12 hv1 hv12 hc2 hc22 hv2 hv22 hf1 hf2 hfc hr1 hr2 hord
        · rw [if_pos hb]
          exact Parse_cross_book p B1 B2 B1.Name B2.Name c1 v1 c2 v2 fr1 fr2 _ _ hsep hn1 hn2
            hg1 hg2 hc1 hc12 hv1 hv12 hc2 hc22 hv2 hv22 hf1 hf2 hfc hr1 hr2 hord

theorem C4_round_trip_canonical_witness :
    (NewBiblePassage (mkRef (sampleBook 43) 3 5 ['a'])
        (mkRef (sampleBook 43) 3 17 ['b'])).String = "John 3:5a-17b".toList ∧
      sampleParser.Parse "John 3:5a-17b".toList =
        .ret (some [NewBiblePassage (mkRef (sampleBook 43) 3 5 ['a'])
          (mkRef (sampleBook 43) 3 17 ['b'])], none) :=
  ⟨rfl, C4_round_trip_canonical sampleParser
    (NewBiblePassage (mkRef (sampleBook 43) 3 5 ['a']) (mkRef (sampleBook 43) 3 17 ['b'])) rfl
    ⟨⟨rfl, rfl, rfl, rfl⟩, by decide, by decide, by decide, by decide, rfl⟩
    ⟨⟨rfl, rfl, rfl, rfl⟩, by decide, by decide, by decide, by decide, rfl⟩
    (by decide) (Or.inl rfl) (by unfold FragmentsKept; decide)⟩

/-! ## C11: the ordering key -/

/-- C11, counterexample: with chapter and verse 0, book number 9223372036855
comes after book number 1 in the lexicographic order, yet its key wraps to
-9223372036854551616, below the key 1000000 of book 1, and is not the sum
`9223372036855 * 1000000 + 0 * 1000 + 0`. -/
theorem C11_counterexample :
    lexLess (mkRef (NewBook 1 [] [] [] []) 0 0 []) (mkRef (NewBook 9223372036855 [] [] [] []) 0 0 []) ∧
      (mkRef (NewBook 9223372036855 [] [] [] []) 0 0 []).IntegerNotation = -9223372036854551616 ∧
      (mkRef (NewBook 1 [] [] [] []) 0 0 []).IntegerNotation = 1000000 ∧
      (mkRef (NewBook 9223372036855 [] [] [] []) 0 0 []).IntegerNotation <
        (mkRef (NewBook 1 [] [] [] []) 0 0 []).IntegerNotation ∧
      (mkRef (NewBook 9223372036855 [] [] [] []) 0 0 []).IntegerNotation ≠
        9223372036855 * 1000000 + 0 * 1000 + 0 :=
  ⟨Or.inl (by decide), by decide, by decide, by decide, by decide⟩

/-- C11, amended: for two references whose book numbers lie in
-9223372036854..9223372036853 and whose chapter and verse lie in 0..999,
`IntegerNotation` is `Number * 1000000 + chapter * 1000 + verse`, one key is
below the other exactly when (book number, chapter, verse) is lexicographically
smaller, and equal keys give equal (book number, chapter, verse). -/
theorem C11_key_order_embedding (r1 r2 : BibleReference)
    (hn1 : -9223372036854 ≤ r1.Book.Number ∧ r1.Book.Number ≤ 9223372036853)
    (hn2 : -9223372036854 ≤ r2.Book.Number ∧ r2.Book.Number ≤ 9223372036853)
    (hc1 : 0 ≤ r1.Chapter ∧ r1.Chapter ≤ 999) (hv1 : 0 ≤ r1.Verse ∧ r1.Verse ≤ 999)
    (hc2 : 0 ≤ r2.Chapter ∧ r2.Chapter ≤ 999) (hv2 : 0 ≤ r2.Verse ∧ r2.Verse ≤ 999) :
    r1.IntegerNotation = r1.Book.Number * 1000000 + r1.Chapter * 1000 + r1.Verse ∧
      r2.IntegerNotation = r2.Book.Number * 1000000 + r2.Chapter * 1000 + r2.Verse ∧
      (r1.IntegerNotation < r2.IntegerNotation ↔ lexLess r1 r2) ∧
      (r1.IntegerNotation = r2.IntegerNotation →
        r1.Book.Number = r2.Book.Number ∧ r1.Chapter = r2.Chapter ∧ r1.Verse = r2.Verse) := by
  have e1 := integerNotation_wide r1 hn1 hc1 hv1
  have e2 := integerNotation_wide r2 hn2 hc2 hv2
  rw [e1, e2]
  unfold lexLess
  refine ⟨by omega, by omega, ⟨fun h => ?_, fun h => ?_⟩, fun h => ?_⟩ <;> omega

/-- C11, witness: John 3:16 and Acts 1:1 of the sample table. -/
theorem C11_key_order_embedding_witness :
    (mkRef (sampleBook 43) 3 16 []).IntegerNotation = 43 * 1000000 + 3 * 1000 + 16 ∧
      (mkRef (sampleBook 44) 1 1 []).IntegerNotation = 44 * 1000000 + 1 * 1000 + 1 ∧
      ((mkRef (sampleBook 43) 3 16 []).IntegerNotation <
          (mkRef (sampleBook 44) 1 1 []).IntegerNotation ↔
        lexLess (mkRef (sampleBook 43) 3 16 []) (mkRef (sampleBook 44) 1 1 [])) ∧
      ((mkRef (sampleBook 43) 3 16 []).IntegerNotation =
          (mkRef (sampleBook 44) 1 1 []).IntegerNotation →
        (43 : Int) = 44 ∧ (3 : Int) = 1 ∧ (16 : Int) = 1) :=
  C11_key_order_embedding (mkRef (sampleBook 43) 3 16 []) (mkRef (sampleBook 44) 1 1 [])
    (by decide) (by decide) (by decide) (by decide) (by decide) (by decide)

/-! ## C12: a book name alone -/

/-- C12: for a regular book `B` of the table (chapters `1..N`, each with a
verse) and a plain lookup name `n` of `B` (ASCII letters, without the separator
word `and`, not a word of the grammar), `Parse n` returns exactly one passage,
from `B 1:1` to the last verse of the last chapter, both without fragment, and
`String` of that passage is `B.Name`. -/
theorem C12_whole_book (p : BiblePassageParser) (B : Book) (n : Str)
    (hsep : p.separators = defaultSeparators) (hB : B.Regular) (hn : plainName n = true)
    (hbook : p.getBookFromAbbreviation n = .ok B)
    (hname : p.getBookFromAbbreviation B.Name = .ok B) :
    p.Parse n =
        .ret (some [NewBiblePassage (mkRef B 1 1 [])
          (mkRef B B.ChaptersInBook (B.versesOrZero B.ChaptersInBook) [])], none) ∧
      (NewBiblePassage (mkRef B 1 1 [])
        (mkRef B B.ChaptersInBook (B.versesOrZero B.ChaptersInBook) [])).String = B.Name := by
  have hN := hB.2.1
  have hl := regular_chapter hB hN (le_refl _)
  have h1 := regular_chapter hB (le_refl 1) hN
  refine ⟨Parse_whole_book p B n _ _ hsep (plainName_bookName hn) hbook hname
    (regular_reference hB (le_refl 1) hN (le_refl 1) h1.2.1 (Or.inl rfl)).1
    (regular_reference hB hN (le_refl _) hl.2.1 (le_refl _) (Or.inl rfl)).1
    (regular_order hB (le_refl 1) hN (le_refl 1) h1.2.1 hN (le_refl _) hl.2.1 (le_refl _)
      (Or.inl rfl) (Or.inl rfl) (Or.inr ⟨hN, rfl⟩)), ?_⟩
  simp [BiblePassage.String, NewBiblePassage, mkRef]

/-- C12, witness: `John` is John 1:1 to John 21:25, rendered `John`. -/
theorem C12_whole_book_witness :
    sampleParser.Parse "John".toList =
        .ret (some [NewBiblePassage (mkRef (sampleBook 43) 1 1 [])
          (mkRef (sampleBook 43) 21 25 [])], none) ∧
      (NewBiblePassage (mkRef (sampleBook 43) 1 1 [])
        (mkRef (sampleBook 43) 21 25 [])).String = "John".toList :=
  C12_whole_book sampleParser (sampleBook 43) "John".toList rfl
    (regular_sample 43 (by decide)) (by decide) (by rfl) (by rfl)

/-! ## C13: a book name and a chapter -/

/-- C13: for a regular book `B` of the table, a plain lookup name `n` of `B`
and a chapter `c` with `1 ≤ c ≤ ChaptersInBook`, `Parse (n ++ " " ++ c)` returns
exactly one passage, from `B c:1` to the last verse of chapter `c`; nothing is
asked of the number of chapters, so the number is a chapter in a book of one
chapter too. -/
theorem C13_whole_chapter (p : BiblePassageParser) (B : Book) (n : Str) (c : Int)
    (hsep : p.separators = defaultSeparators) (hB : B.Regular) (hn : plainName n = true)
    (hbook : p.getBookFromAbbreviation n = .ok B)
    (hname : p.getBookFromAbbreviation B.Name = .ok B)
    (hc1 : 1 ≤ c) (hc2 : c ≤ B.ChaptersInBook) :
    p.Parse (n ++ ' ' :: fmtInt c) =
      .ret (some [NewBiblePassage (mkRef B c 1 []) (mkRef B c (B.versesOrZero c) [])], none) := by
  have hl := regular_chapter hB hc1 hc2
  have hf := regular_reference hB hc1 hc2 (le_refl 1) hl.2.1 (Or.inl rfl)
  exact Parse_whole_chapter p B n c _ _ hsep (plainName_bookName hn) hbook hname hc1 hf.2.2.1
    hf.1 (regular_reference hB hc1 hc2 hl.2.1 (le_refl _) (Or.inl rfl)).1
    (regular_order hB hc1 hc2 (le_refl 1) hl.2.1 hc1 hc2 hl.2.1 (le_refl _)
      (Or.inl rfl) (Or.inl rfl) (Or.inr ⟨le_refl _, rfl⟩))

/-- C13, witness: `Jude 1`, in a book of one chapter, is Jude 1:1 to 1:25. -/
theorem C13_whole_chapter_witness :
    sampleParser.Parse "Jude 1".toList =
      .ret (some [NewBiblePassage (mkRef (sampleBook 65) 1 1 [])
        (mkRef (sampleBook 65) 1 25 [])], none) :=
  C13_whole_chapter sampleParser (sampleBook 65) "Jude".toList 1 rfl
    (regular_sample 65 (by decide)) (by decide) (by rfl) (by rfl) (by decide) (by decide)

/-! ## C14: the spellings of a single verse -/

/-- C14: for a regular book `B` of the table, a plain lookup name `n` of `B`,
a chapter `c` of `B` and a verse `v` of that chapter, each of the fifteen
spellings `verseSpellings` of the numerals `C` of `c` and `V` of `v` after `n`
(`n C:V`, `n CvV`, `n C: vV`, `n C vV`, `n CvvV`, `n C vvV`, `n cCvV`, `n chCvV`,
`n chCvvV`, `n chC vV`, `n chapterCverseV`, `n chapterC verseV`,
`n chapter C verse V`, `n C.V` and `n C V`) is parsed to the same result:
exactly one passage, from `B c:v` to `B c:v`, without fragment. -/
theorem C14_single_verse_spellings (p : BiblePassageParser) (B : Book) (n : Str) (c v : Int)
    (hsep : p.separators = defaultSeparators) (hB : B.Regular) (hn : plainName n = true)
    (hbook : p.getBookFromAbbreviation n = .ok B)
    (hname : p.getBookFromAbbreviation B.Name = .ok B)
    (hc1 : 1 ≤ c) (hc2 : c ≤ B.ChaptersInBook) (hv1 : 1 ≤ v) (hv2 : v ≤ B.versesOrZero c) :
    ∀ s ∈ verseSpellings n (fmtInt c) (fmtInt v),
      p.Parse s = .ret (some [NewBiblePassage (mkRef B c v []) (mkRef B c v [])], none) := by
  have hf := regular_reference hB hc1 hc2 hv1 hv2 (Or.inl rfl)
  exact Parse_verseSpellings p B n c v _ hsep hn hbook hname hc1 hf.2.2.1 hv1 hf.2.2.2 hf.1

/-- C14, witness: the fifteen spellings of `John 3:16` of the test. -/
theorem C14_single_verse_spellings_witness :
    verseSpellings "John".toList (fmtInt 3) (fmtInt 16) =
      ["John 3:16".toList, "John 3v16".toList, "John 3: v16".toList, "John 3 v16".toList,
       "John 3vv16".toList, "John 3 vv16".toList, "John c3v16".toList, "John ch3v16".toList,
       "John ch3vv16".toList, "John ch3 v16".toList, "John chapter3verse16".toList,
       "John chapter3 verse16".toList, "John chapter 3 verse 16".toList, "John 3.16".toList,
       "John 3 16".toList] ∧
    sampleParser.Parse "John c3v16".toList =
      .ret (some [NewBiblePassage (mkRef (sampleBook 43) 3 16 [])
        (mkRef (sampleBook 43) 3 16 [])], none) ∧
    sampleParser.Parse "John chapter 3 verse 16".toList =
      .ret (some [NewBiblePassage (mkRef (sampleBook 43) 3 16 [])
        (mkRef (sampleBook 43) 3 16 [])], none) ∧
    sampleParser.Parse "John 3 16".toList =
      .ret (some [NewBiblePassage (mkRef (sampleBook 43) 3 16 [])
        (mkRef (sampleBook 43) 3 16 [])], none) :=
  have h := C14_single_verse_spellings sampleParser (sampleBook 43) "John".toList 3 16 rfl
    (regular_sample 43 (by decide)) (by decide) (by rfl) (by rfl) (by decide) (by decide)
    (by decide) (by decide)
  ⟨by decide, h _ (by decide), h _ (by decide), h _ (by decide)⟩

/-! ## C15: a range of verses in one chapter -/

/-- C15: for a regular book `B` of the table, a plain lookup name `n` of `B`,
a chapter `c` of `B` and verses `1 ≤ v1 ≤ v2 ≤` the verses of chapter `c`,
`Parse "n c:v1-v2"` returns exactly one passage, from `B c:v1` to `B c:v2`: the
number after the hyphen is a verse of the chapter of the start. -/
theorem C15_verse_range (p : BiblePassageParser) (B : Book) (n : Str) (c v1 v2 : Int)
    (hsep : p.separators = defaultSeparators) (hB : B.Regular) (hn : plainName n = true)
    (hbook : p.getBookFromAbbreviation n = .ok B)
    (hname : p.getBookFromAbbreviation B.Name = .ok B)
    (hc1 : 1 ≤ c) (hc2 : c ≤ B.ChaptersInBook)
    (hv1 : 1 ≤ v1) (hv12 : v1 ≤ v2) (hv2 : v2 ≤ B.versesOrZero c) :
    p.Parse (n ++ ' ' :: (fmtInt c ++ ':' :: (fmtInt v1 ++ '-' :: fmtInt v2))) =
      .ret (some [NewBiblePassage (mkRef B c v1 []) (mkRef B c v2 [])], none) := by
  have hf := regular_reference hB hc1 hc2 hv1 (le_trans hv12 hv2) (Or.inl rfl)
  have ht := regular_reference hB hc1 hc2 (le_trans hv1 hv12) hv2 (Or.inl rfl)
  have := Parse_verse_range p B n c v1 v2 [] [] _ _ hsep (plainName_bookName hn) hbook hname
    hc1 hf.2.2.1 hv1 hf.2.2.2 (le_trans hv1 hv12) ht.2.2.2 (Or.inl rfl) (Or.inl rfl)
    (by decide) (Or.inl rfl) hf.1 ht.1
    (regular_order hB hc1 hc2 hv1 (le_trans hv12 hv2) hc1 hc2 (le_trans hv1 hv12) hv2
      (Or.inl rfl) (Or.inl rfl) (Or.inl ⟨rfl, hv12⟩))
  simpa using this

/-- C15, witness: `John 3:16-18`. -/
theorem C15_verse_range_witness :
    sampleParser.Parse "John 3:16-18".toList =
      .ret (some [NewBiblePassage (mkRef (sampleBook 43) 3 16 [])
        (mkRef (sampleBook 43) 3 18 [])], none) :=
  C15_verse_range sampleParser (sampleBook 43) "John".toList 3 16 18 rfl
    (regular_sample 43 (by decide)) (by decide) (by rfl) (by rfl) (by decide) (by decide)
    (by decide) (by decide) (by decide)

/-! ## C16: fragment tags on a range of verses -/

/-- C16, counterexample, on the sample table.  A start tag `c` or `C` before
the hyphen is lost together with the last digit of the verse: `John 3:16c-17`
and `John 3:16C-17` come back as John 3:1 to 3:17.  An end verse of one digit with a tag is
refused: `John 3:5-7a` gives the error of an unknown book.  And a tagged range
over a whole chapter, `John 3:1a-36`, is parsed with its tag but rendered
`John 3`, not `John 3:1a-36`, although its verses differ. -/
theorem C16_counterexample :
    sampleParser.Parse "John 3:16c-17".toList =
        .ret (some [NewBiblePassage (mkRef (sampleBook 43) 3 1 [])
          (mkRef (sampleBook 43) 3 17 [])], none) ∧
      sampleParser.Parse "John 3:16C-17".toList =
        .ret (some [NewBiblePassage (mkRef (sampleBook 43) 3 1 [])
          (mkRef (sampleBook 43) 3 17 [])], none) ∧
      sampleParser.Parse "John 3:5-7a".toList = .ret (none, some .invalidBookName) ∧
      sampleParser.Parse "John 3:1a-36".toList =
        .ret (some [NewBiblePassage (mkRef (sampleBook 43) 3 1 ['a'])
          (mkRef (sampleBook 43) 3 36 [])], none) ∧
      (NewBiblePassage (mkRef (sampleBook 43) 3 1 ['a'])
        (mkRef (sampleBook 43) 3 36 [])).String = "John 3".toList :=
  ⟨rfl, rfl, rfl, rfl, rfl⟩

/-- C16, amended: for a regular book `B` of the table, a plain lookup name
`n` of `B`, a chapter `c` of `B`, verses `1 ≤ v1 ≤ v2 ≤` the verses of chapter
`c`, a start tag `F1` that is empty or one of `a b A B`, and an end tag `F2`
that is empty or, when `v2 ≥ 10`, one of `a b c A B C`, `Parse "n c:v1F1-v2F2"`
returns exactly one passage, from `B c:v1` with the tag `F1` in lower case to
`B c:v2` with the tag `F2` in lower case; when the verses differ and the range
is not the whole chapter, `String` of that passage is `SingularName`, a blank
and `c:v1f1-v2f2` with the tags in lower case. -/
theorem C16_fragment_range (p : BiblePassageParser) (B : Book) (n : Str) (c v1 v2 : Int)
    (F1 F2 : Str)
    (hsep : p.separators = defaultSeparators) (hB : B.Regular) (hn : plainName n = true)
    (hbook : p.getBookFromAbbreviation n = .ok B)
    (hname : p.getBookFromAbbreviation B.Name = .ok B)
    (hc1 : 1 ≤ c) (hc2 : c ≤ B.ChaptersInBook)
    (hv1 : 1 ≤ v1) (hv12 : v1 ≤ v2) (hv2 : v2 ≤ B.versesOrZero c)
    (hF1 : IsFragText F1 ∧ F1 ≠ ['c'] ∧ F1 ≠ ['C'])
    (hF2 : F2 = [] ∨ (10 ≤ v2 ∧ IsFragText F2)) :
    p.Parse (n ++ ' ' :: (fmtInt c ++ ':' :: (fmtInt v1 ++ (F1 ++ '-' :: (fmtInt v2 ++ F2))))) =
        .ret (some [NewBiblePassage (mkRef B c v1 (ToLower F1))
          (mkRef B c v2 (ToLower F2))], none) ∧
      (v1 ≠ v2 → ¬(v1 = 1 ∧ v2 = B.versesOrZero c) →
        (NewBiblePassage (mkRef B c v1 (ToLower F1)) (mkRef B c v2 (ToLower F2))).String =
          B.SingularName ++ ' ' :: (fmtInt c ++ ':' :: (fmtInt v1 ++ (ToLower F1 ++ '-' ::
            (fmtInt v2 ++ ToLower F2))))) := by
  have hF2t : IsFragText F2 := hF2.elim (fun h => Or.inl h) fun h => h.2
  have hf1 := isFrag_ToLower hF1.1
  have hf2 := isFrag_ToLower hF2t
  have hf := regular_reference hB hc1 hc2 hv1 (le_trans hv12 hv2) hf1
  have ht := regular_reference hB hc1 hc2 (le_trans hv1 hv12) hv2 hf2
  refine ⟨Parse_verse_range_text p B n c v1 v2 F1 F2 _ _ hsep (plainName_bookName hn) hbook
    hname hc1 hf.2.2.1 hv1 hf.2.2.2 (le_trans hv1 hv12) ht.2.2.2 hF1.1 hF2t hF1.2
    (hF2.imp id fun h => h.1) hf.1 ht.1
    (regular_order hB hc1 hc2 hv1 (le_trans hv12 hv2) hc1 hc2 (le_trans hv1 hv12) hv2
      hf1 hf2 (Or.inl ⟨rfl, hv12⟩)), fun hne hw => ?_⟩
  exact String_verse_range B c v1 v2 _ _ hv1 hne fun h => hw ⟨h.1, h.2.symm⟩

/-- C16, witness: `John 3:16B-17a` is John 3:16b to 3:17a, rendered
`John 3:16b-17a`. -/
theorem C16_fragment_range_witness :
    sampleParser.Parse "John 3:16B-17a".toList =
        .ret (some [NewBiblePassage (mkRef (sampleBook 43) 3 16 ['b'])
          (mkRef (sampleBook 43) 3 17 ['a'])], none) ∧
      (NewBiblePassage (mkRef (sampleBook 43) 3 16 ['b'])
        (mkRef (sampleBook 43) 3 17 ['a'])).String = "John 3:16b-17a".toList :=
  have h := C16_fragment_range sampleParser (sampleBook 43) "John".toList 3 16 17 ['B'] ['a'] rfl
    (regular_sample 43 (by decide)) (by decide) (by rfl) (by rfl) (by decide) (by decide)
    (by decide) (by decide) (by decide)
    ⟨Or.inr ⟨'B', rfl, by decide⟩, by decide, by decide⟩
    (Or.inr ⟨by decide, Or.inr ⟨'a', rfl, by decide⟩⟩)
  ⟨h.1, h.2 (by decide) (by decide)⟩

/-! ## C17: the carried book -/

/-- C17: a clause without a book is read in the book the clause before it
ended in.  For regular books `B`, `B1`, `B2` of the table with plain lookup
names `n`, `n1`, `n2`: `Parse "n c1:v1; c2:v2"`, both verses being verses of
`B`, returns the two single verses `B c1:v1` and `B c2:v2`; and
`Parse "n1 a1:w1 - n2 a2:w2 & a3:w3-w4"`, with `a1:w1` a verse of `B1` that
does not come after the verse `a2:w2` of `B2`, and `w3 ≤ w4` verses of chapter
`a3` of `B2`, returns the range from `B1 a1:w1` to `B2 a2:w2` followed by the
range from `B2 a3:w3` to `B2 a3:w4`: the second clause is read in the book of
the end of the first, not of its start. -/
theorem C17_carried_book (p : BiblePassageParser) (B B1 B2 : Book) (n n1 n2 : Str)
    (c1 v1 c2 v2 a1 w1 a2 w2 a3 w3 w4 : Int)
    (hsep : p.separators = defaultSeparators)
    (hB : B.Regular) (hB1 : B1.Regular) (hB2 : B2.Regular)
    (hn : plainName n = true) (hn1 : plainName n1 = true) (hn2 : plainName n2 = true)
    (hbook : p.getBookFromAbbreviation n = .ok B)
    (hbook1 : p.getBookFromAbbreviation n1 = .ok B1)
    (hbook2 : p.getBookFromAbbreviation n2 = .ok B2)
    (hname : p.getBookFromAbbreviation B.Name = .ok B)
    (hname2 : p.getBookFromAbbreviation B2.Name = .ok B2)
    (hc1 : 1 ≤ c1 ∧ c1 ≤ B.ChaptersInBook) (hv1 : 1 ≤ v1 ∧ v1 ≤ B.versesOrZero c1)
    (hc2 : 1 ≤ c2 ∧ c2 ≤ B.ChaptersInBook) (hv2 : 1 ≤ v2 ∧ v2 ≤ B.versesOrZero c2)
    (ha1 : 1 ≤ a1 ∧ a1 ≤ B1.ChaptersInBook) (hw1 : 1 ≤ w1 ∧ w1 ≤ B1.versesOrZero a1)
    (ha2 : 1 ≤ a2 ∧ a2 ≤ B2.ChaptersInBook) (hw2 : 1 ≤ w2 ∧ w2 ≤ B2.versesOrZero a2)
    (hord : (mkRef B1 a1 w1 []).IntegerNotation ≤ (mkRef B2 a2 w2 []).IntegerNotation)
    (ha3 : 1 ≤ a3 ∧ a3 ≤ B2.ChaptersInBook)
    (hw3 : 1 ≤ w3 ∧ w3 ≤ w4 ∧ w4 ≤ B2.versesOrZero a3) :
    p.Parse (n ++ ' ' :: (fmtInt c1 ++ ':' :: (fmtInt v1 ++ ';' :: ' ' ::
        (fmtInt c2 ++ ':' :: fmtInt v2)))) =
        .ret (some [NewBiblePassage (mkRef B c1 v1 []) (mkRef B c1 v1 []),
          NewBiblePassage (mkRef B c2 v2 []) (mkRef B c2 v2 [])], none) ∧
      p.Parse (n1 ++ ' ' :: (fmtInt a1 ++ ':' :: (fmtInt w1 ++ ' ' :: '-' :: ' ' ::
        (n2 ++ ' ' :: (fmtInt a2 ++ ':' :: (fmtInt w2 ++ ' ' :: '&' :: ' ' ::
          (fmtInt a3 ++ ':' :: (fmtInt w3 ++ '-' :: fmtInt w4)))))))) =
        .ret (some [NewBiblePassage (mkRef B1 a1 w1 []) (mkRef B2 a2 w2 []),
          NewBiblePassage (mkRef B2 a3 w3 []) (mkRef B2 a3 w4 [])], none) := by
  have r1 := regular_reference hB hc1.1 hc1.2 hv1.1 hv1.2 (Or.inl rfl)
  have r2 := regular_reference hB hc2.1 hc2.2 hv2.1 hv2.2 (Or.inl rfl)
  have s1 := regular_reference hB1 ha1.1 ha1.2 hw1.1 hw1.2 (Or.inl rfl)
  have s2 := regular_reference hB2 ha2.1 ha2.2 hw2.1 hw2.2 (Or.inl rfl)
  have s3 := regular_reference hB2 ha3.1 ha3.2 hw3.1 (le_trans hw3.2.1 hw3.2.2) (Or.inl rfl)
  have s4 := regular_reference hB2 ha3.1 ha3.2 (le_trans hw3.1 hw3.2.1) hw3.2.2 (Or.inl rfl)
  exact ⟨Parse_verse_then_chapterVerse p B n ';' c1 v1 c2 v2 _ _ hsep (plainName_bookName hn)
      (Or.inr (Or.inr rfl)) hbook hname hc1.1 r1.2.2.1 hv1.1 r1.2.2.2 hc2.1 r2.2.2.1 hv2.1
      r2.2.2.2 r1.1 r2.1,
    Parse_cross_book_then_range p B1 B2 n1 n2 '&' a1 w1 a2 w2 a3 w3 w4 _ _ _ _ hsep
      (plainName_bookName hn1) (plainName_bookName hn2) (Or.inl rfl) hbook1 hbook2 hname2
      ha1.1 s1.2.2.1 hw1.1 s1.2.2.2 ha2.1 s2.2.2.1 hw2.1 s2.2.2.2 ha3.1 s3.2.2.1 hw3.1
      s3.2.2.2 (le_trans hw3.1 hw3.2.1) s4.2.2.2 s1.1 s2.1 hord s3.1 s4.1
      (regular_order hB2 ha3.1 ha3.2 hw3.1 (le_trans hw3.2.1 hw3.2.2) ha3.1 ha3.2
        (le_trans hw3.1 hw3.2.1) hw3.2.2 (Or.inl rfl) (Or.inl rfl) (Or.inl ⟨rfl, hw3.2.1⟩))⟩

/-- C17, witness: `Gen 1:1; 4:26` is Genesis 1:1 and Genesis 4:26, and
`Genesis 1:1 - Exodus 5:2 & 6:3-4` is Genesis 1:1 to Exodus 5:2 followed by
Exodus 6:3 to 6:4. -/
theorem C17_carried_book_witness :
    sampleParser.Parse "Gen 1:1; 4:26".toList =
        .ret (some [NewBiblePassage (mkRef (sampleBook 1) 1 1 []) (mkRef (sampleBook 1) 1 1 []),
          NewBiblePassage (mkRef (sampleBook 1) 4 26 []) (mkRef (sampleBook 1) 4 26 [])],
          none) ∧
      sampleParser.Parse "Genesis 1:1 - Exodus 5:2 & 6:3-4".toList =
        .ret (some [NewBiblePassage (mkRef (sampleBook 1) 1 1 []) (mkRef (sampleBook 2) 5 2 []),
          NewBiblePassage (mkRef (sampleBook 2) 6 3 []) (mkRef (sampleBook 2) 6 4 [])],
          none) :=
  C17_carried_book sampleParser (sampleBook 1) (sampleBook 1) (sampleBook 2) "Gen".toList
    "Genesis".toList "Exodus".toList 1 1 4 26 1 1 5 2 6 3 4 rfl
    (regular_sample 1 (by decide)) (regular_sample 1 (by decide)) (regular_sample 2 (by decide))
    (by decide) (by decide) (by decide) (by rfl) (by rfl) (by rfl) (by rfl) (by rfl)
    ⟨by decide, by decide⟩ (by decide) ⟨by decide, by decide⟩ (by decide)
    ⟨by decide, by decide⟩ (by decide) ⟨by decide, by decide⟩ (by decide)
    (by decide) ⟨by decide, by decide⟩ (by decide)

/-! ## C18: a bare number after a separator -/

/-- C18: for a regular book `B` of the table and a plain lookup name `n` of
`B`, `Parse "n c:v1, v2"`, with `v1` and `v2` verses of chapter `c`, returns the
two single verses `B c:v1` and `B c:v2` (a verse was carried, so the bare
number is a verse of the carried chapter), and `Parse "n c1, c2"`, with `c1`
and `c2` chapters of `B`, returns the two whole chapters, from `B c1:1` to the
last verse of `c1` and from `B c2:1` to the last verse of `c2` (no verse was
carried, so the bare number is a chapter). -/
theorem C18_bare_number_clause (p : BiblePassageParser) (B : Book) (n : Str)
    (c v1 v2 c1 c2 : Int)
    (hsep : p.separators = defaultSeparators) (hB : B.Regular) (hn : plainName n = true)
    (hbook : p.getBookFromAbbreviation n = .ok B)
    (hname : p.getBookFromAbbreviation B.Name = .ok B)
    (hc : 1 ≤ c ∧ c ≤ B.ChaptersInBook)
    (hv1 : 1 ≤ v1 ∧ v1 ≤ B.versesOrZero c) (hv2 : 1 ≤ v2 ∧ v2 ≤ B.versesOrZero c)
    (hc1 : 1 ≤ c1 ∧ c1 ≤ B.ChaptersInBook) (hc2 : 1 ≤ c2 ∧ c2 ≤ B.ChaptersInBook) :
    p.Parse (n ++ ' ' :: (fmtInt c ++ ':' :: (fmtInt v1 ++ ',' :: ' ' :: fmtInt v2))) =
        .ret (some [NewBiblePassage (mkRef B c v1 []) (mkRef B c v1 []),
          NewBiblePassage (mkRef B c v2 []) (mkRef B c v2 [])], none) ∧
      p.Parse (n ++ ' ' :: (fmtInt c1 ++ ',' :: ' ' :: fmtInt c2)) =
        .ret (some [NewBiblePassage (mkRef B c1 1 []) (mkRef B c1 (B.versesOrZero c1) []),
          NewBiblePassage (mkRef B c2 1 []) (mkRef B c2 (B.versesOrZero c2) [])], none) := by
  have r1 := regular_reference hB hc.1 hc.2 hv1.1 hv1.2 (Or.inl rfl)
  have r2 := regular_reference hB hc.1 hc.2 hv2.1 hv2.2 (Or.inl rfl)
  have l1 := regular_chapter hB hc1.1 hc1.2
  have l2 := regular_chapter hB hc2.1 hc2.2
  have f1 := regular_reference hB hc1.1 hc1.2 (le_refl 1) l1.2.1 (Or.inl rfl)
  have t1 := regular_reference hB hc1.1 hc1.2 l1.2.1 (le_refl _) (Or.inl rfl)
  have f2 := regular_reference hB hc2.1 hc2.2 (le_refl 1) l2.2.1 (Or.inl rfl)
  have t2 := regular_reference hB hc2.1 hc2.2 l2.2.1 (le_refl _) (Or.inl rfl)
  exact ⟨Parse_verse_then_verse p B n ',' c v1 v2 _ _ hsep (plainName_bookName hn)
      (Or.inr (Or.inl rfl)) hbook hname hc.1 r1.2.2.1 hv1.1 r1.2.2.2 hv2.1 r2.2.2.2 r1.1 r2.1,
    Parse_chapter_then_chapter p B n ',' c1 c2 _ _ _ _ hsep (plainName_bookName hn)
      (Or.inr (Or.inl rfl)) hbook hname hc1.1 f1.2.2.1 hc2.1 f2.2.2.1 f1.1 t1.1
      (regular_order hB hc1.1 hc1.2 (le_refl 1) l1.2.1 hc1.1 hc1.2 l1.2.1 (le_refl _)
        (Or.inl rfl) (Or.inl rfl) (Or.inr ⟨le_refl _, rfl⟩))
      f2.1 t2.1
      (regular_order hB hc2.1 hc2.2 (le_refl 1) l2.2.1 hc2.1 hc2.2 l2.2.1 (le_refl _)
        (Or.inl rfl) (Or.inl rfl) (Or.inr ⟨le_refl _, rfl⟩))⟩

/-- C18, witness: `John 3:16, 18` is John 3:16 and John 3:18, and `John 3, 4`
is John 3:1 to 3:36 and John 4:1 to 4:54. -/
theorem C18_bare_number_clause_witness :
    sampleParser.Parse "John 3:16, 18".toList =
        .ret (some [NewBiblePassage (mkRef (sampleBook 43) 3 16 [])
          (mkRef (sampleBook 43) 3 16 []),
          NewBiblePassage (mkRef (sampleBook 43) 3 18 []) (mkRef (sampleBook 43) 3 18 [])],
          none) ∧
      sampleParser.Parse "John 3, 4".toList =
        .ret (some [NewBiblePassage (mkRef (sampleBook 43) 3 1 []) (mkRef (sampleBook 43) 3 36 []),
          NewBiblePassage (mkRef (sampleBook 43) 4 1 []) (mkRef (sampleBook 43) 4 54 [])],
          none) :=
  C18_bare_number_clause sampleParser (sampleBook 43) "John".toList 3 16 18 3 4 rfl
    (regular_sample 43 (by decide)) (by decide) (by rfl) (by rfl) (by decide) (by decide)
    (by decide) (by decide) (by decide)

/-! ## C19: the keyword `end` -/

/-- C19: for a regular book `B` of the table (chapters `1..N`), a plain
lookup name `n` of `B`, a chapter `c` of `B` and a verse `v` of that chapter,
`Parse "n c:v-end"` returns exactly one passage, from `B c:v` to the last verse
of chapter `c`, and `Parse "n c-end"` returns exactly one passage, from `B c:1`
to the last verse of the last chapter `N`. -/
theorem C19_end_keyword (p : BiblePassageParser) (B : Book) (n : Str) (c v : Int)
    (hsep : p.separators = defaultSeparators) (hB : B.Regular) (hn : plainName n = true)
    (hbook : p.getBookFromAbbreviation n = .ok B)
    (hname : p.getBookFromAbbreviation B.Name = .ok B)
    (hc1 : 1 ≤ c) (hc2 : c ≤ B.ChaptersInBook) (hv1 : 1 ≤ v) (hv2 : v ≤ B.versesOrZero c) :
    p.Parse (n ++ ' ' :: (fmtInt c ++ ':' :: (fmtInt v ++ '-' :: "end".toList))) =
        .ret (some [NewBiblePassage (mkRef B c v []) (mkRef B c (B.versesOrZero c) [])], none) ∧
      p.Parse (n ++ ' ' :: (fmtInt c ++ '-' :: "end".toList)) =
        .ret (some [NewBiblePassage (mkRef B c 1 [])
          (mkRef B B.ChaptersInBook (B.versesOrZero B.ChaptersInBook) [])], none) := by
  have hN := hB.2.1
  have hl := regular_chapter hB hc1 hc2
  have hlN := regular_chapter hB hN (le_refl _)
  have hf := regular_reference hB hc1 hc2 hv1 hv2 (Or.inl rfl)
  have ht := regular_reference hB hc1 hc2 hl.2.1 (le_refl _) (Or.inl rfl)
  have hf1 := regular_reference hB hc1 hc2 (le_refl 1) hl.2.1 (Or.inl rfl)
  have htN := regular_reference hB hN (le_refl _) hlN.2.1 (le_refl _) (Or.inl rfl)
  exact ⟨Parse_verse_to_end p B n c v _ _ hsep (plainName_bookName hn) hbook hname hc1
      hf.2.2.1 hv1 hf.2.2.2 hf.1 ht.1
      (regular_order hB hc1 hc2 hv1 hv2 hc1 hc2 hl.2.1 (le_refl _) (Or.inl rfl) (Or.inl rfl)
        (Or.inl ⟨rfl, hv2⟩)),
    Parse_chapter_to_end p B n c _ _ hsep (plainName_bookName hn) hbook hname hc1 hf.2.2.1
      hf1.1 htN.1
      (regular_order hB hc1 hc2 (le_refl 1) hl.2.1 hN (le_refl _) hlN.2.1 (le_refl _)
        (Or.inl rfl) (Or.inl rfl) (Or.inr ⟨hc2, rfl⟩))⟩

/-- C19, witness: `John 3:16-end` ends at John 3:36, `John 3-end` at John 21:25. -/
theorem C19_end_keyword_witness :
    sampleParser.Parse "John 3:16-end".toList =
        .ret (some [NewBiblePassage (mkRef (sampleBook 43) 3 16 [])
          (mkRef (sampleBook 43) 3 36 [])], none) ∧
      sampleParser.Parse "John 3-end".toList =
        .ret (some [NewBiblePassage (mkRef (sampleBook 43) 3 1 [])
          (mkRef (sampleBook 43) 21 25 [])], none) :=
  C19_end_keyword sampleParser (sampleBook 43) "John".toList 3 16 rfl
    (regular_sample 43 (by decide)) (by decide) (by rfl) (by rfl) (by decide) (by decide)
    (by decide) (by decide)

/-! ## C20: a marked verse in a book of one chapter -/

/-- C20: for a regular book `B` of the table with exactly one chapter, a plain
lookup name `n` of `B`, a verse `k` with `1 ≤ k ≤` the verses of chapter 1 and
a run of digits `ds` that reads as `k` (leading zeros allowed), `Parse "n v ds"`
and `Parse "n verse ds"` both return exactly one passage, from `B 1:k` to
`B 1:k`: the chapter may be left out when the verse is marked. -/
theorem C20_single_chapter_verse (p : BiblePassageParser) (B : Book) (n : Str) (k : Int)
    (ds : Str) (hsep : p.separators = defaultSeparators) (hB : B.Regular)
    (hn : plainName n = true) (hbook : p.getBookFromAbbreviation n = .ok B)
    (hname : p.getBookFromAbbreviation B.Name = .ok B) (hone : B.ChaptersInBook = 1)
    (hk1 : 1 ≤ k) (hk2 : k ≤ B.versesOrZero 1) (hds : IsNumeral ds k.toNat) :
    p.Parse (n ++ " v ".toList ++ ds) =
        .ret (some [NewBiblePassage (mkRef B 1 k []) (mkRef B 1 k [])], none) ∧
      p.Parse (n ++ " verse ".toList ++ ds) =
        .ret (some [NewBiblePassage (mkRef B 1 k []) (mkRef B 1 k [])], none) := by
  have hf := regular_reference hB (le_refl 1) (le_of_eq hone.symm) hk1 hk2 (Or.inl rfl)
  exact Parse_marked_verse p B n k ds _ hsep hn hbook hname hone hk1 hk2 hf.2.2.2 hds hf.1

/-- C20, witness: `Obadiah v 01` and `Obadiah verse 01` are Obadiah 1:1. -/
theorem C20_single_chapter_verse_witness :
    sampleParser.Parse "Obadiah v 01".toList =
        .ret (some [NewBiblePassage (mkRef (sampleBook 31) 1 1 [])
          (mkRef (sampleBook 31) 1 1 [])], none) ∧
      sampleParser.Parse "Obadiah verse 01".toList =
        .ret (some [NewBiblePassage (mkRef (sampleBook 31) 1 1 [])
          (mkRef (sampleBook 31) 1 1 [])], none) :=
  C20_single_chapter_verse sampleParser (sampleBook 31) "Obadiah".toList 1 "01".toList rfl
    (regular_sample 31 (by decide)) (by decide) (by rfl) (by rfl) (by decide) (by decide)
    (by decide) ⟨by decide, by decide, by rfl⟩

/-! ## C21: a range of chapters -/

/-- C21: for a regular book `B` of the table, a plain lookup name `n` of `B`
and chapters `1 ≤ c1 ≤ c2 ≤ ChaptersInBook`, `Parse "n c1-c2"` returns exactly
one passage, from `B c1:1` to the last verse of chapter `c2`, and for a verse
`v2` of chapter `c2`, `Parse "n c1-c2:v2"` returns exactly one passage, from
`B c1:1` to `B c2:v2`. -/
theorem C21_chapter_range (p : BiblePassageParser) (B : Book) (n : Str) (c1 c2 v2 : Int)
    (hsep : p.separators = defaultSeparators) (hB : B.Regular) (hn : plainName n = true)
    (hbook : p.getBookFromAbbreviation n = .ok B)
    (hname : p.getBookFromAbbreviation B.Name = .ok B)
    (hc1 : 1 ≤ c1) (hc12 : c1 ≤ c2) (hc2 : c2 ≤ B.ChaptersInBook)
    (hv1 : 1 ≤ v2) (hv2 : v2 ≤ B.versesOrZero c2) :
    p.Parse (n ++ ' ' :: (fmtInt c1 ++ '-' :: fmtInt c2)) =
        .ret (some [NewBiblePassage (mkRef B c1 1 [])
          (mkRef B c2 (B.versesOrZero c2) [])], none) ∧
      p.Parse (n ++ ' ' :: (fmtInt c1 ++ '-' :: (fmtInt c2 ++ ':' :: fmtInt v2))) =
        .ret (some [NewBiblePassage (mkRef B c1 1 []) (mkRef B c2 v2 [])], none) := by
  have h2 : 1 ≤ c2 := le_trans hc1 hc12
  have h1 : c1 ≤ B.ChaptersInBook := le_trans hc12 hc2
  have l1 := regular_chapter hB hc1 h1
  have l2 := regular_chapter hB h2 hc2
  have f := regular_reference hB hc1 h1 (le_refl 1) l1.2.1 (Or.inl rfl)
  have t := regular_reference hB h2 hc2 l2.2.1 (le_refl _) (Or.inl rfl)
  have t2 := regular_reference hB h2 hc2 hv1 hv2 (Or.inl rfl)
  exact ⟨Parse_chapter_range p B n c1 c2 _ _ hsep (plainName_bookName hn) hbook hname hc1
      f.2.2.1 h2 t.2.2.1 f.1 t.1
      (regular_order hB hc1 h1 (le_refl 1) l1.2.1 h2 hc2 l2.2.1 (le_refl _) (Or.inl rfl)
        (Or.inl rfl) (Or.inr ⟨hc12, rfl⟩)),
    Parse_chapter_to_verse p B n c1 c2 v2 _ _ hsep (plainName_bookName hn) hbook hname hc1
      f.2.2.1 h2 t.2.2.1 hv1 t2.2.2.2 f.1 t2.1
      (regular_order hB hc1 h1 (le_refl 1) l1.2.1 h2 hc2 hv1 hv2 (Or.inl rfl) (Or.inl rfl)
        (Or.inr ⟨hc12, rfl⟩))⟩

/-- C21, witness: `Gen 1-4` is Genesis 1:1 to 4:26, the last verse of chapter
4, and `Gen 1-4:26` is Genesis 1:1 to 4:26. -/
theorem C21_chapter_range_witness :
    sampleParser.Parse "Gen 1-4".toList =
        .ret (some [NewBiblePassage (mkRef (sampleBook 1) 1 1 [])
          (mkRef (sampleBook 1) 4 26 [])], none) ∧
      sampleParser.Parse "Gen 1-4:26".toList =
        .ret (some [NewBiblePassage (mkRef (sampleBook 1) 1 1 [])
          (mkRef (sampleBook 1) 4 26 [])], none) :=
  C21_chapter_range sampleParser (sampleBook 1) "Gen".toList 1 4 26 rfl
    (regular_sample 1 (by decide)) (by decide) (by rfl) (by rfl) (by decide) (by decide)
    (by decide) (by decide) (by decide)

/-! ## C22: en dash and em dash -/

/-- C22: for every parser and every text `s`, `Parse` of `s` with every en
dash (U+2013) and em dash (U+2014) replaced by the ASCII hyphen returns what
`Parse s` returns: the same passages, the same error, or the same panic. -/
theorem C22_dash_equivalence (p : BiblePassageParser) (s : Str) :
    p.Parse (asciiDashes s) = p.Parse s :=
  Parse_asciiDashes p s

/-! ## C23: `String` across two books -/

/-- C23: for a passage whose two references lie in different books, `String`
is the cross-book shape (`Name c:vF - Name c:vF`) when the two chapter numbers
differ; when they are equal the branch for a range within one chapter, which
does not compare the books, answers first, and the text is the first book's
singular name with `c:v1F-v2F`, without the second book.  So the claim holds
for differing chapter numbers and fails for equal ones. -/
theorem C23_cross_book_string (P : BiblePassage) (h : P.From.Book ≠ P.To.Book) :
    P.String =
      if P.From.Chapter = P.To.Chapter then
        P.From.Book.SingularName ++ " ".toList ++ fmtInt P.From.Chapter ++ ":".toList ++
          fmtInt P.From.Verse ++ P.From.Fragment ++ "-".toList ++ fmtInt P.To.Verse ++
          P.To.Fragment
      else crossBookShape P.From P.To :=
  String_cross_book P h

/-- C23, witness: Genesis 1:1 to Exodus 1:5 is rendered `Genesis 1:1-5`, not
`Genesis 1:1 - Exodus 1:5`; Genesis 1:1 to Exodus 5:2 is rendered
`Genesis 1:1 - Exodus 5:2`. -/
theorem C23_cross_book_string_witness :
    (NewBiblePassage (mkRef (sampleBook 1) 1 1 []) (mkRef (sampleBook 2) 1 5 [])).String =
        "Genesis 1:1-5".toList ∧
      crossBookShape (mkRef (sampleBook 1) 1 1 []) (mkRef (sampleBook 2) 1 5 []) =
        "Genesis 1:1 - Exodus 1:5".toList ∧
      (NewBiblePassage (mkRef (sampleBook 1) 1 1 []) (mkRef (sampleBook 2) 5 2 [])).String =
        "Genesis 1:1 - Exodus 5:2".toList :=
  ⟨(C23_cross_book_string
      (NewBiblePassage (mkRef (sampleBook 1) 1 1 []) (mkRef (sampleBook 2) 1 5 []))
      (by decide)).trans (by decide), by decide,
    (C23_cross_book_string
      (NewBiblePassage (mkRef (sampleBook 1) 1 1 []) (mkRef (sampleBook 2) 5 2 []))
      (by decide)).trans (by decide)⟩

/-! ## C24: `String` within one book -/

/-- C24: for a passage whose two references lie in the same book, `String` is
`sameBookShape`, the first matching case of the list: the whole book, one whole
chapter (or a start verse 0), one verse, a range within one chapter, a range of
whole chapters, and a range across chapters. -/
theorem C24_same_book_string (P : BiblePassage) (h : P.To.Book = P.From.Book) :
    P.String = sameBookShape P.From P.To :=
  String_same_book P h

/-- C24, witness: in John, 1:1 to 21:25 is `John`, 3:1 to 3:36 is `John 3`,
3:16 to 3:16 is `John 3:16`, 3:16b to 3:17a is `John 3:16b-17a`, 3:1 to 4:54 is
`John 3-4`, and 3:16 to 4:2 is `John 3:16-4:2`. -/
theorem C24_same_book_string_witness :
    (NewBiblePassage (mkRef (sampleBook 43) 1 1 []) (mkRef (sampleBook 43) 21 25 [])).String =
        "John".toList ∧
      (NewBiblePassage (mkRef (sampleBook 43) 3 1 []) (mkRef (sampleBook 43) 3 36 [])).String =
        "John 3".toList ∧
      (NewBiblePassage (mkRef (sampleBook 43) 3 16 []) (mkRef (sampleBook 43) 3 16 [])).String =
        "John 3:16".toList ∧
      (NewBiblePassage (mkRef (sampleBook 43) 3 16 ['b'])
        (mkRef (sampleBook 43) 3 17 ['a'])).String = "John 3:16b-17a".toList ∧
      (NewBiblePassage (mkRef (sampleBook 43) 3 1 []) (mkRef (sampleBook 43) 4 54 [])).String =
        "John 3-4".toList ∧
      (NewBiblePassage (mkRef (sampleBook 43) 3 16 []) (mkRef (sampleBook 43) 4 2 [])).String =
        "John 3:16-4:2".toList :=
  ⟨(C24_same_book_string _ rfl).trans (by decide), (C24_same_book_string _ rfl).trans (by decide),
    (C24_same_book_string _ rfl).trans (by decide), (C24_same_book_string _ rfl).trans (by decide),
    (C24_same_book_string _ rfl).trans (by decide), (C24_same_book_string _ rfl).trans (by decide)⟩

/-! ## C25: the lookup of a book name -/

/-- C25, counterexample, on the sample table.  The Kelvin sign U+212A lies
outside `[A-Za-z0-9 ]`, and lower-casing, which comes before the deletion,
turns it into the letter `k`: `John` with the sign inserted is standardised to
`jokhn` and is no name of a book, while `John` is book 43. -/
theorem C25_counterexample :
    Respelling isOutside "John".toList ['J', 'o', Char.ofNat 0x212A, 'h', 'n'] ∧
      NoOuterBlank "John".toList ∧
      StandardiseString ['J', 'o', Char.ofNat 0x212A, 'h', 'n'] = "jokhn".toList ∧
      sampleParser.getBookNumber "John".toList = .ok 43 ∧
      sampleParser.getBookNumber ['J', 'o', Char.ofNat 0x212A, 'h', 'n'] =
        .error .invalidBookName :=
  ⟨.keep 'J' (.keep 'o' (.insert _ (by decide) (.keep 'h' (.keep 'n' .nil)))),
    ⟨by decide, by decide⟩, by decide, rfl, rfl⟩

/-- C25, amended: for a text `a` without a blank among the white space at
its ends, and a text `s` got from `a` by changing the case of ASCII letters and
by inserting, anywhere, characters outside `[A-Za-z0-9 ]` other than U+0130
and U+212A, `getBookNumber s` returns what `getBookNumber a` returns; and for
every text `StandardiseString` holds only characters of `[a-z0-9 ]`. -/
theorem C25_lookup_respelling (p : BiblePassageParser) (a s : Str) (ha : NoOuterBlank a)
    (h : Respelling isDropped a s) :
    p.getBookNumber s = p.getBookNumber a ∧
      ∀ t : Str, ∀ c ∈ StandardiseString t, isStdChar c = true :=
  ⟨getBookNumber_respelling p h ha, StandardiseString_chars⟩

/-- C25, witness: `g.E-n!` is looked up like `Gen`, as book 1. -/
theorem C25_lookup_respelling_witness :
    sampleParser.getBookNumber "g.E-n!".toList = sampleParser.getBookNumber "Gen".toList ∧
      sampleParser.getBookNumber "Gen".toList = .ok 1 :=
  ⟨(C25_lookup_respelling sampleParser "Gen".toList "g.E-n!".toList ⟨by decide, by decide⟩
      (.recase 'G' 'g' (by decide) (by decide) (by decide)
        (.insert '.' (by decide)
          (.recase 'e' 'E' (by decide) (by decide) (by decide)
            (.insert '-' (by decide) (.keep 'n' (.insert '!' (by decide) .nil))))))).1, rfl⟩

/-! ## C26: exchanging separators -/

/-- C26, counterexample.  After a semicolon a digit followed by a letter is
set apart by the last pattern of the normaliser, after a comma or an ampersand
it is not: over the table with 1 Chronicles, `John 3; 1Chronicles 2` is John 3
and 1 Chronicles 2, and `John 3, 1Chronicles 2` and `John 3 & 1Chronicles 2`
are refused; over the sample table `John 3:16, 7a` is John 3:16 and John 3:7a,
and `John 3:16; 7a` is refused.  The word `and` is made of letters, which the
patterns keep apart from what is no letter: `John 3 to,4` is John 3:1 to 4:54,
and `John 3 toand4` is refused. -/
theorem C26_counterexample :
    numberedParser.Parse "John 3; 1Chronicles 2".toList =
        .ret (some [NewBiblePassage (mkRef (numberedBook 43) 3 1 [])
            (mkRef (numberedBook 43) 3 36 []),
          NewBiblePassage (mkRef (numberedBook 13) 2 1 [])
            (mkRef (numberedBook 13) 2 55 [])], none) ∧
      numberedParser.Parse "John 3, 1Chronicles 2".toList = .ret (none, some .unableToParse) ∧
      numberedParser.Parse "John 3 & 1Chronicles 2".toList =
        .ret (none, some .unableToParse) ∧
      sampleParser.Parse "John 3:16, 7a".toList =
        .ret (some [NewBiblePassage (mkRef (sampleBook 43) 3 16 [])
            (mkRef (sampleBook 43) 3 16 []),
          NewBiblePassage (mkRef (sampleBook 43) 3 7 ['a'])
            (mkRef (sampleBook 43) 3 7 ['a'])], none) ∧
      sampleParser.Parse "John 3:16; 7a".toList = .ret (none, some .invalidBookName) ∧
      sampleParser.Parse "John 3 to,4".toList =
        .ret (some [NewBiblePassage (mkRef (sampleBook 43) 3 1 [])
          (mkRef (sampleBook 43) 4 54 [])], none) ∧
      sampleParser.Parse "John 3 toand4".toList = .ret (none, some .unableToParse) :=
  ⟨rfl, rfl, rfl, rfl, rfl, rfl, rfl⟩

/-- C26, amended: with the default separators, a comma and an ampersand are
interchangeable: for every text, `Parse` of the text with a comma at some
place returns what `Parse` of the text with an ampersand at that place
returns. -/
theorem C26_comma_ampersand (p : BiblePassageParser)
    (hsep : p.separators = defaultSeparators) (a b : Str) :
    p.Parse (a ++ ',' :: b) = p.Parse (a ++ '&' :: b) :=
  Parse_comma_amp p hsep a b

/-- C26, witness: `John 3:16, 7a` and `John 3:16& 7a`. -/
theorem C26_comma_ampersand_witness :
    sampleParser.Parse "John 3:16, 7a".toList = sampleParser.Parse "John 3:16& 7a".toList :=
  C26_comma_ampersand sampleParser rfl "John 3:16".toList " 7a".toList

/-! ## C27: `parseReference` on an empty text -/

/-- C27, counterexample.  `parseReference` returns the three empty fields
and no error for the empty text and for two blanks, and on the sample table
`John 3-`, whose end half is empty, is resolved from that match: it is John
3:1 to 3:36. -/
theorem C27_counterexample :
    parseReference [] = .ok { book := [], chapter_or_verse := [], verse := [] } ∧
      parseReference "  ".toList = .ok { book := [], chapter_or_verse := [], verse := [] } ∧
      sampleParser.Parse "John 3-".toList =
        .ret (some [NewBiblePassage (mkRef (sampleBook 43) 3 1 [])
          (mkRef (sampleBook 43) 3 36 [])], none) :=
  ⟨rfl, rfl, rfl⟩

/-- C27, amended: the clause grammar matches every text of white space, the
empty text included, with all its groups empty, so `parseReference` returns
the three empty fields and no error for it. -/
theorem C27_blank_reference (s : Str) (h : ∀ c ∈ s, isSpace c = true) :
    parseReference s = .ok { book := [], chapter_or_verse := [], verse := [] } :=
  parseReference_blank_text s h

/-- C27, witness: a blank, a tab and a no-break space; a text the grammar
does not match, `3 4 5`, is refused. -/
theorem C27_blank_reference_witness :
    parseReference [' ', '\t', Char.ofNat 0xA0] =
        .ok { book := [], chapter_or_verse := [], verse := [] } ∧
      parseReference "3 4 5".toList = .error .unableToParse :=
  ⟨C27_blank_reference [' ', '\t', Char.ofNat 0xA0] (by decide), rfl⟩

/-! ## C28: the start of a passage is a verse of its book -/

/-- C28: when `Parse` returns passages, the start of each of them is a
validated verse: its chapter is a chapter of its book, its chapter and its
verse are at least 1, the verse is at most the number of verses of the
chapter, and its fragment is empty or one of `a`, `b`, `c`. -/
theorem C28_from_reference_valid (p : BiblePassageParser) (text : Str)
    (ps : List BiblePassage) (h : p.Parse text = .ret (some ps, none)) :
    ∀ x ∈ ps, ∃ vmax, x.From.Book.ChapterStructure.lookup x.From.Chapter = some vmax ∧
      1 ≤ x.From.Chapter ∧ 1 ≤ x.From.Verse ∧ x.From.Verse ≤ vmax ∧
      IsFrag x.From.Fragment :=
  Parse_from_valid p text ps h

/-- C28, witness: `John` yields John 1:1 to 21:25, whose start has chapter 1
and verse 1 although the text names neither. -/
theorem C28_from_reference_valid_witness :
    sampleParser.Parse "John".toList =
        .ret (some [NewBiblePassage (mkRef (sampleBook 43) 1 1 [])
          (mkRef (sampleBook 43) 21 25 [])], none) ∧
      ∀ x ∈ [NewBiblePassage (mkRef (sampleBook 43) 1 1 []) (mkRef (sampleBook 43) 21 25 [])],
        ∃ vmax, x.From.Book.ChapterStructure.lookup x.From.Chapter = some vmax ∧
          1 ≤ x.From.Chapter ∧ 1 ≤ x.From.Verse ∧ x.From.Verse ≤ vmax ∧
          IsFrag x.From.Fragment :=
  ⟨rfl, C28_from_reference_valid sampleParser "John".toList _ rfl⟩

end BibleParser
